import Mathlib

/-!
# Export-data serializer and runtime type-descriptor generator

A shallow embedding of parts of `cmd/compile/internal/gc` (`iexport.go`,
`reflect.go`, `sinit.go`), of `internal/bisect` (`bisect.go`) and of
`crypto/internal/nistec/fiat` (`p224_invert.go`), together with theorems about
them.

Conventions of the embedding:

* a byte is a natural number below 256, a byte string is a `List Nat`;
* a `uint64` is a natural number below `2 ^ 64`, an `int64` an integer in
  `[-2 ^ 63, 2 ^ 63)`; conversions and wrap-around are written out with `%`;
* a call of `base.Fatalf` (or a run-time panic) is the `none`/`error` result.
-/

namespace gc

/-! ## Varint primitives (`encoding/binary`) -/

/-- The constant `binary.MaxVarintLen64`. -/
def MaxVarintLen64 : Nat := 10

/-- Modelled from the spec: `binary.PutUvarint` of `encoding/binary`, which is
not among the sources. The base-128 uvarint encoding: while `x >= 0x80` the
byte `byte(x) | 0x80` is stored and `x >>= 7`; the last byte is `byte(x)`.
The result is the slice `buf[:n]` of the bytes stored. -/
def PutUvarint (x : Nat) : List Nat :=
  if h : x < 0x80 then [x % 256]
  else ((x % 256) ||| 0x80) :: PutUvarint (x >>> 7)
termination_by x
decreasing_by
  rw [Nat.shiftRight_eq_div_pow]
  exact Nat.div_lt_self (by omega) (by norm_num)

/-- The conversion `uint64(x)` of an `int64`. -/
def toUint64 (x : Int) : Nat := (x % 2 ^ 64).toNat

/-- The conversion `int64(u)` of a `uint64`. -/
def toInt64 (u : Nat) : Int :=
  if u % 2 ^ 64 < 2 ^ 63 then ((u % 2 ^ 64 : Nat) : Int) else ((u % 2 ^ 64 : Nat) : Int) - 2 ^ 64

/-- Modelled from the spec: `binary.PutVarint` of `encoding/binary`, which is
not among the sources. Zig-zag: `ux := uint64(x) << 1`, complemented when
`x < 0`, then written as a uvarint. -/
def PutVarint (x : Int) : List Nat :=
  let ux := (toUint64 x <<< 1) % 2 ^ 64
  PutUvarint (if x < 0 then 2 ^ 64 - 1 - ux else ux)

/-- Loop of `binary.Uvarint`: `i` is the index of the next byte, `x` the value
accumulated so far and `s` the current shift. -/
def UvarintLoop : List Nat → Nat → Nat → Nat → Nat × Int
  | [], _, _, _ => (0, 0)
  | b :: rest, i, x, s =>
    if i = MaxVarintLen64 then (0, -((i : Int) + 1))
    else if b < 0x80 then
      if i = MaxVarintLen64 - 1 ∧ b > 1 then (0, -((i : Int) + 1))
      else ((x ||| ((b <<< s) % 2 ^ 64)), (i : Int) + 1)
    else UvarintLoop rest (i + 1) (x ||| (((b &&& 0x7f) <<< s) % 2 ^ 64)) (s + 7)

/-- Modelled from the spec: `binary.Uvarint` of `encoding/binary`, which is not
among the sources. Decodes a uvarint from the front of `buf` and returns the
value and the number of bytes read (`0` when the buffer is too small, a negative
number on overflow). -/
def Uvarint (buf : List Nat) : Nat × Int := UvarintLoop buf 0 0 0

/-- Modelled from the spec: `binary.Varint` of `encoding/binary`, which is not
among the sources. Decodes a zig-zag varint from the front of `buf`. -/
def Varint (buf : List Nat) : Int × Int :=
  let r := Uvarint buf
  let x := toInt64 (r.1 >>> 1)
  (if r.1 &&& 1 ≠ 0 then -x - 1 else x, r.2)

/-- The type `intWriter`: a `bytes.Buffer`, that is the bytes written so far. -/
structure intWriter where
  buf : List Nat
  deriving DecidableEq, Repr

/-- The method `bytes.Buffer.Len`. -/
def intWriter.Len (w : intWriter) : Nat := w.buf.length

/-- The method `bytes.Buffer.Write`. -/
def intWriter.Write (w : intWriter) (p : List Nat) : intWriter := ⟨w.buf ++ p⟩

/-- The method `intWriter.uint64`: `n := binary.PutUvarint(buf[:], x)` followed by
`w.Write(buf[:n])`. -/
def intWriter.uint64 (w : intWriter) (x : Nat) : intWriter :=
  w.Write (PutUvarint x)

/-- The method `intWriter.int64`: `n := binary.PutVarint(buf[:], x)` followed by
`w.Write(buf[:n])`. -/
def intWriter.int64 (w : intWriter) (x : Int) : intWriter :=
  w.Write (PutVarint x)

/-! ## The string table (`iexporter.stringOff`) -/

/-- The part of `iexporter` that `stringOff` reads and writes: the string
section `strings` and the map `stringIndex` (a `map[string]uint64`, kept as an
association list whose first binding of a key is the current one). A Go string
is its sequence of bytes. -/
structure iexporter where
  strings : intWriter
  stringIndex : List (List Nat × Nat)
  deriving DecidableEq, Repr

/-- The exporter as `iexport` creates it: `stringIndex: map[string]uint64{}` and
an empty `strings` buffer. -/
def iexporter.init : iexporter := ⟨⟨[]⟩, []⟩

/-- The method `iexporter.stringOff`: returns the offset of `s` within the string
section, adding it at the end if not already present. The result is the offset
and the exporter afterwards. (`p.strings.Len()` and `len(s)` are non-negative
`int`s, so their conversion to `uint64` is exact.) -/
def iexporter.stringOff (p : iexporter) (s : List Nat) : Nat × iexporter :=
  match p.stringIndex.lookup s with
  | some off => (off, p)
  | none =>
    let off := p.strings.Len
    (off, { stringIndex := (s, off) :: p.stringIndex,
            strings := (p.strings.uint64 s.length).Write s })

/-- A run of `stringOff` calls, the offsets dropped. -/
def iexporter.internAll (p : iexporter) (ss : List (List Nat)) : iexporter :=
  ss.foldl (fun q s => (q.stringOff s).2) p

/-- The exporter states reachable from the empty string table by `stringOff`
calls. -/
inductive iexporter.Reachable : iexporter → Prop
  | init : iexporter.Reachable iexporter.init
  | step (p : iexporter) (s : List Nat) :
      iexporter.Reachable p → iexporter.Reachable (p.stringOff s).2

/-- Invariant of the string table: every recorded offset lies inside the string
section and no offset is recorded for two strings. -/
def iexporter.Inv (p : iexporter) : Prop :=
  (∀ s o, p.stringIndex.lookup s = some o → o < p.strings.Len) ∧
  (∀ s s' o, p.stringIndex.lookup s = some o → p.stringIndex.lookup s' = some o → s = s')

/-! ## Multi-precision integers (`exportWriter.mpint`) -/

/-- The part of `exportWriter` used here: the exporter `p`, the object's `data`
buffer and the previous position. -/
structure exportWriter where
  p : iexporter
  data : intWriter
  prevFile : List Nat
  prevLine : Int
  prevColumn : Int
  deriving DecidableEq, Repr

/-- The method `iexporter.newWriter`: `&exportWriter{p: p}`, every other field
zero. -/
def iexporter.newWriter (p : iexporter) : exportWriter :=
  { p := p, data := ⟨[]⟩, prevFile := [], prevLine := 0, prevColumn := 0 }

/-- The kinds (`Etype`) that `intSize` distinguishes. -/
inductive EType
  | TINT | TUINT | TUINTPTR | TFLOAT32 | TFLOAT64 | TCOMPLEX64 | TCOMPLEX128 | other
  deriving DecidableEq, Repr

/-- What `intSize` reads of a `*types.Type`: `IsUntyped()`, `Etype`, `IsSigned()`
and `Size()`. -/
structure NumType where
  untyped : Bool
  etype : EType
  signed : Bool
  size : Nat
  deriving DecidableEq, Repr

/-- Modelled from the spec: the constant `Mpprec` (the precision in bits of
untyped constants), which is not among the sources; `Mpprec / 8` is the largest
byte count `intSize` returns, 64. -/
def Mpprec : Nat := 512

/-- The function `intSize`: signedness and maximum byte count of a type. -/
def intSize (typ : NumType) : Bool × Nat :=
  if typ.untyped then (true, Mpprec / 8)
  else match typ.etype with
    | EType.TFLOAT32 | EType.TCOMPLEX64 => (true, 3)
    | EType.TFLOAT64 | EType.TCOMPLEX128 => (true, 7)
    | EType.TINT | EType.TUINT | EType.TUINTPTR => (typ.signed, 8)
    | EType.other => (typ.signed, typ.size)

/-- Little-endian bytes of a natural number, without trailing zeros. -/
def leBytes (n : Nat) : List Nat :=
  if h : n = 0 then [] else (n % 256) :: leBytes (n / 256)
termination_by n
decreasing_by exact Nat.div_lt_self (by omega) (by norm_num)

/-- Modelled from the spec: `constant.Bytes` of `go/constant`, which is not among
the sources: the little-endian bytes of the absolute value of an integer
constant. -/
def constantBytes (x : Int) : List Nat := leBytes x.natAbs

/-- Subtraction of `uint` values (64 bits), with wrap-around. -/
def usub (a b : Nat) : Nat := (a + 2 ^ 64 - b % 2 ^ 64) % 2 ^ 64

/-- The local `maxSmall` of `mpint`: `256 - maxBytes`, for a signed type
`256 - 2*maxBytes`, and 256 when `maxBytes == 1` (all in `uint` arithmetic). -/
def mpintMaxSmall (signed : Bool) (maxBytes : Nat) : Nat :=
  let m0 := usub 256 maxBytes
  let m1 := if signed then usub 256 ((2 * maxBytes) % 2 ^ 64) else m0
  if maxBytes = 1 then 256 else m1

/-- The local `ux` of `mpint` for the big-endian magnitude `b` (of length at most
one): `uint(b[0])` or zero, for a signed type shifted left by one and
decremented when the value is negative. -/
def mpintUx (signed negative : Bool) (b : List Nat) : Nat :=
  let ux := if b.length = 1 then b.headD 0 else 0
  if signed then
    let ux1 := (ux <<< 1) % 2 ^ 64
    if negative then usub ux1 1 else ux1
  else ux

/-- The local `n` of `mpint`, the length prefix for a magnitude of `len` bytes:
`256 - len`, for a signed type `256 - 2*len` with the bottom bit set when the
value is negative. -/
def mpintN (signed negative : Bool) (len : Nat) : Nat :=
  if signed then
    let n := usub 256 ((2 * len) % 2 ^ 64)
    if negative then n ||| 1 else n
  else usub 256 len

/-- The bytes `exportWriter.mpint` writes for the integer constant `x` of a type
with the given `intSize`, or `none` where it calls `base.Fatalf`. A constant of
`go/constant` is an integer; `constant.Sign(x) < 0` is `x < 0`. -/
def mpintBytes (signed : Bool) (maxBytes : Nat) (x : Int) : Option (List Nat) :=
  let negative := decide (x < 0)
  if !signed && negative then none
  else
    let b := (constantBytes x).reverse
    if 0 < b.length ∧ b.head? = some 0 then none
    else if b.length > maxBytes then none
    else if b.length ≤ 1 ∧ mpintUx signed negative b < mpintMaxSmall signed maxBytes then
      some [mpintUx signed negative b % 256]
    else if mpintN signed negative b.length < mpintMaxSmall signed maxBytes
        ∨ mpintN signed negative b.length ≥ 256 then none
    else some ((mpintN signed negative b.length % 256) :: b)

/-- The method `exportWriter.mpint`: the bytes of `mpintBytes` go to `w.data`
(`WriteByte`, then `Write`). -/
def exportWriter.mpint (w : exportWriter) (x : Int) (typ : NumType) : Option exportWriter :=
  match mpintBytes (intSize typ).1 (intSize typ).2 x with
  | none => none
  | some bs => some { w with data := w.data.Write bs }

/-- The boundary `maxSmall` of `mpint` for a type of `maxBytes` bytes: 256 for
one byte, else `256 - maxBytes` (unsigned) or `256 - 2 * maxBytes` (signed). -/
def maxSmall (signed : Bool) (maxBytes : Nat) : Nat :=
  if maxBytes = 1 then 256 else if signed then 256 - 2 * maxBytes else 256 - maxBytes

/-- The length of an `mpint` encoding as its first byte announces it: one byte
for a small value (`first < maxSmall`); otherwise the first byte is followed by
`256 - first` magnitude bytes for an unsigned type, and for a signed type, whose
lowest bit is the sign, by `(256 - first + 1) / 2` magnitude bytes. -/
def mpintLen (signed : Bool) (maxBytes : Nat) (first : Nat) : Nat :=
  if first < maxSmall signed maxBytes then 1
  else if signed then 1 + (256 - first + 1) / 2
  else 1 + (256 - first)

/-- The zig-zag (signed) or plain (unsigned) small value of `mpint`. -/
def smallVal (signed : Bool) (x : Int) : Nat :=
  if signed then 2 * x.natAbs - (if x < 0 then 1 else 0) else x.natAbs

/-- The length-prefix byte of `mpint` for a magnitude of `L` bytes. -/
def lenByte (signed : Bool) (x : Int) (L : Nat) : Nat :=
  if signed then 256 - 2 * L + (if x < 0 then 1 else 0) else 256 - L

/-- The value of a little-endian byte string. -/
def ofLE : List Nat → Nat
  | [] => 0
  | b :: bs => b + 256 * ofLE bs

/-! ## Positions (`exportWriter.pos`) -/

/-- The method `exportWriter.int64`. -/
def exportWriter.int64 (w : exportWriter) (x : Int) : exportWriter :=
  { w with data := w.data.int64 x }

/-- The method `exportWriter.uint64`. -/
def exportWriter.uint64 (w : exportWriter) (x : Nat) : exportWriter :=
  { w with data := w.data.uint64 x }

/-- The method `exportWriter.string`: `w.uint64(w.p.stringOff(s))`. -/
def exportWriter.string (w : exportWriter) (s : List Nat) : exportWriter :=
  exportWriter.uint64 { w with p := (w.p.stringOff s).2 } (w.p.stringOff s).1

/-- The `int64` operation `x << 1`. -/
def shl1 (x : Int) : Int := toInt64 ((toUint64 x <<< 1) % 2 ^ 64)

/-- The `int64` operation `x | 1`, on the two's-complement representation. -/
def or1 (x : Int) : Int := toInt64 (toUint64 x ||| 1)

/-- The `int64` test `x&1 != 0`, on the two's-complement representation. -/
def lowBit (x : Int) : Bool := decide (toUint64 x &&& 1 ≠ 0)

/-- The method `exportWriter.pos`, applied to the position's `file`
(`p.Base().AbsFilename()`), `line` (`int64(p.RelLine())`) and `column`
(`int64(p.RelCol())`). The `int64` subtraction wraps. -/
def exportWriter.pos (w : exportWriter) (file : List Nat) (line column : Int) : exportWriter :=
  let deltaColumn := shl1 (toInt64 (toUint64 (column - w.prevColumn)))
  let deltaLine := shl1 (toInt64 (toUint64 (line - w.prevLine)))
  let deltaLine := if file ≠ w.prevFile then or1 deltaLine else deltaLine
  let deltaColumn := if deltaLine ≠ 0 then or1 deltaColumn else deltaColumn
  let w1 := w.int64 deltaColumn
  let w2 := if lowBit deltaColumn then
      let w3 := w1.int64 deltaLine
      if lowBit deltaLine then w3.string file else w3
    else w1
  { w2 with prevFile := file, prevLine := line, prevColumn := column }

/-- Modelled from the spec: the reader of a position, the counterpart of
`exportWriter.pos` in the importer, which is not among the sources. It reads a
signed varint column delta `d`, a signed varint line delta `l` only if `d` is
odd, and the file (a string offset) only if `l` is odd, and returns
`column = prevColumn + (d >> 1)`, `line = prevLine + (l >> 1)` (or `prevLine`
when `l` is absent), the offset of the file string if one was written, and the
number of bytes read. -/
def decodePos (prevLine prevColumn : Int) (buf : List Nat) : Int × Int × Option Nat × Int :=
  let d := Varint buf
  let buf1 := buf.drop d.2.toNat
  let column := prevColumn + d.1 >>> (1 : Nat)
  if lowBit d.1 then
    let l := Varint buf1
    let buf2 := buf1.drop l.2.toNat
    let line := prevLine + l.1 >>> (1 : Nat)
    if lowBit l.1 then
      let f := Uvarint buf2
      (column, line, some f.1, d.2 + l.2 + f.2)
    else (column, line, none, d.2 + l.2)
  else (column, prevLine, none, d.2)

/-! ## Types and their layout (`cmd/compile/internal/types`) -/

/-- The kinds of types (`types.Kind`) that the layout code distinguishes. -/
inductive Kind
  | TINT8 | TUINT8 | TINT16 | TUINT16 | TINT32 | TUINT32 | TINT64 | TUINT64
  | TINT | TUINT | TUINTPTR | TCOMPLEX64 | TCOMPLEX128 | TFLOAT32 | TFLOAT64 | TBOOL
  | TPTR | TFUNC | TSLICE | TCHAN | TMAP | TINTER | TSTRING | TUNSAFEPTR
  deriving DecidableEq, Repr

mutual
/-- A sized `*types.Type`: what the layout code reads of a type after
`types.CalcSize`. A `leaf` is a type that is neither an array nor a struct
(`elemNotInHeap` is `t.Elem().NotInHeap()` of a pointer or slice); `Width`,
`Align`, `NumElem` and the field offsets are non-negative and kept as natural
numbers. -/
inductive Typ where
  | leaf (kind : Kind) (Width Align : Nat) (elemNotInHeap : Bool)
  | array (Elem : Typ) (NumElem : Nat) (Width Align : Nat)
  | struct (Fields : FieldList) (Width Align : Nat)
/-- The fields of a struct type, each with its name, `Offset` and type. -/
inductive FieldList where
  | nil
  | cons (name : String) (Offset : Nat) (type : Typ) (rest : FieldList)
end

/-- The field `t.Width`. -/
def Typ.Width : Typ → Nat
  | .leaf _ w _ _ => w
  | .array _ _ w _ => w
  | .struct _ w _ => w

/-- The field `t.Align`. -/
def Typ.Align : Typ → Nat
  | .leaf _ _ a _ => a
  | .array _ _ _ a => a
  | .struct _ _ a => a

/-- The method `t.IsPtr()`. -/
def Typ.IsPtr : Typ → Bool
  | .leaf k _ _ _ => k == Kind.TPTR
  | _ => false

/-- The `i`-th field of a field list, if there is one. -/
def FieldList.get? : FieldList → Nat → Option (String × Nat × Typ)
  | .nil, _ => none
  | .cons n o t _, 0 => some (n, o, t)
  | .cons _ _ _ rest, i + 1 => rest.get? i

/-- The `Offset` of field `i` of a struct type. -/
def Typ.FieldOffset (t : Typ) (i : Nat) : Option Nat :=
  match t with
  | .struct fs _ _ => (fs.get? i).map (fun f => f.2.1)
  | _ => none

/-- The type of field `i` of a struct type. -/
def Typ.FieldType (t : Typ) (i : Nat) : Option Typ :=
  match t with
  | .struct fs _ _ => (fs.get? i).map (fun f => f.2.2)
  | _ => none

/-- The element type `t.Elem()` of an array type. -/
def Typ.Elem? : Typ → Option Typ
  | .array e _ _ _ => some e
  | _ => none

mutual
/-- Modelled from the spec: the method `(*types.Type).HasPointers`, which is not
among the sources: scalars have no pointers, an array has them if it is not
empty and its elements have, a struct if some field has, a pointer or slice
unless its element type is not-in-heap, and every other kind has. -/
def Typ.HasPointers : Typ → Bool
  | .leaf k _ _ nih =>
    match k with
    | .TINT | .TUINT | .TINT8 | .TUINT8 | .TINT16 | .TUINT16 | .TINT32 | .TUINT32
    | .TINT64 | .TUINT64 | .TUINTPTR | .TFLOAT32 | .TFLOAT64 | .TCOMPLEX64
    | .TCOMPLEX128 | .TBOOL => false
    | .TPTR | .TSLICE => !nih
    | _ => true
  | .array e n _ _ => if n = 0 then false else e.HasPointers
  | .struct fs _ _ => fs.HasPointers
/-- Whether some field of the list has pointers. -/
def FieldList.HasPointers : FieldList → Bool
  | .nil => false
  | .cons _ _ t rest => t.HasPointers || rest.HasPointers
end

/-- Modelled from the spec: `types.NewPtr`, which is not among the sources: a
pointer type, one pointer wide and pointer-aligned. -/
def NewPtr (PtrSize : Nat) (elemNotInHeap : Bool) : Typ :=
  .leaf .TPTR PtrSize PtrSize elemNotInHeap

/-- Modelled from the spec: `types.NewArray` followed by `types.CalcSize`, which
are not among the sources: the width of an array is the number of elements
times the element width, its alignment that of the element. -/
def NewArray (elem : Typ) (bound : Nat) : Typ :=
  .array elem bound (bound * elem.Width) elem.Align

/-- Modelled from the spec: `types.Rnd`, which is not among the sources: `o`
rounded up to a multiple of `r`; fatal unless `r` is 1, 2, 4 or 8. -/
def Rnd (o r : Nat) : Option Nat :=
  if r = 1 ∨ r = 2 ∨ r = 4 ∨ r = 8 then some ((o + r - 1) / r * r) else none

/-- Modelled from the spec: the field loop of `calcStructOffset` in package
`types`, which is not among the sources (the standard struct layout rules): each
field is placed at the next offset that is a multiple of its alignment.
Returns the fields with their offsets, the end offset, the largest alignment
seen and the offset of the last zero-sized field. -/
def layoutFields : List (String × Typ) → Nat → Nat → Nat → Option (FieldList × Nat × Nat × Nat)
  | [], o, maxalign, lastzero => some (.nil, o, maxalign, lastzero)
  | (name, ft) :: rest, o, maxalign, lastzero =>
    let maxalign1 := if ft.Align > maxalign then ft.Align else maxalign
    match (if ft.Align > 0 then Rnd o ft.Align else some o) with
    | none => none
    | some o1 =>
      let lastzero1 := if ft.Width = 0 then o1 else lastzero
      match layoutFields rest (o1 + ft.Width) maxalign1 lastzero1 with
      | none => none
      | some (fs, o2, ma, lz) => some (.cons name o1 ft fs, o2, ma, lz)

/-- Modelled from the spec: `types.NewStruct` followed by `types.CalcSize`
(`calcStructOffset` with `flag == 1`), which are not among the sources: the
fields are laid out from offset 0, a struct that ends in a zero-sized field gets
one byte of padding, the width is rounded up to the largest field alignment,
which is the alignment of the struct. -/
def NewStruct (fields : List (String × Typ)) : Option Typ :=
  match layoutFields fields 0 1 0 with
  | none => none
  | some (fs, o, maxalign, lastzero) =>
    let o1 := if o > 0 ∧ o = lastzero then o + 1 else o
    match Rnd o1 maxalign with
    | none => none
    | some w => some (.struct fs w maxalign)

/-! ## Map buckets (`bmap`) -/

/-- The constant `BUCKETSIZE`. -/
def BUCKETSIZE : Nat := 8

/-- The constant `MAXKEYSIZE`. -/
def MAXKEYSIZE : Nat := 128

/-- The constant `MAXELEMSIZE`. -/
def MAXELEMSIZE : Nat := 128

/-- What `bmap` reads and writes of a map type `t`: `t.Key()` and `t.Elem()`
(sized by `types.CalcSize`), whether they are not-in-heap types,
`types.IsComparable(t.Key())`, and the cached `t.MapType().Bucket`; `hmap` and
`hiter` also read and write the cached `t.MapType().Hmap` and
`t.MapType().Hiter`. -/
structure MapType where
  Key : Typ
  Elem : Typ
  keyNotInHeap : Bool
  elemNotInHeap : Bool
  keyComparable : Bool
  Bucket : Option Typ
  Hmap : Option Typ := none
  Hiter : Option Typ := none

/-- The stored key type of `bmap`: the key, or a pointer to it when it is wider
than `MAXKEYSIZE`. -/
def bmapKeytype (PtrSize : Nat) (t : MapType) : Typ :=
  if t.Key.Width > MAXKEYSIZE then NewPtr PtrSize t.keyNotInHeap else t.Key

/-- The stored element type of `bmap`: the element, or a pointer to it when it is
wider than `MAXELEMSIZE`. -/
def bmapElemtype (PtrSize : Nat) (t : MapType) : Typ :=
  if t.Elem.Width > MAXELEMSIZE then NewPtr PtrSize t.elemNotInHeap else t.Elem

/-- The fields of the bucket struct in the order `bmap` appends them: `topbits`,
`keys`, `elems`, `overflow`. -/
def bmapFields (PtrSize : Nat) (t : MapType) : List (String × Typ) :=
  let keytype := bmapKeytype PtrSize t
  let elemtype := bmapElemtype PtrSize t
  let otyp := if !elemtype.HasPointers && !keytype.HasPointers
    then Typ.leaf .TUINTPTR PtrSize PtrSize false
    else Typ.leaf .TUNSAFEPTR PtrSize PtrSize false
  [("topbits", NewArray (.leaf .TUINT8 1 1 false) BUCKETSIZE),
   ("keys", NewArray keytype BUCKETSIZE),
   ("elems", NewArray elemtype BUCKETSIZE),
   ("overflow", otyp)]

/-- A sequence of `if cond { base.Fatalf(msg) }` statements: the message of the
first check whose condition holds, if any. -/
def firstFatal : List (Bool × String) → Except String Unit
  | [] => .ok ()
  | (cond, msg) :: rest => if cond then .error msg else firstFatal rest

/-- The invariant checks of `bmap` on the laid-out bucket, in source order, each
with the message of its `base.Fatalf` (a zero alignment makes the `%` of the
source panic). `keys`, `elems` and `overflow` are fields 1, 2 and 3. -/
def bmapCheck (PtrSize : Nat) (t : MapType) (bucket : Typ) : Except String Unit :=
  let keytype := bmapKeytype PtrSize t
  let elemtype := bmapElemtype PtrSize t
  let keysOffset := (bucket.FieldOffset 1).getD 0
  let elemsOffset := (bucket.FieldOffset 2).getD 0
  let overflowOffset := (bucket.FieldOffset 3).getD 0
  firstFatal [
    (!t.keyComparable, "unsupported map key type"),
    (decide (BUCKETSIZE < 8), "bucket size too small for proper alignment"),
    (decide (keytype.Align > BUCKETSIZE), "key align too big"),
    (decide (elemtype.Align > BUCKETSIZE), "elem align too big"),
    (decide (keytype.Width > MAXKEYSIZE), "key size to large"),
    (decide (elemtype.Width > MAXELEMSIZE), "elem size to large"),
    (decide (t.Key.Width > MAXKEYSIZE) && !keytype.IsPtr, "key indirect incorrect"),
    (decide (t.Elem.Width > MAXELEMSIZE) && !elemtype.IsPtr, "elem indirect incorrect"),
    (decide (keytype.Align = 0), "integer divide by zero"),
    (decide (keytype.Width % keytype.Align ≠ 0), "key size not a multiple of key align"),
    (decide (elemtype.Align = 0), "integer divide by zero"),
    (decide (elemtype.Width % elemtype.Align ≠ 0), "elem size not a multiple of elem align"),
    (decide (bucket.Align % keytype.Align ≠ 0), "bucket align not multiple of key align"),
    (decide (bucket.Align % elemtype.Align ≠ 0), "bucket align not multiple of elem align"),
    (decide (keysOffset % keytype.Align ≠ 0), "bad alignment of keys in bmap"),
    (decide (elemsOffset % elemtype.Align ≠ 0), "bad alignment of elems in bmap"),
    (decide ((overflowOffset : Int) ≠ (bucket.Width : Int) - (PtrSize : Int)),
      "bad offset of overflow in bmap")]

/-- The function `bmap`: makes the map bucket type given the type of the map.
Returns the bucket and the map type with the bucket cached; an error stands for
`base.Fatalf`. -/
def bmap (PtrSize : Nat) (t : MapType) : Except String (Typ × MapType) :=
  match t.Bucket with
  | some bucket => .ok (bucket, t)
  | none =>
    match NewStruct (bmapFields PtrSize t) with
    | none => .error "Rnd"
    | some bucket =>
      match bmapCheck PtrSize t bucket with
      | .error e => .error e
      | .ok _ => .ok (bucket, { t with Bucket := some bucket })

/-- The map type `map[string]int64` on a 64-bit target, bucket not yet built. -/
def mapStringInt64 : MapType :=
  { Key := .leaf .TSTRING 16 8 false, Elem := .leaf .TINT64 8 8 false,
    keyNotInHeap := false, elemNotInHeap := false, keyComparable := true, Bucket := none }

/-! ## Interface tables (`genfun`) -/

/-- A symbol `*types.Sym`: symbols are interned, so two pointers are equal
exactly when package and name are. -/
structure Sym where
  Pkg : String
  Name : String
  deriving DecidableEq, Repr

/-- A linker symbol `*obj.LSym`, here the one of a `types.Sym`. -/
structure LSym where
  sym : Sym
  deriving DecidableEq, Repr

/-- The method `(*types.Sym).Linksym`. -/
def Sym.Linksym (s : Sym) : LSym := ⟨s⟩

/-- The identity of a `*types.Type` (types are compared as pointers). -/
abbrev TypeId := Nat

/-- The type `Sig`: a method's `name`, its interface-word and type-word method
symbols `isym` and `tsym`, and the method types `type_` and `mtype`. -/
structure Sig where
  name : Sym
  isym : Sym
  tsym : Sym
  type_ : TypeId
  mtype : TypeId
  deriving DecidableEq, Repr

/-- What `genfun` needs of a `*types.Type`: the lists that `methods(t)` and
`imethods(t)` return for it. -/
structure MethType where
  methods : List Sig
  imethods : List Sig
  deriving DecidableEq, Repr

/-- The `for _, m := range methods` loop of `genfun`; the result is `out` and the
interface methods still unmatched. The loop is only entered, and only
continued, with `sigs` non-empty. -/
def genfunLoop : List Sig → List Sig → List LSym → List LSym × List Sig
  | [], sigs, out => (out, sigs)
  | _ :: _, [], out => (out, [])
  | m :: ms, s :: sigs, out =>
    if m.name = s.name then
      if sigs.length = 0 then (out ++ [m.isym.Linksym], sigs)
      else genfunLoop ms sigs (out ++ [m.isym.Linksym])
    else genfunLoop ms (s :: sigs) out

/-- The function `genfun`: for the concrete type `t` and the interface type `it`
(`none` is a nil pointer), the methods of `t` that implement the interface; `nil`
is the empty list and an error is `base.Fatalf`. -/
def genfun (t it : Option MethType) : Except String (List LSym) :=
  match t, it with
  | none, _ => .ok []
  | _, none => .ok []
  | some t, some it =>
    let sigs := it.imethods
    let methods := t.methods
    if sigs.length = 0 then .ok []
    else
      let r := genfunLoop methods sigs []
      if r.2.length ≠ 0 then .error "incomplete itab" else .ok r.1

/-- A concrete type with methods `Close`, `Read`, `Write`. -/
def fileMethods : MethType :=
  { methods := [⟨⟨"", "Close"⟩, ⟨"", "(*File).Close"⟩, ⟨"", "File.Close"⟩, 1, 1⟩,
      ⟨⟨"", "Read"⟩, ⟨"", "(*File).Read"⟩, ⟨"", "File.Read"⟩, 2, 2⟩,
      ⟨⟨"", "Write"⟩, ⟨"", "(*File).Write"⟩, ⟨"", "File.Write"⟩, 2, 2⟩],
    imethods := [] }

/-- An interface type with methods `Close` and `Write`. -/
def writeCloser : MethType :=
  { methods := [],
    imethods := [⟨⟨"", "Close"⟩, ⟨"", "WriteCloser.Close"⟩, ⟨"", ""⟩, 1, 1⟩,
      ⟨⟨"", "Write"⟩, ⟨"", "WriteCloser.Write"⟩, ⟨"", ""⟩, 2, 2⟩] }

/-! ## Static initialisation plans (`InitSchedule.initplan`) -/

mutual
/-- The expression nodes (`ir.Node`) that `initplan` distinguishes: composite
literals (`ir.CompLitExpr` with op `OARRAYLIT`, `OSLICELIT`, `OSTRUCTLIT`,
`OMAPLIT`) and any other expression. `width` is `n.Type().Elem().Width`. -/
inductive Node where
  | expr (id : Nat)
  | arraylit (width : Int) (list : KeyElems)
  | slicelit (width : Int) (list : KeyElems)
  | structlit (list : StructElems)
  | maplit (list : KeyElems)
/-- The element list of an array, slice or map literal: an element is a plain
value or an `OKEY` node (`ir.KeyExpr`) whose key, for arrays and slices, has the
constant index `typecheck.IndexConst(kv.Key)`. -/
inductive KeyElems where
  | nil
  | plain (value : Node) (rest : KeyElems)
  | key (index : Int) (value : Node) (rest : KeyElems)
/-- The element list of a struct literal: an element is an `OSTRUCTKEY` node
(`ir.StructKeyExpr`: whether the field is blank, its offset, the value) or a
node of any other op. -/
inductive StructElems where
  | nil
  | structkey (blank : Bool) (offset : Int) (value : Node) (rest : StructElems)
  | other (rest : StructElems)
end

deriving instance DecidableEq for Node, KeyElems, StructElems

/-- The type `InitEntry`. -/
structure InitEntry where
  Xoffset : Int
  Expr : Node
  deriving DecidableEq

/-- The type `InitPlan`. -/
structure InitPlan where
  E : List InitEntry
  deriving DecidableEq

/-- The field `initplans` of `InitSchedule`, a `map[ir.Node]*InitPlan`, kept as an
association list whose first binding of a node is the current one. -/
structure InitSchedule where
  initplans : List (Node × InitPlan)

/-- The function `isvaluelit`. -/
def isvaluelit : Node → Bool
  | .arraylit _ _ => true
  | .structlit _ => true
  | _ => false

/-- The method `InitSchedule.addvalue` for the node `n`; `initplanN` is the call
`s.initplan(n)` it makes for an array or struct literal. The copies `qe` of the
entries of `s.initplans[n]` are appended with `xoffset` added. -/
def addvalue (IsZero : Node → Bool) (initplanN : InitSchedule → Option InitSchedule)
    (s : InitSchedule) (p : InitPlan) (xoffset : Int) (n : Node) :
    Option (InitSchedule × InitPlan) :=
  if IsZero n then some (s, p)
  else if isvaluelit n then
    match initplanN s with
    | none => none
    | some s1 =>
      match s1.initplans.lookup n with
      | none => none
      | some q =>
        some (s1, ⟨p.E ++ q.E.map (fun qe => { qe with Xoffset := qe.Xoffset + xoffset })⟩)
  else some (s, ⟨p.E ++ [⟨xoffset, n⟩]⟩)

mutual
/-- The method `InitSchedule.initplan`, with `ir.IsZero` (package `ir`, not among
the sources) as the parameter `IsZero`. `s.initplans[n] = p` stores the pointer
to the new, still empty plan before the elements are visited; the filled plan is
stored again at the end. `none` is `base.Fatalf`. -/
def initplan (IsZero : Node → Bool) : Node → InitSchedule → Option InitSchedule
  | .expr id, s =>
    if (s.initplans.lookup (.expr id)).isSome then some s else none
  | .arraylit w l, s =>
    if (s.initplans.lookup (.arraylit w l)).isSome then some s
    else match arrayLoop IsZero w l 0 ⟨(.arraylit w l, ⟨[]⟩) :: s.initplans⟩ ⟨[]⟩ with
      | none => none
      | some (s1, p) => some ⟨(.arraylit w l, p) :: s1.initplans⟩
  | .slicelit w l, s =>
    if (s.initplans.lookup (.slicelit w l)).isSome then some s
    else match arrayLoop IsZero w l 0 ⟨(.slicelit w l, ⟨[]⟩) :: s.initplans⟩ ⟨[]⟩ with
      | none => none
      | some (s1, p) => some ⟨(.slicelit w l, p) :: s1.initplans⟩
  | .structlit l, s =>
    if (s.initplans.lookup (.structlit l)).isSome then some s
    else match structLoop IsZero l ⟨(.structlit l, ⟨[]⟩) :: s.initplans⟩ ⟨[]⟩ with
      | none => none
      | some (s1, p) => some ⟨(.structlit l, p) :: s1.initplans⟩
  | .maplit l, s =>
    if (s.initplans.lookup (.maplit l)).isSome then some s
    else match mapLoop IsZero l ⟨(.maplit l, ⟨[]⟩) :: s.initplans⟩ ⟨[]⟩ with
      | none => none
      | some (s1, p) => some ⟨(.maplit l, p) :: s1.initplans⟩
/-- The loop of the `OARRAYLIT, OSLICELIT` case: `k` is the running index. -/
def arrayLoop (IsZero : Node → Bool) (w : Int) :
    KeyElems → Int → InitSchedule → InitPlan → Option (InitSchedule × InitPlan)
  | .nil, _, s, p => some (s, p)
  | .plain a rest, k, s, p =>
    match addvalue IsZero (initplan IsZero a) s p (k * w) a with
    | none => none
    | some (s1, p1) => arrayLoop IsZero w rest (k + 1) s1 p1
  | .key idx a rest, _, s, p =>
    if idx < 0 then none
    else match addvalue IsZero (initplan IsZero a) s p (idx * w) a with
      | none => none
      | some (s1, p1) => arrayLoop IsZero w rest (idx + 1) s1 p1
/-- The loop of the `OSTRUCTLIT` case. -/
def structLoop (IsZero : Node → Bool) :
    StructElems → InitSchedule → InitPlan → Option (InitSchedule × InitPlan)
  | .nil, s, p => some (s, p)
  | .other _, _, _ => none
  | .structkey blank off a rest, s, p =>
    if blank then structLoop IsZero rest s p
    else match addvalue IsZero (initplan IsZero a) s p off a with
      | none => none
      | some (s1, p1) => structLoop IsZero rest s1 p1
/-- The loop of the `OMAPLIT` case. -/
def mapLoop (IsZero : Node → Bool) :
    KeyElems → InitSchedule → InitPlan → Option (InitSchedule × InitPlan)
  | .nil, s, p => some (s, p)
  | .plain _ _, _, _ => none
  | .key _ a rest, s, p =>
    match addvalue IsZero (initplan IsZero a) s p (-1) a with
    | none => none
    | some (s1, p1) => mapLoop IsZero rest s1 p1
end

/-- The entries that `addvalue` appends for the value `a` at offset `xoffset`,
given the plan `sub` of `a` when `a` is an array or struct literal. -/
def valuePlan (IsZero : Node → Bool) (sub : List InitEntry) (xoffset : Int) (a : Node) :
    List InitEntry :=
  if IsZero a then []
  else if isvaluelit a then sub.map (fun qe => { qe with Xoffset := qe.Xoffset + xoffset })
  else [⟨xoffset, a⟩]

mutual
/-- The plan of a literal, computed without the table of plans. -/
def planOf (IsZero : Node → Bool) : Node → List InitEntry
  | .expr _ => []
  | .arraylit w l => arrayPlan IsZero w l 0
  | .slicelit w l => arrayPlan IsZero w l 0
  | .structlit l => structPlan IsZero l
  | .maplit l => mapPlan IsZero l
/-- The entries of the elements of an array or slice literal from index `k` on. -/
def arrayPlan (IsZero : Node → Bool) (w : Int) : KeyElems → Int → List InitEntry
  | .nil, _ => []
  | .plain a rest, k => valuePlan IsZero (planOf IsZero a) (k * w) a
      ++ arrayPlan IsZero w rest (k + 1)
  | .key idx a rest, _ => valuePlan IsZero (planOf IsZero a) (idx * w) a
      ++ arrayPlan IsZero w rest (idx + 1)
/-- The entries of the fields of a struct literal. -/
def structPlan (IsZero : Node → Bool) : StructElems → List InitEntry
  | .nil => []
  | .other rest => structPlan IsZero rest
  | .structkey blank off a rest =>
    if blank then structPlan IsZero rest
    else valuePlan IsZero (planOf IsZero a) off a ++ structPlan IsZero rest
/-- The entries of the elements of a map literal. -/
def mapPlan (IsZero : Node → Bool) : KeyElems → List InitEntry
  | .nil => []
  | .plain _ rest => mapPlan IsZero rest
  | .key _ a rest => valuePlan IsZero (planOf IsZero a) (-1) a ++ mapPlan IsZero rest
end

mutual
/-- The literals on which `initplan` reaches no `base.Fatalf`: no array index is
negative, every element of a struct literal is an `OSTRUCTKEY`, every element of
a map literal an `OKEY`, and so for every nested array or struct literal that is
visited (one that is not zero). -/
def Node.NoFatal (IsZero : Node → Bool) : Node → Bool
  | .expr _ => false
  | .arraylit _ l => l.NoFatalArray IsZero
  | .slicelit _ l => l.NoFatalArray IsZero
  | .structlit l => l.NoFatal IsZero
  | .maplit l => l.NoFatalMap IsZero
/-- The element lists of array and slice literals without fatal error. -/
def KeyElems.NoFatalArray (IsZero : Node → Bool) : KeyElems → Bool
  | .nil => true
  | .plain a rest => (IsZero a || !isvaluelit a || a.NoFatal IsZero) && rest.NoFatalArray IsZero
  | .key idx a rest => decide (0 ≤ idx) && (IsZero a || !isvaluelit a || a.NoFatal IsZero)
      && rest.NoFatalArray IsZero
/-- The element lists of struct literals without fatal error. -/
def StructElems.NoFatal (IsZero : Node → Bool) : StructElems → Bool
  | .nil => true
  | .other _ => false
  | .structkey blank _ a rest =>
    (blank || IsZero a || !isvaluelit a || a.NoFatal IsZero) && rest.NoFatal IsZero
/-- The element lists of map literals without fatal error. -/
def KeyElems.NoFatalMap (IsZero : Node → Bool) : KeyElems → Bool
  | .nil => true
  | .plain _ _ => false
  | .key _ a rest => (IsZero a || !isvaluelit a || a.NoFatal IsZero) && rest.NoFatalMap IsZero
end

/-- The table of plans holds, for every literal, its complete plan, except
possibly for the literals in `pending`, whose plans are being built. -/
def InitSchedule.Complete (IsZero : Node → Bool) (s : InitSchedule) (pending : Node → Prop) :
    Prop :=
  ∀ m p, s.initplans.lookup m = some p → p.E = planOf IsZero m ∨ pending m

/-- `l.At k i a`: in the loop over the elements `l` of an array literal, entered
with running index `k`, the element with value `a` has index `i` (the index of
its key, or one more than the index of the element before it). -/
inductive KeyElems.At : KeyElems → Int → Int → Node → Prop
  | plain_here (a : Node) (rest : KeyElems) (k : Int) : KeyElems.At (.plain a rest) k k a
  | plain_there (b : Node) (rest : KeyElems) (k i : Int) (a : Node) :
      KeyElems.At rest (k + 1) i a → KeyElems.At (.plain b rest) k i a
  | key_here (idx : Int) (a : Node) (rest : KeyElems) (k : Int) :
      KeyElems.At (.key idx a rest) k idx a
  | key_there (idx : Int) (b : Node) (rest : KeyElems) (k i : Int) (a : Node) :
      KeyElems.At rest (idx + 1) i a → KeyElems.At (.key idx b rest) k i a

/-- `l.At off a`: the struct literal with elements `l` gives the value `a` to a
field that is not blank and has offset `off`. -/
inductive StructElems.At : StructElems → Int → Node → Prop
  | here (off : Int) (a : Node) (rest : StructElems) :
      StructElems.At (.structkey false off a rest) off a
  | there (blank : Bool) (off : Int) (b : Node) (rest : StructElems) (o : Int) (a : Node) :
      StructElems.At rest o a → StructElems.At (.structkey blank off b rest) o a
  | other (rest : StructElems) (o : Int) (a : Node) :
      StructElems.At rest o a → StructElems.At (.other rest) o a

/-- `Element n off a`: the array or struct literal `n` has the element value `a`
at offset `off`: index times element width for an array, the field offset for a
struct. -/
inductive Element : Node → Int → Node → Prop
  | array (w : Int) (l : KeyElems) (i : Int) (a : Node) :
      l.At 0 i a → Element (.arraylit w l) (i * w) a
  | struct (l : StructElems) (off : Int) (a : Node) :
      l.At off a → Element (.structlit l) off a

/-- `PlanLeaf IsZero n off e`: the expression `e` is reached from the literal `n`
along a nesting path through array and struct literals that are not zero, `e`
itself is neither zero nor an array or struct literal, and `off` is the sum of
the offsets along the path. -/
inductive PlanLeaf (IsZero : Node → Bool) : Node → Int → Node → Prop
  | here (n : Node) (off : Int) (a : Node) :
      Element n off a → IsZero a = false → isvaluelit a = false → PlanLeaf IsZero n off a
  | nested (n : Node) (off : Int) (a : Node) (off' : Int) (e : Node) :
      Element n off a → IsZero a = false → isvaluelit a = true →
      PlanLeaf IsZero a off' e → PlanLeaf IsZero n (off' + off) e

/-- The tables of plans that arise from the empty table by calls of `initplan`
on literals without fatal error. -/
inductive InitSchedule.Reachable (IsZero : Node → Bool) : InitSchedule → Prop
  | empty : InitSchedule.Reachable IsZero ⟨[]⟩
  | step (s : InitSchedule) (n : Node) (s' : InitSchedule) :
      InitSchedule.Reachable IsZero s → n.NoFatal IsZero = true →
      initplan IsZero n s = some s' → InitSchedule.Reachable IsZero s'

/-- An `ir.IsZero` for the examples: the expression `expr 0` stands for the
constant zero. -/
def zeroLit : Node → Bool
  | .expr id => id == 0
  | _ => false

/-- The literal `Point{0, 0}` of `type Point struct { X, Y int }`, the fields at
offsets 0 and 8. -/
def pointZero : Node :=
  .structlit (.structkey false 0 (.expr 0) (.structkey false 8 (.expr 0) .nil))

/-! ## Type descriptors (`dtypesym`) -/

/-- The kinds that the `switch t.Kind()` of `dtypesym` distinguishes; `TOTHER` is
any kind of the `default` case. -/
inductive TKind
  | TARRAY | TSLICE | TCHAN | TFUNC | TINTER | TMAP | TPTR | TSTRUCT | TFORW | TOTHER
  deriving DecidableEq, Repr

/-- A `*types.Field` as `dtypesym` reads it: the field's type,
`types.IsExported(f.Sym.Name)`, `f.Sym.Pkg`, `f.Offset`, `f.Embedded != 0` and
`f.IsDDD()`. -/
structure FieldInfo where
  Type_ : TypeId
  exported : Bool
  pkg : String
  Offset : Int
  Embedded : Bool
  IsDDD : Bool
  deriving DecidableEq, Repr

/-- A `*types.Type` as `dtypesym`, `dcommontype`, `dextratype` and
`dextratypeData` read it. Types that the code makes on the way are given by
their identity: `sliceOfElem` is `types.NewSlice(t.Elem())`, `ptrTo` is
`types.NewPtr(t)`, `bucket` is `bmap(t)`. `isUniverse` says that the type is
`types.Types[t.Kind()]`, `types.ByteType`, `types.RuneType` or
`types.ErrorType`; `typePkgNil` that `typePkg(t)` is nil; `eqfuncNil` that
`geneq(t)` returns nil. -/
structure TypeInfo where
  Kind : TKind
  formal : TypeId
  IsUntyped : Bool
  typeSym : Sym
  hasSym : Bool
  symLocal : Bool
  isUniverse : Bool
  typePkgNil : Bool
  baseTypeIndex : Int
  Align : Nat
  eqfuncNil : Bool
  IsPtrElem : Bool
  Elem : TypeId
  elemIsAny : Bool
  Key : TypeId
  sliceOfElem : TypeId
  ptrTo : TypeId
  bucket : TypeId
  NumElem : Nat
  Recvs : List FieldInfo
  Params : List FieldInfo
  Results : List FieldInfo
  Fields : List FieldInfo
  imethods : List Sig
  methods : List Sig

/-- The types of one compilation and its target: the record of every type,
`types.PtrSize`, and whether the package compiled is `runtime`
(`base.Ctxt.Pkgpath == "runtime"`). -/
structure Universe where
  info : TypeId → TypeInfo
  PtrSize : Nat
  isRuntime : Bool

/-- What happens while descriptors are emitted: a call of `dtypesym`, the setting
of a type symbol's `Siggen` flag, a write of `size` descriptor bytes at offset
`off` of a linker symbol, and any other effect on a linker symbol (attributes,
`objw.Global`, helper symbols generated for it). -/
inductive Event
  | call (t : TypeId)
  | setSiggen (s : Sym)
  | write (lsym : LSym) (off size : Nat) (what : String)
  | aux (lsym : LSym) (what : String)
  deriving Repr

/-- The state of descriptor emission: the type symbols whose `Siggen` flag is set
and the events so far. -/
structure DState where
  siggen : List Sym
  log : List Event
  deriving Repr

/-- One step of the body of `dtypesym` for a type: a recursive call
`dtypesym(t)`, a write into the symbol of the type, another effect, or a call of
`base.Fatalf`. -/
inductive Action
  | request (t : TypeId)
  | write (off size : Nat) (what : String)
  | aux (what : String)
  | fatal (msg : String)
  deriving DecidableEq, Repr

/-- Steps followed by the steps that start at the offset `ot` they end at. -/
def andThen (a : List Action × Nat) (f : Nat → List Action × Nat) : List Action × Nat :=
  (a.1 ++ (f a.2).1, (f a.2).2)

/-- Modelled from the spec: `objw.UintN` (package `objw`, not among the sources):
writes `wid` bytes at `off`, fatal when `off` is not a multiple of `wid`. -/
def objwUintN (off wid : Nat) (what : String) : List Action × Nat :=
  if off % wid ≠ 0 then ([.fatal "duintxxLSym: misaligned"], off)
  else ([.write off wid what], off + wid)

/-- Modelled from the spec: `objw.SymPtr` (package `objw`, not among the sources):
rounds `off` up to the pointer size and writes an address there. -/
def objwSymPtr (PtrSize off : Nat) (what : String) : List Action × Nat :=
  match Rnd off PtrSize with
  | none => ([.fatal "Rnd"], off)
  | some o => ([.write o PtrSize what], o + PtrSize)

/-- Modelled from the spec: `objw.SymPtrOff` and `objw.SymPtrWeakOff` (package
`objw`, not among the sources): a 4-byte offset relocation at `off`. -/
def objwSymPtrOff (off : Nat) (what : String) : List Action × Nat :=
  ([.write off 4 what], off + 4)

/-- The function `uncommonSize`. -/
def uncommonSize (ti : TypeInfo) : Nat :=
  if !ti.hasSym && ti.methods.length = 0 then 0 else 4 + 2 + 2 + 4 + 4

/-- The function `dgopkgpath`: a pointer-sized zero for a nil package, else the
address of the package path symbol. These are the steps of a call that returns:
the call `dimportpath(pkg)` is kept as one `aux` step, and the local package with
an unknown path writes the same pointer without it. The `base.Fatalf` that
`dimportpath` can end in is in `dimportpath` below. -/
def dgopkgpath (PtrSize ot : Nat) (pkgNil : Bool) : List Action × Nat :=
  if pkgNil then objwUintN ot PtrSize "pkgpath"
  else andThen ([.aux "dimportpath"], ot) (fun ot => objwSymPtr PtrSize ot "pkgpath")

/-- The function `dgopkgpathOff`: a 4-byte zero for a nil package, else a 4-byte
offset to the package path symbol. These are the steps of a call that returns:
the call `dimportpath(pkg)` is kept as one `aux` step, and the local package with
an unknown path writes the same 4 bytes without it. The `base.Fatalf` that
`dimportpath` can end in is in `dimportpath` and `dgopkgpathOffPkg` below. -/
def dgopkgpathOff (ot : Nat) (pkgNil : Bool) : List Action × Nat :=
  if pkgNil then objwUintN ot 4 "pkgpath"
  else andThen ([.aux "dimportpath"], ot) (fun ot => objwSymPtrOff ot "pkgpath")

/-- The function `dcommontype`: dumps the contents of a `runtime._type`; returns
the steps and the offset after the header. -/
def dcommontype (U : Universe) (ti : TypeInfo) : List Action × Nat :=
  let P := U.PtrSize
  let sptr : List Action :=
    if ti.Kind ≠ .TPTR ∨ ti.IsPtrElem then
      (if ti.hasSym then [] else [Action.aux "methods(tptr)"]) ++ [.request ti.ptrTo]
    else []
  let hasSptr : Bool := ti.Kind ≠ .TPTR ∨ ti.IsPtrElem
  let i := if ti.Align = 0 then 1 else ti.Align
  andThen ([.aux "geneq"] ++ sptr ++ [.aux "dgcsym"], 0) fun ot =>
  andThen (objwUintN ot P "size") fun ot =>
  andThen (objwUintN ot P "ptrdata") fun ot =>
  andThen (objwUintN ot 4 "hash") fun ot =>
  andThen (if ti.hasSym then ([], ot) else ([.aux "methods"], ot)) fun ot =>
  andThen (objwUintN ot 1 "tflag") fun ot =>
  andThen (if i &&& (i - 1) ≠ 0 then ([.fatal "invalid alignment"], ot) else ([], ot)) fun ot =>
  andThen (objwUintN ot 1 "align") fun ot =>
  andThen (objwUintN ot 1 "fieldAlign") fun ot =>
  andThen (objwUintN ot 1 "kind") fun ot =>
  andThen (if ti.eqfuncNil then objwUintN ot P "equal" else objwSymPtr P ot "equal") fun ot =>
  andThen (objwSymPtr P ot "gcdata") fun ot =>
  andThen ([.aux "dname"], ot) fun ot =>
  andThen (objwSymPtrOff ot "str") fun ot =>
  if hasSptr then objwSymPtrOff ot "ptrToThis" else objwUintN ot 4 "ptrToThis"

/-- The function `dextratype`: dumps the fields of a `runtime.uncommontype`. -/
def dextratype (U : Universe) (ot : Nat) (ti : TypeInfo) (dataAdd : Nat) : List Action × Nat :=
  andThen ([.aux "methods"], ot) fun ot =>
  if !ti.hasSym && ti.methods.length = 0 then ([], ot)
  else
    andThen (if Rnd ot U.PtrSize ≠ some ot
      then ([.fatal "unexpected alignment in dextratype"], ot) else ([], ot)) fun ot =>
    andThen (ti.methods.map (fun a => Action.request a.type_), ot) fun ot =>
    andThen (dgopkgpathOff ot ti.typePkgNil) fun ot =>
    andThen (if ti.methods.length ≥ 2 ^ 16 then ([.fatal "too many methods"], ot)
      else ([], ot)) fun ot =>
    andThen (if dataAdd + uncommonSize ti ≥ 2 ^ 32
      then ([.fatal "methods are too far away"], ot) else ([], ot)) fun ot =>
    andThen (objwUintN ot 2 "mcount") fun ot =>
    andThen (objwUintN ot 2 "xcount") fun ot =>
    andThen (objwUintN ot 4 "moff") fun ot =>
    objwUintN ot 4 "unused"

/-- The function `dextratypeData`: dumps the backing array of the methods; the
descriptor of each method's type is requested (`dtypesym(a.mtype)`). -/
def dextratypeData (ot : Nat) (ti : TypeInfo) : List Action × Nat :=
  ti.methods.foldl (fun acc a =>
    andThen acc fun ot =>
    andThen ([.aux "dname"], ot) fun ot =>
    andThen (objwSymPtrOff ot "name") fun ot =>
    andThen ([.request a.mtype, .write ot 4 "mtyp"], ot + 4) fun ot =>
    andThen ([.write ot 4 "ifn"], ot + 4) fun ot =>
    ([.write ot 4 "tfn"], ot + 4)) ([], ot)

/-- The entries written after a `funcType` or for struct fields: for each field
the steps `f`, starting at the running offset. -/
def forFields (fs : List FieldInfo) (ot : Nat) (f : FieldInfo → Nat → List Action × Nat) :
    List Action × Nat :=
  fs.foldl (fun acc fld => andThen acc (f fld)) ([], ot)

/-- The `switch t.Kind()` of `dtypesym`: the steps that write the descriptor of
the type, and the offset after them. -/
def dtypesymSwitch (U : Universe) (ti : TypeInfo) : List Action × Nat :=
  let P := U.PtrSize
  match ti.Kind with
  | .TARRAY =>
    andThen ([.request ti.Elem, .request ti.sliceOfElem], 0) fun _ =>
    andThen (dcommontype U ti) fun ot =>
    andThen (objwSymPtr P ot "elem") fun ot =>
    andThen (objwSymPtr P ot "slice") fun ot =>
    andThen (objwUintN ot P "len") fun ot =>
    dextratype U ot ti 0
  | .TSLICE =>
    andThen ([.request ti.Elem], 0) fun _ =>
    andThen (dcommontype U ti) fun ot =>
    andThen (objwSymPtr P ot "elem") fun ot =>
    dextratype U ot ti 0
  | .TCHAN =>
    andThen ([.request ti.Elem], 0) fun _ =>
    andThen (dcommontype U ti) fun ot =>
    andThen (objwSymPtr P ot "elem") fun ot =>
    andThen (objwUintN ot P "dir") fun ot =>
    dextratype U ot ti 0
  | .TFUNC =>
    let inCount := ti.Recvs.length + ti.Params.length
    andThen ((ti.Recvs ++ ti.Params ++ ti.Results).map (fun f => Action.request f.Type_), 0)
      fun _ =>
    andThen (dcommontype U ti) fun ot =>
    andThen (objwUintN ot 2 "inCount") fun ot =>
    andThen (objwUintN ot 2 "outCount") fun ot =>
    andThen ([], if P = 8 then ot + 4 else ot) fun ot =>
    andThen (dextratype U ot ti ((inCount + ti.Results.length) * P)) fun ot =>
    forFields (ti.Recvs ++ ti.Params ++ ti.Results) ot fun f ot =>
      andThen ([.request f.Type_], ot) fun ot => objwSymPtr P ot "rtype"
  | .TINTER =>
    let n := ti.imethods.length
    andThen ([Action.aux "imethods"] ++ ti.imethods.map (fun a => Action.request a.type_), 0)
      fun _ =>
    andThen (dcommontype U ti) fun ot =>
    andThen (dgopkgpath P ot (!(ti.hasSym && !ti.isUniverse))) fun ot =>
    andThen (objwSymPtr P ot "methods") fun ot =>
    andThen (objwUintN ot P "len") fun ot =>
    andThen (objwUintN ot P "cap") fun ot =>
    andThen (dextratype U ot ti ((4 + 4) * n)) fun ot =>
    ti.imethods.foldl (fun acc a =>
      andThen acc fun ot =>
      andThen ([.aux "dname"], ot) fun ot =>
      andThen (objwSymPtrOff ot "name") fun ot =>
      andThen ([.request a.type_], ot) fun ot =>
      objwSymPtrOff ot "ityp") ([], ot)
  | .TMAP =>
    andThen ([.request ti.Key, .request ti.Elem, .aux "bmap", .request ti.bucket,
      .aux "genhash"], 0) fun _ =>
    andThen (dcommontype U ti) fun ot =>
    andThen (objwSymPtr P ot "key") fun ot =>
    andThen (objwSymPtr P ot "elem") fun ot =>
    andThen (objwSymPtr P ot "bucket") fun ot =>
    andThen (objwSymPtr P ot "hasher") fun ot =>
    andThen (objwUintN ot 1 "keysize") fun ot =>
    andThen (objwUintN ot 1 "elemsize") fun ot =>
    andThen ([.aux "bmap"], ot) fun ot =>
    andThen (objwUintN ot 2 "bucketsize") fun ot =>
    andThen (objwUintN ot 4 "flags") fun ot =>
    dextratype U ot ti 0
  | .TPTR =>
    if ti.elemIsAny then
      andThen (dcommontype U ti) fun ot => dextratype U ot ti 0
    else
      andThen ([.request ti.Elem], 0) fun _ =>
      andThen (dcommontype U ti) fun ot =>
      andThen (objwSymPtr P ot "elem") fun ot =>
      dextratype U ot ti 0
  | .TSTRUCT =>
    let spkg : Option String := (ti.Fields.find? (fun f => !f.exported)).map (fun f => f.pkg)
    andThen (ti.Fields.map (fun f => Action.request f.Type_), 0) fun _ =>
    andThen (dcommontype U ti) fun ot =>
    andThen (dgopkgpath P ot spkg.isNone) fun ot =>
    andThen (objwSymPtr P ot "fields") fun ot =>
    andThen (objwUintN ot P "len") fun ot =>
    andThen (objwUintN ot P "cap") fun ot =>
    andThen (dextratype U ot ti (ti.Fields.length * (3 * P))) fun ot =>
    forFields ti.Fields ot fun f ot =>
      andThen (if !f.exported && some f.pkg ≠ spkg then ([.fatal "package mismatch"], ot)
        else ([.aux "dname"], ot)) fun ot =>
      andThen (objwSymPtr P ot "name") fun ot =>
      andThen ([.request f.Type_], ot) fun ot =>
      andThen (objwSymPtr P ot "typ") fun ot =>
      andThen (if f.Offset < 0 ∨ f.Offset ≥ 2 ^ 63 then ([.fatal "bad field offset"], ot)
        else ([], ot)) fun ot =>
      objwUintN ot P "offsetAnon"
  | _ =>
    andThen (dcommontype U ti) fun ot => dextratype U ot ti 0

/-- The body of `dtypesym` for the type with record `ti`, from the `switch` to the
final `lsym.Set(obj.AttrMakeTypelink, keep)`. -/
def dtypesymBody (U : Universe) (ti : TypeInfo) : List Action :=
  (andThen (dtypesymSwitch U ti) fun ot =>
   andThen (dextratypeData ot ti) fun ot =>
   ([.aux "Global", .aux "AttrMakeTypelink"], ot)).1

/-- Runs the steps of a body against the state; `rec` is `dtypesym` for the
recursive calls. The result is `false` when a `base.Fatalf` was reached or a
recursive call did not return. -/
def runActions (rec : TypeId → DState → Option LSym × DState) (lsym : LSym) :
    List Action → DState → Bool × DState
  | [], st => (true, st)
  | .request t :: rest, st =>
    match rec t st with
    | (none, st') => (false, st')
    | (some _, st') => runActions rec lsym rest st'
  | .write off size what :: rest, st =>
    runActions rec lsym rest { st with log := st.log ++ [.write lsym off size what] }
  | .aux what :: rest, st =>
    runActions rec lsym rest { st with log := st.log ++ [.aux lsym what] }
  | .fatal _ :: _, st => (false, st)

/-- The type `tbase` of `dtypesym`: the element type of an unnamed pointer to a
named type, else the type itself. -/
def tbaseOf (U : Universe) (t : TypeId) : TypeId :=
  if (U.info t).Kind = .TPTR ∧ !(U.info t).hasSym ∧ (U.info (U.info t).Elem).hasSym
  then (U.info t).Elem else t

/-- The function `dtypesym`. Every call is recorded in the log. The first
argument bounds the depth of the recursive calls; the result is `none` when the
bound is reached or `base.Fatalf` is called, and the state reached is returned
in every case. -/
def dtypesym (U : Universe) : Nat → TypeId → DState → Option LSym × DState
  | 0, _, st => (none, st)
  | fuel + 1, t0, st0 =>
    let st1 : DState := { st0 with log := st0.log ++ [.call t0] }
    let t := (U.info t0).formal
    if (U.info t).IsUntyped then (none, st1)
    else
      let s := (U.info t).typeSym
      let lsym := s.Linksym
      if s ∈ st1.siggen then (some lsym, st1)
      else
        let st2 : DState := { siggen := s :: st1.siggen, log := st1.log ++ [.setSiggen s] }
        let tbase := tbaseOf U t
        if (!U.isRuntime || !(U.info tbase).isUniverse) ∧
            (U.info tbase).hasSym ∧ !(U.info tbase).symLocal then
          if (U.info t).baseTypeIndex ≥ 0 then
            (some lsym, { st2 with log := st2.log ++ [.aux lsym "AttrIndexed"] })
          else (some lsym, st2)
        else if (!U.isRuntime || !(U.info tbase).isUniverse) ∧ (U.info tbase).Kind = .TFORW then
          (some lsym, st2)
        else
          match runActions (dtypesym U fuel) lsym (dtypesymBody U (U.info t)) st2 with
          | (false, st3) => (none, st3)
          | (true, st3) => (some lsym, st3)

/-- A universe for the examples, on a 64-bit target: type 0 is the local named
type `T struct { next *T }`, type 1 is `*T`, and every other identity stands for
the predeclared `int`. -/
def exampleUniverse : Universe :=
  { info := fun t =>
      match t with
      | 0 => { Kind := .TSTRUCT, formal := 0, IsUntyped := false, typeSym := ⟨"type", "T"⟩,
               hasSym := true, symLocal := true, isUniverse := false, typePkgNil := false,
               baseTypeIndex := -1, Align := 8, eqfuncNil := false, IsPtrElem := false,
               Elem := 0, elemIsAny := false, Key := 0, sliceOfElem := 0, ptrTo := 1,
               bucket := 0, NumElem := 0, Recvs := [], Params := [], Results := [],
               Fields := [⟨1, false, "p", 0, false, false⟩], imethods := [], methods := [] }
      | 1 => { Kind := .TPTR, formal := 1, IsUntyped := false, typeSym := ⟨"type", "*T"⟩,
               hasSym := false, symLocal := false, isUniverse := false, typePkgNil := false,
               baseTypeIndex := -1, Align := 8, eqfuncNil := false, IsPtrElem := false,
               Elem := 0, elemIsAny := false, Key := 0, sliceOfElem := 0, ptrTo := 2,
               bucket := 0, NumElem := 0, Recvs := [], Params := [], Results := [],
               Fields := [], imethods := [], methods := [] }
      | _ => { Kind := .TOTHER, formal := 2, IsUntyped := false, typeSym := ⟨"type", "int"⟩,
               hasSym := true, symLocal := false, isUniverse := true, typePkgNil := true,
               baseTypeIndex := 3, Align := 8, eqfuncNil := false, IsPtrElem := false,
               Elem := 0, elemIsAny := false, Key := 0, sliceOfElem := 0, ptrTo := 2,
               bucket := 0, NumElem := 0, Recvs := [], Params := [], Results := [],
               Fields := [], imethods := [], methods := [] },
    PtrSize := 8,
    isRuntime := false }

/-! ## Pointer masks and GC programs (`fillptrmask`, `GCProg.emit`) -/

/-- The conversion `int32(x)` of a non-negative integer. -/
def toInt32 (x : Int) : Int := (x + 2 ^ 31) % 2 ^ 32 - 2 ^ 31

/-- Modelled from the spec: the type `bitvec.BitVec` of package `bitvec`, which is
not among the sources: a vector of `N` bits. -/
structure BitVec where
  B : List Bool
  deriving DecidableEq, Repr

/-- The field `bv.N`. -/
def BitVec.N (bv : BitVec) : Nat := bv.B.length

/-- Modelled from the spec: `bitvec.New(n)`, which is not among the sources: a
vector of `n` zero bits; a negative `n` makes the allocation panic. -/
def BitVec.New (n : Int) : Option BitVec :=
  if n < 0 then none else some ⟨List.replicate n.toNat false⟩

/-- Modelled from the spec: `bv.Set(i)`, which is not among the sources: sets bit
`i`, fatal when `i` is out of bounds. -/
def BitVec.Set (bv : BitVec) (i : Int) : Option BitVec :=
  if i < 0 ∨ i ≥ bv.N then none else some ⟨bv.B.set i.toNat true⟩

/-- Modelled from the spec: `bv.Get(i)`, which is not among the sources: bit `i`,
fatal when `i` is out of bounds. -/
def BitVec.Get (bv : BitVec) (i : Int) : Option Bool :=
  if i < 0 ∨ i ≥ bv.N then none else some (bv.B.getD i.toNat false)

mutual
/-- Modelled from the spec: `types.PtrDataSize`, which is not among the sources:
the length in bytes of the prefix of the type that contains pointers. -/
def PtrDataSize (PtrSize : Nat) : Typ → Nat
  | .leaf k w a nih =>
    if !(Typ.leaf k w a nih).HasPointers then 0
    else match k with
      | .TPTR | .TUNSAFEPTR | .TFUNC | .TCHAN | .TMAP => PtrSize
      | .TSTRING => PtrSize
      | .TINTER => 2 * PtrSize
      | .TSLICE => PtrSize
      | _ => 0
  | .array e n w a =>
    if !(Typ.array e n w a).HasPointers then 0
    else (n - 1) * e.Width + PtrDataSize PtrSize e
  | .struct fs w a =>
    if !(Typ.struct fs w a).HasPointers then 0
    else fs.PtrDataEnd PtrSize 0
/-- The end of the pointer data of the last field that has pointers
(`lastPtrField.Offset + PtrDataSize(lastPtrField.Type)`), `acc` if there is
none. -/
def FieldList.PtrDataEnd (PtrSize : Nat) : FieldList → Nat → Nat
  | .nil, acc => acc
  | .cons _ off t rest, acc =>
    rest.PtrDataEnd PtrSize (if t.HasPointers then off + PtrDataSize PtrSize t else acc)
end

/-- A `for i := 0; i < n; i++` loop that applies `f` at the offsets `off`,
`off + step`, and so on. -/
def forOffsets {α : Type} (f : Nat → α → Option α) : Nat → Nat → Nat → α → Option α
  | 0, _, _, x => some x
  | n + 1, off, step, x =>
    match f off x with
    | none => none
    | some y => forOffsets f n (off + step) step y

mutual
/-- Modelled from the spec: `onebitwalktype1` (liveness analysis), which is not
among the sources: sets in `bv` the bit of every word of a value of type `t` at
offset `off` that holds a pointer. `none` is `base.Fatalf`. -/
def onebitwalktype1 (PtrSize : Nat) : Typ → Nat → BitVec → Option BitVec
  | .leaf k w a nih, off, bv =>
    if a > 0 ∧ off &&& (a - 1) ≠ 0 then none
    else if !(Typ.leaf k w a nih).HasPointers then some bv
    else match k with
      | .TPTR | .TUNSAFEPTR | .TFUNC | .TCHAN | .TMAP | .TSTRING | .TSLICE =>
        if off &&& (PtrSize - 1) ≠ 0 then none
        else bv.Set (toInt32 (off / PtrSize))
      | .TINTER =>
        if off &&& (PtrSize - 1) ≠ 0 then none
        else bv.Set (toInt32 (off / PtrSize + 1))
      | _ => none
  | .array e n w a, off, bv =>
    if a > 0 ∧ off &&& (a - 1) ≠ 0 then none
    else if !(Typ.array e n w a).HasPointers then some bv
    else if e.Width = 0 then some bv
    else forOffsets (fun o b => onebitwalktype1 PtrSize e o b) n off e.Width bv
  | .struct fs w a, off, bv =>
    if a > 0 ∧ off &&& (a - 1) ≠ 0 then none
    else if !(Typ.struct fs w a).HasPointers then some bv
    else walkFields PtrSize fs off bv
/-- The loop of the `TSTRUCT` case of `onebitwalktype1`. -/
def walkFields (PtrSize : Nat) : FieldList → Nat → BitVec → Option BitVec
  | .nil, _, bv => some bv
  | .cons _ o t rest, off, bv =>
    match onebitwalktype1 PtrSize t (off + o) bv with
    | none => none
    | some bv1 => walkFields PtrSize rest off bv1
end

/-- The loop `for i := int64(0); i < nptr; i++` of `fillptrmask`: sets bit `i % 8`
of `ptrmask[i/8]` when `vec.Get(int32(i))`. `none` is a fatal error or an index
out of range. -/
def fillLoop (vec : BitVec) : Nat → List Nat → Option (List Nat)
  | 0, ptrmask => some ptrmask
  | i + 1, ptrmask =>
    (fillLoop vec i ptrmask).bind fun pm =>
      (vec.Get (toInt32 i)).bind fun b =>
        if b then
          if i / 8 < pm.length then
            some (pm.set (i / 8) (pm.getD (i / 8) 0 ||| 1 <<< (i % 8)))
          else none
        else some pm

/-- The function `fillptrmask`: fills in `ptrmask` with 1s corresponding to the
word offsets in `t` that hold pointers; the result is the slice afterwards. -/
def fillptrmask (PtrSize : Nat) (t : Typ) (ptrmask : List Nat) : Option (List Nat) :=
  let ptrmask0 := ptrmask.map (fun _ => 0)
  if !t.HasPointers then some ptrmask0
  else
    (BitVec.New (toInt32 (8 * toInt32 ptrmask0.length))).bind fun vec0 =>
      (onebitwalktype1 PtrSize t 0 vec0).bind fun vec =>
        fillLoop vec (PtrDataSize PtrSize t / PtrSize) ptrmask0

/-- The pointer mask that `dgcptrmask` computes for `t`: `fillptrmask` applied to
a new slice of `(PtrDataSize(t)/PtrSize + 7) / 8` bytes. -/
def dgcptrmaskBytes (PtrSize : Nat) (t : Typ) : Option (List Nat) :=
  fillptrmask PtrSize t (List.replicate ((PtrDataSize PtrSize t / PtrSize + 7) / 8) 0)

/-- The instructions of a GC program: a literal bit (1 for a pointer word), and
`repeat the last n words c times`. -/
inductive GCInstr
  | lit (b : Bool)
  | rep (n c : Nat)
  deriving DecidableEq, Repr

/-- Modelled from the spec: the type `gcprog.Writer` of `cmd/internal/gcprog`,
which is not among the sources: the index of the next word to describe and the
instructions emitted so far. -/
structure Writer where
  index : Nat
  prog : List GCInstr
  deriving DecidableEq, Repr

/-- The writer after `Init`. -/
def Writer.init : Writer := ⟨0, []⟩

/-- The writer's `lit`: one literal bit. -/
def Writer.lit (w : Writer) (b : Bool) : Writer := ⟨w.index + 1, w.prog ++ [.lit b]⟩

/-- Modelled from the spec: `(*gcprog.Writer).ShouldRepeat`: whether to describe
`c` elements of `n` words each by a repetition. -/
def ShouldRepeat (n c : Nat) : Bool := decide (c > 1) && decide (c * n > 4 * 8)

/-- Modelled from the spec: `(*gcprog.Writer).Repeat`: emits the instruction to
repeat the last `n` words `c` times; nothing for `n == 0` or `c == 0`. -/
def Writer.Repeat (w : Writer) (n c : Nat) : Writer :=
  if n = 0 ∨ c = 0 then w else ⟨w.index + n * c, w.prog ++ [.rep n c]⟩

/-- `skip` literal zero bits. -/
def Writer.zeros (w : Writer) : Nat → Writer
  | 0 => w
  | skip + 1 => (w.lit false).zeros skip

/-- Modelled from the spec: `(*gcprog.Writer).ZeroUntil`: adds zero bits until the
given index, as literals when there are fewer than 32 and else as one zero bit
repeated; panics when the index lies behind the writer. -/
def Writer.ZeroUntil (w : Writer) (index : Nat) : Option Writer :=
  if index < w.index then none
  else
    let skip := index - w.index
    if skip = 0 then some w
    else if skip < 4 * 8 then some (w.zeros skip)
    else some ((w.lit false).Repeat 1 (skip - 1))

/-- Modelled from the spec: `(*gcprog.Writer).Ptr`: emits a 1 at the given index
after zero bits up to it; panics when the index lies behind the writer. -/
def Writer.Ptr (w : Writer) (index : Nat) : Option Writer :=
  if index < w.index then none
  else match w.ZeroUntil index with
    | none => none
    | some w1 => some (w1.lit true)

/-- The loop of `GCProg.emit` that flattens an array of arrays:
`for elem.IsArray() { count *= elem.NumElem(); elem = elem.Elem() }`. -/
def flattenArray : Nat → Typ → Nat × Typ
  | count, .array e n _ _ => flattenArray (count * n) e
  | count, t => (count, t)

mutual
/-- The method `GCProg.emit`; the program `p` is given by its writer `p.w`. `none`
is `base.Fatalf` or a panic of the writer. -/
def GCProg.emit (PtrSize : Nat) (t : Typ) (offset : Nat) (w : Writer) : Option Writer :=
  if !t.HasPointers then some w
  else if t.Width = PtrSize then w.Ptr (offset / PtrSize)
  else match t with
    | .leaf k _ _ _ =>
      match k with
      | .TSTRING => w.Ptr (offset / PtrSize)
      | .TINTER => w.Ptr (offset / PtrSize + 1)
      | .TSLICE => w.Ptr (offset / PtrSize)
      | _ => none
    | .array e n _ _ =>
      if n = 0 then none
      else
        let count := (flattenArray n e).1
        let elem := (flattenArray n e).2
        if !ShouldRepeat (elem.Width / PtrSize) count then
          forOffsets (fun o w1 => GCProg.emit PtrSize elem o w1) count offset elem.Width w
        else
          match GCProg.emit PtrSize elem offset w with
          | none => none
          | some w1 =>
            match w1.ZeroUntil ((offset + elem.Width) / PtrSize) with
            | none => none
            | some w2 => some (w2.Repeat (elem.Width / PtrSize) (count - 1))
    | .struct fs _ _ => GCProg.emitFields PtrSize fs offset w
termination_by sizeOf t
decreasing_by
  all_goals simp_wf
  all_goals first
    | omega
    | (have key : ∀ (k : Nat) (u : Typ) (c : Nat), sizeOf u ≤ k →
          sizeOf (flattenArray c u).2 ≤ sizeOf u := by
        intro k
        induction k with
        | zero => intro u c hu; cases u <;> simp at hu
        | succ k ih =>
          intro u c hu
          cases u with
          | leaf _ _ _ _ => simp [flattenArray]
          | struct _ _ _ => simp [flattenArray]
          | array e1 n1 w1 a1 =>
            simp only [Typ.array.sizeOf_spec] at hu
            have := ih e1 (c * n1) (by omega)
            simp only [flattenArray, Typ.array.sizeOf_spec]
            omega
       refine Nat.lt_of_le_of_lt (key _ _ _ (le_refl _)) ?_
       omega)
/-- The loop of the `TSTRUCT` case of `GCProg.emit`. -/
def GCProg.emitFields (PtrSize : Nat) (fs : FieldList) (offset : Nat) (w : Writer) :
    Option Writer :=
  match fs with
  | .nil => some w
  | .cons _ o t rest =>
    match GCProg.emit PtrSize t (offset + o) w with
    | none => none
    | some w1 => GCProg.emitFields PtrSize rest offset w1
termination_by sizeOf fs
decreasing_by
  all_goals simp_wf
  all_goals omega
end

/-- What follows from repeating the last `n` bits of `acc` `c` times. -/
def repeatLast (n : Nat) : Nat → List Bool → List Bool
  | 0, acc => acc
  | c + 1, acc => repeatLast n c (acc ++ acc.drop (acc.length - n))

/-- Modelled from the spec: the expansion of a GC program (done by the runtime,
which is not among the sources): a literal bit is appended, and a repetition
appends the last `n` bits `c` times. -/
def expand (prog : List GCInstr) : List Bool :=
  prog.foldl (fun acc i =>
    match i with
    | .lit b => acc ++ [b]
    | .rep n c => repeatLast n c acc) []

/-- Bit `i` of a pointer mask: bit `i % 8` of byte `i / 8`. -/
def maskBit (mask : List Nat) (i : Nat) : Bool := (mask.getD (i / 8) 0).testBit (i % 8)

/-- The alignments of sized types: 1, 2, 4 or 8. -/
def validAlign (a : Nat) : Bool := a == 1 || a == 2 || a == 4 || a == 8

mutual
/-- The types laid out regularly, as `types.CalcSize` leaves them: alignments are
1, 2, 4 or 8 and divide the width; pointer-shaped types are one pointer wide and
pointer-aligned, strings and interfaces two words, slices three; an array is as
wide as its elements together and aligned like them; the fields of a struct
follow one another without overlap inside the struct, each at a multiple of its
alignment, which divides the alignment of the struct. -/
def Typ.Sized (PtrSize : Nat) : Typ → Bool
  | .leaf k w a _ =>
    validAlign a && w % a == 0 &&
    (match k with
     | .TPTR | .TUNSAFEPTR | .TFUNC | .TCHAN | .TMAP => w == PtrSize && a == PtrSize
     | .TSTRING | .TINTER => w == 2 * PtrSize && a == PtrSize
     | .TSLICE => w == 3 * PtrSize && a == PtrSize
     | _ => true)
  | .array e n w a => e.Sized PtrSize && w == n * e.Width && a == e.Align
  | .struct fs w a => validAlign a && w % a == 0 && fs.Sized PtrSize 0 w a
/-- The fields of a struct of width `w` and alignment `a`, the earlier fields
ending at `lo`. -/
def FieldList.Sized (PtrSize : Nat) : FieldList → Nat → Nat → Nat → Bool
  | .nil, lo, w, _ => decide (lo ≤ w)
  | .cons _ off t rest, lo, w, a =>
    t.Sized PtrSize && decide (lo ≤ off) && off % t.Align == 0 && a % t.Align == 0 &&
      rest.Sized PtrSize (off + t.Width) w a
end

mutual
/-- Whether word `j` of a value of the type holds a pointer: the pointer mask of
the type, word by word. -/
def Typ.isPtrWord (PtrSize : Nat) : Typ → Nat → Bool
  | .leaf k w a nih, j =>
    (Typ.leaf k w a nih).HasPointers && (match k with | .TINTER => j == 1 | _ => j == 0)
  | .array e n _ _, j =>
    decide (n ≠ 0) && e.HasPointers && decide (j < n * (e.Width / PtrSize)) &&
      e.isPtrWord PtrSize (j % (e.Width / PtrSize))
  | .struct fs _ _, j => fs.isPtrWord PtrSize j
/-- Whether word `j` of a struct with these fields holds a pointer. -/
def FieldList.isPtrWord (PtrSize : Nat) : FieldList → Nat → Bool
  | .nil, _ => false
  | .cons _ off t rest, j =>
    (t.HasPointers && decide (off / PtrSize ≤ j) && t.isPtrWord PtrSize (j - off / PtrSize))
      || rest.isPtrWord PtrSize j
end

/-- The bits of a GC program are in step with the writer's index. -/
def Writer.Inv (w : Writer) : Prop := w.index = (expand w.prog).length

/-! ## Writers and their bits -/

/-- The bits of the GC program written so far. -/
def Writer.bits (w : Writer) : List Bool := expand w.prog

/-- The writer `w1` continues `w`: it keeps the bits of `w`, and each word it adds
from index `base` on is a pointer word exactly when `isPtr` says so of its
distance from `base` (the words before `base` are zero). -/
def Writer.Extends (isPtr : Nat → Bool) (base : Nat) (w w1 : Writer) : Prop :=
  w1.Inv ∧ w.index ≤ w1.index ∧
  (∀ i, i < w.index → w1.bits.getD i false = w.bits.getD i false) ∧
  ∀ i, w.index ≤ i → i < w1.index →
    w1.bits.getD i false = (decide (base ≤ i) && isPtr (i - base))

/-! ## The contract of `GCProg.emit` -/

/-- What `GCProg.emit` does with a type that has pointers, at an offset that is a
multiple of the pointer size and not behind the writer: it continues the writer
with the pointer words of the type and stops between the end of the pointer data
and the end of the type. -/
def EmitSpec (P : Nat) (f : Nat → Writer → Option Writer) (isPtr : Nat → Bool)
    (PD W : Nat) : Prop :=
  ∀ (offset : Nat) (w : Writer), w.Inv → P ∣ offset → w.index * P ≤ offset →
    ∃ w1, f offset w = some w1 ∧ Writer.Extends isPtr (offset / P) w w1 ∧
      offset + PD ≤ w1.index * P ∧ w1.index * P ≤ offset + W

/-- What the loop over the fields of a struct does, the earlier fields ending at
`lo`. -/
def EmitFieldsSpec (P : Nat) (fs : FieldList) (lo W : Nat) : Prop :=
  ∀ (offset : Nat) (w : Writer), w.Inv → P ∣ offset → w.index * P ≤ offset + lo →
    ∃ w1, GCProg.emitFields P fs offset w = some w1 ∧
      Writer.Extends (fs.isPtrWord P) (offset / P) w w1 ∧
      w1.index * P ≤ offset + W ∧
      (fs.HasPointers = true → ∀ acc, offset + fs.PtrDataEnd P acc ≤ w1.index * P)

/-! ## The contract of `onebitwalktype1` -/

/-- What `onebitwalktype1` does at an aligned offset when the pointer words fit in
the vector: it sets the bits of the pointer words. -/
def WalkSpec (P : Nat) (f : Nat → BitVec → Option BitVec) (isPtr : Nat → Bool) (A : Nat) :
    Prop :=
  ∀ (off : Nat) (bv : BitVec), A ∣ off → bv.N < 2 ^ 31 →
    (∀ j, isPtr j = true → off / P + j < bv.N) →
    ∃ bv1, f off bv = some bv1 ∧ bv1.N = bv.N ∧
      ∀ i, bv1.B.getD i false = (bv.B.getD i false || (decide (off / P ≤ i) && isPtr (i - off / P)))

/-! ## Example types for the pointer masks -/

/-- The type `[40]*T` on a machine with pointers of 8 bytes. -/
def ptrArray40 : Typ := .array (.leaf .TPTR 8 8 false) 40 320 8

/-- The type `[1 << 31]*T` on a machine with pointers of 8 bytes. -/
def hugePtrArray : Typ := .array (.leaf .TPTR 8 8 false) (2 ^ 31) (2 ^ 31 * 8) 8

/-! ## Layout of the string section -/

/-- The string `s` is stored at offset `o` of the string section: the section
holds there the uvarint encoding of `len(s)` and, right after it, the bytes of
`s`. -/
def iexporter.StoredAt (p : iexporter) (s : List Nat) (o : Nat) : Prop :=
  (PutUvarint s.length ++ s) <+: p.strings.buf.drop o

/-! ## Example map types -/

/-- The type `uintptr`. -/
def uintptrType (PtrSize : Nat) : Typ := .leaf .TUINTPTR PtrSize PtrSize false

/-- The type `unsafe.Pointer`. -/
def unsafePointerType (PtrSize : Nat) : Typ := .leaf .TUNSAFEPTR PtrSize PtrSize false

/-- The map type `map[[200]uint8]int64` on a 64-bit target, bucket not yet built. -/
def mapBigKeyInt64 : MapType :=
  { Key := NewArray (.leaf .TUINT8 1 1 false) 200, Elem := .leaf .TINT64 8 8 false,
    keyNotInHeap := false, elemNotInHeap := false, keyComparable := true, Bucket := none }

/-- The bucket of `map[string]int64` on a 64-bit target. -/
def mapStringInt64Bucket : Typ :=
  .struct
    (.cons "topbits" 0 (NewArray (.leaf .TUINT8 1 1 false) 8)
      (.cons "keys" 8 (NewArray (.leaf .TSTRING 16 8 false) 8)
        (.cons "elems" 136 (NewArray (.leaf .TINT64 8 8 false) 8)
          (.cons "overflow" 200 (.leaf .TUNSAFEPTR 8 8 false) .nil))))
    208 8

/-! ## The export session (`iexporter`, `pushDecl`, `doDecl`) -/

/-- A package `*types.Pkg`: `id` stands for the pointer, so two packages are the
same exactly when all their fields are. Strings are byte sequences. -/
structure Pkg where
  id : Nat
  Path : List Nat
  Name : List Nat
  Height : Nat
  deriving DecidableEq, Repr

/-- A symbol `*types.Sym` as the exporter reads it: its name and package. -/
structure ix.Sym where
  Name : List Nat
  Pkg : Pkg
  deriving DecidableEq, Repr

/-- A declaration node `ir.Node` as `pushDecl` reads it: `id` stands for the
pointer, `Sym` is `n.Sym()` (`none` for nil), `defIsSelf` is
`ir.AsNode(n.Sym().Def) == n` and `isOTYPE` is `n.Op() == ir.OTYPE`. -/
structure ix.Node where
  id : Nat
  Sym : Option ix.Sym
  defIsSelf : Bool
  isOTYPE : Bool
  deriving DecidableEq, Repr

/-- The package-level variables and the helpers of other packages that the
exporter reads: `ir.LocalPkg`, `ir.BuiltinPkg`, `unsafepkg`, `types.IsExported`
and `ir.OrigSym`, none of which is among the sources. -/
structure ix.Globals where
  LocalPkg : Pkg
  BuiltinPkg : Pkg
  unsafepkg : Pkg
  IsExported : List Nat → Bool
  OrigSym : Option ix.Sym → Option ix.Sym

/-- An assignment `m[k] = v` to a Go map kept as a list of its entries: an
existing entry of `k` is replaced, a new one is added. -/
def ix.mapSet {κ ν : Type} [DecidableEq κ] (m : List (κ × ν)) (k : κ) (v : ν) :
    List (κ × ν) :=
  if (m.lookup k).isSome then m.map (fun e => if e.1 = k then (k, v) else e)
  else m ++ [(k, v)]

/-- The type `iexporter` in full: `strtab` holds the fields `strings` and
`stringIndex`; the maps are lists of their entries, `typIndex` is keyed by the
identity of the type, and `declTodo` is the queue from left to right. -/
structure ix.iexporter where
  allPkgs : List Pkg
  declTodo : List ix.Node
  strtab : gc.iexporter
  data0 : intWriter
  declIndex : List (ix.Node × Nat)
  inlineIndex : List (ix.Node × Nat)
  typIndex : List (Nat × Nat)
  deriving DecidableEq, Repr

/-- The type `exportWriter` in full: the exporter `p` (shared by all writers, so
passed along), the object's `data`, the current package and the previous
position. -/
structure ix.exportWriter where
  p : ix.iexporter
  data : intWriter
  currPkg : Option Pkg
  prevFile : List Nat
  prevLine : Int
  prevColumn : Int
  deriving DecidableEq, Repr

/-- The value `^uint64(0)` that marks a declaration as present in the work
queue. -/
def ix.placeholder : Nat := 2 ^ 64 - 1

/-- The method `iexporter.pushDecl`: adds `n` to the declaration work queue, if
not already present. `none` is `base.Fatalf`. -/
def ix.iexporter.pushDecl (g : ix.Globals) (p : ix.iexporter) (n : ix.Node) :
    Option ix.iexporter :=
  match n.Sym with
  | none => none
  | some s =>
    if !n.defIsSelf && !n.isOTYPE then none
    else if s.Pkg = g.BuiltinPkg ∨ s.Pkg = g.unsafepkg then some p
    else if (p.declIndex.lookup n).isSome then some p
    else some { p with declIndex := ix.mapSet p.declIndex n ix.placeholder,
                       declTodo := p.declTodo ++ [n] }

/-- The method `iexporter.newWriter`. -/
def ix.iexporter.newWriter (p : ix.iexporter) : ix.exportWriter :=
  { p := p, data := ⟨[]⟩, currPkg := none, prevFile := [], prevLine := 0, prevColumn := 0 }

/-- The method `exportWriter.flush`: appends the object's data to `data0` and
returns the offset at which it starts (a length, so its conversion to `uint64`
is exact), together with the exporter afterwards. -/
def ix.exportWriter.flush (w : ix.exportWriter) : Nat × ix.iexporter :=
  (w.p.data0.Len, { w.p with data0 := w.p.data0.Write w.data.buf })

/-- The method `iexporter.doDecl`. What lies between `p.newWriter()` and
`w.flush()` (the switch over the kind of declaration, which writes the
declaration into the writer) is given by `body`, which returns the writer before
the flush, or `none` for `base.Fatalf`. -/
def ix.iexporter.doDecl (body : ix.Node → ix.exportWriter → Option ix.exportWriter)
    (p : ix.iexporter) (n : ix.Node) : Option ix.iexporter :=
  match body n p.newWriter with
  | none => none
  | some w => some { w.flush.2 with declIndex := ix.mapSet w.flush.2.declIndex n w.flush.1 }

/-- The loop `for _, n := range exportlist { p.pushDecl(n) }` of `iexport`. -/
def ix.pushAll (g : ix.Globals) : ix.iexporter → List ix.Node → Option ix.iexporter
  | p, [] => some p
  | p, n :: rest =>
    match p.pushDecl g n with
    | none => none
    | some p1 => ix.pushAll g p1 rest

/-- The loop `for !p.declTodo.Empty() { p.doDecl(p.declTodo.PopLeft()) }` of
`iexport`, run for at most `fuel` declarations; the result is the exporter when
the queue is empty and the declarations that `doDecl` ran on, in order. `none`
is `base.Fatalf`, or a queue that is not empty when the fuel is used up. -/
def ix.declLoop (body : ix.Node → ix.exportWriter → Option ix.exportWriter) :
    Nat → ix.iexporter → List ix.Node → Option (ix.iexporter × List ix.Node)
  | 0, p, done => if p.declTodo = [] then some (p, done) else none
  | fuel + 1, p, done =>
    match p.declTodo with
    | [] => some (p, done)
    | n :: rest =>
      match ix.iexporter.doDecl body { p with declTodo := rest } n with
      | none => none
      | some p1 => ix.declLoop body fuel p1 (done ++ [n])

/-- The exporter state `q` comes from `p` by calls of `pushDecl` and by changes to
fields other than `declIndex` and `declTodo`: what the writer methods reached
from `doDecl` do to the exporter. -/
inductive ix.PushReach (g : ix.Globals) (U : List ix.Node) :
    ix.iexporter → ix.iexporter → Prop
  | refl (p : ix.iexporter) : ix.PushReach g U p p
  | other (p q r : ix.iexporter) : ix.PushReach g U p q → r.declIndex = q.declIndex →
      r.declTodo = q.declTodo → ix.PushReach g U p r
  | push (p q r : ix.iexporter) (n : ix.Node) : ix.PushReach g U p q → n ∈ U →
      q.pushDecl g n = some r → ix.PushReach g U p r

/-- The declaration `n` is not predeclared: it has a symbol, and the symbol's
package is neither the builtin package nor package unsafe. -/
def ix.Exportable (g : ix.Globals) (n : ix.Node) : Prop :=
  ∃ s, n.Sym = some s ∧ s.Pkg ≠ g.BuiltinPkg ∧ s.Pkg ≠ g.unsafepkg

/-- Invariant of the export session while the declarations `cur` are being
written (none or one) and `done` have been written: no declaration is twice in
the queue, written or being written; `declIndex` has one entry for each of them
and no other; the queued declarations hold the placeholder and the written ones
hold an offset. -/
def ix.QueueInv (g : ix.Globals) (U : List ix.Node) (p : ix.iexporter)
    (done cur : List ix.Node) : Prop :=
  (p.declTodo ++ done ++ cur).Nodup ∧
  (p.declIndex.map Prod.fst).Nodup ∧
  (∀ n, n ∈ p.declIndex.map Prod.fst ↔ n ∈ p.declTodo ∨ n ∈ done ∨ n ∈ cur) ∧
  (∀ n ∈ p.declTodo, p.declIndex.lookup n = some ix.placeholder) ∧
  (∀ n ∈ done, ∃ off, p.declIndex.lookup n = some off ∧ off ≠ ix.placeholder) ∧
  (∀ n ∈ p.declIndex.map Prod.fst, ix.Exportable g n ∧ n ∈ U)

/-! ## An example export session -/

/-- Example globals: the local package `p`, the builtin package and package
`unsafe`; every name counts as exported and `OrigSym` is the identity. -/
def ix.exampleGlobals : ix.Globals :=
  { LocalPkg := ⟨0, [112], [112], 0⟩, BuiltinPkg := ⟨1, [], [], 0⟩,
    unsafepkg := ⟨2, [117, 110, 115, 97, 102, 101], [117, 110, 115, 97, 102, 101], 0⟩,
    IsExported := fun _ => true, OrigSym := fun s => s }

/-- The declaration of a variable `A` of the local package. -/
def ix.nodeA : ix.Node := ⟨10, some ⟨[65], ⟨0, [112], [112], 0⟩⟩, true, false⟩

/-- The exporter as `iexport` creates it, before the predeclared types are
entered into `typIndex`. -/
def ix.iexporter.empty : ix.iexporter :=
  { allPkgs := [], declTodo := [], strtab := iexporter.init, data0 := ⟨[]⟩, declIndex := [],
    inlineIndex := [], typIndex := [] }

/-- An example of the writing of a declaration: nothing is written, unless the
data section has reached `2^63` bytes, which no buffer can hold. -/
def ix.exampleBody (_ : ix.Node) (w : ix.exportWriter) : Option ix.exportWriter :=
  if w.p.data0.Len < 2 ^ 63 then some w else none

/-! ## The object index (`exportWriter.writeIndex`) -/

/-- The order `<` of Go strings: byte-wise lexicographic. -/
def strLess : List Nat → List Nat → Bool
  | [], [] => false
  | [], _ :: _ => true
  | _ :: _, [] => false
  | a :: as, b :: bs => decide (a < b) || (a == b && strLess as bs)

/-- The name `n.Sym().Name` of a declaration (empty without a symbol). -/
def ix.Node.name (n : ix.Node) : List Nat := (n.Sym.map (fun s => s.Name)).getD []

/-- What the run-time system and package `sort` contribute to `writeIndex`, none
of it among the sources: the order in which a `range` loop visits the entries of
each of the three maps, and the results of the two calls of `sort.Slice`. -/
structure ix.Lib where
  rangePkgs : List Pkg → List Pkg
  rangeIndex : List (ix.Node × Nat) → List (ix.Node × Nat)
  rangePkgObjs : List (Pkg × List ix.Node) → List (Pkg × List ix.Node)
  sortObjs : List ix.Node → List ix.Node
  sortPkgs : List Pkg → List Pkg

/-- Modelled from the spec: the contract of `range` over a map (every entry is
visited once, in an unspecified order) and of `sort.Slice` (the slice is
permuted so that no element is less than an earlier one), neither among the
sources. -/
def ix.Lib.Ok (lib : ix.Lib) : Prop :=
  (∀ l, (lib.rangePkgs l).Perm l) ∧ (∀ l, (lib.rangeIndex l).Perm l) ∧
  (∀ l, (lib.rangePkgObjs l).Perm l) ∧
  (∀ l, (lib.sortObjs l).Perm l ∧
    (lib.sortObjs l).Pairwise (fun a b => strLess b.name a.name = false)) ∧
  (∀ l, (lib.sortPkgs l).Perm l ∧
    (lib.sortPkgs l).Pairwise (fun a b => strLess b.Path a.Path = false))

/-- The value `pkgObjs[k]` (nil for a missing key). -/
def ix.objsGet (m : List (Pkg × List ix.Node)) (k : Pkg) : List ix.Node :=
  (m.lookup k).getD []

/-- The method `exportWriter.uint64` of the full writer. -/
def ix.exportWriter.uint64 (w : ix.exportWriter) (x : Nat) : ix.exportWriter :=
  { w with data := w.data.uint64 x }

/-- The method `exportWriter.string` of the full writer:
`w.uint64(w.p.stringOff(s))`. -/
def ix.exportWriter.string (w : ix.exportWriter) (s : List Nat) : ix.exportWriter :=
  ix.exportWriter.uint64 { w with p := { w.p with strtab := (w.p.strtab.stringOff s).2 } }
    (w.p.strtab.stringOff s).1

/-- The first part of `writeIndex`: the map `pkgObjs` from packages to the
objects from that package, after the loop over `index`. `none` is the panic of
`n.Sym().Pkg` for a declaration without symbol. -/
def ix.buildPkgObjs (g : ix.Globals) (lib : ix.Lib) (allPkgs : List Pkg)
    (index : List (ix.Node × Nat)) (mainIndex : Bool) : Option (List (Pkg × List ix.Node)) :=
  let pkgObjs0 : List (Pkg × List ix.Node) :=
    if mainIndex then
      (lib.rangePkgs allPkgs).foldl (fun m pkg => ix.mapSet m pkg []) (ix.mapSet [] g.LocalPkg [])
    else []
  (lib.rangeIndex index).foldl (fun (om : Option (List (Pkg × List ix.Node))) e =>
    match om, e.1.Sym with
    | some m, some s => some (ix.mapSet m s.Pkg (ix.objsGet m s.Pkg ++ [e.1]))
    | _, _ => none) (some pkgObjs0)

/-- The second part of `writeIndex`: the sorted slice `pkgs`, each package with
its sorted slice `pkgObjs[pkg]`. -/
def ix.indexEntries (lib : ix.Lib) (pkgObjs : List (Pkg × List ix.Node)) :
    List (Pkg × List ix.Node) :=
  let sorted := pkgObjs.map (fun e => (e.1, lib.sortObjs e.2))
  let pkgs := lib.sortPkgs ((lib.rangePkgObjs pkgObjs).map Prod.fst)
  pkgs.map (fun pkg => (pkg, ix.objsGet sorted pkg))

/-- The loop `for _, n := range objs` of `writeIndex`: the name and the offset
`index[n]` of each object. -/
def ix.exportWriter.writeObjs (w : ix.exportWriter) (index : List (ix.Node × Nat)) :
    List ix.Node → ix.exportWriter
  | [] => w
  | n :: rest =>
    ix.exportWriter.writeObjs ((w.string n.name).uint64 ((index.lookup n).getD 0)) index rest

/-- The loop `for _, pkg := range pkgs` of `writeIndex`: the path of each package,
in the main index also its name and height, and its objects preceded by their
number. -/
def ix.exportWriter.writePkgs (w : ix.exportWriter) (index : List (ix.Node × Nat))
    (mainIndex : Bool) : List (Pkg × List ix.Node) → ix.exportWriter
  | [] => w
  | (pkg, objs) :: rest =>
    let w1 := w.string pkg.Path
    let w2 := if mainIndex then (w1.string pkg.Name).uint64 pkg.Height else w1
    let w3 := w2.uint64 objs.length
    ix.exportWriter.writePkgs (w3.writeObjs index objs) index mainIndex rest

/-- The method `exportWriter.writeIndex`: writes out an object index; `index` is
the map as a list of its entries. -/
def ix.exportWriter.writeIndex (g : ix.Globals) (lib : ix.Lib) (w : ix.exportWriter)
    (index : List (ix.Node × Nat)) (mainIndex : Bool) : Option ix.exportWriter :=
  match ix.buildPkgObjs g lib w.p.allPkgs index mainIndex with
  | none => none
  | some pkgObjs =>
    let entries := ix.indexEntries lib pkgObjs
    some ((w.uint64 entries.length).writePkgs index mainIndex entries)

/-- The packages that an index lists: in the main index the local package and
every package referenced during the export, and in every index the packages of
the declarations in it. -/
def ix.IndexPkg (g : ix.Globals) (allPkgs : List Pkg) (index : List (ix.Node × Nat))
    (mainIndex : Bool) (pkg : Pkg) : Prop :=
  (mainIndex = true ∧ (pkg = g.LocalPkg ∨ pkg ∈ allPkgs)) ∨
    ∃ e ∈ index, ∃ s, e.1.Sym = some s ∧ s.Pkg = pkg

/-- The declarations of a package in an index. -/
def ix.IndexObj (index : List (ix.Node × Nat)) (pkg : Pkg) (n : ix.Node) : Prop :=
  n ∈ index.map Prod.fst ∧ ∃ s, n.Sym = some s ∧ s.Pkg = pkg

/-! ## The map `pkgObjs` of `writeIndex` -/

/-- Invariant of the map `pkgObjs` after the packages `K` were entered and the
declarations `ns` were appended: its keys are `K` and the packages of `ns`, and
the value of a package is the list of its declarations among `ns`, in order. -/
def ix.PkgObjsInv (m : List (Pkg × List ix.Node)) (K : List Pkg) (ns : List ix.Node) : Prop :=
  (m.map Prod.fst).Nodup ∧
  (∀ pkg, pkg ∈ m.map Prod.fst ↔ pkg ∈ K ∨ ∃ n ∈ ns, ∃ s, n.Sym = some s ∧ s.Pkg = pkg) ∧
  ∀ pkg, ix.objsGet m pkg = ns.filter (fun n => decide (n.Sym.map (fun s => s.Pkg) = some pkg))

/-! ## An example of the library functions of `writeIndex` -/

/-- An example of the library functions: `range` visits the declarations from the
last to the first and the other maps from the first entry to the last, and
`sort.Slice` is an insertion sort. -/
def ix.exampleLib : ix.Lib :=
  { rangePkgs := fun l => l, rangeIndex := fun l => l.reverse, rangePkgObjs := fun l => l,
    sortObjs := fun l => l.insertionSort (fun a b => strLess b.name a.name = false),
    sortPkgs := fun l => l.insertionSort (fun a b => strLess b.Path a.Path = false) }

/-- The declaration of a variable `B` of the local package. -/
def ix.nodeB : ix.Node := ⟨11, some ⟨[66], ⟨0, [112], [112], 0⟩⟩, true, false⟩

/-- The example library functions with another order of map iteration. -/
def ix.exampleLib2 : ix.Lib := { ix.exampleLib with rangeIndex := fun l => l }

/-- An example index: the declarations `B` and `A` of the local package. -/
def ix.exampleIndex : List (ix.Node × Nat) := [(ix.nodeB, 7), (ix.nodeA, 3)]

/-! ## The function `iexport` -/

/-- The constant `iexportVersion`. -/
def iexportVersion : Nat := 1

/-- The constant `predeclReserved`. -/
def predeclReserved : Nat := 32

/-- The exporter as `iexport` sets it up: empty maps, and `typIndex` the index of
each predeclared type in the list `predeclared()` (of `bexport.go`, not among the
sources; the types are given by their identities). `none` is the
`base.Fatalf` for too many predeclared types. -/
def ix.iexporter.setup (predeclared : List Nat) : Option ix.iexporter :=
  let typIndex := predeclared.enum.foldl (fun m e => ix.mapSet m e.2 e.1) []
  if typIndex.length > predeclReserved then none
  else some { ix.iexporter.empty with typIndex := typIndex }

/-- Modelled from the spec: the fingerprint that `iexport` appends,
`base.Ctxt.Fingerprint` after `copy(base.Ctxt.Fingerprint[:], h.Sum(nil)[:])`.
The type of the fingerprint, an array of 8 bytes, is not among the sources; what
the sum does not fill stays zero. -/
def ix.fingerprint (sum : List Nat) : List Nat := (sum ++ List.replicate 8 0).take 8

/-- The end of `iexport`, from `// Append indices to data0 section.` on: the
bytes written to `out`. `md5` is the hash of `crypto/md5`, which is not among the
sources. -/
def ix.iexportOutput (g : ix.Globals) (lib : ix.Lib) (md5 : List Nat → List Nat)
    (p : ix.iexporter) : Option (List Nat) :=
  let dataLen := p.data0.Len
  match p.newWriter.writeIndex g lib p.declIndex true with
  | none => none
  | some w1 =>
    match w1.writeIndex g lib w1.p.inlineIndex false with
    | none => none
    | some w2 =>
      let p2 := w2.flush.2
      let hdr := (((intWriter.Write ⟨[]⟩ [105]).uint64 iexportVersion).uint64
        p2.strtab.strings.Len).uint64 dataLen
      let body := hdr.buf ++ p2.strtab.strings.buf ++ p2.data0.buf
      some (body ++ ix.fingerprint (md5 body))

/-- The function `iexport`: the bytes written to `out`. The marking of inline
bodies at its start (of `bexport.go`, not among the sources) does not touch the
exporter; `body` is the writing of a declaration in `doDecl`, and the loop over
the queue runs for at most `fuel` declarations. -/
def ix.iexport (g : ix.Globals) (lib : ix.Lib) (md5 : List Nat → List Nat)
    (body : ix.Node → ix.exportWriter → Option ix.exportWriter)
    (predeclared : List Nat) (exportlist : List ix.Node) (fuel : Nat) : Option (List Nat) :=
  match ix.iexporter.setup predeclared with
  | none => none
  | some p =>
    match ix.pushAll g p exportlist with
    | none => none
    | some p0 =>
      match ix.declLoop body fuel p0 [] with
      | none => none
      | some (p1, _) => ix.iexportOutput g lib md5 p1

/-- The writer `w1` continues `w`: it has appended to the data of the object and
to the string section, and has left the rest of the exporter as it was. -/
def ix.exportWriter.Appends (w w1 : ix.exportWriter) : Prop :=
  w.data.buf <+: w1.data.buf ∧ w.p.strtab.strings.buf <+: w1.p.strtab.strings.buf ∧
  w1.p.data0 = w.p.data0 ∧ w1.p.declIndex = w.p.declIndex ∧
  w1.p.inlineIndex = w.p.inlineIndex ∧ w1.p.allPkgs = w.p.allPkgs ∧
  w1.p.declTodo = w.p.declTodo ∧ w1.p.typIndex = w.p.typIndex

/-! ## Type descriptors of the export data (`typOff`, `doTyp`) -/

/-- What the exporter reads of a `*types.Field`: its position (file, line and
column of `f.Pos`), `Sym` (`none` for nil), `Embedded`, `Note` and `IsDDD()`.
The field's type is kept beside it in `ix.Fields`. -/
structure ix.FieldInfo where
  file : List Nat
  line : Int
  column : Int
  Sym : Option ix.Sym
  Embedded : Nat
  Note : List Nat
  IsDDD : Bool
  deriving DecidableEq, Repr

mutual
/-- A `*types.Type` as `doTyp` reads it; `id` stands for the pointer. A type with
`t.Sym != nil` is `defined` (with `typenod(t)`); the others go by `t.Etype`, and
`other` is any kind that `doTyp` has no case for. -/
inductive ix.Typ where
  | defined (id : Nat) (Sym : ix.Sym) (nod : ix.Node)
  | ptr (id : Nat) (Elem : ix.Typ)
  | slice (id : Nat) (Elem : ix.Typ)
  | array (id : Nat) (NumElem : Nat) (Elem : ix.Typ)
  | chan (id : Nat) (ChanDir : Nat) (Elem : ix.Typ)
  | map (id : Nat) (Key : ix.Typ) (Elem : ix.Typ)
  | func (id : Nat) (Pkg : Option Pkg) (Params : ix.Fields) (Results : ix.Fields)
  | struct (id : Nat) (Pkg : Option Pkg) (Fields : ix.Fields)
  | inter (id : Nat) (Pkg : Option Pkg) (Methods : ix.Fields)
  | other (id : Nat)
/-- A slice of fields `[]*types.Field`, each with its type. -/
inductive ix.Fields where
  | nil
  | cons (f : ix.FieldInfo) (typ : ix.Typ) (rest : ix.Fields)
end

/-- The identity of a type (its pointer), the key of `typIndex`. -/
def ix.Typ.id : ix.Typ → Nat
  | .defined id _ _ => id
  | .ptr id _ => id
  | .slice id _ => id
  | .array id _ _ => id
  | .chan id _ _ => id
  | .map id _ _ => id
  | .func id _ _ _ => id
  | .struct id _ _ => id
  | .inter id _ _ => id
  | .other id => id

/-- The number of fields, `len(fs)` or `NumFields()`. -/
def ix.Fields.NumFields : ix.Fields → Nat
  | .nil => 0
  | .cons _ _ rest => rest.NumFields + 1

/-- The call `Field(n - 1).IsDDD()` on the last field (`false` for no field,
where the exporter does not make the call). -/
def ix.Fields.lastIsDDD : ix.Fields → Bool
  | .nil => false
  | .cons f _ .nil => f.IsDDD
  | .cons _ _ rest => rest.lastIsDDD

/-- The number of interface methods with `m.Sym != nil`, `len(methods)` in
`doTyp`. -/
def ix.Fields.numMethods : ix.Fields → Nat
  | .nil => 0
  | .cons f _ rest => (if f.Sym.isSome then 1 else 0) + rest.numMethods

/-- The number of interface methods with `m.Sym == nil`, `len(embeddeds)` in
`doTyp`. -/
def ix.Fields.numEmbeddeds : ix.Fields → Nat
  | .nil => 0
  | .cons f _ rest => (if f.Sym.isSome then 0 else 1) + rest.numEmbeddeds

/-- The tag `definedType`. -/
def definedType : Nat := 0

/-- The tag `pointerType`. -/
def pointerType : Nat := 1

/-- The tag `sliceType`. -/
def sliceType : Nat := 2

/-- The tag `arrayType`. -/
def arrayType : Nat := 3

/-- The tag `chanType`. -/
def chanType : Nat := 4

/-- The tag `mapType`. -/
def mapType : Nat := 5

/-- The tag `signatureType`. -/
def signatureType : Nat := 6

/-- The tag `structType`. -/
def structType : Nat := 7

/-- The tag `interfaceType`. -/
def interfaceType : Nat := 8

/-- The method `exportWriter.int64` of the full writer. -/
def ix.exportWriter.int64 (w : ix.exportWriter) (x : Int) : ix.exportWriter :=
  { w with data := w.data.int64 x }

/-- The method `exportWriter.bool` of the full writer. -/
def ix.exportWriter.bool (w : ix.exportWriter) (b : Bool) : ix.exportWriter :=
  w.uint64 (if b then 1 else 0)

/-- The method `exportWriter.pos` of the full writer, applied to the position's
file, line and column as `gc.exportWriter.pos` is. -/
def ix.exportWriter.pos (w : ix.exportWriter) (file : List Nat) (line column : Int) :
    ix.exportWriter :=
  let deltaColumn := shl1 (toInt64 (toUint64 (column - w.prevColumn)))
  let deltaLine := shl1 (toInt64 (toUint64 (line - w.prevLine)))
  let deltaLine := if file ≠ w.prevFile then or1 deltaLine else deltaLine
  let deltaColumn := if deltaLine ≠ 0 then or1 deltaColumn else deltaColumn
  let w1 := w.int64 deltaColumn
  let w2 := if lowBit deltaColumn then
      let w3 := w1.int64 deltaLine
      if lowBit deltaLine then w3.string file else w3
    else w1
  { w2 with prevFile := file, prevLine := line, prevColumn := column }

/-- The method `exportWriter.pkg`: records the package in `allPkgs` (a set, kept
as the list of its members) and writes its path. -/
def ix.exportWriter.pkg (w : ix.exportWriter) (pkg : Pkg) : ix.exportWriter :=
  ix.exportWriter.string
    { w with p := { w.p with allPkgs := if pkg ∈ w.p.allPkgs then w.p.allPkgs
                                        else w.p.allPkgs ++ [pkg] } } pkg.Path

/-- The method `exportWriter.qualifiedIdent`: queues the declaration and writes
the name and the package of its symbol. -/
def ix.exportWriter.qualifiedIdent (g : ix.Globals) (w : ix.exportWriter) (n : ix.Node) :
    Option ix.exportWriter :=
  (w.p.pushDecl g n).bind fun p1 =>
    match n.Sym with
    | none => none
    | some s => some ((ix.exportWriter.string { w with p := p1 } s.Name).pkg s.Pkg)

/-- Modelled from the spec: `strings.LastIndex(s, sep)` of package `strings`,
which is not among the sources, for a separator of the one byte `c`: the index
of the last `c` in `s`, or `-1`. -/
def LastIndexByte (s : List Nat) (c : Nat) : Int :=
  if c ∈ s then ((s.length - 1 - s.reverse.indexOf c : Nat) : Int) else -1

/-- The method `exportWriter.selector`; `s` is `none` for a nil symbol, whose
name cannot be read. -/
def ix.exportWriter.selector (g : ix.Globals) (w : ix.exportWriter) (s : Option ix.Sym) :
    Option ix.exportWriter :=
  match w.currPkg with
  | none => none
  | some currPkg =>
    match s with
    | none => none
    | some s =>
      if LastIndexByte s.Name 46 ≥ 0 then
        some (w.string (s.Name.drop ((LastIndexByte s.Name 46).toNat + 1)))
      else if s.Pkg ≠ (if g.IsExported s.Name then g.LocalPkg else currPkg) then none
      else some (w.string s.Name)

/-- Modelled from the spec: `fmt.Sprintf("%s·%d", name, v)` of package `fmt`,
which is not among the sources, for `v > 0`: the name, the two bytes of the
middle dot and the decimal digits of `v`. -/
def sprintfVersion (name : List Nat) (v : Int) : List Nat :=
  name ++ [194, 183] ++ (Nat.toDigits 10 v.toNat).map Char.toNat

/-- The method `exportWriter.localIdent`; `s` is `none` for a nil symbol (an
anonymous parameter). The bytes `.autotmp_` and the middle dot are written
out. -/
def ix.exportWriter.localIdent (g : ix.Globals) (w : ix.exportWriter) (s : Option ix.Sym)
    (v : Int) : Option ix.exportWriter :=
  match s with
  | none => some (w.string [])
  | some s =>
    if s.Name = [95] then some (w.string [95])
    else if LastIndexByte s.Name 46 ≥ 0 ∧
        ¬ [46, 97, 117, 116, 111, 116, 109, 112, 95] <+: s.Name then none
    else if v > 0 ∧ [194, 183] <:+: s.Name then none
    else
      let name := if v > 0 then sprintfVersion s.Name v else s.Name
      if !g.IsExported name && decide (some s.Pkg ≠ w.currPkg) then none
      else some (w.string name)

/-- The method `exportWriter.startType`. -/
def ix.exportWriter.startType (w : ix.exportWriter) (k : Nat) : ix.exportWriter :=
  w.uint64 k

/-- The method `exportWriter.setPkg`; `pkg` is `none` for nil. -/
def ix.exportWriter.setPkg (g : ix.Globals) (w : ix.exportWriter) (pkg : Option Pkg)
    (write : Bool) : ix.exportWriter :=
  { (if write then w.pkg (pkg.getD g.LocalPkg) else w) with
    currPkg := some (pkg.getD g.LocalPkg) }

/-- The body of `iexporter.typOff` for a type with the identity `id`, the call
`w.doTyp(t)` given by `doTyp`: the offset recorded in `typIndex`, or else the
descriptor is written to a new writer and flushed, and `predeclReserved` plus
its offset is recorded. The offset is a length, so the sum does not wrap. -/
def ix.iexporter.typOffWith (doTyp : ix.exportWriter → Option ix.exportWriter) (id : Nat)
    (p : ix.iexporter) : Option (Nat × ix.iexporter) :=
  match p.typIndex.lookup id with
  | some off => some (off, p)
  | none =>
    match doTyp p.newWriter with
    | none => none
    | some w =>
      some (predeclReserved + w.flush.1,
        { w.flush.2 with
          typIndex := ix.mapSet w.flush.2.typIndex id (predeclReserved + w.flush.1) })

/-- The body of `exportWriter.typ`, `w.data.uint64(w.p.typOff(t))`, the call of
`doTyp` inside `typOff` given by `doTyp`. The exporter is shared, so the writer
goes on with the exporter that `typOff` leaves. -/
def ix.exportWriter.typWith (doTyp : ix.exportWriter → Option ix.exportWriter) (id : Nat)
    (w : ix.exportWriter) : Option ix.exportWriter :=
  (w.p.typOffWith doTyp id).bind fun r =>
    some (ix.exportWriter.uint64 { w with p := r.2 } r.1)

/-- The body of `exportWriter.signature`, the two calls of `paramList` given by
`params` and `results`, `n` being `t.Params().NumFields()` and `isDDD` the value
of `t.Params().Field(n - 1).IsDDD()`. -/
def ix.exportWriter.signatureWith (params results : ix.exportWriter → Option ix.exportWriter)
    (n : Nat) (isDDD : Bool) (w : ix.exportWriter) : Option ix.exportWriter :=
  (params w).bind fun w1 =>
    (results w1).bind fun w2 =>
      if n > 0 then some (w2.bool isDDD) else some w2

mutual
/-- The method `exportWriter.doTyp`: writes the descriptor of `t`. The types are
trees, so the calls `w.typ(u)` and `w.signature(u)` on a part `u` of `t` are
written with the bodies `typWith` and `signatureWith`. -/
def ix.exportWriter.doTyp (g : ix.Globals) : ix.Typ → ix.exportWriter → Option ix.exportWriter
  | .defined _ sym nod, w =>
    if sym.Pkg = g.BuiltinPkg ∨ sym.Pkg = g.unsafepkg then none
    else (w.startType definedType).qualifiedIdent g nod
  | .ptr _ elem, w =>
    (w.startType pointerType).typWith (ix.exportWriter.doTyp g elem) elem.id
  | .slice _ elem, w =>
    (w.startType sliceType).typWith (ix.exportWriter.doTyp g elem) elem.id
  | .array _ n elem, w =>
    ((w.startType arrayType).uint64 (n % 2 ^ 64)).typWith (ix.exportWriter.doTyp g elem) elem.id
  | .chan _ dir elem, w =>
    ((w.startType chanType).uint64 dir).typWith (ix.exportWriter.doTyp g elem) elem.id
  | .map _ key elem, w =>
    ((w.startType mapType).typWith (ix.exportWriter.doTyp g key) key.id).bind fun w1 =>
      w1.typWith (ix.exportWriter.doTyp g elem) elem.id
  | .func _ pkg params results, w =>
    ix.exportWriter.signatureWith
      (fun w1 => ix.exportWriter.paramLoop g params (w1.uint64 params.NumFields))
      (fun w1 => ix.exportWriter.paramLoop g results (w1.uint64 results.NumFields))
      params.NumFields params.lastIsDDD ((w.startType signatureType).setPkg g pkg true)
  | .struct _ pkg fields, w =>
    ix.exportWriter.structLoop g fields
      (((w.startType structType).setPkg g pkg true).uint64 fields.NumFields)
  | .inter _ pkg methods, w =>
    (ix.exportWriter.embeddedLoop g methods
      (((w.startType interfaceType).setPkg g pkg true).uint64 methods.numEmbeddeds)).bind fun w1 =>
        ix.exportWriter.methodLoop g methods (w1.uint64 methods.numMethods)
  | .other _, _ => none
/-- The loop `for _, f := range fs { w.param(f) }` of `paramList`, with the body
of `param`: position, name (`ir.OrigSym(f.Sym)`, version 0) and type. -/
def ix.exportWriter.paramLoop (g : ix.Globals) :
    ix.Fields → ix.exportWriter → Option ix.exportWriter
  | .nil, w => some w
  | .cons f t rest, w =>
    (((w.pos f.file f.line f.column).localIdent g (g.OrigSym f.Sym) 0).bind fun w1 =>
      w1.typWith (ix.exportWriter.doTyp g t) t.id).bind fun w2 =>
        ix.exportWriter.paramLoop g rest w2
/-- The loop over the fields of a struct in `doTyp`. -/
def ix.exportWriter.structLoop (g : ix.Globals) :
    ix.Fields → ix.exportWriter → Option ix.exportWriter
  | .nil, w => some w
  | .cons f t rest, w =>
    (((w.pos f.file f.line f.column).selector g f.Sym).bind fun w1 =>
      w1.typWith (ix.exportWriter.doTyp g t) t.id).bind fun w2 =>
        ix.exportWriter.structLoop g rest ((w2.bool (f.Embedded != 0)).string f.Note)
/-- The loop over `embeddeds` in `doTyp`: the methods of the interface with
`m.Sym == nil`, in order. -/
def ix.exportWriter.embeddedLoop (g : ix.Globals) :
    ix.Fields → ix.exportWriter → Option ix.exportWriter
  | .nil, w => some w
  | .cons f t rest, w =>
    if f.Sym.isSome then ix.exportWriter.embeddedLoop g rest w
    else
      ((w.pos f.file f.line f.column).typWith (ix.exportWriter.doTyp g t) t.id).bind fun w1 =>
        ix.exportWriter.embeddedLoop g rest w1
/-- The loop over `methods` in `doTyp`: the methods of the interface with
`m.Sym != nil`, in order. The call `w.signature(f.Type)` on a type that is not a
function is a `base.Fatalf` in `t.Params()`. -/
def ix.exportWriter.methodLoop (g : ix.Globals) :
    ix.Fields → ix.exportWriter → Option ix.exportWriter
  | .nil, w => some w
  | .cons f t rest, w =>
    if f.Sym.isSome then
      (((w.pos f.file f.line f.column).selector g f.Sym).bind fun w1 =>
        match t with
        | .func _ _ params results =>
          ix.exportWriter.signatureWith
            (fun w2 => ix.exportWriter.paramLoop g params (w2.uint64 params.NumFields))
            (fun w2 => ix.exportWriter.paramLoop g results (w2.uint64 results.NumFields))
            params.NumFields params.lastIsDDD w1
        | _ => none).bind fun w3 => ix.exportWriter.methodLoop g rest w3
    else ix.exportWriter.methodLoop g rest w
end

/-- The method `iexporter.typOff`. -/
def ix.iexporter.typOff (g : ix.Globals) (p : ix.iexporter) (t : ix.Typ) :
    Option (Nat × ix.iexporter) :=
  p.typOffWith (ix.exportWriter.doTyp g t) t.id

/-- The method `exportWriter.typ`. -/
def ix.exportWriter.typ (g : ix.Globals) (w : ix.exportWriter) (t : ix.Typ) :
    Option ix.exportWriter :=
  (w.p.typOff g t).bind fun r => some (ix.exportWriter.uint64 { w with p := r.2 } r.1)

/-- The method `exportWriter.param`. -/
def ix.exportWriter.param (g : ix.Globals) (w : ix.exportWriter) (f : ix.FieldInfo)
    (t : ix.Typ) : Option ix.exportWriter :=
  ((w.pos f.file f.line f.column).localIdent g (g.OrigSym f.Sym) 0).bind fun w1 => w1.typ g t

/-- The method `exportWriter.paramList`. -/
def ix.exportWriter.paramList (g : ix.Globals) (w : ix.exportWriter) (fs : ix.Fields) :
    Option ix.exportWriter :=
  ix.exportWriter.paramLoop g fs (w.uint64 fs.NumFields)

/-- The method `exportWriter.signature`; a type that is not a function is a
`base.Fatalf` in `t.Params()`. -/
def ix.exportWriter.signature (g : ix.Globals) (w : ix.exportWriter) (t : ix.Typ) :
    Option ix.exportWriter :=
  match t with
  | .func _ _ params results =>
    (w.paramList g params).bind fun w1 =>
      (w1.paramList g results).bind fun w2 =>
        if params.NumFields > 0 then some (w2.bool params.lastIsDDD) else some w2
  | _ => none

/-- Invariant of `typIndex` for the list `predeclared` of the identities of the
predeclared types: each of them has its index in the list as its offset, and
every other entry holds an offset of at least `predeclReserved`. -/
def ix.TypIndexInv (predeclared : List Nat) (typIndex : List (Nat × Nat)) : Prop :=
  (∀ id ∈ predeclared, typIndex.lookup id = some (predeclared.indexOf id)) ∧
  (∀ id off, typIndex.lookup id = some off → id ∉ predeclared → predeclReserved ≤ off)

/-- The exporter `q` has the type index and the data section of `p`. -/
def ix.iexporter.Same (p q : ix.iexporter) : Prop :=
  q.typIndex = p.typIndex ∧ q.data0 = p.data0

/-- The exporter `q` is a later state of `p` as far as types go: the invariant
of `typIndex` is kept, every recorded type offset stays as it is, and the data
section has only grown. -/
def ix.iexporter.Step (predeclared : List Nat) (p q : ix.iexporter) : Prop :=
  (ix.TypIndexInv predeclared p.typIndex → ix.TypIndexInv predeclared q.typIndex) ∧
  (∀ id off, p.typIndex.lookup id = some off → q.typIndex.lookup id = some off) ∧
  p.data0.buf <+: q.data0.buf

/-- The exporter states of a session that follow the state `p`: any changes that
leave `typIndex` alone and only add to the data section, and calls of
`typOff`. -/
inductive ix.TypReach (g : ix.Globals) (p : ix.iexporter) : ix.iexporter → Prop
  | refl : ix.TypReach g p p
  | other (q r : ix.iexporter) : ix.TypReach g p q → r.typIndex = q.typIndex →
      q.data0.buf <+: r.data0.buf → ix.TypReach g p r
  | typOff (q r : ix.iexporter) (t : ix.Typ) (off : Nat) : ix.TypReach g p q →
      q.typOff g t = some (off, r) → ix.TypReach g p r

/-- Every run of the function `f` on writers takes the exporter to a later
state. -/
def ix.Keeps (predeclared : List Nat) (f : ix.exportWriter → Option ix.exportWriter) : Prop :=
  ∀ w w1, f w = some w1 → ix.iexporter.Step predeclared w.p w1.p

/-! ## An example of type descriptors -/

/-- An example of the list of predeclared types: three types with the
identities 1, 2 and 3. -/
def ix.examplePredeclared : List Nat := [1, 2, 3]

/-- The predeclared type `int` of the example, with the identity 2: a defined
type of the builtin package. -/
def ix.intType : ix.Typ :=
  .defined 2 ⟨[105, 110, 116], ⟨1, [], [], 0⟩⟩
    ⟨20, some ⟨[105, 110, 116], ⟨1, [], [], 0⟩⟩, true, true⟩

/-- The type `[]int` of the example, with the identity 100. -/
def ix.sliceOfInt : ix.Typ := .slice 100 ix.intType

/-- The exporter of the example as `iexport` sets it up. -/
def ix.exampleSetup : ix.iexporter :=
  { ix.iexporter.empty with typIndex := [(1, 0), (2, 1), (3, 2)] }

/-- The exporter of the example after `typOff` of `[]int`: the descriptor (the
tag `sliceType` and the type offset 1 of `int`) is in the data section, at the
offset 0. -/
def ix.exampleAfter : ix.iexporter :=
  { ix.iexporter.empty with typIndex := [(1, 0), (2, 1), (3, 2), (100, 32)], data0 := ⟨[2, 1]⟩ }

/-! ## Examples of function types -/

/-- An anonymous parameter of type `int` at the position that a new writer starts
from (no file, line 0, column 0), not variadic. -/
def ix.intParam : ix.Fields := .cons ⟨[], 0, 0, none, 0, [], false⟩ ix.intType .nil

/-- The type `func(int)` of the example, with the identity 101: one parameter
and no result. -/
def ix.funcIntNoResult : ix.Typ := .func 101 none ix.intParam .nil

/-- The type `func() int` of the example, with the identity 102: no parameter
and one result. -/
def ix.funcNoParamInt : ix.Typ := .func 102 none .nil ix.intParam

/-! ## Multi-precision floats (`exportWriter.mpfloat`) -/

/-- Loop of `bitLen`, for at most `fuel` bits. -/
def bitLenAux : Nat → Nat → Nat
  | 0, _ => 0
  | fuel + 1, m => if m = 0 then 0 else bitLenAux fuel (m / 2) + 1

/-- Modelled from the spec: `nat.bitLen` of `math/big`, which is not among the
sources: the length of a natural number in bits, 0 for 0. -/
def bitLen (m : Nat) : Nat := bitLenAux m m

/-- Loop of `trailingZeroBits`, for at most `fuel` bits. -/
def trailingZeroBitsAux : Nat → Nat → Nat
  | 0, _ => 0
  | fuel + 1, m => if m % 2 = 1 then 0 else trailingZeroBitsAux fuel (m / 2) + 1

/-- Modelled from the spec: `nat.trailingZeroBits` of `math/big`, which is not
among the sources: the number of consecutive least significant zero bits, 0 for
0. -/
def trailingZeroBits (m : Nat) : Nat := if m = 0 then 0 else trailingZeroBitsAux m m

/-- Modelled from the spec: the form of a `big.Float` of `math/big`, which is not
among the sources: zero, finite and not zero, or an infinity. -/
inductive big.Form
  | zero | finite | inf
  deriving DecidableEq, Repr

/-- Modelled from the spec: a `big.Float` of `math/big`, which is not among the
sources. A finite number is `±0.mant × 2^exp`: the mantissa is a positive natural
number read as a binary fraction whose highest bit is the first after the point,
so `0.5 ≤ 0.mant < 1`, and the exponent is an `int32`. The precision, the
rounding mode and the accuracy are left out: `mpfloat` makes no operation that
rounds. -/
structure big.Float where
  form : big.Form
  neg : Bool
  mant : Nat
  exp : ℤ
  deriving DecidableEq, Repr

/-- Modelled from the spec: the constant `big.MaxExp`, the largest exponent. -/
def big.MaxExp : ℤ := 2 ^ 31 - 1

/-- Modelled from the spec: the constant `big.MinExp`, the smallest exponent. -/
def big.MinExp : ℤ := -2 ^ 31

/-- The value of a `big.Float` that is not an infinity, a rational number. -/
def big.Float.val (x : big.Float) : ℚ :=
  match x.form with
  | .finite => (if x.neg then -1 else 1) * ((x.mant : ℚ) / 2 ^ bitLen x.mant) * 2 ^ x.exp
  | _ => 0

/-- The invariant of a `big.Float`: a finite number has a mantissa that is not
zero and an exponent in the range of `big.MinExp` to `big.MaxExp`. -/
def big.Float.Valid (x : big.Float) : Prop :=
  x.form = .finite → 0 < x.mant ∧ big.MinExp ≤ x.exp ∧ x.exp ≤ big.MaxExp

/-- Modelled from the spec: `(*big.Float).IsInf`. -/
def big.Float.IsInf (x : big.Float) : Bool := x.form == .inf

/-- Modelled from the spec: `(*big.Float).MantExp`, which breaks `x` into
`mant × 2^exp` with `0.5 ≤ |mant| < 1` and returns `mant` and `exp`; a zero or an
infinity is its own mantissa, with the exponent 0. -/
def big.Float.MantExp (x : big.Float) : big.Float × ℤ :=
  if x.form = .finite then ({ x with exp := 0 }, x.exp) else (x, 0)

/-- Modelled from the spec: `(*big.Float).MinPrec`, the minimum precision
required to represent `x` exactly: the length of the mantissa without its
trailing zero bits, and 0 for a zero or an infinity. -/
def big.Float.MinPrec (x : big.Float) : Nat :=
  if x.form = .finite then bitLen x.mant - trailingZeroBits x.mant else 0

/-- Modelled from the spec: `(*big.Float).SetMantExp`, the number `mant × 2^exp`:
an exponent below `big.MinExp` underflows to zero and one above `big.MaxExp`
overflows to an infinity. -/
def big.Float.SetMantExp (mant : big.Float) (exp : ℤ) : big.Float :=
  if mant.form = .finite then
    if mant.exp + exp < big.MinExp then { mant with form := .zero, mant := 0, exp := 0 }
    else if mant.exp + exp > big.MaxExp then { mant with form := .inf, mant := 0, exp := 0 }
    else { mant with exp := mant.exp + exp }
  else mant

/-- Modelled from the spec: `(*big.Float).Int` with a nil argument: the result of
truncating `x` towards zero (`none`, a nil pointer, for an infinity), and whether
the accuracy is `big.Exact`, which it is exactly when `x` is an integer. -/
def big.Float.Int (x : big.Float) : Option ℤ × Bool :=
  match x.form with
  | .zero => (some 0, true)
  | .inf => (none, false)
  | .finite =>
    if x.exp ≤ 0 then (some 0, false)
    else
      let abs : Nat :=
        if x.exp.toNat > bitLen x.mant then x.mant <<< (x.exp.toNat - bitLen x.mant)
        else if x.exp.toNat < bitLen x.mant then x.mant >>> (bitLen x.mant - x.exp.toNat)
        else x.mant
      (some (if x.neg then -(abs : ℤ) else (abs : ℤ)), decide (x.MinPrec ≤ x.exp.toNat))

/-- The method `exportWriter.mpfloat`, applied to `f = bigFloatVal(v)` (the
function `bigFloatVal` of `const.go`, not among the sources, turns the constant
into a `big.Float`). `makeInt(manti)` is the integer constant of the value
`manti`; `prec` is a `uint`, and the subtraction is one of `int64`. -/
def exportWriter.mpfloat (w : exportWriter) (f : big.Float) (typ : NumType) :
    Option exportWriter :=
  if f.IsInf then none
  else
    let mant := f.MantExp.1
    let exp := f.MantExp.2
    let prec := mant.MinPrec
    let mant := mant.SetMantExp (toInt64 prec)
    let exp := toInt64 (toUint64 (exp - toInt64 prec))
    match mant.Int with
    | (some manti, true) =>
      (w.mpint manti typ).bind fun w1 => if manti ≠ 0 then some (w1.int64 exp) else some w1
    | _ => none

/-- The constant `1.5` as a `big.Float`: `0.11` in binary, times `2^1`. -/
def big.oneAndHalf : big.Float := ⟨.finite, false, 3, 1⟩

/-- The type `float64` as `intSize` reads it. -/
def float64Type : NumType := ⟨false, EType.TFLOAT64, false, 8⟩

/-! ## Package `internal/bisect`: patterns and matchers -/

/-- The bytes of a string literal of the source (all of them ASCII). -/
def bytes (s : String) : List Nat := s.toList.map Char.toNat

/-- The type `cond`: a single condition in the matcher. -/
structure bisect.cond where
  mask : Nat
  bits : Nat
  result : Bool
  deriving DecidableEq, Repr

/-- The type `Matcher`, without the field `dedup` (the cache of call stacks that
only `Stack` uses). A `*Matcher` is an `Option bisect.Matcher`, `none` for
nil. -/
structure bisect.Matcher where
  verbose : Bool
  enable : Bool
  list : List bisect.cond
  deriving DecidableEq, Repr

/-- The type `parseError`. -/
structure bisect.parseError where
  text : List Nat
  deriving DecidableEq, Repr

/-- The first loop of `New`, `for len(p) > 0 && p[0] == 'v'`: the rest of the
pattern and `m.verbose`. -/
def bisect.skipV (pattern : List Nat) : List Nat → Bool → Except bisect.parseError (List Nat × Bool)
  | [], verbose => .ok ([], verbose)
  | c :: p, verbose =>
    if c = 118 then
      if p = [] then .error ⟨bytes "invalid pattern syntax: " ++ pattern⟩
      else bisect.skipV pattern p true
    else .ok (c :: p, verbose)

/-- The second loop of `New`, `for len(p) > 0 && p[0] == '!'`: the rest of the
pattern and `m.enable`. -/
def bisect.skipNot (pattern : List Nat) : List Nat → Bool → Except bisect.parseError (List Nat × Bool)
  | [], enable => .ok ([], enable)
  | c :: p, enable =>
    if c = 33 then
      if p = [] then .error ⟨bytes "invalid pattern syntax: " ++ pattern⟩
      else bisect.skipNot pattern p (!enable)
    else .ok (c :: p, enable)

/-- The variables of the parsing loop of `New`: `m.list`, `result`, `bits`,
`start` and `wid`. -/
structure bisect.parseState where
  list : List bisect.cond
  result : Bool
  bits : Nat
  start : Nat
  wid : Nat
  deriving DecidableEq, Repr

/-- The value `uint64(1)<<n - 1` of `New`, in `uint64` arithmetic. -/
def bisect.maskOf (n : Nat) : Nat := ((1 <<< n) % 2 ^ 64 + 2 ^ 64 - 1) % 2 ^ 64

/-- The body of the parsing loop of `New` at the index `i`; `c` is `p[i]`, or
`'-'` at the end of the pattern. The differences `i - start` are those of
`int`. -/
def bisect.parseStep (pattern p : List Nat) (s : bisect.parseState) (i : Nat) :
    Except bisect.parseError bisect.parseState :=
  let c := if i < p.length then p.getD i 0 else 45
  let syntaxError : bisect.parseError := ⟨bytes "invalid pattern syntax: " ++ pattern⟩
  if i = s.start ∧ s.wid = 1 ∧ c = 120 then .ok { s with start := i + 1, wid := 4 }
  else if 50 ≤ c ∧ c ≤ 57 then
    if s.wid ≠ 4 then .error syntaxError
    else .ok { s with bits := ((s.bits <<< s.wid) % 2 ^ 64) ||| (c - 48) }
  else if c = 48 ∨ c = 49 then
    .ok { s with bits := ((s.bits <<< s.wid) % 2 ^ 64) ||| (c - 48) }
  else if (97 ≤ c ∧ c ≤ 102) ∨ (65 ≤ c ∧ c ≤ 70) then
    if s.wid ≠ 4 then .error syntaxError
    else .ok { s with bits := ((s.bits <<< 4) % 2 ^ 64) ||| ((c &&& 223) - 65 + 10) }
  else if c = 121 then
    if i + 1 < p.length ∧ (p.getD (i + 1) 0 = 48 ∨ p.getD (i + 1) 0 = 49) then
      .error syntaxError
    else .ok { s with bits := 0 }
  else if c = 43 ∨ c = 45 then
    if c = 43 ∧ s.result = false then
      .error ⟨bytes "invalid pattern syntax (+ after -): " ++ pattern⟩
    else if i > 0 then
      let n : Int := ((i : Int) - (s.start : Int)) * (s.wid : Int)
      if n > 64 then .error ⟨bytes "pattern bits too long: " ++ pattern⟩
      else if n ≤ 0 then .error syntaxError
      else
        let n := if p.getD s.start 0 = 121 then 0 else n.toNat
        .ok { list := s.list ++ [⟨bisect.maskOf n, s.bits, s.result⟩], result := decide (c = 43),
              bits := 0, start := i + 1, wid := 1 }
    else
      .ok { list := if c = 45 then s.list ++ [⟨0, 0, true⟩] else s.list,
            result := decide (c = 43), bits := 0, start := i + 1, wid := 1 }
  else .error syntaxError

/-- The parsing loop of `New`, `for i := 0; i <= len(p); i++`, from the index `i`
for `todo` more iterations. -/
def bisect.parseLoop (pattern p : List Nat) :
    Nat → Nat → bisect.parseState → Except bisect.parseError bisect.parseState
  | 0, _, s => .ok s
  | todo + 1, i, s =>
    match bisect.parseStep pattern p s i with
    | .error e => .error e
    | .ok s1 => bisect.parseLoop pattern p todo (i + 1) s1

/-- The function `New`: the matcher implementing the pattern (`none` is the nil
matcher), or the error. -/
def bisect.New (pattern : List Nat) : Except bisect.parseError (Option bisect.Matcher) :=
  if pattern = [] then .ok none
  else
    match bisect.skipV pattern pattern false with
    | .error e => .error e
    | .ok (p, verbose) =>
      match bisect.skipNot pattern p true with
      | .error e => .error e
      | .ok (p, enable) =>
        let enable1 := if p = [110] then !enable else enable
        let p1 := if p = [110] then [121] else p
        match bisect.parseLoop pattern p1 (p1.length + 1) 0 ⟨[], true, 0, 0, 1⟩ with
        | .error e => .error e
        | .ok s => .ok (some ⟨verbose, enable1, s.list⟩)

/-- The loop of `ShouldEnable` and `ShouldPrint` over `m.list` from its last
entry to its first, given the list in that order: the first condition with
`id&c.mask == c.bits`. -/
def bisect.lastMatch (id : Nat) : List bisect.cond → Option bisect.cond
  | [] => none
  | c :: rest => if id &&& c.mask = c.bits then some c else bisect.lastMatch id rest

/-- The method `Matcher.MarkerOnly`. -/
def bisect.Matcher.MarkerOnly (m : bisect.Matcher) : Bool := !m.verbose

/-- The method `Matcher.ShouldEnable`. -/
def bisect.Matcher.ShouldEnable (m : Option bisect.Matcher) (id : Nat) : Bool :=
  match m with
  | none => true
  | some m =>
    match bisect.lastMatch id m.list.reverse with
    | some c => c.result == m.enable
    | none => false == m.enable

/-- The method `Matcher.ShouldPrint`. -/
def bisect.Matcher.ShouldPrint (m : Option bisect.Matcher) (id : Nat) : Bool :=
  match m with
  | none => false
  | some m =>
    match bisect.lastMatch id m.list.reverse with
    | some c => c.result
    | none => false

/-! ## Package `internal/bisect`: hashes, markers and reports -/

/-- The constant `offset64`. -/
def bisect.offset64 : Nat := 14695981039346656037

/-- The constant `prime64`. -/
def bisect.prime64 : Nat := 1099511628211

/-- The function `fnv`. -/
def bisect.fnv (h x : Nat) : Nat := ((h ^^^ x) * bisect.prime64) % 2 ^ 64

/-- The function `fnvString`. -/
def bisect.fnvString (h : Nat) (x : List Nat) : Nat :=
  x.foldl (fun h b => ((h ^^^ b) * bisect.prime64) % 2 ^ 64) h

/-- The loop of `fnvUint64` and `fnvUint32`, for `n` bytes. -/
def bisect.fnvBytes : Nat → Nat → Nat → Nat
  | 0, h, _ => h
  | n + 1, h, x => bisect.fnvBytes n (((h ^^^ (x &&& 0xFF)) * bisect.prime64) % 2 ^ 64) (x >>> 8)

/-- The function `fnvUint64`. -/
def bisect.fnvUint64 (h x : Nat) : Nat := bisect.fnvBytes 8 h x

/-- The function `fnvUint32`. -/
def bisect.fnvUint32 (h x : Nat) : Nat := bisect.fnvBytes 4 h x

/-- An argument of `Hash`, by its dynamic type; the integers are given by their
values, and `other` is a value of any other type. -/
inductive bisect.Arg
  | string (v : List Nat)
  | byte (v : Nat)
  | int (v : Int)
  | uint (v : Nat)
  | int32 (v : Int)
  | uint32 (v : Nat)
  | int64 (v : Int)
  | uint64 (v : Nat)
  | uintptr (v : Nat)
  | strings (v : List (List Nat))
  | bytes (v : List Nat)
  | ints (v : List Int)
  | uints (v : List Nat)
  | int32s (v : List Int)
  | uint32s (v : List Nat)
  | int64s (v : List Int)
  | uint64s (v : List Nat)
  | uintptrs (v : List Nat)
  | other
  deriving DecidableEq, Repr

/-- The conversion `uint32(x)` of an `int32`. -/
def toUint32 (x : Int) : Nat := (x % 2 ^ 32).toNat

/-- The type switch of `Hash` for one argument; `none` is the panic. -/
def bisect.hashArg (h : Nat) : bisect.Arg → Option Nat
  | .string v => some (bisect.fnvString h v)
  | .byte v => some (bisect.fnv h v)
  | .int v => some (bisect.fnvUint64 h (toUint64 v))
  | .uint v => some (bisect.fnvUint64 h v)
  | .int32 v => some (bisect.fnvUint32 h (toUint32 v))
  | .uint32 v => some (bisect.fnvUint32 h v)
  | .int64 v => some (bisect.fnvUint64 h (toUint64 v))
  | .uint64 v => some (bisect.fnvUint64 h v)
  | .uintptr v => some (bisect.fnvUint64 h v)
  | .strings v => some (v.foldl bisect.fnvString h)
  | .bytes v => some (v.foldl bisect.fnv h)
  | .ints v => some (v.foldl (fun h x => bisect.fnvUint64 h (toUint64 x)) h)
  | .uints v => some (v.foldl bisect.fnvUint64 h)
  | .int32s v => some (v.foldl (fun h x => bisect.fnvUint32 h (toUint32 x)) h)
  | .uint32s v => some (v.foldl bisect.fnvUint32 h)
  | .int64s v => some (v.foldl (fun h x => bisect.fnvUint64 h (toUint64 x)) h)
  | .uint64s v => some (v.foldl bisect.fnvUint64 h)
  | .uintptrs v => some (v.foldl bisect.fnvUint64 h)
  | .other => none

/-- The function `Hash`; `none` is the panic for an argument of another type. -/
def bisect.Hash (data : List bisect.Arg) : Option Nat :=
  data.foldl (fun h v => h.bind fun h => bisect.hashArg h v) (some bisect.offset64)

/-- The loop of `AppendMarker` for `n` more digits: the hexadecimal digit of the
top four bits of `id`, which is then shifted left by four. -/
def bisect.hexLoop : Nat → Nat → List Nat
  | 0, _ => []
  | n + 1, id =>
    (bytes "0123456789abcdef").getD (id >>> 60) 0 :: bisect.hexLoop n ((id <<< 4) % 2 ^ 64)

/-- The function `AppendMarker`. -/
def bisect.AppendMarker (dst : List Nat) (id : Nat) : List Nat :=
  dst ++ (bytes "[bisect-match 0x" ++ bisect.hexLoop 16 id ++ [93])

/-- The function `Marker`. -/
def bisect.Marker (id : Nat) : List Nat := bisect.AppendMarker [] id

/-- A `Writer` that keeps what it is given: the argument of each call of
`Write`, in order. -/
structure bisect.Writer where
  written : List (List Nat)
  deriving DecidableEq, Repr

/-- The method `Write` of the writer. -/
def bisect.Writer.Write (w : bisect.Writer) (b : List Nat) : bisect.Writer :=
  ⟨w.written ++ [b]⟩

/-- The function `PrintMarker`; `buf[:]` is the whole array `buf` of 50 zero
bytes. The result is the writer afterwards. -/
def bisect.PrintMarker (w : bisect.Writer) (h : Nat) : bisect.Writer :=
  let buf : List Nat := List.replicate 50 0
  let b := bisect.AppendMarker buf h
  let b := b ++ [10]
  w.Write b

/-- The loop of `appendFileLine` that fills `buf` from its end: the digits
written so far are `acc`, and `i` is the index of the first of them. `none` is
the panic of an index out of range. -/
def bisect.digitLoop : Nat → Nat → Nat → List Nat → Option (List Nat)
  | 0, _, _, acc => some acc
  | fuel + 1, i, u, acc =>
    if i = 24 ∨ u > 0 then
      if i = 0 then none
      else bisect.digitLoop fuel (i - 1) (u / 10) ((48 + u % 10) % 256 :: acc)
    else some acc

/-- The function `appendFileLine`; `line` is an `int` and `u` a `uint`, so `-u`
wraps. -/
def bisect.appendFileLine (dst file : List Nat) (line : Int) : Option (List Nat) :=
  let dst := dst ++ file ++ [58]
  let u := toUint64 line
  let dst := if line < 0 then dst ++ [45] else dst
  let u := if line < 0 then (2 ^ 64 - u) % 2 ^ 64 else u
  (bisect.digitLoop 25 24 u []).map fun digits => dst ++ digits

/-- The function `printFileLine`: the writer afterwards. -/
def bisect.printFileLine (w : bisect.Writer) (h : Nat) (file : List Nat) (line : Int) :
    Option bisect.Writer :=
  (bisect.appendFileLine (bisect.AppendMarker [] h) file line).map fun b => w.Write (b ++ [10])

/-- The method `Matcher.fileLine`: the result and the writer afterwards. -/
def bisect.Matcher.fileLine (m : bisect.Matcher) (w : bisect.Writer) (file : List Nat)
    (line : Int) : Option (Bool × bisect.Writer) :=
  (bisect.Hash [.string file, .int line]).bind fun h =>
    (if bisect.Matcher.ShouldPrint (some m) h then
      if m.MarkerOnly then some (bisect.PrintMarker w h)
      else bisect.printFileLine w h file line
    else some w).map fun w1 => (bisect.Matcher.ShouldEnable (some m) h, w1)

/-- The method `Matcher.FileLine`: the result and the writer afterwards. -/
def bisect.Matcher.FileLine (m : Option bisect.Matcher) (w : bisect.Writer) (file : List Nat)
    (line : Int) : Option (Bool × bisect.Writer) :=
  match m with
  | none => some (true, w)
  | some m => m.fileLine w file line

/-- The number that a string of the binary digits `0` and `1` denotes. -/
def bisect.binVal (s : List Nat) : Nat := s.foldl (fun v d => 2 * v + (d - 48)) 0

/-- The string `s` consists of the digits `0` and `1`. -/
def bisect.isBinary (s : List Nat) : Prop := ∀ d ∈ s, d = 48 ∨ d = 49

instance bisect.isBinary.decidable (s : List Nat) : Decidable (bisect.isBinary s) := by
  unfold bisect.isBinary
  infer_instance

/-- The id ends in the bits of the digit string `s`: its low bits, as many as
the string has digits, are the number the string denotes. -/
def bisect.endsIn (id : Nat) (s : List Nat) : Bool :=
  decide (id % 2 ^ s.length = bisect.binVal s)

/-- The value of `bits` after the parsing loop of `New` has read the binary
digits `ds`, starting from the value `b`. -/
def bisect.readBits (b : Nat) (ds : List Nat) : Nat :=
  ds.foldl (fun b d => ((b <<< 1) % 2 ^ 64) ||| (d - 48)) b

/-! ## Package `internal/bisect`: `CutMarker` -/

/-- The first loop of `CutMarker`, which finds the first instance of the prefix
`"[bisect-match "`: `n` is `len(line)`, the list is `line[i:]`, and the result is
the index `i` at which the loop breaks, or `none` where the function returns
without a marker. -/
def bisect.findPrefix (n : Nat) : List Nat → Nat → Option Nat
  | [], _ => none
  | c :: rest, i =>
    if i + (bytes "[bisect-match ").length ≥ n then none
    else if c = 91 ∧ (c :: rest).take (bytes "[bisect-match ").length = bytes "[bisect-match "
    then some i
    else bisect.findPrefix n rest (i + 1)

/-- The second loop of `CutMarker`, `for j < len(line) && line[j] != ']'`: the
list is `line[j:]`, and the result is `j` after the loop. -/
def bisect.scanTo : List Nat → Nat → Nat
  | [], j => j
  | c :: rest, j => if c ≠ 93 then bisect.scanTo rest (j + 1) else j

/-- The body of the loop of `CutMarker` that parses a hexadecimal id. -/
def bisect.hexStep (id c : Nat) : Nat :=
  let id := (id <<< 4) % 2 ^ 64
  if 48 ≤ c ∧ c ≤ 57 then id ||| (c - 48)
  else if 97 ≤ c ∧ c ≤ 102 then id ||| (c - 97 + 10)
  else if 65 ≤ c ∧ c ≤ 70 then id ||| (c - 65 + 10)
  else id

/-- The body of the loop of `CutMarker` that parses a binary id; `none` where
the function returns without a marker. -/
def bisect.binStep (id : Option Nat) (c : Nat) : Option Nat :=
  id.bind fun id =>
    if c = 48 ∨ c = 49 then some (((id <<< 1) % 2 ^ 64) ||| (c - 48)) else none

/-- The part `// Parse id.` of `CutMarker` for the text `idstr` between the
prefix and the bracket: the id, or `none` where the function returns without a
marker. -/
def bisect.parseId (idstr : List Nat) : Option Nat :=
  if idstr.length ≥ 3 ∧ idstr.take 2 = bytes "0x" then
    if idstr.length > 2 + 16 then none
    else some ((idstr.drop 2).foldl bisect.hexStep 0)
  else if idstr = [] ∨ idstr.length > 64 then none
  else idstr.foldl bisect.binStep (some 0)

/-- The function `CutMarker`: the shortened line, the id and whether a marker
was found. -/
def bisect.CutMarker (line : List Nat) : List Nat × Nat × Bool :=
  match bisect.findPrefix line.length line 0 with
  | none => (line, 0, false)
  | some i =>
    let j := bisect.scanTo (line.drop (i + (bytes "[bisect-match ").length))
      (i + (bytes "[bisect-match ").length)
    if j ≥ line.length then (line, 0, false)
    else
      match bisect.parseId ((line.take j).drop (i + (bytes "[bisect-match ").length)) with
      | none => (line, 0, false)
      | some id =>
        let j := j + 1
        if i > 0 ∧ line.getD (i - 1) 0 = 32 then (line.take (i - 1) ++ line.drop j, id, true)
        else if j < line.length ∧ line.getD j 0 = 32 then
          (line.take i ++ line.drop (j + 1), id, true)
        else (line.take i ++ line.drop j, id, true)

/-- The value of a lower-case hexadecimal digit. -/
def bisect.hexDigitVal (c : Nat) : Nat := if c ≤ 57 then c - 48 else c - 87

/-- The number that a string of lower-case hexadecimal digits denotes. -/
def bisect.hexVal (s : List Nat) : Nat := s.foldl (fun v c => 16 * v + bisect.hexDigitVal c) 0

/-- The byte is a lower-case hexadecimal digit, `0` to `9` or `a` to `f`. -/
def bisect.isLowerHex (c : Nat) : Prop := (48 ≤ c ∧ c ≤ 57) ∨ (97 ≤ c ∧ c ≤ 102)

/-! ## Classification of static values (`getdyn`) -/

mutual
/-- The expression nodes (`ir.Node`) that `getdyn` distinguishes by `n.Op()`:
composite literals (`ir.CompLitExpr` with op `OSLICELIT`, whose `Len` field is
kept, `OARRAYLIT` or `OSTRUCTLIT`), the element wrappers `OKEY` (`ir.KeyExpr`)
and `OSTRUCTKEY` (`ir.StructKeyExpr`) with their `Value`, and a node of any other
op, of which only the answer of `ir.IsConstNode` is kept (its body is not among
the sources). -/
inductive ir.Node where
  | other (IsConstNode : Bool)
  | slicelit (Len : Int) (List : ir.Nodes)
  | arraylit (List : ir.Nodes)
  | structlit (List : ir.Nodes)
  | key (Value : ir.Node)
  | structkey (Value : ir.Node)
/-- The type `ir.Nodes`, a list of nodes. -/
inductive ir.Nodes where
  | nil
  | cons (head : ir.Node) (tail : ir.Nodes)
end

deriving instance DecidableEq for ir.Node, ir.Nodes

/-- The `len` of a list of nodes. -/
def ir.Nodes.len : ir.Nodes → Nat
  | .nil => 0
  | .cons _ tail => tail.len + 1

/-- The nodes of a list of nodes, in order. -/
def ir.Nodes.toList : ir.Nodes → List ir.Node
  | .nil => []
  | .cons head tail => head :: tail.toList

/-- The constant `initDynamic` of type `initGenType`. -/
def initDynamic : Nat := 1 <<< 0

/-- The constant `initConst` of type `initGenType`. -/
def initConst : Nat := 1 <<< 1

mutual
/-- The function `getdyn`. -/
def getdyn : ir.Node → Bool → Nat
  | .slicelit Len List, top =>
    if !top then initDynamic
    else if Len.tdiv 4 > (List.len : Int) then initDynamic
    else getdynLoop List 0
  | .arraylit List, _ => getdynLoop List 0
  | .structlit List, _ => getdynLoop List 0
  | .other IsConstNode, _ => if IsConstNode then initConst else initDynamic
  | .key _, _ => initDynamic
  | .structkey _, _ => initDynamic
/-- The loop `for _, n1 := range lit.List` of `getdyn`, entered with the value
`mode`: the value of `mode` after the loop. -/
def getdynLoop : ir.Nodes → Nat → Nat
  | .nil, mode => mode
  | .cons (.key Value) tail, mode =>
    let mode := mode ||| getdyn Value false
    if mode = initDynamic ||| initConst then mode else getdynLoop tail mode
  | .cons (.structkey Value) tail, mode =>
    let mode := mode ||| getdyn Value false
    if mode = initDynamic ||| initConst then mode else getdynLoop tail mode
  | .cons (.other c) tail, mode =>
    let mode := mode ||| getdyn (.other c) false
    if mode = initDynamic ||| initConst then mode else getdynLoop tail mode
  | .cons (.slicelit Len List) tail, mode =>
    let mode := mode ||| getdyn (.slicelit Len List) false
    if mode = initDynamic ||| initConst then mode else getdynLoop tail mode
  | .cons (.arraylit List) tail, mode =>
    let mode := mode ||| getdyn (.arraylit List) false
    if mode = initDynamic ||| initConst then mode else getdynLoop tail mode
  | .cons (.structlit List) tail, mode =>
    let mode := mode ||| getdyn (.structlit List) false
    if mode = initDynamic ||| initConst then mode else getdynLoop tail mode
end

/-- The value of a list entry: the `Value` of an `OKEY` or `OSTRUCTKEY` node, the
node itself for any other op. -/
def ir.Node.value : ir.Node → ir.Node
  | .key Value => Value
  | .structkey Value => Value
  | n => n

/-- The bitwise OR of the classifications that `getdyn`, recursing, gives to the
values of the entries of a list. -/
def ir.Nodes.orOfValues (l : ir.Nodes) : Nat :=
  (l.toList.map fun n1 => getdyn n1.value false).foldl (· ||| ·) 0

/-! ## Map headers and iterators (`hmap`, `hiter`) -/

/-- The fields of the struct that `hmap` builds, in source order: `types.Types`
of a scalar kind is the sized scalar type (`int` and `uintptr` one pointer wide),
and a pointer to the bucket is `types.NewPtr(bmap)`. -/
def hmapFields (PtrSize : Nat) : List (String × Typ) :=
  [("count", .leaf .TINT PtrSize PtrSize false),
   ("flags", .leaf .TUINT8 1 1 false),
   ("B", .leaf .TUINT8 1 1 false),
   ("noverflow", .leaf .TUINT16 2 2 false),
   ("hash0", .leaf .TUINT32 4 4 false),
   ("buckets", NewPtr PtrSize false),
   ("oldbuckets", NewPtr PtrSize false),
   ("nevacuate", .leaf .TUINTPTR PtrSize PtrSize false),
   ("extra", .leaf .TUNSAFEPTR PtrSize PtrSize false)]

/-- The function `hmap`: builds a type representing a `Hmap` structure for the
given map type. Returns the struct and the map type with the struct (and the
bucket) cached; an error stands for `base.Fatalf`. -/
def hmap (PtrSize : Nat) (t : MapType) : Except String (Typ × MapType) :=
  match t.Hmap with
  | some hmap => .ok (hmap, t)
  | none =>
    match bmap PtrSize t with
    | .error e => .error e
    | .ok (_, t) =>
      match NewStruct (hmapFields PtrSize) with
      | none => .error "Rnd"
      | some hmap =>
        if (hmap.Width : Int) ≠ 8 + 5 * (PtrSize : Int) then .error "hmap size not correct"
        else .ok (hmap, { t with Hmap := some hmap })

/-- The fields of the struct that `hiter` builds, in source order. -/
def hiterFields (PtrSize : Nat) (t : MapType) : List (String × Typ) :=
  [("key", NewPtr PtrSize t.keyNotInHeap),
   ("elem", NewPtr PtrSize t.elemNotInHeap),
   ("t", .leaf .TUNSAFEPTR PtrSize PtrSize false),
   ("h", NewPtr PtrSize false),
   ("buckets", NewPtr PtrSize false),
   ("bptr", NewPtr PtrSize false),
   ("overflow", .leaf .TUNSAFEPTR PtrSize PtrSize false),
   ("oldoverflow", .leaf .TUNSAFEPTR PtrSize PtrSize false),
   ("startBucket", .leaf .TUINTPTR PtrSize PtrSize false),
   ("offset", .leaf .TUINT8 1 1 false),
   ("wrapped", .leaf .TBOOL 1 1 false),
   ("B", .leaf .TUINT8 1 1 false),
   ("i", .leaf .TUINT8 1 1 false),
   ("bucket", .leaf .TUINTPTR PtrSize PtrSize false),
   ("checkBucket", .leaf .TUINTPTR PtrSize PtrSize false)]

/-- The function `hiter`: builds a type representing an `Hiter` structure for the
given map type. Returns the struct and the map type with the struct (and the
header and the bucket) cached; an error stands for `base.Fatalf`. -/
def hiter (PtrSize : Nat) (t : MapType) : Except String (Typ × MapType) :=
  match t.Hiter with
  | some hiter => .ok (hiter, t)
  | none =>
    match hmap PtrSize t with
    | .error e => .error e
    | .ok (_, t) =>
      match bmap PtrSize t with
      | .error e => .error e
      | .ok (_, t) =>
        match NewStruct (hiterFields PtrSize t) with
        | none => .error "Rnd"
        | some hiter =>
          if (hiter.Width : Int) ≠ 12 * (PtrSize : Int) then .error "hash_iter size not correct"
          else .ok (hiter, { t with Hiter := some hiter })

/-! ## The choice between pointer mask and GC program (`dgcsym`) -/

/-- The constant `maxPtrmaskBytes`: the maximum length of a GC ptrmask bitmap. -/
def maxPtrmaskBytes : Nat := 2048

/-- The content of the data symbol that `dgcsym` returns: the bytes of a pointer
mask (the symbol of `dgcptrmask`) or the instructions of a GC program (the
symbol of `dgcprog`). -/
inductive GCData
  | ptrmask (bytes : List Nat)
  | gcprog (prog : List GCInstr)
  deriving DecidableEq, Repr

/-- The function `dgcprog`: the GC program for `t` and the size of the data it
describes. `none` is `base.Fatalf`; widths are natural numbers here, so the
`BADWIDTH` check cannot fire. -/
def dgcprog (PtrSize : Nat) (t : Typ) : Option (List GCInstr × Nat) :=
  match GCProg.emit PtrSize t 0 Writer.init with
  | none => none
  | some w =>
    let offset := w.index * PtrSize
    if offset < PtrDataSize PtrSize t ∨ offset > t.Width then none
    else some (w.prog, offset)

/-- The function `dgcsym`: the GC information for `t`, whether the `UseGCProg`
bit should be set, and the `ptrdata` to record. -/
def dgcsym (PtrSize : Nat) (t : Typ) : Option (GCData × Bool × Nat) :=
  let ptrdata := PtrDataSize PtrSize t
  if ptrdata / PtrSize ≤ maxPtrmaskBytes * 8 then
    match dgcptrmaskBytes PtrSize t with
    | none => none
    | some ptrmask => some (.ptrmask ptrmask, false, ptrdata)
  else
    match dgcprog PtrSize t with
    | none => none
    | some (prog, ptrdata) => some (.gcprog prog, true, ptrdata)

/-- A pointer, `*T`, on a 64-bit target. -/
def ptrType : Typ := .leaf .TPTR 8 8 false

/-- An array of 20000 pointers, `[20000]*T`, on a 64-bit target. -/
def bigPtrArray : Typ := .array ptrType 20000 160000 8

/-! ## Name data (`dnameData`) -/

/-- Modelled from the spec: `(*obj.LSym).WriteBytes` of `cmd/internal/obj`, which
is not among the sources: writes the bytes `b` at offset `off` of the symbol and
returns the offset after them. -/
def WriteBytes (off : Nat) (b : List Nat) : Nat := off + b.length

/-- The flag byte `bits` of `dnameData`. -/
def dnameBits (tag : List Nat) (pkgNil exported : Bool) : Nat :=
  let bits := 0
  let bits := if exported then bits ||| 1 <<< 0 else bits
  let bits := if tag.length > 0 then bits ||| 1 <<< 1 else bits
  if !pkgNil then bits ||| 1 <<< 2 else bits

/-- The byte slice `b` that `dnameData` fills in: the flag byte, the length of the
name in two bytes, the name and, for a tag that is not empty, its length in two
bytes and the tag. -/
def dnameBytes (name tag : List Nat) (pkgNil exported : Bool) : List Nat :=
  [dnameBits tag pkgNil exported, (name.length >>> 8) % 256, name.length % 256] ++ name ++
    (if tag.length > 0 then [(tag.length >>> 8) % 256, tag.length % 256] ++ tag else [])

/-- What `dgopkgpathOff` and `dimportpath` read of a package `*types.Pkg`:
`p.Path`, whether `p.Pathsym` is set already, whether `p` is `types.LocalPkg`
and whether `p` is `ir.Pkgs.Runtime`. -/
structure ImportPkg where
  Path : List Nat
  Pathsym : Bool
  isLocalPkg : Bool
  isRuntime : Bool
  deriving DecidableEq, Repr

/-- The function `dnameData`, given what its call `dgopkgpathOff(s, ot, pkg)` does
at an offset: `pkgOff` is `none` for `pkg == nil`. Returns the offset and the
bytes of its call of `WriteBytes`, the steps of `dgopkgpathOff` after it, and the
offset it returns; an error stands for `base.Fatalf`. -/
def dnameDataWith (pkgOff : Option (Nat → Except String (List Action × Nat))) (ot : Nat)
    (name tag : List Nat) (exported : Bool) :
    Except String ((Nat × List Nat) × List Action × Nat) :=
  if name.length > 1 <<< 16 - 1 then .error "name too long"
  else if tag.length > 1 <<< 16 - 1 then .error "tag too long"
  else
    let b := dnameBytes name tag pkgOff.isNone exported
    let ot1 := WriteBytes ot b
    match pkgOff with
    | some off =>
      match off ot1 with
      | .error e => .error e
      | .ok r => .ok ((ot, b), r.1, r.2)
    | none => .ok ((ot, b), [], ot1)

/-- The function `dimportpath`, with `Pkgpath` for `base.Ctxt.Pkgpath`: the bytes
that it writes into the new package path symbol (`p.Pathsym` is set after the
call), `none` where it returns without making one; an error is the
`base.Fatalf` of its call `dnameData(s, 0, str, "", nil, false)`. -/
def dimportpath (Pkgpath : List Nat) (p : ImportPkg) : Except String (Option (List Nat)) :=
  if p.Pathsym then .ok none
  else if Pkgpath = bytes "runtime" ∧ p.isRuntime then .ok none
  else
    let str := if p.isLocalPkg then Pkgpath else p.Path
    match dnameDataWith none 0 str [] false with
    | .error e => .error e
    | .ok r => .ok (some r.1.2)

/-- The function `dgopkgpathOff` with the package given in full (`none` is a nil
package): the steps that write the 4-byte offset and the offset afterwards; an
error is the `base.Fatalf` that `dimportpath` can end in. -/
def dgopkgpathOffPkg (Pkgpath : List Nat) (ot : Nat) (pkg : Option ImportPkg) :
    Except String (List Action × Nat) :=
  match pkg with
  | none => .ok (objwUintN ot 4 "pkgpath")
  | some p =>
    if p.isLocalPkg ∧ Pkgpath = [] then .ok (objwSymPtrOff ot "pkgpath")
    else
      match dimportpath Pkgpath p with
      | .error e => .error e
      | .ok _ => .ok (andThen ([.aux "dimportpath"], ot) fun ot => objwSymPtrOff ot "pkgpath")

/-- The function `dnameData`: writes the contents of a `reflect.name` into a
symbol at offset `ot`; `Pkgpath` is `base.Ctxt.Pkgpath`. -/
def dnameData (Pkgpath : List Nat) (ot : Nat) (name tag : List Nat) (pkg : Option ImportPkg)
    (exported : Bool) : Except String ((Nat × List Nat) × List Action × Nat) :=
  dnameDataWith (pkg.map fun p ot => dgopkgpathOffPkg Pkgpath ot (some p)) ot name tag exported

/-- A package with an import path of 65536 bytes, its path symbol not yet made. -/
def longPathPkg : ImportPkg :=
  { Path := List.replicate 65536 97, Pathsym := false, isLocalPkg := false, isRuntime := false }

/-- The package `os`, its path symbol not yet made. -/
def osPkg : ImportPkg :=
  { Path := bytes "os", Pathsym := false, isLocalPkg := false, isRuntime := false }

/-! ## Method counts of the uncommon type (`dextratype`) -/

/-- The loop of `sort.Search`, for `fuel` more rounds: `i` and `j` are its two
variables. -/
def sortSearchLoop (f : Nat → Bool) : Nat → Nat → Nat → Nat
  | 0, i, _ => i
  | fuel + 1, i, j =>
    if i < j then
      let h := (i + j) / 2
      if !f h then sortSearchLoop f fuel (h + 1) j else sortSearchLoop f fuel i h
    else i

/-- Modelled from the spec: `sort.Search` of package `sort`, which is not among
the sources: binary search for the smallest index in `[0, n)` at which `f` is
true, `n` if there is none. The interval shrinks in every round, so `n` rounds
are enough. -/
def sortSearch (n : Nat) (f : Nat → Bool) : Nat := sortSearchLoop f n 0 n

/-- The function that `dextratype` passes to `sort.Search`:
`!types.IsExported(m[i].name.Name)`; an index out of range, which the search does
not reach, gives true. -/
def unexportedAt (IsExported : String → Bool) (m : List Sig) (i : Nat) : Bool :=
  match m.get? i with
  | some a => !IsExported a.name.Name
  | none => true

/-- The values that `dextratype` computes for the fields `mcount`, `xcount` and
`moff` of the `runtime.uncommontype`; the steps that write them are those of
`dextratype`. `IsExported` is `types.IsExported`, which is not among the sources.
`none` is the return before anything is written, an error is one of the calls of
`base.Fatalf` of the function. -/
def dextratypeFields (IsExported : String → Bool) (U : Universe) (ot : Nat) (ti : TypeInfo)
    (dataAdd : Nat) : Except String (Option (Nat × Nat × Nat)) :=
  let m := ti.methods
  if !ti.hasSym && m.length = 0 then .ok none
  else if Rnd ot U.PtrSize ≠ some ot then .error "unexpected alignment in dextratype"
  else
    let dataAdd := dataAdd + uncommonSize ti
    let mcount := m.length
    if mcount ≠ mcount % 2 ^ 16 then .error "too many methods"
    else
      let xcount := sortSearch mcount (unexportedAt IsExported m)
      if dataAdd ≠ dataAdd % 2 ^ 32 then .error "methods are too far away"
      else .ok (some (mcount % 2 ^ 16, xcount % 2 ^ 16, dataAdd % 2 ^ 32))

/-- The first letter of the name is an upper-case ASCII letter. -/
def asciiExported (name : String) : Bool :=
  match name.toList with
  | c :: _ => decide (65 ≤ c.toNat ∧ c.toNat ≤ 90)
  | [] => false

/-- A named type with the methods `Close`, `Write` and `flush`, in this order. -/
def fileTypeInfo : TypeInfo :=
  { Kind := .TSTRUCT, formal := 0, IsUntyped := false, typeSym := ⟨"os", "File"⟩,
    hasSym := true, symLocal := true, isUniverse := false, typePkgNil := false,
    baseTypeIndex := -1, Align := 8, eqfuncNil := false, IsPtrElem := false,
    Elem := 0, elemIsAny := false, Key := 0, sliceOfElem := 0, ptrTo := 1,
    bucket := 0, NumElem := 0, Recvs := [], Params := [], Results := [],
    Fields := [], imethods := [],
    methods := [⟨⟨"", "Close"⟩, ⟨"", "File.Close"⟩, ⟨"", "File.Close"⟩, 2, 2⟩,
      ⟨⟨"", "Write"⟩, ⟨"", "File.Write"⟩, ⟨"", "File.Write"⟩, 3, 3⟩,
      ⟨⟨"os", "flush"⟩, ⟨"os", "File.flush"⟩, ⟨"os", "File.flush"⟩, 4, 4⟩] }

/-! ## Package `crypto/internal/nistec/fiat`: `P224Element.Invert` -/

/-- Modelled from the spec: `(*P224Element).Mul` of `p224.go`, which is not among
the sources: the product of two field elements, here the product in a monoid. -/
def fiat.Mul {M : Type} [Monoid M] (t1 t2 : M) : M := t1 * t2

/-- Modelled from the spec: `(*P224Element).Square` of `p224.go`, which is not
among the sources: the square of a field element, here the square in a monoid. -/
def fiat.Square {M : Type} [Monoid M] (t : M) : M := t * t

/-- The value of `t` after `n` rounds of `t.Square(t)`. -/
def fiat.squareRounds {M : Type} [Monoid M] : Nat → M → M
  | 0, t => t
  | n + 1, t => fiat.squareRounds n (fiat.Square t)

/-- A loop `for s := a; s < b; s++ { t.Square(t) }`: the value of `t` after its
`b - a` rounds. -/
def fiat.squareLoop {M : Type} [Monoid M] (a b : Nat) (t : M) : M :=
  fiat.squareRounds (b - a) t

/-- The method `P224Element.Invert`. The elements live in a store `s`, and `e`
and `x` are the addresses of the receiver and of the argument, which may be the
same; `z`, `t0`, `t1`, `t2` are new elements. The result is the store after the
call (the pointer returned is `e`). -/
def fiat.P224Element.Invert {M : Type} [Monoid M] (e x : Nat) (s : Nat → M) : Nat → M :=
  let z := fiat.Square (s x)
  let t0 := fiat.Mul (s x) z
  let z := fiat.Square t0
  let z := fiat.Mul (s x) z
  let t1 := fiat.Square z
  let t1 := fiat.squareLoop 1 3 t1
  let t1 := fiat.Mul z t1
  let t2 := fiat.Square t1
  let t2 := fiat.squareLoop 1 6 t2
  let t1 := fiat.Mul t1 t2
  let t1 := fiat.squareLoop 0 2 t1
  let t0 := fiat.Mul t0 t1
  let t1 := fiat.Square t0
  let t1 := fiat.squareLoop 1 3 t1
  let z := fiat.Mul z t1
  let t1 := fiat.Square z
  let t1 := fiat.squareLoop 1 14 t1
  let t0 := fiat.Mul t0 t1
  let t1 := fiat.Square t0
  let t1 := fiat.squareLoop 1 17 t1
  let z := fiat.Mul z t1
  let t1 := fiat.Square z
  let t1 := fiat.squareLoop 1 48 t1
  let z := fiat.Mul z t1
  let t1 := fiat.Square z
  let t1 := fiat.squareLoop 1 31 t1
  let t0 := fiat.Mul t0 t1
  let t0 := fiat.squareLoop 0 97 t0
  let z := fiat.Mul z t0
  Function.update s e z

/-- The P-224 prime `p = 2^224 - 2^96 + 1`. -/
def fiat.p224 : Nat := 2 ^ 224 - 2 ^ 96 + 1

/-! ## Modular powers by repeated squaring -/

/-- The product `acc * b ^ e` modulo `p` by repeated squaring, for exponents below
`2 ^ fuel`. -/
def powModAux (p : Nat) : Nat → Nat → Nat → Nat → Nat
  | 0, _, _, acc => acc % p
  | fuel + 1, b, e, acc =>
    powModAux p fuel (b * b % p) (e / 2) (if e % 2 = 1 then acc * b % p else acc)

/-- The power `b ^ e` modulo `p`, for exponents below `2 ^ 256`. -/
def powMod (p b e : Nat) : Nat := powModAux p 256 b e 1

/-! ## The fatal errors of `mpint` -/

/-- The call of `base.Fatalf` at which `exportWriter.mpint` stops, named by the
start of its message, for the integer constant `x` of a type with the given
`intSize`; `none` where `mpint` returns normally. -/
def mpintFatalf (signed : Bool) (maxBytes : Nat) (x : Int) : Option String :=
  let negative := decide (x < 0)
  if !signed && negative then some "negative unsigned integer"
  else
    let b := (constantBytes x).reverse
    if 0 < b.length ∧ b.head? = some 0 then some "leading zeros"
    else if b.length > maxBytes then some "bad mpint length"
    else if b.length ≤ 1 ∧ mpintUx signed negative b < mpintMaxSmall signed maxBytes then none
    else if mpintN signed negative b.length < mpintMaxSmall signed maxBytes
        ∨ mpintN signed negative b.length ≥ 256 then some "encoding mistake"
    else none

/-! ## The layout of interface type descriptors (`ifaceMethodOffset`) -/

/-- The function `imethodSize`: `Sizeof(runtime.imethod{})`. -/
def imethodSize : Nat := 4 + 4

/-- The function `commonSize`: `Sizeof(runtime._type{})`. -/
def commonSize (PtrSize : Nat) : Nat := 4 * PtrSize + 8 + 8

/-- The function `ifaceMethodOffset`: the offset of the `i`-th method in the
interface type descriptor `ityp`. -/
def ifaceMethodOffset (U : Universe) (ityp : TypeInfo) (i : Int) : Int :=
  ((commonSize U.PtrSize + 4 * U.PtrSize + uncommonSize ityp : Nat) : Int) + i * 8

/-- The offset that the `TINTER` case of `dtypesym` stores as the pointer to the
array of methods: the last argument of
`objw.SymPtr(lsym, ot, lsym, ot+3*types.PtrSize+uncommonSize(t))`, with `ot` the
offset after `dcommontype` and `dgopkgpath`. -/
def interMethodsOff (U : Universe) (ti : TypeInfo) : Nat :=
  let P := U.PtrSize
  let ot := (dcommontype U ti).2
  let ot := (dgopkgpath P ot (!(ti.hasSym && !ti.isUniverse))).2
  ot + 3 * P + uncommonSize ti

/-- The offset and the number of the bytes that a step writes. -/
def Action.span : Action → Option (Nat × Nat)
  | .write off size _ => some (off, size)
  | _ => none

/-- The offset of a step that writes the field `what`. -/
def Action.offsetOf (what : String) : Action → Option Nat
  | .write off _ w => if w = what then some off else none
  | _ => none

/-- An interface type with the two methods `Close` and `Write`, `io.WriteCloser`. -/
def writeCloserInfo : TypeInfo :=
  { Kind := .TINTER, formal := 0, IsUntyped := false, typeSym := ⟨"io", "WriteCloser"⟩,
    hasSym := true, symLocal := false, isUniverse := false, typePkgNil := false,
    baseTypeIndex := -1, Align := 8, eqfuncNil := false, IsPtrElem := false,
    Elem := 0, elemIsAny := false, Key := 0, sliceOfElem := 0, ptrTo := 1,
    bucket := 0, NumElem := 0, Recvs := [], Params := [], Results := [],
    Fields := [],
    imethods := [⟨⟨"", "Close"⟩, ⟨"", "WriteCloser.Close"⟩, ⟨"", "WriteCloser.Close"⟩, 2, 2⟩,
      ⟨⟨"", "Write"⟩, ⟨"", "WriteCloser.Write"⟩, ⟨"", "WriteCloser.Write"⟩, 3, 3⟩],
    methods := [] }

/-! ## Interface tables (`peekitabs`, `itabsym`, `dumptabs`) -/

/-- The type `itabEntry`: the concrete type `t` and the interface type `itype`
(as far as `genfun` reads them), the symbol of the itab itself, and the symbols
of the methods in the itab, filled in by `peekitabs`; a nil slice is the empty
list. -/
structure itabEntry where
  t : Option MethType
  itype : Option MethType
  lsym : LSym
  entries : List LSym
  deriving DecidableEq, Repr

/-- The function `peekitabs` on the list `itabs`: the list afterwards; an error is
the `base.Fatalf` of `genfun`. -/
def peekitabs : List itabEntry → Except String (List itabEntry)
  | [] => .ok []
  | tab :: rest =>
    match genfun tab.t tab.itype with
    | .error e => .error e
    | .ok methods =>
      match peekitabs rest with
      | .error e => .error e
      | .ok rest1 =>
        .ok ((if methods.length = 0 then tab else { tab with entries := methods }) :: rest1)

/-- The loop `for i := range itabs` of `itabsym`: the `entries` of the first entry
whose `lsym` is `it`, nil if there is none. -/
def itabsymFind (it : LSym) : List itabEntry → List LSym
  | [] => []
  | e :: rest => if e.lsym = it then e.entries else itabsymFind it rest

/-- The function `itabsym` with the list `itabs`: `none` is the nil symbol, an
error is a run-time panic (an index below zero, or a division by zero). -/
def itabsym (PtrSize : Nat) (itabs : List itabEntry) (it : Option LSym) (offset : Int) :
    Except String (Option LSym) :=
  match it with
  | none => .ok none
  | some it =>
    let syms := itabsymFind it itabs
    if syms = [] then .ok none
    else if PtrSize = 0 then .error "integer divide by zero"
    else
      let methodnum := (offset - 2 * (PtrSize : Int) - 8).tdiv (PtrSize : Int)
      if methodnum ≥ (syms.length : Int) then .ok none
      else if methodnum < 0 then .error "index out of range"
      else .ok (syms.get? methodnum.toNat)

/-- The outcome of a call of package `objw`: the offset it returns, or the message
of its fatal error. -/
def objwOff (a : List Action × Nat) : Except String Nat :=
  match a.1.find? (fun x => match x with | .fatal _ => true | _ => false) with
  | some (.fatal msg) => .error msg
  | _ => .ok a.2

/-- The loop `for _, fn := range genfun(i.t, i.itype)` of `dumptabs`, each round
`o = objw.SymPtr(i.lsym, o, fn, 0)`: the method pointers written, each with its
offset (`o` rounded up to the pointer size), and the final `o`. -/
def dumptabsLoop (PtrSize : Nat) : List LSym → Nat → Except String (List (Nat × LSym) × Nat)
  | [], o => .ok ([], o)
  | fn :: rest, o =>
    match objwOff (objwSymPtr PtrSize o "fun") with
    | .error e => .error e
    | .ok o1 =>
      match dumptabsLoop PtrSize rest o1 with
      | .error e => .error e
      | .ok r => .ok ((o1 - PtrSize, fn) :: r.1, r.2)

/-- The body of the loop `for _, i := range itabs` of `dumptabs` for the entry
`i`: the method pointers that it writes into the itab, each with its offset, and
the size of the itab. The calls of `dtypesym` and `types.TypeHash` give the
values of the first three fields and have no part in the offsets. -/
def dumptabsItab (PtrSize : Nat) (i : itabEntry) : Except String (List (Nat × LSym) × Nat) :=
  match objwOff (objwSymPtr PtrSize 0 "inter") with
  | .error e => .error e
  | .ok o =>
    match objwOff (objwSymPtr PtrSize o "_type") with
    | .error e => .error e
    | .ok o =>
      match objwOff (objwUintN o 4 "hash") with
      | .error e => .error e
      | .ok o =>
        let o := o + 4
        match genfun i.t i.itype with
        | .error e => .error e
        | .ok fns => dumptabsLoop PtrSize fns o

/-- The itabs recorded for `*File` as `io.WriteCloser`, before `peekitabs`. -/
def exampleItabs : List itabEntry :=
  [⟨some fileMethods, some writeCloser, ⟨⟨"go.itab", "*os.File,io.WriteCloser"⟩⟩, []⟩]

/-- The itab of `*File` as `io.WriteCloser` after `peekitabs`. -/
def exampleItab : itabEntry :=
  ⟨some fileMethods, some writeCloser, ⟨⟨"go.itab", "*os.File,io.WriteCloser"⟩⟩,
    [⟨⟨"", "(*File).Close"⟩⟩, ⟨⟨"", "(*File).Write"⟩⟩]⟩

/-! ## The map type descriptor (`dtypesym`, case `TMAP`) -/

/-- The values that the `TMAP` case of `dtypesym` writes into the fields
`keysize`, `elemsize`, `bucketsize` and `flags` of the `runtime.maptype`; the
steps that write them are those of `dtypesymSwitch`. `IsReflexive`,
`needkeyupdate` and `hashMightPanic` are the answers of the functions of these
names for `t.Key()`. An error is a `base.Fatalf` of `bmap`. -/
def dtypesymMapFields (PtrSize : Nat) (t : MapType)
    (IsReflexive needkeyupdate hashMightPanic : Bool) : Except String (Nat × Nat × Nat × Nat) :=
  match bmap PtrSize t with
  | .error e => .error e
  | .ok (_, t) =>
    let flags := 0
    let keysize := if t.Key.Width > MAXKEYSIZE then PtrSize % 2 ^ 8 else t.Key.Width % 2 ^ 8
    let flags := if t.Key.Width > MAXKEYSIZE then flags ||| 1 else flags
    let elemsize := if t.Elem.Width > MAXELEMSIZE then PtrSize % 2 ^ 8 else t.Elem.Width % 2 ^ 8
    let flags := if t.Elem.Width > MAXELEMSIZE then flags ||| 2 else flags
    match bmap PtrSize t with
    | .error e => .error e
    | .ok (bucket, _) =>
      let bucketsize := bucket.Width % 2 ^ 16
      let flags := if IsReflexive then flags ||| 4 else flags
      let flags := if needkeyupdate then flags ||| 8 else flags
      let flags := if hashMightPanic then flags ||| 16 else flags
      .ok (keysize, elemsize, bucketsize, flags % 2 ^ 32)

/-! # Theorems -/

/-! ### Facts about the uvarint codec -/

theorem byte_or_0x80 (x : Nat) : (x % 256) ||| 0x80 = x % 128 + 128 := by
  have h : ∀ b : Fin 256, (b.val ||| 128) = b.val % 128 + 128 := by
    set_option maxRecDepth 100000 in decide
  have := h ⟨x % 256, Nat.mod_lt _ (by norm_num)⟩
  simp only at this
  rw [this]
  omega

theorem PutUvarint_small (x : Nat) (h : x < 0x80) : PutUvarint x = [x] := by
  rw [PutUvarint, dif_pos h, Nat.mod_eq_of_lt (by omega)]

theorem PutUvarint_big (x : Nat) (h : ¬ x < 0x80) :
    PutUvarint x = (x % 128 + 128) :: PutUvarint (x / 128) := by
  rw [PutUvarint, dif_neg h, byte_or_0x80, Nat.shiftRight_eq_div_pow]

theorem PutUvarint_length_pos (x : Nat) : 1 ≤ (PutUvarint x).length := by
  by_cases h : x < 0x80
  · rw [PutUvarint_small x h]; simp
  · rw [PutUvarint_big x h]; simp

theorem PutUvarint_length_le (k : Nat) : ∀ x : Nat, x < 2 ^ (7 * (k + 1)) →
    (PutUvarint x).length ≤ k + 1 := by
  induction k with
  | zero =>
    intro x hx
    rw [PutUvarint_small x (by simpa using hx)]
    simp
  | succ k ih =>
    intro x hx
    by_cases h : x < 0x80
    · rw [PutUvarint_small x h]; simp
    · rw [PutUvarint_big x h]
      have : x / 128 < 2 ^ (7 * (k + 1)) := by
        apply Nat.div_lt_of_lt_mul
        have e : 2 ^ (7 * (k + 1 + 1)) = 128 * 2 ^ (7 * (k + 1)) := by
          rw [show 7 * (k + 1 + 1) = 7 + 7 * (k + 1) by ring, pow_add]; norm_num
        omega
      have := ih _ this
      simp only [List.length_cons]
      omega

theorem PutUvarint_bytes (x : Nat) : ∀ b ∈ PutUvarint x, b < 256 := by
  induction x using Nat.strong_induction_on with
  | _ x ih =>
    by_cases h : x < 0x80
    · rw [PutUvarint_small x h]
      intro b hb
      simp only [List.mem_singleton] at hb
      omega
    · rw [PutUvarint_big x h]
      intro b hb
      rcases List.mem_cons.1 hb with rfl | hb
      · omega
      · exact ih (x / 128) (by omega) b hb

theorem shl_mod (b s : Nat) (h : b * 2 ^ s < 2 ^ 64) : (b <<< s) % 2 ^ 64 = 2 ^ s * b := by
  rw [Nat.shiftLeft_eq, Nat.mod_eq_of_lt h, Nat.mul_comm]

theorem acc_or (acc b s : Nat) (hacc : acc < 2 ^ s) : acc ||| (2 ^ s * b) = acc + 2 ^ s * b := by
  rw [Nat.lor_comm, ← Nat.mul_add_lt_is_or hacc b, Nat.add_comm]

/-- Loop invariant of the decoder run on the output of the encoder. -/
theorem UvarintLoop_PutUvarint (rest : List Nat) : ∀ (y i acc : Nat),
    acc < 2 ^ (7 * i) → acc + 2 ^ (7 * i) * y < 2 ^ 64 → (i = 0 ∨ 1 ≤ y) →
    UvarintLoop (PutUvarint y ++ rest) i acc (7 * i)
      = (acc + 2 ^ (7 * i) * y, (i : Int) + (PutUvarint y).length) := by
  intro y
  induction y using Nat.strong_induction_on with
  | _ y ih =>
    intro i acc hacc hx hi
    have hpos : 0 < 2 ^ (7 * i) := Nat.pow_pos (by norm_num)
    have hi9 : i ≤ 9 := by
      rcases hi with rfl | hy
      · omega
      · by_contra hc
        have h1 : 2 ^ 64 ≤ 2 ^ (7 * i) := Nat.pow_le_pow_right (by norm_num) (by omega)
        have h2 : 2 ^ (7 * i) * 1 ≤ 2 ^ (7 * i) * y := Nat.mul_le_mul_left _ hy
        omega
    by_cases h : y < 0x80
    · rw [PutUvarint_small y h]
      simp only [List.singleton_append, List.length_singleton, UvarintLoop, MaxVarintLen64]
      rw [if_neg (by omega), if_pos h]
      have hb : ¬ (i = 10 - 1 ∧ y > 1) := by
        rintro ⟨h9, hy⟩
        have h9 : i = 9 := by omega
        subst h9
        have : 2 ^ (7 * 9) * 2 ≤ 2 ^ (7 * 9) * y := Nat.mul_le_mul_left _ hy
        norm_num at this hx
        omega
      rw [if_neg hb, shl_mod y (7 * i) (by rw [Nat.mul_comm]; omega), acc_or acc y _ hacc]
      simp
    · rw [PutUvarint_big y h]
      have e7 : 2 ^ (7 * (i + 1)) = 2 ^ (7 * i) * 128 := by
        rw [show 7 * (i + 1) = 7 * i + 7 by ring, pow_add]; norm_num
      have hdm := Nat.div_add_mod y 128
      have hsplit : 2 ^ (7 * i) * y = 2 ^ (7 * i) * (y % 128) + 2 ^ (7 * i) * 128 * (y / 128) := by
        conv_lhs => rw [← hdm]
        ring
      have hmod : y % 128 < 128 := Nat.mod_lt _ (by norm_num)
      have hlow : 2 ^ (7 * i) * (y % 128) ≤ 2 ^ (7 * i) * 127 := Nat.mul_le_mul_left _ (by omega)
      have hi8 : i ≤ 8 := by
        by_contra hc
        have hi' : i = 9 := by omega
        subst hi'
        have : 2 ^ (7 * 9) * 128 ≤ 2 ^ (7 * 9) * y := Nat.mul_le_mul_left _ (by omega)
        norm_num at this hx
        omega
      rw [List.cons_append, UvarintLoop, MaxVarintLen64]
      rw [if_neg (by omega), if_neg (by omega)]
      have hand : (y % 128 + 128) &&& 0x7f = y % 128 := by
        have := Nat.and_pow_two_sub_one_eq_mod (y % 128 + 128) 7
        rw [show (0x7f : Nat) = 2 ^ 7 - 1 by norm_num, this]
        omega
      rw [hand, shl_mod (y % 128) (7 * i) (by rw [Nat.mul_comm]; omega), acc_or acc _ _ hacc]
      have hrec := ih (y / 128) (by omega) (i + 1) (acc + 2 ^ (7 * i) * (y % 128))
        (by rw [e7]; nlinarith) (by rw [e7]; omega) (Or.inr (by omega))
      rw [show 7 * i + 7 = 7 * (i + 1) by ring, hrec, e7]
      refine Prod.ext ?_ ?_
      · simp only; omega
      · simp only [List.length_cons]; push_cast; ring

/-- Decoding what `PutUvarint` wrote gives the value back and reads exactly the
bytes written, whatever follows them. -/
theorem Uvarint_PutUvarint (x : Nat) (hx : x < 2 ^ 64) (rest : List Nat) :
    Uvarint (PutUvarint x ++ rest) = (x, ((PutUvarint x).length : Int)) := by
  have := UvarintLoop_PutUvarint rest x 0 0 (by norm_num) (by simpa using hx) (Or.inl rfl)
  simpa [Uvarint] using this

/-- The zig-zag value that `PutVarint` hands to `PutUvarint`. -/
theorem zigzag_eq (x : Int) (hlo : -2 ^ 63 ≤ x) (hhi : x < 2 ^ 63) :
    (if x < 0 then 2 ^ 64 - 1 - (toUint64 x <<< 1) % 2 ^ 64 else (toUint64 x <<< 1) % 2 ^ 64)
      = (if x < 0 then (-2 * x - 1).toNat else (2 * x).toNat) := by
  simp only [toUint64, Nat.shiftLeft_eq, pow_one]
  by_cases hneg : x < 0
  · simp only [if_pos hneg]
    have h1 : x % 2 ^ 64 = x + 2 ^ 64 := by omega
    rw [h1]
    omega
  · simp only [if_neg hneg]
    have h1 : x % 2 ^ 64 = x := Int.emod_eq_of_lt (by omega) (by omega)
    rw [h1]
    omega

theorem Varint_PutVarint (x : Int) (hlo : -2 ^ 63 ≤ x) (hhi : x < 2 ^ 63) (rest : List Nat) :
    Varint (PutVarint x ++ rest) = (x, ((PutVarint x).length : Int)) := by
  have hz := zigzag_eq x hlo hhi
  simp only [PutVarint, Varint]
  rw [hz]
  by_cases hneg : x < 0
  · simp only [if_pos hneg]
    rw [Uvarint_PutUvarint _ (by omega)]
    simp only [Nat.shiftRight_eq_div_pow, Nat.and_one_is_mod, toInt64, pow_one]
    have h2 : (-2 * x - 1).toNat % 2 = 1 := by omega
    rw [if_pos (by omega)]
    refine Prod.ext ?_ rfl
    simp only
    split_ifs <;> omega
  · simp only [if_neg hneg]
    rw [Uvarint_PutUvarint _ (by omega)]
    simp only [Nat.shiftRight_eq_div_pow, Nat.and_one_is_mod, toInt64, pow_one]
    have h2 : (2 * x).toNat % 2 = 0 := by omega
    rw [if_neg (by omega)]
    refine Prod.ext ?_ rfl
    simp only
    split_ifs <;> omega

/-- C1: for every 64-bit unsigned `x`, `intWriter.uint64(x)` leaves the bytes
already in the buffer unchanged and appends between 1 and 10 bytes; decoding
the appended bytes as a uvarint (whatever is written after them) yields exactly
`x` and consumes exactly the bytes appended. -/
theorem uint64_roundtrip (w : intWriter) (x : Nat) (hx : x < 2 ^ 64) :
    (w.uint64 x).buf.take w.Len = w.buf ∧
    1 ≤ ((w.uint64 x).buf.drop w.Len).length ∧
    ((w.uint64 x).buf.drop w.Len).length ≤ 10 ∧
    (∀ b ∈ (w.uint64 x).buf.drop w.Len, b < 256) ∧
    ∀ rest : List Nat, Uvarint ((w.uint64 x).buf.drop w.Len ++ rest)
      = (x, (((w.uint64 x).buf.drop w.Len).length : Int)) := by
  have hd : (w.uint64 x).buf.drop w.Len = PutUvarint x := by
    simp [intWriter.uint64, intWriter.Write, intWriter.Len]
  have ht : (w.uint64 x).buf.take w.Len = w.buf := by
    simp [intWriter.uint64, intWriter.Write, intWriter.Len]
  rw [hd]
  exact ⟨ht, PutUvarint_length_pos x, PutUvarint_length_le 9 x (by norm_num; omega),
    PutUvarint_bytes x, fun rest => Uvarint_PutUvarint x hx rest⟩

/-- Witness of `uint64_roundtrip` at the largest 64-bit value, written after two
bytes. -/
theorem uint64_roundtrip_witness :
    ((⟨[7, 9]⟩ : intWriter).uint64 (2 ^ 64 - 1)).buf.take (⟨[7, 9]⟩ : intWriter).Len = [7, 9] ∧
    ((⟨[7, 9]⟩ : intWriter).uint64 (2 ^ 64 - 1)).buf.drop (⟨[7, 9]⟩ : intWriter).Len
      = [255, 255, 255, 255, 255, 255, 255, 255, 255, 1] :=
  ⟨(uint64_roundtrip ⟨[7, 9]⟩ (2 ^ 64 - 1) (by norm_num)).1, by
    simp [intWriter.uint64, intWriter.Write, intWriter.Len, PutUvarint]⟩

/-- C2: for every 64-bit signed `x` (zero, `-1`, the maximum and the minimum
`-2 ^ 63` included), `intWriter.int64(x)` appends the zig-zag varint of `x`:
the uvarint of `2 * x` when `x >= 0` and of `-2 * x - 1` when `x < 0`; decoding
the appended bytes as a signed varint yields exactly `x` and consumes exactly
the bytes appended. -/
theorem int64_roundtrip (w : intWriter) (x : Int) (hlo : -2 ^ 63 ≤ x) (hhi : x < 2 ^ 63) :
    (w.int64 x).buf.take w.Len = w.buf ∧
    (w.int64 x).buf.drop w.Len
      = PutUvarint (if x < 0 then (-2 * x - 1).toNat else (2 * x).toNat) ∧
    ∀ rest : List Nat, Varint ((w.int64 x).buf.drop w.Len ++ rest)
      = (x, (((w.int64 x).buf.drop w.Len).length : Int)) := by
  have hd : (w.int64 x).buf.drop w.Len = PutVarint x := by
    simp [intWriter.int64, intWriter.Write, intWriter.Len]
  have ht : (w.int64 x).buf.take w.Len = w.buf := by
    simp [intWriter.int64, intWriter.Write, intWriter.Len]
  rw [hd]
  refine ⟨ht, ?_, fun rest => Varint_PutVarint x hlo hhi rest⟩
  simp only [PutVarint]
  rw [zigzag_eq x hlo hhi]

/-- Witness of `int64_roundtrip` at the minimum value `-2 ^ 63`. -/
theorem int64_roundtrip_witness :
    ((⟨[]⟩ : intWriter).int64 (-2 ^ 63)).buf.drop (⟨[]⟩ : intWriter).Len
      = PutUvarint (if (-2 ^ 63 : Int) < 0 then (-2 * (-2 ^ 63 : Int) - 1).toNat
          else (2 * (-2 ^ 63 : Int)).toNat) ∧
    Varint (((⟨[]⟩ : intWriter).int64 (-2 ^ 63)).buf.drop (⟨[]⟩ : intWriter).Len ++ [])
      = (-2 ^ 63, ((((⟨[]⟩ : intWriter).int64 (-2 ^ 63)).buf.drop
          (⟨[]⟩ : intWriter).Len).length : Int)) :=
  ⟨(int64_roundtrip ⟨[]⟩ (-2 ^ 63) (by norm_num) (by norm_num)).2.1,
   (int64_roundtrip ⟨[]⟩ (-2 ^ 63) (by norm_num) (by norm_num)).2.2 []⟩

/-! ### Facts about the string table -/

theorem lookup_cons_self (s : List Nat) (o : Nat) (l : List (List Nat × Nat)) :
    List.lookup s ((s, o) :: l) = some o := by
  simp [List.lookup]

theorem lookup_cons_ne (s t : List Nat) (o : Nat) (l : List (List Nat × Nat)) (h : s ≠ t) :
    List.lookup s ((t, o) :: l) = List.lookup s l := by
  have : (s == t) = false := by simpa using h
  simp [List.lookup, this]

theorem stringOff_Len_lt (p : iexporter) (s : List Nat) (h : p.stringIndex.lookup s = none) :
    p.strings.Len < (p.stringOff s).2.strings.Len := by
  have := PutUvarint_length_pos s.length
  simp only [iexporter.stringOff, h, intWriter.Len, intWriter.Write, intWriter.uint64,
    List.length_append]
  omega

theorem stringOff_lookup_self (p : iexporter) (s : List Nat) :
    (p.stringOff s).2.stringIndex.lookup s = some (p.stringOff s).1 := by
  cases h : p.stringIndex.lookup s with
  | some off => simp [iexporter.stringOff, h]
  | none => simp [iexporter.stringOff, h, lookup_cons_self]

theorem stringOff_of_lookup (p : iexporter) (s : List Nat) (o : Nat)
    (h : p.stringIndex.lookup s = some o) : p.stringOff s = (o, p) := by
  simp [iexporter.stringOff, h]

theorem stringOff_lookup_mono (p : iexporter) (s t : List Nat) (o : Nat)
    (h : p.stringIndex.lookup t = some o) : (p.stringOff s).2.stringIndex.lookup t = some o := by
  cases hs : p.stringIndex.lookup s with
  | some off => simpa [iexporter.stringOff, hs] using h
  | none =>
    have hne : t ≠ s := by
      rintro rfl
      rw [hs] at h
      cases h
    simp only [iexporter.stringOff, hs]
    rw [lookup_cons_ne t s _ _ hne]
    exact h

theorem stringOff_Inv (p : iexporter) (s : List Nat) (hp : p.Inv) : (p.stringOff s).2.Inv := by
  cases hs : p.stringIndex.lookup s with
  | some off =>
    rw [stringOff_of_lookup p s off hs]
    exact hp
  | none =>
    have hlt := stringOff_Len_lt p s hs
    have hidx : (p.stringOff s).2.stringIndex = (s, p.strings.Len) :: p.stringIndex := by
      simp [iexporter.stringOff, hs]
    refine ⟨?_, ?_⟩
    · intro t o ht
      rw [hidx] at ht
      by_cases hts : t = s
      · subst hts
        rw [lookup_cons_self] at ht
        cases ht
        exact hlt
      · rw [lookup_cons_ne t s _ _ hts] at ht
        exact lt_trans (hp.1 t o ht) hlt
    · intro t t' o ht ht'
      rw [hidx] at ht ht'
      by_cases hts : t = s
      · by_cases hts' : t' = s
        · rw [hts, hts']
        · subst hts
          rw [lookup_cons_self] at ht
          rw [lookup_cons_ne t' t _ _ hts'] at ht'
          cases ht
          exact absurd (hp.1 t' _ ht') (lt_irrefl _)
      · by_cases hts' : t' = s
        · subst hts'
          rw [lookup_cons_self] at ht'
          rw [lookup_cons_ne t t' _ _ hts] at ht
          cases ht'
          exact absurd (hp.1 t _ ht) (lt_irrefl _)
        · rw [lookup_cons_ne t s _ _ hts] at ht
          rw [lookup_cons_ne t' s _ _ hts'] at ht'
          exact hp.2 t t' o ht ht'

theorem Reachable_Inv (p : iexporter) (hp : p.Reachable) : p.Inv := by
  induction hp with
  | init =>
    refine ⟨?_, ?_⟩
    · intro s o h
      simp [iexporter.init] at h
    · intro s s' o h
      simp [iexporter.init] at h
  | step p s _ ih => exact stringOff_Inv p s ih

theorem internAll_Inv (ss : List (List Nat)) : ∀ p : iexporter, p.Inv → (p.internAll ss).Inv := by
  induction ss with
  | nil => intro p hp; exact hp
  | cons s ss ih =>
    intro p hp
    exact ih _ (stringOff_Inv p s hp)

theorem internAll_lookup_mono (ss : List (List Nat)) : ∀ (p : iexporter) (t : List Nat) (o : Nat),
    p.stringIndex.lookup t = some o → (p.internAll ss).stringIndex.lookup t = some o := by
  induction ss with
  | nil => intro p t o h; exact h
  | cons s ss ih =>
    intro p t o h
    exact ih _ t o (stringOff_lookup_mono p s t o h)

/-- C3: in every exporter state `p` reachable from the empty string table by
`stringOff` calls, once `stringOff(s)` has returned an offset, a second call of
`stringOff(s)` (made at once or after any further `stringOff` calls `mid`)
returns the same offset and leaves the string section and the index unchanged,
and `stringOff(s')` for any different string `s'` returns a different offset. -/
theorem stringOff_deterministic (p : iexporter) (hp : p.Reachable) (s s' : List Nat)
    (mid : List (List Nat)) :
    (((p.stringOff s).2.internAll mid).stringOff s).1 = (p.stringOff s).1 ∧
    (((p.stringOff s).2.internAll mid).stringOff s).2 = (p.stringOff s).2.internAll mid ∧
    (s ≠ s' → (((p.stringOff s).2.internAll mid).stringOff s').1 ≠ (p.stringOff s).1) := by
  have hq : ((p.stringOff s).2.internAll mid).stringIndex.lookup s = some (p.stringOff s).1 :=
    internAll_lookup_mono mid _ s _ (stringOff_lookup_self p s)
  have hinv : ((p.stringOff s).2.internAll mid).Inv :=
    internAll_Inv mid _ (stringOff_Inv p s (Reachable_Inv p hp))
  refine ⟨?_, ?_, ?_⟩
  · rw [stringOff_of_lookup _ s _ hq]
  · rw [stringOff_of_lookup _ s _ hq]
  · intro hne heq
    have h1 := stringOff_lookup_self ((p.stringOff s).2.internAll mid) s'
    have h2 := stringOff_lookup_mono ((p.stringOff s).2.internAll mid) s' s _ hq
    rw [heq] at h1
    have hinv' := stringOff_Inv _ s' hinv
    exact hne (hinv'.2 s s' _ h2 h1)

/-- Witness of `stringOff_deterministic`: the strings "a" and "b" interned into
the empty table, with "ab" interned in between. -/
theorem stringOff_deterministic_witness :
    iexporter.init.Reachable ∧
    (((iexporter.init.stringOff [97]).2.internAll [[97, 98]]).stringOff [97]).1
      = (iexporter.init.stringOff [97]).1 ∧
    (([97] : List Nat) ≠ [98] →
      (((iexporter.init.stringOff [97]).2.internAll [[97, 98]]).stringOff [98]).1
        ≠ (iexporter.init.stringOff [97]).1) :=
  ⟨iexporter.Reachable.init,
   (stringOff_deterministic iexporter.init iexporter.Reachable.init [97] [98] [[97, 98]]).1,
   (stringOff_deterministic iexporter.init iexporter.Reachable.init [97] [98] [[97, 98]]).2.2⟩

/-! ### Facts about `mpint` -/


theorem leBytes_zero : leBytes 0 = [] := by rw [leBytes]; simp

theorem leBytes_pos (n : Nat) (h : n ≠ 0) : leBytes n = (n % 256) :: leBytes (n / 256) := by
  rw [leBytes, dif_neg h]

theorem leBytes_length_eq_zero (n : Nat) : (leBytes n).length = 0 ↔ n = 0 := by
  constructor
  · intro h
    by_contra hn
    rw [leBytes_pos n hn] at h
    simp at h
  · rintro rfl; rw [leBytes_zero]; rfl

theorem leBytes_length_le_one (n : Nat) (h : (leBytes n).length ≤ 1) : n < 256 ∧ leBytes n = if n = 0 then [] else [n] := by
  by_cases hn : n = 0
  · subst hn; simp [leBytes_zero]
  · rw [leBytes_pos n hn] at h ⊢
    simp only [List.length_cons] at h
    have h0 : (leBytes (n / 256)).length = 0 := by omega
    have := (leBytes_length_eq_zero _).1 h0
    have hl : leBytes (n / 256) = [] := List.length_eq_zero.1 h0
    rw [hl, if_neg hn]
    refine ⟨by omega, ?_⟩
    congr 1
    omega

theorem usub_le (a k : Nat) (ha : a < 2 ^ 64) (h : k ≤ a) : usub a k = a - k := by
  unfold usub
  have : k % 2 ^ 64 = k := Nat.mod_eq_of_lt (by omega)
  rw [this]
  omega

theorem even_or_one (m : Nat) (h : m % 2 = 0) : m ||| 1 = m + 1 := by
  have := @Nat.mul_add_lt_is_or 1 1 (by norm_num) (m / 2)
  simp only [pow_one] at this
  rw [show 2 * (m / 2) = m by omega] at this
  exact this.symm

theorem mpintMaxSmall_eq (signed : Bool) (mb : Nat) (h64 : mb ≤ 64) :
    mpintMaxSmall signed mb = maxSmall signed mb := by
  unfold mpintMaxSmall maxSmall
  simp only
  rw [Nat.mod_eq_of_lt (show 2 * mb < 2 ^ 64 by omega),
    usub_le 256 (2 * mb) (by norm_num) (by omega), usub_le 256 mb (by norm_num) (by omega)]

theorem mpintN_eq (signed : Bool) (x : Int) (L : Nat) (h64 : L ≤ 64) :
    mpintN signed (decide (x < 0)) L = lenByte signed x L := by
  unfold mpintN lenByte
  simp only
  rw [Nat.mod_eq_of_lt (show 2 * L < 2 ^ 64 by omega),
    usub_le 256 (2 * L) (by norm_num) (by omega), usub_le 256 L (by norm_num) (by omega)]
  by_cases hs : signed = true
  · simp only [hs, if_true]
    by_cases hx : x < 0
    · simp only [hx, decide_True, if_true]
      exact even_or_one _ (by omega)
    · simp [hx]
  · simp [hs]

theorem mpintUx_eq (signed : Bool) (x : Int)
    (hL : (leBytes x.natAbs).length ≤ 1) :
    mpintUx signed (decide (x < 0)) (leBytes x.natAbs).reverse = smallVal signed x := by
  obtain ⟨hlt, hb⟩ := leBytes_length_le_one _ hL
  have hux : (if (leBytes x.natAbs).reverse.length = 1 then (leBytes x.natAbs).reverse.headD 0
      else 0) = x.natAbs := by
    rw [hb]
    by_cases h0 : x.natAbs = 0
    · simp [h0]
    · simp [h0]
  unfold mpintUx smallVal
  simp only
  rw [hux, Nat.shiftLeft_eq, pow_one, Nat.mod_eq_of_lt (show x.natAbs * 2 < 2 ^ 64 by omega)]
  by_cases hsg : signed = true
  · simp only [hsg, if_true]
    by_cases hx : x < 0
    · simp only [hx, decide_True, if_true]
      rw [usub_le _ 1 (by omega) (by omega)]
      omega
    · simp only [hx, decide_False, if_false]
      simp
      omega
  · simp [hsg]

theorem mpintBytes_shape (signed : Bool) (mb : Nat) (h64 : mb ≤ 64) (x : Int)
    (e : List Nat) (h : mpintBytes signed mb x = some e) :
    (signed = false → 0 ≤ x) ∧ (leBytes x.natAbs).length ≤ mb ∧
    (((leBytes x.natAbs).length ≤ 1 ∧ smallVal signed x < maxSmall signed mb ∧
        e = [smallVal signed x]) ∨
     (1 ≤ (leBytes x.natAbs).length ∧
        ¬ ((leBytes x.natAbs).length ≤ 1 ∧ smallVal signed x < maxSmall signed mb) ∧
        maxSmall signed mb ≤ lenByte signed x (leBytes x.natAbs).length ∧
        lenByte signed x (leBytes x.natAbs).length < 256 ∧
        e = lenByte signed x (leBytes x.natAbs).length :: (leBytes x.natAbs).reverse)) := by
  unfold mpintBytes at h
  simp only [constantBytes, List.length_reverse] at h
  by_cases c1 : (!signed && decide (x < 0)) = true
  · rw [if_pos c1] at h; cases h
  rw [if_neg c1] at h
  have hs : signed = false → 0 ≤ x := by
    intro hsf
    subst hsf
    simpa using c1
  split_ifs at h with c2 c3 c4 c5
  · have hL : (leBytes x.natAbs).length ≤ mb := by omega
    rw [mpintMaxSmall_eq signed mb h64, mpintUx_eq signed x c4.1] at c4
    rw [mpintUx_eq signed x c4.1] at h
    have hms : maxSmall signed mb ≤ 256 := by unfold maxSmall; split_ifs <;> omega
    rw [Nat.mod_eq_of_lt (by omega)] at h
    exact ⟨hs, hL, Or.inl ⟨c4.1, c4.2, (Option.some.inj h).symm⟩⟩
  · have hL : (leBytes x.natAbs).length ≤ mb := by omega
    rw [mpintMaxSmall_eq signed mb h64, mpintN_eq signed x _ (by omega)] at c5
    rw [mpintN_eq signed x _ (by omega)] at h
    have hn : lenByte signed x (leBytes x.natAbs).length < 256 := by omega
    rw [Nat.mod_eq_of_lt hn] at h
    have hns : ¬ ((leBytes x.natAbs).length ≤ 1 ∧ smallVal signed x < maxSmall signed mb) := by
      rintro ⟨ha, hb⟩
      apply c4
      rw [mpintMaxSmall_eq signed mb h64, mpintUx_eq signed x ha]
      exact ⟨ha, hb⟩
    refine ⟨hs, hL, Or.inr ⟨?_, hns, by omega, hn, (Option.some.inj h).symm⟩⟩
    by_contra h0
    have h0 : (leBytes x.natAbs).length = 0 := by omega
    have hx0 : x.natAbs = 0 := (leBytes_length_eq_zero _).1 h0
    have hx : x = 0 := Int.natAbs_eq_zero.1 hx0
    subst hx
    unfold lenByte at hn
    simp [leBytes_zero] at hn

theorem ofLE_leBytes (n : Nat) : ofLE (leBytes n) = n := by
  induction n using Nat.strong_induction_on with
  | _ n ih =>
    by_cases h : n = 0
    · subst h; rw [leBytes_zero]; rfl
    · rw [leBytes_pos n h, ofLE, ih (n / 256) (Nat.div_lt_self (by omega) (by norm_num))]
      omega

theorem leBytes_inj (n m : Nat) (h : leBytes n = leBytes m) : n = m := by
  rw [← ofLE_leBytes n, ← ofLE_leBytes m, h]

theorem smallVal_inj (signed : Bool) (x y : Int) (hx : signed = false → 0 ≤ x)
    (hy : signed = false → 0 ≤ y) (h : smallVal signed x = smallVal signed y) : x = y := by
  unfold smallVal at h
  cases signed with
  | false =>
    have := hx rfl
    have := hy rfl
    simp only [Bool.false_eq_true, if_false] at h
    omega
  | true =>
    simp only [if_true] at h
    split_ifs at h <;> omega

theorem lenByte_inj (signed : Bool) (x y : Int) (Lx Ly : Nat) (hLx : Lx ≤ 64) (hLy : Ly ≤ 64)
    (h : lenByte signed x Lx = lenByte signed y Ly) :
    Lx = Ly ∧ (signed = true → (x < 0 ↔ y < 0)) := by
  unfold lenByte at h
  cases signed with
  | false =>
    simp only [Bool.false_eq_true, if_false] at h
    exact ⟨by omega, by intro h; cases h⟩
  | true =>
    simp only [if_true] at h
    split_ifs at h with h1 h2 h2
    · exact ⟨by omega, fun _ => ⟨fun _ => h2, fun _ => h1⟩⟩
    · omega
    · omega
    · exact ⟨by omega, fun _ => ⟨fun h => absurd h h1, fun h => absurd h h2⟩⟩

theorem mpintBytes_not_prefix (signed : Bool) (mb : Nat) (h64 : mb ≤ 64) (x y : Int)
    (ex ey : List Nat) (hx : mpintBytes signed mb x = some ex)
    (hy : mpintBytes signed mb y = some ey) (hne : x ≠ y) : ¬ ex <+: ey := by
  obtain ⟨hsx, hLx, hx'⟩ := mpintBytes_shape signed mb h64 x ex hx
  obtain ⟨hsy, hLy, hy'⟩ := mpintBytes_shape signed mb h64 y ey hy
  intro hp
  rcases hx' with ⟨_, hvx, rfl⟩ | ⟨hx1, hnsx, hnx, hnx2, rfl⟩ <;>
    rcases hy' with ⟨_, hvy, rfl⟩ | ⟨hy1, hnsy, hny, hny2, rfl⟩
  · have := List.IsPrefix.eq_of_length hp (by simp)
    exact hne (smallVal_inj signed x y hsx hsy (by simpa using this))
  · have := (List.cons_prefix_cons.1 hp).1
    omega
  · have := (List.cons_prefix_cons.1 hp).1
    omega
  · obtain ⟨hh, ht⟩ := List.cons_prefix_cons.1 hp
    obtain ⟨hL, hsg⟩ := lenByte_inj signed x y _ _ (by omega) (by omega) hh
    have hrev := List.IsPrefix.eq_of_length ht (by simpa using hL)
    have habs : x.natAbs = y.natAbs := leBytes_inj _ _ (List.reverse_injective hrev)
    apply hne
    cases signed with
    | false =>
      have := hsx rfl
      have := hsy rfl
      omega
    | true =>
      have := hsg rfl
      omega

theorem mpintBytes_length (signed : Bool) (mb : Nat) (h64 : mb ≤ 64) (x : Int)
    (ex : List Nat) (hx : mpintBytes signed mb x = some ex) :
    ex.length = mpintLen signed mb (ex.headD 0) ∧
    (ex.headD 0 < maxSmall signed mb ↔ (constantBytes x).length ≤ 1 ∧
      smallVal signed x < maxSmall signed mb) ∧
    (signed = true → maxSmall signed mb ≤ ex.headD 0 → (x < 0 ↔ ex.headD 0 % 2 = 1)) := by
  obtain ⟨hsx, hLx, hx'⟩ := mpintBytes_shape signed mb h64 x ex hx
  rcases hx' with ⟨hL1, hvx, rfl⟩ | ⟨hx1, hnsx, hnx, hnx2, rfl⟩
  · simp only [List.length_singleton, List.headD_cons, mpintLen, if_pos hvx, constantBytes]
    exact ⟨trivial, ⟨fun _ => ⟨hL1, hvx⟩, fun _ => hvx⟩, fun _ h => by omega⟩
  · simp only [List.length_cons, List.length_reverse, List.headD_cons, mpintLen,
      if_neg (not_lt.2 hnx), constantBytes]
    refine ⟨?_, ⟨fun h => by omega, fun h => ?_⟩, ?_⟩
    · unfold lenByte
      cases signed with
      | false => simp only [Bool.false_eq_true, if_false]; omega
      | true => simp only [if_true]; split_ifs <;> omega
    · exact absurd h hnsx
    · intro hs _
      subst hs
      unfold lenByte
      simp only [if_true]
      split_ifs with hneg
      · exact ⟨fun _ => by omega, fun _ => hneg⟩
      · exact ⟨fun h => absurd h hneg, fun h => by omega⟩

/-- C4: for a fixed integer type whose maximum byte count (from `intSize`) is at
most 64, the `mpint` encoding is decodable: for any two different values that
`mpint` accepts the bytes written differ and neither is a prefix of the other;
the first byte alone gives the total length (`mpintLen`), is below `maxSmall`
exactly for a value written small, and for a large value of a signed type its
lowest bit is the sign. -/
theorem mpint_decodable (typ : NumType) (h64 : (intSize typ).2 ≤ 64)
    (w wx wy : exportWriter) (x y : Int)
    (hx : w.mpint x typ = some wx) (hy : w.mpint y typ = some wy) (hne : x ≠ y) :
    wx.data.buf.drop w.data.Len ≠ wy.data.buf.drop w.data.Len ∧
    ¬ wx.data.buf.drop w.data.Len <+: wy.data.buf.drop w.data.Len ∧
    ¬ wy.data.buf.drop w.data.Len <+: wx.data.buf.drop w.data.Len ∧
    (wx.data.buf.drop w.data.Len).length
      = mpintLen (intSize typ).1 (intSize typ).2 ((wx.data.buf.drop w.data.Len).headD 0) ∧
    ((wx.data.buf.drop w.data.Len).headD 0 < maxSmall (intSize typ).1 (intSize typ).2 ↔
      (constantBytes x).length ≤ 1 ∧
        smallVal (intSize typ).1 x < maxSmall (intSize typ).1 (intSize typ).2) ∧
    ((intSize typ).1 = true →
      maxSmall (intSize typ).1 (intSize typ).2 ≤ (wx.data.buf.drop w.data.Len).headD 0 →
      (x < 0 ↔ (wx.data.buf.drop w.data.Len).headD 0 % 2 = 1)) := by
  unfold exportWriter.mpint at hx hy
  cases hbx : mpintBytes (intSize typ).1 (intSize typ).2 x with
  | none => rw [hbx] at hx; cases hx
  | some ex =>
    cases hby : mpintBytes (intSize typ).1 (intSize typ).2 y with
    | none => rw [hby] at hy; cases hy
    | some ey =>
      rw [hbx] at hx
      rw [hby] at hy
      have hwx : wx.data.buf.drop w.data.Len = ex := by
        rw [← Option.some.inj hx]
        simp [intWriter.Write, intWriter.Len]
      have hwy : wy.data.buf.drop w.data.Len = ey := by
        rw [← Option.some.inj hy]
        simp [intWriter.Write, intWriter.Len]
      rw [hwx, hwy]
      have hp1 := mpintBytes_not_prefix _ _ h64 x y ex ey hbx hby hne
      have hp2 := mpintBytes_not_prefix _ _ h64 y x ey ex hby hbx (Ne.symm hne)
      obtain ⟨hl, hsm, hsg⟩ := mpintBytes_length _ _ h64 x ex hbx
      refine ⟨?_, hp1, hp2, hl, hsm, hsg⟩
      intro heq
      exact hp1 (heq ▸ List.prefix_refl ex)

/-- Witness of `mpint_decodable`: the values 5 and -300 of type `int`. -/
theorem mpint_decodable_witness :
    ((⟨iexporter.init, ⟨[10]⟩, [], 0, 0⟩ : exportWriter).data.buf.drop 0 : List Nat)
      ≠ (⟨iexporter.init, ⟨[253, 1, 44]⟩, [], 0, 0⟩ : exportWriter).data.buf.drop 0 :=
  (mpint_decodable ⟨false, EType.TINT, true, 8⟩ (by decide)
    iexporter.init.newWriter ⟨iexporter.init, ⟨[10]⟩, [], 0, 0⟩
    ⟨iexporter.init, ⟨[253, 1, 44]⟩, [], 0, 0⟩ 5 (-300)
    (by simp [exportWriter.mpint, mpintBytes, intSize, constantBytes, leBytes, mpintUx,
      mpintMaxSmall, mpintN, usub, iexporter.newWriter, intWriter.Write])
    (by simp [exportWriter.mpint, mpintBytes, intSize, constantBytes, leBytes, mpintUx,
      mpintMaxSmall, mpintN, usub, iexporter.newWriter, intWriter.Write])
    (by decide)).1

theorem toInt64_toUint64 (x : Int) (hlo : -2 ^ 63 ≤ x) (hhi : x < 2 ^ 63) :
    toInt64 (toUint64 x) = x := by
  unfold toInt64 toUint64
  split_ifs <;> omega

theorem shl1_eq (x : Int) (hlo : -2 ^ 62 ≤ x) (hhi : x < 2 ^ 62) : shl1 x = 2 * x := by
  unfold shl1 toInt64 toUint64
  rw [Nat.shiftLeft_eq, pow_one]
  split_ifs <;> omega

theorem or1_eq (x : Int) (hlo : -2 ^ 62 ≤ x) (hhi : x < 2 ^ 62) : or1 (2 * x) = 2 * x + 1 := by
  unfold or1
  have he : toUint64 (2 * x) % 2 = 0 := by unfold toUint64; omega
  rw [even_or_one _ he]
  unfold toInt64 toUint64
  split_ifs <;> omega

theorem lowBit_eq (x : Int) : lowBit x = decide (x % 2 = 1) := by
  unfold lowBit
  rw [Nat.and_one_is_mod]
  unfold toUint64
  congr 1
  apply propext
  constructor <;> intro h <;> omega

theorem shr1_even (x : Int) : (2 * x) >>> (1 : Nat) = x := by
  rw [Int.shiftRight_eq_div_pow]
  norm_num

theorem shr1_odd (x : Int) : (2 * x + 1) >>> (1 : Nat) = x := by
  rw [Int.shiftRight_eq_div_pow]
  norm_num
  omega

theorem lowBit_even (x : Int) : lowBit (2 * x) = false := by
  rw [lowBit_eq]; simp

theorem lowBit_odd (x : Int) : lowBit (2 * x + 1) = true := by
  rw [lowBit_eq]; simp; omega

theorem stringOff_lt (p : iexporter) (hp : p.Inv) (s : List Nat) :
    (p.stringOff s).1 < p.strings.Len + 1 := by
  cases h : p.stringIndex.lookup s with
  | some off =>
    rw [stringOff_of_lookup p s off h]
    have := hp.1 s off h
    simp only
    omega
  | none => simp [iexporter.stringOff, h]

theorem decodePos_three (prevLine prevColumn dc dl : Int) (off : Nat) (rest : List Nat)
    (hc1 : -2 ^ 62 ≤ dc) (hc2 : dc < 2 ^ 62) (hl1 : -2 ^ 62 ≤ dl) (hl2 : dl < 2 ^ 62)
    (hoff : off < 2 ^ 64) :
    decodePos prevLine prevColumn
      (PutVarint (2 * dc + 1) ++ PutVarint (2 * dl + 1) ++ PutUvarint off ++ rest)
      = (prevColumn + dc, prevLine + dl, some off,
          (((PutVarint (2 * dc + 1) ++ PutVarint (2 * dl + 1) ++ PutUvarint off).length : Nat)
            : Int)) := by
  unfold decodePos
  simp only [List.append_assoc]
  rw [Varint_PutVarint (2 * dc + 1) (by omega) (by omega)]
  simp only [Int.toNat_ofNat, List.drop_left, lowBit_odd, if_true, shr1_odd]
  rw [Varint_PutVarint (2 * dl + 1) (by omega) (by omega)]
  simp only [Int.toNat_ofNat, List.drop_left, lowBit_odd, if_true, shr1_odd]
  rw [Uvarint_PutUvarint off hoff]
  simp only [List.length_append]
  push_cast
  simp only [add_assoc]

theorem decodePos_two (prevLine prevColumn dc dl : Int) (rest : List Nat)
    (hc1 : -2 ^ 62 ≤ dc) (hc2 : dc < 2 ^ 62) (hl1 : -2 ^ 62 ≤ dl) (hl2 : dl < 2 ^ 62) :
    decodePos prevLine prevColumn (PutVarint (2 * dc + 1) ++ PutVarint (2 * dl) ++ rest)
      = (prevColumn + dc, prevLine + dl, none,
          (((PutVarint (2 * dc + 1) ++ PutVarint (2 * dl)).length : Nat) : Int)) := by
  unfold decodePos
  simp only [List.append_assoc]
  rw [Varint_PutVarint (2 * dc + 1) (by omega) (by omega)]
  simp only [Int.toNat_ofNat, List.drop_left, lowBit_odd, if_true, shr1_odd]
  rw [Varint_PutVarint (2 * dl) (by omega) (by omega)]
  simp only [lowBit_even, shr1_even, List.length_append]
  push_cast
  simp

theorem decodePos_one (prevLine prevColumn dc : Int) (rest : List Nat)
    (hc1 : -2 ^ 62 ≤ dc) (hc2 : dc < 2 ^ 62) :
    decodePos prevLine prevColumn (PutVarint (2 * dc) ++ rest)
      = (prevColumn + dc, prevLine, none, (((PutVarint (2 * dc)).length : Nat) : Int)) := by
  unfold decodePos
  rw [Varint_PutVarint (2 * dc) (by omega) (by omega)]
  simp only [lowBit_even, shr1_even]
  simp

/-- What `pos` appends to the data of the object. -/
theorem pos_data (w : exportWriter) (file : List Nat) (line column : Int)
    (hc1 : -2 ^ 62 < column - w.prevColumn) (hc2 : column - w.prevColumn < 2 ^ 62)
    (hl1 : -2 ^ 62 < line - w.prevLine) (hl2 : line - w.prevLine < 2 ^ 62) :
    (w.pos file line column).data.buf = w.data.buf ++
      (if file ≠ w.prevFile then
        PutVarint (2 * (column - w.prevColumn) + 1) ++ PutVarint (2 * (line - w.prevLine) + 1)
          ++ PutUvarint (w.p.stringOff file).1
      else if line - w.prevLine ≠ 0 then
        PutVarint (2 * (column - w.prevColumn) + 1) ++ PutVarint (2 * (line - w.prevLine))
      else PutVarint (2 * (column - w.prevColumn))) ∧
    (w.pos file line column).p = (if file ≠ w.prevFile then (w.p.stringOff file).2 else w.p) := by
  unfold exportWriter.pos
  simp only
  rw [toInt64_toUint64 (column - w.prevColumn) (by omega) (by omega),
    toInt64_toUint64 (line - w.prevLine) (by omega) (by omega),
    shl1_eq _ (by omega) (by omega), shl1_eq _ (by omega) (by omega)]
  by_cases hf : file ≠ w.prevFile
  · simp only [hf, if_true, ne_eq, not_false_eq_true]
    rw [or1_eq _ (by omega) (by omega)]
    have hne : ¬ (2 * (line - w.prevLine) + 1 = 0) := by omega
    simp only [hne, not_false_eq_true, if_true]
    rw [or1_eq _ (by omega) (by omega)]
    simp only [lowBit_odd, if_true]
    simp [exportWriter.string, exportWriter.uint64, exportWriter.int64, intWriter.int64,
      intWriter.uint64, intWriter.Write]
  · simp only [hf, if_false]
    by_cases hl : line - w.prevLine ≠ 0
    · have hne : ¬ (2 * (line - w.prevLine) = 0) := by omega
      simp only [hl, hne, ne_eq, not_false_eq_true, if_true]
      rw [or1_eq _ (by omega) (by omega)]
      simp only [lowBit_odd, lowBit_even, if_true]
      simp [exportWriter.int64, intWriter.int64, intWriter.Write]
    · have he : 2 * (line - w.prevLine) = 0 := by omega
      simp only [hl, he, ne_eq, not_true_eq_false, if_false]
      simp only [lowBit_even]
      simp [exportWriter.int64, intWriter.int64, intWriter.Write]

/-- C5: position encoding round-trips within one object. For every writer state
whose string table is reachable and shorter than `2 ^ 63` bytes (its length is a
Go `int`) and every position whose column and line differences from the previous
position are below `2 ^ 62` in magnitude, `pos` leaves the earlier data
unchanged, and reading the appended bytes back (`decodePos`: column delta `d`,
line delta `l` only if `d` is odd, file only if `l` is odd) gives
`prevColumn + (d >> 1) = column`, `prevLine + (l >> 1) = line` (or `prevLine`,
then equal to `line`) and either no file, in which case `file = prevFile`, or a
string offset at which the table holds `file`; exactly the appended bytes are
read; afterwards `prevFile`, `prevLine`, `prevColumn` are the position written. -/
theorem pos_roundtrip (w : exportWriter) (file : List Nat) (line column : Int)
    (hp : w.p.Reachable) (hlen : w.p.strings.Len < 2 ^ 63)
    (hc1 : -2 ^ 62 < column - w.prevColumn) (hc2 : column - w.prevColumn < 2 ^ 62)
    (hl1 : -2 ^ 62 < line - w.prevLine) (hl2 : line - w.prevLine < 2 ^ 62) :
    (w.pos file line column).data.buf.take w.data.Len = w.data.buf ∧
    (∃ fo : Option Nat,
      (match fo with
        | none => file = w.prevFile ∧ (w.pos file line column).p = w.p
        | some off => (w.pos file line column).p.stringIndex.lookup file = some off) ∧
      ∀ rest : List Nat,
        decodePos w.prevLine w.prevColumn
            ((w.pos file line column).data.buf.drop w.data.Len ++ rest)
          = (column, line, fo,
              ((((w.pos file line column).data.buf.drop w.data.Len).length : Nat) : Int))) ∧
    (w.pos file line column).prevFile = file ∧
    (w.pos file line column).prevLine = line ∧
    (w.pos file line column).prevColumn = column := by
  obtain ⟨hd, hpp⟩ := pos_data w file line column hc1 hc2 hl1 hl2
  refine ⟨?_, ?_, rfl, rfl, rfl⟩
  · rw [hd]; simp [intWriter.Len]
  · rw [hd, hpp]
    simp only [intWriter.Len, List.drop_left]
    by_cases hf : file ≠ w.prevFile
    · refine ⟨some (w.p.stringOff file).1, ?_, ?_⟩
      · simp only [hf, if_true, ne_eq, not_false_eq_true]
        exact stringOff_lookup_self w.p file
      · intro rest
        simp only [hf, if_true, ne_eq, not_false_eq_true]
        have hoff := stringOff_lt w.p (Reachable_Inv w.p hp) file
        have := decodePos_three w.prevLine w.prevColumn (column - w.prevColumn)
          (line - w.prevLine) (w.p.stringOff file).1 rest (by omega) hc2 (by omega) hl2
          (by omega)
        rw [this]
        simp
    · have hfe : file = w.prevFile := not_not.1 hf
      refine ⟨none, ?_, ?_⟩
      · simp only [hf, if_false]
        exact ⟨hfe, trivial⟩
      · intro rest
        simp only [hf, if_false]
        by_cases hl : line - w.prevLine ≠ 0
        · simp only [hl, ne_eq, not_false_eq_true, if_true]
          have := decodePos_two w.prevLine w.prevColumn (column - w.prevColumn)
            (line - w.prevLine) rest (by omega) hc2 (by omega) hl2
          rw [this]
          simp
        · simp only [hl, if_false]
          have := decodePos_one w.prevLine w.prevColumn (column - w.prevColumn) rest
            (by omega) hc2
          rw [this]
          have : line = w.prevLine := by omega
          simp [this]

/-- Witness of `pos_roundtrip`: a first position in a fresh writer. -/
theorem pos_roundtrip_witness :
    (iexporter.init.newWriter.pos [97] 12 3).prevFile = [97] ∧
    (iexporter.init.newWriter.pos [97] 12 3).prevLine = 12 ∧
    (iexporter.init.newWriter.pos [97] 12 3).prevColumn = 3 :=
  (pos_roundtrip iexporter.init.newWriter [97] 12 3 iexporter.Reachable.init
    (by simp [iexporter.newWriter, iexporter.init, intWriter.Len])
    (by simp [iexporter.newWriter]) (by simp [iexporter.newWriter])
    (by simp [iexporter.newWriter]) (by simp [iexporter.newWriter])).2.2

theorem layoutFields_get? : ∀ (fields : List (String × Typ)) (o ma lz : Nat)
    (r : FieldList × Nat × Nat × Nat), layoutFields fields o ma lz = some r →
    ∀ i : Nat, (r.1.get? i).map (fun f => (f.1, f.2.2)) = fields.get? i := by
  intro fields
  induction fields with
  | nil =>
    intro o ma lz r h i
    simp only [layoutFields, Option.some.injEq] at h
    subst h
    simp [FieldList.get?]
  | cons f rest ih =>
    intro o ma lz r h i
    obtain ⟨name, ft⟩ := f
    simp only [layoutFields] at h
    split at h
    · cases h
    · rename_i o1 _
      split at h
      · cases h
      · rename_i fs o2 ma2 lz2 hrec
        simp only [Option.some.injEq] at h
        subst h
        cases i with
        | zero => simp [FieldList.get?]
        | succ i =>
          have := ih _ _ _ _ hrec i
          simpa [FieldList.get?] using this

theorem NewStruct_get? (fields : List (String × Typ)) (b : Typ) (h : NewStruct fields = some b)
    (i : Nat) : b.FieldType i = (fields.get? i).map (fun f => f.2) ∧
      ((b.FieldOffset i).isSome ↔ i < fields.length) := by
  unfold NewStruct at h
  split at h
  · cases h
  · rename_i fs o ma lz hl
    obtain ⟨w, -, rfl⟩ : ∃ w, Rnd (if o > 0 ∧ o = lz then o + 1 else o) ma = some w ∧
        b = .struct fs w ma := by
      simp only at h
      cases hR : Rnd (if o > 0 ∧ o = lz then o + 1 else o) ma with
      | none => rw [hR] at h; cases h
      | some w => rw [hR] at h; exact ⟨w, rfl, (Option.some.inj h).symm⟩
    · have := layoutFields_get? fields 0 1 0 _ hl i
      simp only [Typ.FieldType, Typ.FieldOffset]
      cases hg : fs.get? i with
      | none =>
        rw [hg] at this
        simp only [Option.map_none'] at this
        rw [← this]
        simp only [Option.map_none', Option.isSome_none, Bool.false_eq_true, false_iff, not_lt]
        exact ⟨trivial, List.get?_eq_none.1 this.symm⟩
      | some f =>
        rw [hg] at this
        simp only [Option.map_some'] at this
        rw [← this]
        simp only [Option.map_some', Option.isSome_some, true_iff]
        exact ⟨trivial, (List.get?_eq_some.1 this.symm).1⟩

theorem Rnd_of_dvd (o r : Nat) (hr : r = 1 ∨ r = 2 ∨ r = 4 ∨ r = 8) (h : o % r = 0) :
    Rnd o r = some o := by
  unfold Rnd
  rw [if_pos hr]
  congr 1
  rcases hr with rfl | rfl | rfl | rfl <;> omega

theorem Typ.Align_struct (fs : FieldList) (w a : Nat) : (Typ.struct fs w a).Align = a := rfl

theorem Typ.Width_struct (fs : FieldList) (w a : Nat) : (Typ.struct fs w a).Width = w := rfl

theorem firstFatal_ok (l : List (Bool × String)) :
    firstFatal l = .ok () ↔ ∀ c ∈ l, c.1 = false := by
  induction l with
  | nil => simp [firstFatal]
  | cons c rest ih =>
    obtain ⟨cond, msg⟩ := c
    cases cond with
    | true => simp [firstFatal]
    | false => simp [firstFatal, ih]

/-- What the checks of `bmap` guarantee when they all pass. -/
theorem bmapCheck_ok (PtrSize : Nat) (t : MapType) (bucket : Typ)
    (h : bmapCheck PtrSize t bucket = .ok ()) :
    t.keyComparable = true ∧
    (((bucket.FieldOffset 3).getD 0 : Nat) : Int) = (bucket.Width : Int) - (PtrSize : Int) ∧
    bucket.Align % (bmapKeytype PtrSize t).Align = 0 ∧
    bucket.Align % (bmapElemtype PtrSize t).Align = 0 := by
  unfold bmapCheck at h
  rw [firstFatal_ok] at h
  have h1 := h (!t.keyComparable, "unsupported map key type") (by simp)
  have h2 := h (decide ((((bucket.FieldOffset 3).getD 0 : Nat) : Int)
    ≠ (bucket.Width : Int) - (PtrSize : Int)), "bad offset of overflow in bmap") (by simp)
  have h3 := h (decide (bucket.Align % (bmapKeytype PtrSize t).Align ≠ 0),
    "bucket align not multiple of key align") (by simp)
  have h4 := h (decide (bucket.Align % (bmapElemtype PtrSize t).Align ≠ 0),
    "bucket align not multiple of elem align") (by simp)
  simp only [Bool.not_eq_false', decide_eq_false_iff_not, not_not, ne_eq] at h1 h2 h3 h4
  exact ⟨h1, h2, h3, h4⟩

/-- The standard layout of four fields whose sizes make every rounding exact. -/
theorem NewStruct_four (P : Nat) (n0 n1 n2 n3 : String) (T0 T1 T2 T3 : Typ) (wk we : Nat)
    (hP : P = 4 ∨ P = 8)
    (h0a : T0.Align = 1) (h0w : T0.Width = 8)
    (h1a : T1.Align = 1 ∨ T1.Align = 2 ∨ T1.Align = 4 ∨ T1.Align = 8) (h1p : T1.Align ≤ P)
    (h1w : T1.Width = 8 * wk)
    (h2a : T2.Align = 1 ∨ T2.Align = 2 ∨ T2.Align = 4 ∨ T2.Align = 8) (h2p : T2.Align ≤ P)
    (h2w : T2.Width = 8 * we)
    (h3a : T3.Align = P) (h3w : T3.Width = P) :
    NewStruct [(n0, T0), (n1, T1), (n2, T2), (n3, T3)] = some (.struct
      (.cons n0 0 T0 (.cons n1 8 T1 (.cons n2 (8 + 8 * wk) T2
        (.cons n3 (8 + 8 * wk + 8 * we) T3 .nil))))
      (8 + 8 * wk + 8 * we + P) P) := by
  have r0 : Rnd 0 1 = some 0 := Rnd_of_dvd 0 1 (Or.inl rfl) rfl
  have r1 : Rnd 8 T1.Align = some 8 :=
    Rnd_of_dvd 8 _ h1a (by rcases h1a with h | h | h | h <;> rw [h])
  have r2 : Rnd (8 + 8 * wk) T2.Align = some (8 + 8 * wk) :=
    Rnd_of_dvd _ _ h2a (by rcases h2a with h | h | h | h <;> rw [h] <;> omega)
  have r3 : Rnd (8 + 8 * wk + 8 * we) P = some (8 + 8 * wk + 8 * we) :=
    Rnd_of_dvd _ _ (by omega) (by rcases hP with h | h <;> rw [h] <;> omega)
  have r4 : Rnd (8 + 8 * wk + 8 * we + P) P = some (8 + 8 * wk + 8 * we + P) :=
    Rnd_of_dvd _ _ (by omega) (by rcases hP with h | h <;> rw [h] <;> omega)
  have hma : (if P > (if T2.Align > (if T1.Align > 1 then T1.Align else 1) then T2.Align
      else (if T1.Align > 1 then T1.Align else 1)) then P
      else (if T2.Align > (if T1.Align > 1 then T1.Align else 1) then T2.Align
      else (if T1.Align > 1 then T1.Align else 1))) = P := by
    split_ifs <;> omega
  have hlz : ¬ (8 + 8 * wk + 8 * we + P > 0 ∧ 8 + 8 * wk + 8 * we + P
      = (if P = 0 then 8 + 8 * wk + 8 * we else if 8 * we = 0 then 8 + 8 * wk
          else if 8 * wk = 0 then 8 else 0)) := by
    rintro ⟨-, h⟩
    split_ifs at h <;> omega
  simp only [NewStruct, layoutFields, h0a, h0w, h1w, h2w, h3a, h3w, gt_iff_lt, Nat.lt_irrefl,
    if_false, Nat.zero_lt_one, if_true, r0, Nat.zero_add, show 0 < T1.Align by omega, r1,
    show 0 < T2.Align by omega, r2, show 0 < P by omega, r3]
  simp only [gt_iff_lt] at hma hlz
  simp only [hma, r4, show (8 : Nat) ≠ 0 by decide, if_false, hlz]

/-- The layout of the bucket when key and element are laid out regularly. -/
theorem NewStruct_bmapFields (PtrSize : Nat) (t : MapType)
    (hP : PtrSize = 4 ∨ PtrSize = 8)
    (hka : (bmapKeytype PtrSize t).Align = 1 ∨ (bmapKeytype PtrSize t).Align = 2 ∨
      (bmapKeytype PtrSize t).Align = 4 ∨ (bmapKeytype PtrSize t).Align = 8)
    (hkp : (bmapKeytype PtrSize t).Align ≤ PtrSize)
    (hea : (bmapElemtype PtrSize t).Align = 1 ∨ (bmapElemtype PtrSize t).Align = 2 ∨
      (bmapElemtype PtrSize t).Align = 4 ∨ (bmapElemtype PtrSize t).Align = 8)
    (hep : (bmapElemtype PtrSize t).Align ≤ PtrSize) :
    ∃ T0 T3 : Typ, NewStruct (bmapFields PtrSize t) = some (.struct
      (.cons "topbits" 0 T0 (.cons "keys" 8 (NewArray (bmapKeytype PtrSize t) BUCKETSIZE)
        (.cons "elems" (8 + 8 * (bmapKeytype PtrSize t).Width)
          (NewArray (bmapElemtype PtrSize t) BUCKETSIZE)
        (.cons "overflow" (8 + 8 * (bmapKeytype PtrSize t).Width
          + 8 * (bmapElemtype PtrSize t).Width) T3 .nil))))
      (8 + 8 * (bmapKeytype PtrSize t).Width + 8 * (bmapElemtype PtrSize t).Width + PtrSize)
      PtrSize) := by
  refine ⟨_, _, NewStruct_four PtrSize _ _ _ _ _ _ _ _ _ _ hP rfl rfl hka hkp rfl hea hep rfl ?_ ?_⟩
  · split_ifs <;> rfl
  · split_ifs <;> rfl

theorem bmapKeytype_props (PtrSize : Nat) (t : MapType) (hP : PtrSize = 4 ∨ PtrSize = 8)
    (ha : t.Key.Align = 1 ∨ t.Key.Align = 2 ∨ t.Key.Align = 4 ∨ t.Key.Align = 8)
    (hp : t.Key.Align ≤ PtrSize) (hw : t.Key.Width % t.Key.Align = 0) :
    ((bmapKeytype PtrSize t).Align = 1 ∨ (bmapKeytype PtrSize t).Align = 2 ∨
      (bmapKeytype PtrSize t).Align = 4 ∨ (bmapKeytype PtrSize t).Align = 8) ∧
    (bmapKeytype PtrSize t).Align ≤ PtrSize ∧
    (bmapKeytype PtrSize t).Width % (bmapKeytype PtrSize t).Align = 0 ∧
    (bmapKeytype PtrSize t).Width ≤ MAXKEYSIZE ∧
    (t.Key.Width > MAXKEYSIZE → (bmapKeytype PtrSize t).IsPtr = true) := by
  unfold bmapKeytype
  by_cases h : t.Key.Width > MAXKEYSIZE
  · rw [if_pos h]
    have a1 : (NewPtr PtrSize t.keyNotInHeap).Align = PtrSize := rfl
    have a2 : (NewPtr PtrSize t.keyNotInHeap).Width = PtrSize := rfl
    have a3 : (NewPtr PtrSize t.keyNotInHeap).IsPtr = true := rfl
    rw [a1, a2, a3]
    unfold MAXKEYSIZE
    refine ⟨by omega, le_refl _, Nat.mod_self _, by omega, fun _ => rfl⟩
  · rw [if_neg h]
    exact ⟨ha, hp, hw, by omega, fun h' => absurd h' h⟩

theorem bmapElemtype_props (PtrSize : Nat) (t : MapType) (hP : PtrSize = 4 ∨ PtrSize = 8)
    (ha : t.Elem.Align = 1 ∨ t.Elem.Align = 2 ∨ t.Elem.Align = 4 ∨ t.Elem.Align = 8)
    (hp : t.Elem.Align ≤ PtrSize) (hw : t.Elem.Width % t.Elem.Align = 0) :
    ((bmapElemtype PtrSize t).Align = 1 ∨ (bmapElemtype PtrSize t).Align = 2 ∨
      (bmapElemtype PtrSize t).Align = 4 ∨ (bmapElemtype PtrSize t).Align = 8) ∧
    (bmapElemtype PtrSize t).Align ≤ PtrSize ∧
    (bmapElemtype PtrSize t).Width % (bmapElemtype PtrSize t).Align = 0 ∧
    (bmapElemtype PtrSize t).Width ≤ MAXELEMSIZE ∧
    (t.Elem.Width > MAXELEMSIZE → (bmapElemtype PtrSize t).IsPtr = true) := by
  unfold bmapElemtype
  by_cases h : t.Elem.Width > MAXELEMSIZE
  · rw [if_pos h]
    have a1 : (NewPtr PtrSize t.elemNotInHeap).Align = PtrSize := rfl
    have a2 : (NewPtr PtrSize t.elemNotInHeap).Width = PtrSize := rfl
    have a3 : (NewPtr PtrSize t.elemNotInHeap).IsPtr = true := rfl
    rw [a1, a2, a3]
    unfold MAXELEMSIZE
    refine ⟨by omega, le_refl _, Nat.mod_self _, by omega, fun _ => rfl⟩
  · rw [if_neg h]
    exact ⟨ha, hp, hw, by omega, fun h' => absurd h' h⟩

/-- Under the standard layout `bmap` builds a bucket for every comparable key. -/
theorem bmap_total (PtrSize : Nat) (t : MapType) (hcache : t.Bucket = none)
    (hP : PtrSize = 4 ∨ PtrSize = 8) (hcomp : t.keyComparable = true)
    (hka : t.Key.Align = 1 ∨ t.Key.Align = 2 ∨ t.Key.Align = 4 ∨ t.Key.Align = 8)
    (hkp : t.Key.Align ≤ PtrSize) (hkw : t.Key.Width % t.Key.Align = 0)
    (hea : t.Elem.Align = 1 ∨ t.Elem.Align = 2 ∨ t.Elem.Align = 4 ∨ t.Elem.Align = 8)
    (hep : t.Elem.Align ≤ PtrSize) (hew : t.Elem.Width % t.Elem.Align = 0) :
    ∃ bucket, bmap PtrSize t = .ok (bucket, { t with Bucket := some bucket }) ∧
      bucket.Width = 8 + 8 * (bmapKeytype PtrSize t).Width
        + 8 * (bmapElemtype PtrSize t).Width + PtrSize := by
  obtain ⟨ka, kp, kw, kmax, kptr⟩ := bmapKeytype_props PtrSize t hP hka hkp hkw
  obtain ⟨ea, ep, ew, emax, eptr⟩ := bmapElemtype_props PtrSize t hP hea hep hew
  obtain ⟨T0, T3, hs⟩ := NewStruct_bmapFields PtrSize t hP ka kp ea ep
  have hc : bmapCheck PtrSize t (.struct
      (.cons "topbits" 0 T0 (.cons "keys" 8 (NewArray (bmapKeytype PtrSize t) BUCKETSIZE)
        (.cons "elems" (8 + 8 * (bmapKeytype PtrSize t).Width)
          (NewArray (bmapElemtype PtrSize t) BUCKETSIZE)
        (.cons "overflow" (8 + 8 * (bmapKeytype PtrSize t).Width
          + 8 * (bmapElemtype PtrSize t).Width) T3 .nil))))
      (8 + 8 * (bmapKeytype PtrSize t).Width + 8 * (bmapElemtype PtrSize t).Width + PtrSize)
      PtrSize) = .ok () := by
    unfold bmapCheck
    rw [firstFatal_ok]
    intro c hc
    simp only [List.mem_cons, List.mem_singleton, List.not_mem_nil, or_false] at hc
    simp only [MAXKEYSIZE, MAXELEMSIZE, BUCKETSIZE] at *
    rcases hc with rfl | rfl | rfl | rfl | rfl | rfl | rfl | rfl | rfl | rfl | rfl | rfl | rfl
      | rfl | rfl | rfl | rfl
    · simp [hcomp]
    · simp
    · simp only [decide_eq_false_iff_not]; omega
    · simp only [decide_eq_false_iff_not]; omega
    · simp only [decide_eq_false_iff_not]; omega
    · simp only [decide_eq_false_iff_not]; omega
    · by_cases h : t.Key.Width > 128
      · simp [kptr h]
      · simp [h]
    · by_cases h : t.Elem.Width > 128
      · simp [eptr h]
      · simp [h]
    · simp only [decide_eq_false_iff_not]; omega
    · simp only [decide_eq_false_iff_not, ne_eq, not_not]; exact kw
    · simp only [decide_eq_false_iff_not]; omega
    · simp only [decide_eq_false_iff_not, ne_eq, not_not]; exact ew
    · simp only [decide_eq_false_iff_not, ne_eq, not_not, Typ.Align_struct]
      rcases hP with h | h <;> rcases ka with h' | h' | h' | h' <;> rw [h'] <;> omega
    · simp only [decide_eq_false_iff_not, ne_eq, not_not, Typ.Align_struct]
      rcases hP with h | h <;> rcases ea with h' | h' | h' | h' <;> rw [h'] <;> omega
    · simp only [decide_eq_false_iff_not, ne_eq, not_not, Typ.FieldOffset, FieldList.get?,
        Option.map_some', Option.getD_some]
      rcases ka with h' | h' | h' | h' <;> rw [h']
    · simp only [decide_eq_false_iff_not, ne_eq, not_not, Typ.FieldOffset, FieldList.get?,
        Option.map_some', Option.getD_some]
      rcases ea with h' | h' | h' | h' <;> rw [h'] <;> omega
    · simp only [decide_eq_false_iff_not, ne_eq, not_not, Typ.FieldOffset, FieldList.get?,
        Option.map_some', Option.getD_some, Typ.Width_struct]
      push_cast
      ring
  refine ⟨.struct
      (.cons "topbits" 0 T0 (.cons "keys" 8 (NewArray (bmapKeytype PtrSize t) BUCKETSIZE)
        (.cons "elems" (8 + 8 * (bmapKeytype PtrSize t).Width)
          (NewArray (bmapElemtype PtrSize t) BUCKETSIZE)
        (.cons "overflow" (8 + 8 * (bmapKeytype PtrSize t).Width
          + 8 * (bmapElemtype PtrSize t).Width) T3 .nil))))
      (8 + 8 * (bmapKeytype PtrSize t).Width + 8 * (bmapElemtype PtrSize t).Width + PtrSize)
      PtrSize, ?_, rfl⟩
  unfold bmap
  rw [hcache]
  simp only [hs, hc]

/-- C6: for every map type whose bucket is not yet cached, a bucket struct built
by `bmap` (which `bmap` then caches) exists only for a comparable key, has the
arrays of stored keys and stored elements as fields 1 and 2 and the overflow
field as its last field, at offset exactly `bucket.Width - PtrSize` (no trailing
padding), and its alignment is a multiple of both the stored key type's and the
stored element type's alignment. Moreover, under the standard layout rules with
pointer size 4 or 8 and key and element types whose alignment is 1, 2, 4 or 8,
at most the pointer size, and divides their width, `bmap` does build a bucket
for every comparable key. -/
theorem bmap_bucket_invariants (PtrSize : Nat) (t : MapType) (hcache : t.Bucket = none) :
    (∀ (bucket : Typ) (t' : MapType), bmap PtrSize t = .ok (bucket, t') →
      t.keyComparable = true ∧ t'.Bucket = some bucket ∧
      bucket.FieldType 1 = some (NewArray (bmapKeytype PtrSize t) BUCKETSIZE) ∧
      bucket.FieldType 2 = some (NewArray (bmapElemtype PtrSize t) BUCKETSIZE) ∧
      (∃ off : Nat, bucket.FieldOffset 3 = some off ∧
        (off : Int) = (bucket.Width : Int) - (PtrSize : Int)) ∧
      bucket.FieldOffset 4 = none ∧
      bucket.Align % (bmapKeytype PtrSize t).Align = 0 ∧
      bucket.Align % (bmapElemtype PtrSize t).Align = 0) ∧
    ((PtrSize = 4 ∨ PtrSize = 8) → t.keyComparable = true →
      (t.Key.Align = 1 ∨ t.Key.Align = 2 ∨ t.Key.Align = 4 ∨ t.Key.Align = 8) →
      t.Key.Align ≤ PtrSize → t.Key.Width % t.Key.Align = 0 →
      (t.Elem.Align = 1 ∨ t.Elem.Align = 2 ∨ t.Elem.Align = 4 ∨ t.Elem.Align = 8) →
      t.Elem.Align ≤ PtrSize → t.Elem.Width % t.Elem.Align = 0 →
      ∃ (bucket : Typ) (t' : MapType), bmap PtrSize t = .ok (bucket, t')) := by
  refine ⟨?_, ?_⟩
  · intro bucket t' h
    unfold bmap at h
    rw [hcache] at h
    simp only at h
    cases hs : NewStruct (bmapFields PtrSize t) with
    | none => rw [hs] at h; cases h
    | some b =>
      rw [hs] at h
      simp only at h
      cases hc : bmapCheck PtrSize t b with
      | error e => rw [hc] at h; cases h
      | ok u =>
        rw [hc] at h
        simp only [Except.ok.injEq, Prod.mk.injEq] at h
        obtain ⟨rfl, rfl⟩ := h
        obtain ⟨c1, c2, c3, c4⟩ := bmapCheck_ok PtrSize t b hc
        have g1 := NewStruct_get? _ b hs 1
        have g2 := NewStruct_get? _ b hs 2
        have g3 := NewStruct_get? _ b hs 3
        have g4 := NewStruct_get? _ b hs 4
        refine ⟨c1, rfl, ?_, ?_, ?_, ?_, c3, c4⟩
        · rw [g1.1]; rfl
        · rw [g2.1]; rfl
        · have : (b.FieldOffset 3).isSome = true := g3.2.2 (by simp [bmapFields])
          obtain ⟨off, hoff⟩ := Option.isSome_iff_exists.1 this
          refine ⟨off, hoff, ?_⟩
          rw [hoff] at c2
          simpa using c2
        · have : ¬ (b.FieldOffset 4).isSome = true := fun h => by
            have := g4.2.1 h
            simp [bmapFields] at this
          simpa using this
  · intro hP hcomp hka hkp hkw hea hep hew
    obtain ⟨b, hb, -⟩ := bmap_total PtrSize t hcache hP hcomp hka hkp hkw hea hep hew
    exact ⟨b, _, hb⟩

/-- Witness of `bmap_bucket_invariants`: `map[string]int64` on a 64-bit target
gets a bucket of 208 bytes. -/
theorem bmap_bucket_invariants_witness :
    ∃ (bucket : Typ) (t' : MapType), bmap 8 mapStringInt64 = .ok (bucket, t') :=
  (bmap_bucket_invariants 8 mapStringInt64 rfl).2 (Or.inr rfl) rfl
    (Or.inr (Or.inr (Or.inr rfl))) (by decide) (by decide)
    (Or.inr (Or.inr (Or.inr rfl))) (by decide) (by decide)

theorem genfunLoop_complete (lt : Sym → Sym → Prop) (hirr : ∀ a, ¬ lt a a)
    (htr : ∀ a b c, lt a b → lt b c → lt a c) :
    ∀ (ms sigs : List Sig) (out : List LSym), sigs ≠ [] →
      (ms.map Sig.name).Pairwise lt → (sigs.map Sig.name).Pairwise lt →
      (∀ s ∈ sigs, s.name ∈ ms.map Sig.name) →
      ∃ res : List LSym, genfunLoop ms sigs out = (out ++ res, []) ∧
        List.Forall₂ (fun s o => ∃ m ∈ ms, m.name = s.name ∧ o = m.isym.Linksym) sigs res := by
  intro ms
  induction ms with
  | nil =>
    intro sigs out hne _ _ hall
    cases sigs with
    | nil => exact absurd rfl hne
    | cons s rest => simpa using hall s (List.mem_cons_self _ _)
  | cons m ms ih =>
    intro sigs out hne hms hsigs hall
    cases sigs with
    | nil => exact absurd rfl hne
    | cons s rest =>
      rw [List.map_cons, List.pairwise_cons] at hms hsigs
      by_cases hname : m.name = s.name
      · -- the later interface methods are found among the later methods
        have hrest : ∀ r ∈ rest, r.name ∈ ms.map Sig.name := by
          intro r hr
          have hlt : lt s.name r.name := hsigs.1 _ (List.mem_map_of_mem _ hr)
          have := hall r (List.mem_cons_of_mem _ hr)
          rw [List.map_cons, List.mem_cons] at this
          rcases this with h | h
          · rw [h, hname] at hlt
            exact absurd hlt (hirr _)
          · exact h
        by_cases hlen : rest.length = 0
        · have hnil : rest = [] := List.length_eq_zero.1 hlen
          subst hnil
          refine ⟨[m.isym.Linksym], ?_, ?_⟩
          · simp [genfunLoop, hname]
          · exact List.Forall₂.cons ⟨m, List.mem_cons_self _ _, hname, rfl⟩ List.Forall₂.nil
        · have hne' : rest ≠ [] := fun h => hlen (by rw [h]; rfl)
          obtain ⟨res, hres, hf⟩ := ih rest (out ++ [m.isym.Linksym]) hne' hms.2 hsigs.2 hrest
          refine ⟨m.isym.Linksym :: res, ?_, ?_⟩
          · simp only [genfunLoop, hname, if_true, hlen, if_false]
            rw [hres]
            simp
          · refine List.Forall₂.cons ⟨m, List.mem_cons_self _ _, hname, rfl⟩ ?_
            exact hf.imp (fun _ _ ⟨m', hm', h1, h2⟩ => ⟨m', List.mem_cons_of_mem _ hm', h1, h2⟩)
      · have hs : s.name ∈ ms.map Sig.name := by
          have := hall s (List.mem_cons_self _ _)
          rw [List.map_cons, List.mem_cons] at this
          rcases this with h | h
          · exact absurd h.symm hname
          · exact h
        have hms_lt : lt m.name s.name := hms.1 _ hs
        have hall' : ∀ r ∈ s :: rest, r.name ∈ ms.map Sig.name := by
          intro r hr
          rcases List.mem_cons.1 hr with rfl | hr'
          · exact hs
          · have hlt : lt s.name r.name := hsigs.1 _ (List.mem_map_of_mem _ hr')
            have := hall r hr
            rw [List.map_cons, List.mem_cons] at this
            rcases this with h | h
            · rw [h] at hlt
              exact absurd (htr _ _ _ hlt hms_lt) (hirr _)
            · exact h
        obtain ⟨res, hres, hf⟩ := ih (s :: rest) out hne hms.2
          (by rw [List.map_cons, List.pairwise_cons]; exact hsigs) hall'
        refine ⟨res, ?_, ?_⟩
        · simp only [genfunLoop, hname, if_false]
          exact hres
        · exact hf.imp (fun _ _ ⟨m', hm', h1, h2⟩ => ⟨m', List.mem_cons_of_mem _ hm', h1, h2⟩)

theorem genfunLoop_matched : ∀ (ms sigs : List Sig) (out : List LSym), sigs ≠ [] →
    (genfunLoop ms sigs out).2 = [] → ∀ s ∈ sigs, s.name ∈ ms.map Sig.name := by
  intro ms
  induction ms with
  | nil =>
    intro sigs out hne h
    simp only [genfunLoop] at h
    exact absurd h hne
  | cons m ms ih =>
    intro sigs out hne h
    cases sigs with
    | nil => exact absurd rfl hne
    | cons s rest =>
      by_cases hname : m.name = s.name
      · by_cases hlen : rest.length = 0
        · have hnil : rest = [] := List.length_eq_zero.1 hlen
          subst hnil
          intro r hr
          rw [List.mem_singleton] at hr
          subst hr
          simp [hname]
        · have hne' : rest ≠ [] := fun h => hlen (by rw [h]; rfl)
          simp only [genfunLoop, hname, if_true, hlen, if_false] at h
          have := ih rest _ hne' h
          intro r hr
          rcases List.mem_cons.1 hr with rfl | hr'
          · simp [hname]
          · exact List.mem_cons_of_mem _ (this r hr')
      · simp only [genfunLoop, hname, if_false] at h
        have := ih (s :: rest) _ hne h
        intro r hr
        exact List.mem_cons_of_mem _ (this r hr)

/-- C9: let the method lists `methods(t)` and `imethods(it)` both be sorted by
name in the same strict order `lt`. If the interface has methods and every
interface method name occurs among the methods of `t`, `genfun` returns exactly
`len(imethods(it))` symbols, the `i`-th being the `isym` linker symbol of the
method of `t` named like the `i`-th interface method; if some interface method
name is missing from the methods of `t`, `genfun` aborts with the fatal
`incomplete itab`; for an interface without methods or a nil argument it
returns nil. -/
theorem genfun_spec (lt : Sym → Sym → Prop) (hirr : ∀ a, ¬ lt a a)
    (htr : ∀ a b c, lt a b → lt b c → lt a c) (t it : MethType)
    (hm : (t.methods.map Sig.name).Pairwise lt) (hs : (it.imethods.map Sig.name).Pairwise lt) :
    (it.imethods ≠ [] → (∀ s ∈ it.imethods, s.name ∈ t.methods.map Sig.name) →
      ∃ out : List LSym, genfun (some t) (some it) = .ok out ∧
        out.length = it.imethods.length ∧
        List.Forall₂ (fun s o => ∃ m ∈ t.methods, m.name = s.name ∧ o = m.isym.Linksym)
          it.imethods out) ∧
    ((∃ s ∈ it.imethods, s.name ∉ t.methods.map Sig.name) →
      genfun (some t) (some it) = .error "incomplete itab") ∧
    (it.imethods = [] → genfun (some t) (some it) = .ok []) ∧
    genfun none (some it) = .ok [] ∧ genfun (some t) none = .ok [] ∧
    genfun none none = .ok [] := by
  refine ⟨?_, ?_, ?_, rfl, rfl, rfl⟩
  · intro hne hall
    obtain ⟨res, hres, hf⟩ := genfunLoop_complete lt hirr htr t.methods it.imethods [] hne hm hs hall
    refine ⟨res, ?_, hf.length_eq.symm, hf⟩
    have hlen : ¬ it.imethods.length = 0 := fun h => hne (List.length_eq_zero.1 h)
    simp only [genfun, hlen, if_false, hres]
    simp
  · rintro ⟨s, hs1, hs2⟩
    have hne : it.imethods ≠ [] := List.ne_nil_of_mem hs1
    have hlen : ¬ it.imethods.length = 0 := fun h => hne (List.length_eq_zero.1 h)
    have hrem : ¬ (genfunLoop t.methods it.imethods []).2.length = 0 := by
      intro h
      exact hs2 (genfunLoop_matched t.methods it.imethods [] hne (List.length_eq_zero.1 h) s hs1)
    simp only [genfun, hlen, if_false, ne_eq, hrem, not_false_eq_true, if_true]
  · intro h
    simp [genfun, h]

/-- Witness of `genfun_spec`: a type with methods `Close`, `Read`, `Write` and the
interface with `Close` and `Write`, names ordered as strings. -/
theorem genfun_spec_witness :
    genfun (some fileMethods) (some writeCloser)
      = .ok [⟨⟨"", "(*File).Close"⟩⟩, ⟨⟨"", "(*File).Write"⟩⟩] ∧
    ∃ out : List LSym, genfun (some fileMethods) (some writeCloser) = .ok out ∧
        out.length = writeCloser.imethods.length ∧
        List.Forall₂ (fun s o => ∃ m ∈ fileMethods.methods, m.name = s.name ∧
          o = m.isym.Linksym) writeCloser.imethods out :=
  ⟨by rfl,
   (genfun_spec (fun a b => a.Name < b.Name) (fun a => lt_irrefl a.Name)
      (fun _ _ _ h1 h2 => lt_trans h1 h2) fileMethods writeCloser
      (by simp [fileMethods]; decide) (by simp [writeCloser]; decide)).1
      (by simp [writeCloser]) (by simp [writeCloser, fileMethods])⟩

theorem lookup_node_self (n : Node) (p : InitPlan) (l : List (Node × InitPlan)) :
    List.lookup n ((n, p) :: l) = some p := by
  simp [List.lookup]

theorem lookup_node_ne (n m : Node) (p : InitPlan) (l : List (Node × InitPlan)) (h : n ≠ m) :
    List.lookup n ((m, p) :: l) = List.lookup n l := by
  have : (n == m) = false := by simpa using h
  simp [List.lookup, this]

/-- One call of `addvalue`, given what the nested call of `initplan` does. -/
theorem addvalue_ok (IsZero : Node → Bool) (a : Node) (s : InitSchedule) (p : InitPlan)
    (xoffset : Int) (pending : Node → Prop) (hs : s.Complete IsZero pending)
    (hrec : IsZero a = false → isvaluelit a = true →
      ∃ s', initplan IsZero a s = some s' ∧ s'.Complete IsZero pending ∧
        ∃ q, s'.initplans.lookup a = some q ∧ q.E = planOf IsZero a) :
    ∃ s', addvalue IsZero (initplan IsZero a) s p xoffset a
        = some (s', ⟨p.E ++ valuePlan IsZero (planOf IsZero a) xoffset a⟩) ∧
      s'.Complete IsZero pending := by
  unfold addvalue valuePlan
  by_cases hz : IsZero a = true
  · simp only [hz, if_true, List.append_nil]
    exact ⟨s, rfl, hs⟩
  · have hz' : IsZero a = false := by simpa using hz
    simp only [hz', Bool.false_eq_true, if_false]
    by_cases hv : isvaluelit a = true
    · obtain ⟨s', h1, h2, q, h3, h4⟩ := hrec hz' hv
      simp only [hv, if_true, h1, h3, h4]
      exact ⟨s', rfl, h2⟩
    · simp only [hv, if_false]
      exact ⟨s, rfl, hs⟩

/-- Storing the finished plan of `n` completes the table. -/
theorem Complete_store (IsZero : Node → Bool) (n : Node) (s1 : InitSchedule) (p : InitPlan)
    (pending : Node → Prop) (h1 : s1.Complete IsZero (fun m => pending m ∨ m = n))
    (hp : p.E = planOf IsZero n) :
    InitSchedule.Complete IsZero ⟨(n, p) :: s1.initplans⟩ pending := by
  intro m q hm
  by_cases hmn : m = n
  · subst hmn
    rw [lookup_node_self] at hm
    cases hm
    exact Or.inl hp
  · rw [lookup_node_ne m n _ _ hmn] at hm
    rcases h1 m q hm with h | h | h
    · exact Or.inl h
    · exact Or.inr h
    · exact absurd h hmn

/-- Entering the still empty plan of `n` keeps the table complete up to `n`. -/
theorem Complete_enter (IsZero : Node → Bool) (n : Node) (s : InitSchedule)
    (pending : Node → Prop) (hs : s.Complete IsZero pending) :
    InitSchedule.Complete IsZero ⟨(n, ⟨[]⟩) :: s.initplans⟩ (fun m => pending m ∨ m = n) := by
  intro m q hm
  by_cases hmn : m = n
  · exact Or.inr (Or.inr hmn)
  · rw [lookup_node_ne m n _ _ hmn] at hm
    rcases hs m q hm with h | h
    · exact Or.inl h
    · exact Or.inr (Or.inl h)

/-- A table that is complete up to literals larger than `n` has no unfinished
plan for `n`. -/
theorem Complete_cached (IsZero : Node → Bool) (n : Node) (s : InitSchedule)
    (pending : Node → Prop) (hs : s.Complete IsZero pending)
    (hp : ∀ m, pending m → sizeOf n < sizeOf m)
    (hc : (s.initplans.lookup n).isSome = true) :
    ∃ q, s.initplans.lookup n = some q ∧ q.E = planOf IsZero n := by
  obtain ⟨q, hq⟩ := Option.isSome_iff_exists.1 hc
  rcases hs n q hq with h | h
  · exact ⟨q, hq, h⟩
  · exact absurd (hp n h) (lt_irrefl _)

mutual
theorem initplan_ok (IsZero : Node → Bool) : ∀ (n : Node) (s : InitSchedule)
    (pending : Node → Prop), s.Complete IsZero pending →
    (∀ m, pending m → sizeOf n < sizeOf m) → n.NoFatal IsZero = true →
    ∃ s', initplan IsZero n s = some s' ∧ s'.Complete IsZero pending ∧
      ∃ q, s'.initplans.lookup n = some q ∧ q.E = planOf IsZero n
  | .expr id, s, pending, hs, hp, hok => by simp [Node.NoFatal] at hok
  | .arraylit w l, s, pending, hs, hp, hok => by
    by_cases hc : (s.initplans.lookup (.arraylit w l)).isSome = true
    · exact ⟨s, by simp [initplan, hc], hs, Complete_cached IsZero _ s pending hs hp hc⟩
    · obtain ⟨s1, h1, h2⟩ := arrayLoop_ok IsZero w l 0 ⟨(.arraylit w l, ⟨[]⟩) :: s.initplans⟩ ⟨[]⟩
        (fun m => pending m ∨ m = .arraylit w l) (Complete_enter IsZero _ s pending hs)
        (by
          intro m hm
          rcases hm with hm | rfl
          · have := hp m hm
            simp only [Node.arraylit.sizeOf_spec] at this
            omega
          · simp only [Node.arraylit.sizeOf_spec]
            omega)
        (by simpa [Node.NoFatal] using hok)
      refine ⟨⟨(.arraylit w l, ⟨[] ++ arrayPlan IsZero w l 0⟩) :: s1.initplans⟩, ?_, ?_, ?_⟩
      · simp [initplan, hc, h1]
      · exact Complete_store IsZero _ s1 _ pending h2 (by simp [planOf])
      · exact ⟨_, lookup_node_self _ _ _, by simp [planOf]⟩
  | .slicelit w l, s, pending, hs, hp, hok => by
    by_cases hc : (s.initplans.lookup (.slicelit w l)).isSome = true
    · exact ⟨s, by simp [initplan, hc], hs, Complete_cached IsZero _ s pending hs hp hc⟩
    · obtain ⟨s1, h1, h2⟩ := arrayLoop_ok IsZero w l 0 ⟨(.slicelit w l, ⟨[]⟩) :: s.initplans⟩ ⟨[]⟩
        (fun m => pending m ∨ m = .slicelit w l) (Complete_enter IsZero _ s pending hs)
        (by
          intro m hm
          rcases hm with hm | rfl
          · have := hp m hm
            simp only [Node.slicelit.sizeOf_spec] at this
            omega
          · simp only [Node.slicelit.sizeOf_spec]
            omega)
        (by simpa [Node.NoFatal] using hok)
      refine ⟨⟨(.slicelit w l, ⟨[] ++ arrayPlan IsZero w l 0⟩) :: s1.initplans⟩, ?_, ?_, ?_⟩
      · simp [initplan, hc, h1]
      · exact Complete_store IsZero _ s1 _ pending h2 (by simp [planOf])
      · exact ⟨_, lookup_node_self _ _ _, by simp [planOf]⟩
  | .structlit l, s, pending, hs, hp, hok => by
    by_cases hc : (s.initplans.lookup (.structlit l)).isSome = true
    · exact ⟨s, by simp [initplan, hc], hs, Complete_cached IsZero _ s pending hs hp hc⟩
    · obtain ⟨s1, h1, h2⟩ := structLoop_ok IsZero l ⟨(.structlit l, ⟨[]⟩) :: s.initplans⟩ ⟨[]⟩
        (fun m => pending m ∨ m = .structlit l) (Complete_enter IsZero _ s pending hs)
        (by
          intro m hm
          rcases hm with hm | rfl
          · have := hp m hm
            simp only [Node.structlit.sizeOf_spec] at this
            omega
          · simp only [Node.structlit.sizeOf_spec]
            omega)
        (by simpa [Node.NoFatal] using hok)
      refine ⟨⟨(.structlit l, ⟨[] ++ structPlan IsZero l⟩) :: s1.initplans⟩, ?_, ?_, ?_⟩
      · simp [initplan, hc, h1]
      · exact Complete_store IsZero _ s1 _ pending h2 (by simp [planOf])
      · exact ⟨_, lookup_node_self _ _ _, by simp [planOf]⟩
  | .maplit l, s, pending, hs, hp, hok => by
    by_cases hc : (s.initplans.lookup (.maplit l)).isSome = true
    · exact ⟨s, by simp [initplan, hc], hs, Complete_cached IsZero _ s pending hs hp hc⟩
    · obtain ⟨s1, h1, h2⟩ := mapLoop_ok IsZero l ⟨(.maplit l, ⟨[]⟩) :: s.initplans⟩ ⟨[]⟩
        (fun m => pending m ∨ m = .maplit l) (Complete_enter IsZero _ s pending hs)
        (by
          intro m hm
          rcases hm with hm | rfl
          · have := hp m hm
            simp only [Node.maplit.sizeOf_spec] at this
            omega
          · simp only [Node.maplit.sizeOf_spec]
            omega)
        (by simpa [Node.NoFatal] using hok)
      refine ⟨⟨(.maplit l, ⟨[] ++ mapPlan IsZero l⟩) :: s1.initplans⟩, ?_, ?_, ?_⟩
      · simp [initplan, hc, h1]
      · exact Complete_store IsZero _ s1 _ pending h2 (by simp [planOf])
      · exact ⟨_, lookup_node_self _ _ _, by simp [planOf]⟩
theorem arrayLoop_ok (IsZero : Node → Bool) (w : Int) : ∀ (l : KeyElems) (k : Int)
    (s : InitSchedule) (p : InitPlan) (pending : Node → Prop), s.Complete IsZero pending →
    (∀ m, pending m → sizeOf l < sizeOf m) → l.NoFatalArray IsZero = true →
    ∃ s', arrayLoop IsZero w l k s p = some (s', ⟨p.E ++ arrayPlan IsZero w l k⟩) ∧
      s'.Complete IsZero pending
  | .nil, k, s, p, pending, hs, _, _ => ⟨s, by simp [arrayLoop, arrayPlan], hs⟩
  | .plain a rest, k, s, p, pending, hs, hp, hok => by
    simp only [KeyElems.NoFatalArray, Bool.and_eq_true, Bool.or_eq_true,
      Bool.not_eq_true'] at hok
    obtain ⟨s1, h1, h2⟩ := addvalue_ok IsZero a s p (k * w) pending hs (fun hz hv =>
      initplan_ok IsZero a s pending hs
        (fun m hm => by
          have := hp m hm
          simp only [KeyElems.plain.sizeOf_spec] at this
          omega)
        (by
          rcases hok.1 with (h | h) | h
          · rw [hz] at h; cases h
          · rw [hv] at h; cases h
          · exact h))
    obtain ⟨s2, h3, h4⟩ := arrayLoop_ok IsZero w rest (k + 1) s1
      ⟨p.E ++ valuePlan IsZero (planOf IsZero a) (k * w) a⟩ pending h2
      (fun m hm => by
        have := hp m hm
        simp only [KeyElems.plain.sizeOf_spec] at this
        omega) hok.2
    refine ⟨s2, ?_, h4⟩
    simp only [arrayLoop, h1, h3, arrayPlan, List.append_assoc]
  | .key idx a rest, k, s, p, pending, hs, hp, hok => by
    simp only [KeyElems.NoFatalArray, Bool.and_eq_true, Bool.or_eq_true,
      Bool.not_eq_true', decide_eq_true_eq] at hok
    obtain ⟨s1, h1, h2⟩ := addvalue_ok IsZero a s p (idx * w) pending hs (fun hz hv =>
      initplan_ok IsZero a s pending hs
        (fun m hm => by
          have := hp m hm
          simp only [KeyElems.key.sizeOf_spec] at this
          omega)
        (by
          rcases hok.1.2 with (h | h) | h
          · rw [hz] at h; cases h
          · rw [hv] at h; cases h
          · exact h))
    obtain ⟨s2, h3, h4⟩ := arrayLoop_ok IsZero w rest (idx + 1) s1
      ⟨p.E ++ valuePlan IsZero (planOf IsZero a) (idx * w) a⟩ pending h2
      (fun m hm => by
        have := hp m hm
        simp only [KeyElems.key.sizeOf_spec] at this
        omega) hok.2
    refine ⟨s2, ?_, h4⟩
    simp only [arrayLoop, not_lt.2 hok.1.1, if_false, h1, h3, arrayPlan, List.append_assoc]
theorem structLoop_ok (IsZero : Node → Bool) : ∀ (l : StructElems)
    (s : InitSchedule) (p : InitPlan) (pending : Node → Prop), s.Complete IsZero pending →
    (∀ m, pending m → sizeOf l < sizeOf m) → l.NoFatal IsZero = true →
    ∃ s', structLoop IsZero l s p = some (s', ⟨p.E ++ structPlan IsZero l⟩) ∧
      s'.Complete IsZero pending
  | .nil, s, p, pending, hs, _, _ => ⟨s, by simp [structLoop, structPlan], hs⟩
  | .other rest, s, p, pending, hs, _, hok => by simp [StructElems.NoFatal] at hok
  | .structkey blank off a rest, s, p, pending, hs, hp, hok => by
    simp only [StructElems.NoFatal, Bool.and_eq_true, Bool.or_eq_true,
      Bool.not_eq_true'] at hok
    by_cases hb : blank = true
    · obtain ⟨s2, h3, h4⟩ := structLoop_ok IsZero rest s p pending hs
        (fun m hm => by
          have := hp m hm
          simp only [StructElems.structkey.sizeOf_spec] at this
          omega) hok.2
      refine ⟨s2, ?_, h4⟩
      simp only [structLoop, hb, if_true, h3, structPlan]
    · obtain ⟨s1, h1, h2⟩ := addvalue_ok IsZero a s p off pending hs (fun hz hv =>
        initplan_ok IsZero a s pending hs
          (fun m hm => by
            have := hp m hm
            simp only [StructElems.structkey.sizeOf_spec] at this
            omega)
          (by
            rcases hok.1 with ((h | h) | h) | h
            · exact absurd h hb
            · rw [hz] at h; cases h
            · rw [hv] at h; cases h
            · exact h))
      obtain ⟨s2, h3, h4⟩ := structLoop_ok IsZero rest s1
        ⟨p.E ++ valuePlan IsZero (planOf IsZero a) off a⟩ pending h2
        (fun m hm => by
          have := hp m hm
          simp only [StructElems.structkey.sizeOf_spec] at this
          omega) hok.2
      refine ⟨s2, ?_, h4⟩
      have hb' : blank = false := by simpa using hb
      simp only [structLoop, hb', Bool.false_eq_true, if_false, h1, h3, structPlan,
        List.append_assoc]
theorem mapLoop_ok (IsZero : Node → Bool) : ∀ (l : KeyElems)
    (s : InitSchedule) (p : InitPlan) (pending : Node → Prop), s.Complete IsZero pending →
    (∀ m, pending m → sizeOf l < sizeOf m) → l.NoFatalMap IsZero = true →
    ∃ s', mapLoop IsZero l s p = some (s', ⟨p.E ++ mapPlan IsZero l⟩) ∧
      s'.Complete IsZero pending
  | .nil, s, p, pending, hs, _, _ => ⟨s, by simp [mapLoop, mapPlan], hs⟩
  | .plain a rest, s, p, pending, hs, _, hok => by simp [KeyElems.NoFatalMap] at hok
  | .key idx a rest, s, p, pending, hs, hp, hok => by
    simp only [KeyElems.NoFatalMap, Bool.and_eq_true, Bool.or_eq_true,
      Bool.not_eq_true'] at hok
    obtain ⟨s1, h1, h2⟩ := addvalue_ok IsZero a s p (-1) pending hs (fun hz hv =>
      initplan_ok IsZero a s pending hs
        (fun m hm => by
          have := hp m hm
          simp only [KeyElems.key.sizeOf_spec] at this
          omega)
        (by
          rcases hok.1 with (h | h) | h
          · rw [hz] at h; cases h
          · rw [hv] at h; cases h
          · exact h))
    obtain ⟨s2, h3, h4⟩ := mapLoop_ok IsZero rest s1
      ⟨p.E ++ valuePlan IsZero (planOf IsZero a) (-1) a⟩ pending h2
      (fun m hm => by
        have := hp m hm
        simp only [KeyElems.key.sizeOf_spec] at this
        omega) hok.2
    refine ⟨s2, ?_, h4⟩
    simp only [mapLoop, h1, h3, mapPlan, List.append_assoc]
end

theorem valuePlan_mem (IsZero : Node → Bool) (sub : List InitEntry) (x : Int) (a : Node)
    (off : Int) (e : Node) :
    (⟨off, e⟩ : InitEntry) ∈ valuePlan IsZero sub x a ↔
      IsZero a = false ∧ ((isvaluelit a = false ∧ off = x ∧ e = a) ∨
        (isvaluelit a = true ∧ ∃ o', (⟨o', e⟩ : InitEntry) ∈ sub ∧ off = o' + x)) := by
  unfold valuePlan
  by_cases hz : IsZero a = true
  · simp [hz]
  · have hz' : IsZero a = false := by simpa using hz
    by_cases hv : isvaluelit a = true
    · rw [if_neg hz, if_pos hv, List.mem_map]
      constructor
      · rintro ⟨⟨o', e'⟩, hmem, heq⟩
        simp only [InitEntry.mk.injEq] at heq
        obtain ⟨h1, h2⟩ := heq
        subst h2
        exact ⟨hz', Or.inr ⟨hv, o', hmem, h1.symm⟩⟩
      · rintro ⟨-, h | ⟨-, o', hmem, rfl⟩⟩
        · rw [hv] at h
          exact absurd h.1 (by decide)
        · exact ⟨⟨o', e⟩, hmem, rfl⟩
    · have hv' : isvaluelit a = false := by simpa using hv
      simp [hz', hv']

theorem arrayPlan_mem (IsZero : Node → Bool) (w : Int) (ent : InitEntry) :
    ∀ (l : KeyElems) (k : Int), ent ∈ arrayPlan IsZero w l k ↔
      ∃ i a, l.At k i a ∧ ent ∈ valuePlan IsZero (planOf IsZero a) (i * w) a
  | .nil, k => by
    simp only [arrayPlan, List.not_mem_nil, false_iff]
    rintro ⟨i, a, h, _⟩
    cases h
  | .plain b rest, k => by
    simp only [arrayPlan, List.mem_append, arrayPlan_mem IsZero w ent rest (k + 1)]
    constructor
    · rintro (h | ⟨i, a, h1, h2⟩)
      · exact ⟨k, b, KeyElems.At.plain_here _ _ _, h⟩
      · exact ⟨i, a, KeyElems.At.plain_there _ _ _ _ _ h1, h2⟩
    · rintro ⟨i, a, h1, h2⟩
      cases h1 with
      | plain_here => exact Or.inl h2
      | plain_there _ _ _ _ _ h => exact Or.inr ⟨i, a, h, h2⟩
  | .key idx b rest, k => by
    simp only [arrayPlan, List.mem_append, arrayPlan_mem IsZero w ent rest (idx + 1)]
    constructor
    · rintro (h | ⟨i, a, h1, h2⟩)
      · exact ⟨idx, b, KeyElems.At.key_here _ _ _ _, h⟩
      · exact ⟨i, a, KeyElems.At.key_there _ _ _ _ _ _ h1, h2⟩
    · rintro ⟨i, a, h1, h2⟩
      cases h1 with
      | key_here => exact Or.inl h2
      | key_there _ _ _ _ _ _ h => exact Or.inr ⟨i, a, h, h2⟩

theorem structPlan_mem (IsZero : Node → Bool) (ent : InitEntry) :
    ∀ (l : StructElems), ent ∈ structPlan IsZero l ↔
      ∃ off a, l.At off a ∧ ent ∈ valuePlan IsZero (planOf IsZero a) off a
  | .nil => by
    simp only [structPlan, List.not_mem_nil, false_iff]
    rintro ⟨i, a, h, _⟩
    cases h
  | .other rest => by
    simp only [structPlan, structPlan_mem IsZero ent rest]
    constructor
    · rintro ⟨o, a, h1, h2⟩
      exact ⟨o, a, StructElems.At.other _ _ _ h1, h2⟩
    · rintro ⟨o, a, h1, h2⟩
      cases h1 with
      | other _ _ _ h => exact ⟨o, a, h, h2⟩
  | .structkey blank off b rest => by
    cases blank with
    | true =>
      simp only [structPlan, if_true, structPlan_mem IsZero ent rest]
      constructor
      · rintro ⟨o, a, h1, h2⟩
        exact ⟨o, a, StructElems.At.there _ _ _ _ _ _ h1, h2⟩
      · rintro ⟨o, a, h1, h2⟩
        cases h1 with
        | there _ _ _ _ _ _ h => exact ⟨o, a, h, h2⟩
    | false =>
      simp only [structPlan, Bool.false_eq_true, if_false, List.mem_append,
        structPlan_mem IsZero ent rest]
      constructor
      · rintro (h | ⟨o, a, h1, h2⟩)
        · exact ⟨off, b, StructElems.At.here _ _ _, h⟩
        · exact ⟨o, a, StructElems.At.there _ _ _ _ _ _ h1, h2⟩
      · rintro ⟨o, a, h1, h2⟩
        cases h1 with
        | here => exact Or.inl h2
        | there _ _ _ _ _ _ h => exact Or.inr ⟨o, a, h, h2⟩

theorem KeyElems_At_sizeOf : ∀ (l : KeyElems) (k i : Int) (a : Node), l.At k i a →
    sizeOf a < sizeOf l := by
  intro l k i a h
  induction h with
  | plain_here a rest k => simp only [KeyElems.plain.sizeOf_spec]; omega
  | plain_there b rest k i a _ ih => simp only [KeyElems.plain.sizeOf_spec]; omega
  | key_here idx a rest k => simp only [KeyElems.key.sizeOf_spec]; omega
  | key_there idx b rest k i a _ ih => simp only [KeyElems.key.sizeOf_spec]; omega

theorem StructElems_At_sizeOf : ∀ (l : StructElems) (o : Int) (a : Node), l.At o a →
    sizeOf a < sizeOf l := by
  intro l o a h
  induction h with
  | here off a rest => simp only [StructElems.structkey.sizeOf_spec]; omega
  | there blank off b rest o a _ ih => simp only [StructElems.structkey.sizeOf_spec]; omega
  | other rest o a _ ih => simp only [StructElems.other.sizeOf_spec]; omega

theorem Element_sizeOf (n : Node) (off : Int) (a : Node) (h : Element n off a) :
    sizeOf a < sizeOf n := by
  cases h with
  | array w l i a h =>
    have := KeyElems_At_sizeOf l 0 i a h
    simp only [Node.arraylit.sizeOf_spec]; omega
  | struct l off a h =>
    have := StructElems_At_sizeOf l off a h
    simp only [Node.structlit.sizeOf_spec]; omega

/-- The entries of a literal are the values reached directly or through the plan
of a nested literal. -/
theorem planOf_mem_step (IsZero : Node → Bool) (n : Node) (hn : isvaluelit n = true)
    (ent : InitEntry) : ent ∈ planOf IsZero n ↔
      ∃ off a, Element n off a ∧ ent ∈ valuePlan IsZero (planOf IsZero a) off a := by
  cases n with
  | expr id => simp [isvaluelit] at hn
  | slicelit w l => simp [isvaluelit] at hn
  | maplit l => simp [isvaluelit] at hn
  | arraylit w l =>
    simp only [planOf, arrayPlan_mem IsZero w ent l 0]
    constructor
    · rintro ⟨i, a, h1, h2⟩
      exact ⟨i * w, a, Element.array w l i a h1, h2⟩
    · rintro ⟨off, a, h1, h2⟩
      cases h1 with
      | array _ _ i _ h => exact ⟨i, a, h, h2⟩
  | structlit l =>
    simp only [planOf, structPlan_mem IsZero ent l]
    constructor
    · rintro ⟨o, a, h1, h2⟩
      exact ⟨o, a, Element.struct l o a h1, h2⟩
    · rintro ⟨off, a, h1, h2⟩
      cases h1 with
      | struct _ _ _ h => exact ⟨off, a, h, h2⟩

theorem Element_isvaluelit (n : Node) (off : Int) (a : Node) (h : Element n off a) :
    isvaluelit n = true := by
  cases h <;> rfl

theorem PlanLeaf_mem (IsZero : Node → Bool) (n : Node) (off : Int) (e : Node)
    (h : PlanLeaf IsZero n off e) : (⟨off, e⟩ : InitEntry) ∈ planOf IsZero n := by
  induction h with
  | here n off a hel hz hv =>
    rw [planOf_mem_step IsZero n (Element_isvaluelit n off a hel)]
    exact ⟨off, a, hel, (valuePlan_mem IsZero _ off a off a).2 ⟨hz, Or.inl ⟨hv, rfl, rfl⟩⟩⟩
  | nested n off a off' e hel hz hv _ ih =>
    rw [planOf_mem_step IsZero n (Element_isvaluelit n off a hel)]
    exact ⟨off, a, hel,
      (valuePlan_mem IsZero _ off a (off' + off) e).2 ⟨hz, Or.inr ⟨hv, off', ih, rfl⟩⟩⟩

theorem mem_PlanLeaf (IsZero : Node → Bool) : ∀ (N : Nat) (n : Node), sizeOf n ≤ N →
    isvaluelit n = true → ∀ (off : Int) (e : Node),
    (⟨off, e⟩ : InitEntry) ∈ planOf IsZero n → PlanLeaf IsZero n off e := by
  intro N
  induction N with
  | zero =>
    intro n hsz hn
    cases n <;> simp at hsz
  | succ N ih =>
    intro n hsz hn off e hmem
    rw [planOf_mem_step IsZero n hn] at hmem
    obtain ⟨o, a, hel, hv⟩ := hmem
    rw [valuePlan_mem] at hv
    obtain ⟨hz, hcase⟩ := hv
    rcases hcase with ⟨hv, rfl, rfl⟩ | ⟨hv, o', hmem', rfl⟩
    · exact PlanLeaf.here n off e hel hz hv
    · have hlt := Element_sizeOf n o a hel
      exact PlanLeaf.nested n o a o' e hel hz hv (ih a (by omega) hv o' e hmem')

theorem PlanLeaf_expr (IsZero : Node → Bool) (n : Node) (off : Int) (e : Node)
    (h : PlanLeaf IsZero n off e) : IsZero e = false ∧ isvaluelit e = false := by
  induction h with
  | here n off a _ hz hv => exact ⟨hz, hv⟩
  | nested n off a off' e _ _ _ _ ih => exact ih

theorem PlanLeaf_element (IsZero : Node → Bool) (n : Node) (off : Int) (e : Node)
    (h : PlanLeaf IsZero n off e) : ∃ o a, Element n o a ∧ IsZero a = false := by
  cases h with
  | here _ _ _ hel hz _ => exact ⟨_, _, hel, hz⟩
  | nested _ o a _ _ hel hz _ _ => exact ⟨o, a, hel, hz⟩

theorem Reachable_Complete (IsZero : Node → Bool) (s : InitSchedule)
    (h : s.Reachable IsZero) : s.Complete IsZero (fun _ => False) := by
  induction h with
  | empty =>
    intro m p hm
    simp at hm
  | step s n s' _ hok hstep ih =>
    obtain ⟨s2, h1, h2, _⟩ := initplan_ok IsZero n s (fun _ => False) ih
      (fun _ hm => absurd hm not_false) hok
    rw [hstep] at h1
    cases h1
    exact h2

/-- C10: for every array or struct literal `n` on which `initplan` reaches no
fatal error, called with the empty table of plans or one left by earlier calls,
`initplan` returns and stores a plan for `n` that contains no entry whose
expression is zero and no entry that is itself an array or struct literal; its
entries are exactly the expressions reached through nested non-zero array and
struct literals, each with the sum of the offsets along its nesting path (index
times element width for arrays, field offset for structs); and if all element
values of `n` are zero the plan is empty. -/
theorem initplan_spec (IsZero : Node → Bool) (s : InitSchedule) (hs : s.Reachable IsZero)
    (n : Node) (hn : isvaluelit n = true) (hok : n.NoFatal IsZero = true) :
    ∃ (s' : InitSchedule) (p : InitPlan), initplan IsZero n s = some s' ∧
      s'.initplans.lookup n = some p ∧
      (∀ e ∈ p.E, IsZero e.Expr = false ∧ isvaluelit e.Expr = false) ∧
      (∀ (off : Int) (e : Node), (⟨off, e⟩ : InitEntry) ∈ p.E ↔ PlanLeaf IsZero n off e) ∧
      ((∀ (off : Int) (a : Node), Element n off a → IsZero a = true) → p.E = []) := by
  obtain ⟨s', h1, -, q, h3, h4⟩ := initplan_ok IsZero n s (fun _ => False)
    (Reachable_Complete IsZero s hs) (fun _ hm => absurd hm not_false) hok
  have hiff : ∀ (off : Int) (e : Node),
      (⟨off, e⟩ : InitEntry) ∈ q.E ↔ PlanLeaf IsZero n off e := by
    intro off e
    rw [h4]
    exact ⟨mem_PlanLeaf IsZero (sizeOf n) n (le_refl _) hn off e, PlanLeaf_mem IsZero n off e⟩
  refine ⟨s', q, h1, h3, ?_, hiff, ?_⟩
  · rintro ⟨off, e⟩ he
    exact PlanLeaf_expr IsZero n off e ((hiff off e).1 he)
  · intro hall
    apply List.eq_nil_iff_forall_not_mem.2
    rintro ⟨off, e⟩ he
    obtain ⟨o, a, hel, hz⟩ := PlanLeaf_element IsZero n off e ((hiff off e).1 he)
    rw [hall o a hel] at hz
    cases hz

/-- Witness of `initplan_spec`: the plan of `Point{0, 0}` built from the empty
table is empty. -/
theorem initplan_spec_witness :
    (initplan zeroLit pointZero ⟨[]⟩).map (fun s' => s'.initplans.lookup pointZero)
      = some (some ⟨[]⟩) ∧
    ∃ (s' : InitSchedule) (p : InitPlan), initplan zeroLit pointZero ⟨[]⟩ = some s' ∧
      s'.initplans.lookup pointZero = some p ∧
      (∀ e ∈ p.E, zeroLit e.Expr = false ∧ isvaluelit e.Expr = false) ∧
      (∀ (off : Int) (e : Node),
        (⟨off, e⟩ : InitEntry) ∈ p.E ↔ PlanLeaf zeroLit pointZero off e) ∧
      ((∀ (off : Int) (a : Node), Element pointZero off a → zeroLit a = true) → p.E = []) :=
  ⟨by decide, initplan_spec zeroLit ⟨[]⟩ InitSchedule.Reachable.empty pointZero rfl rfl⟩

/-- Running the steps of a body only adds `Siggen` flags and only extends the
log, when the recursive calls do. -/
theorem runActions_mono (rec : TypeId → DState → Option LSym × DState) (lsym : LSym)
    (hrec : ∀ t st, (∀ s ∈ st.siggen, s ∈ (rec t st).2.siggen) ∧
      ∃ more, (rec t st).2.log = st.log ++ more) :
    ∀ (acts : List Action) (st : DState),
      (∀ s ∈ st.siggen, s ∈ (runActions rec lsym acts st).2.siggen) ∧
      ∃ more, (runActions rec lsym acts st).2.log = st.log ++ more := by
  intro acts
  induction acts with
  | nil => intro st; exact ⟨fun s hs => hs, [], by simp [runActions]⟩
  | cons a rest ih =>
    intro st
    cases a with
    | request t =>
      obtain ⟨h1, more, h2⟩ := hrec t st
      cases hr : rec t st with
      | mk r st' =>
        rw [hr] at h1 h2
        cases r with
        | none =>
          simp only [runActions, hr]
          exact ⟨h1, more, h2⟩
        | some l =>
          simp only [runActions, hr]
          obtain ⟨h3, more', h4⟩ := ih st'
          refine ⟨fun s hs => h3 s (h1 s hs), more ++ more', ?_⟩
          rw [h4]
          simp only at h2
          rw [h2, List.append_assoc]
    | write off size what =>
      simp only [runActions]
      obtain ⟨h3, more', h4⟩ := ih { st with log := st.log ++ [.write lsym off size what] }
      exact ⟨h3, [.write lsym off size what] ++ more', by rw [h4]; simp⟩
    | aux what =>
      simp only [runActions]
      obtain ⟨h3, more', h4⟩ := ih { st with log := st.log ++ [.aux lsym what] }
      exact ⟨h3, [.aux lsym what] ++ more', by rw [h4]; simp⟩
    | fatal msg =>
      simp only [runActions]
      exact ⟨fun s hs => hs, [], by simp⟩

/-- A call of `dtypesym` without the `Siggen` flag of its type symbol: the call
is logged, the flag is set and logged, and whatever follows comes after. -/
theorem dtypesym_first (U : Universe) (fuel : Nat) (t : TypeId) (st : DState)
    (hmono : ∀ t st, (∀ s ∈ st.siggen, s ∈ (dtypesym U fuel t st).2.siggen) ∧
      ∃ more, (dtypesym U fuel t st).2.log = st.log ++ more)
    (hty : (U.info (U.info t).formal).IsUntyped = false)
    (hs : (U.info (U.info t).formal).typeSym ∉ st.siggen) :
    (∀ s ∈ (U.info (U.info t).formal).typeSym :: st.siggen,
      s ∈ (dtypesym U (fuel + 1) t st).2.siggen) ∧
    (∃ rest, (dtypesym U (fuel + 1) t st).2.log = st.log ++ Event.call t ::
      Event.setSiggen (U.info (U.info t).formal).typeSym :: rest) ∧
    (∀ l, (dtypesym U (fuel + 1) t st).1 = some l →
      l = (U.info (U.info t).formal).typeSym.Linksym) := by
  simp only [dtypesym, hty, Bool.false_eq_true, if_false, hs]
  split_ifs with c1 c2 c3
  · exact ⟨fun s h => h, ⟨[Event.aux (U.info (U.info t).formal).typeSym.Linksym "AttrIndexed"], by simp⟩,
      fun l h => by simpa using h.symm⟩
  · exact ⟨fun s h => h, ⟨[], by simp⟩, fun l h => by simpa using h.symm⟩
  · exact ⟨fun s h => h, ⟨[], by simp⟩, fun l h => by simpa using h.symm⟩
  · obtain ⟨h1, more, h2⟩ := runActions_mono (dtypesym U fuel)
      (U.info (U.info t).formal).typeSym.Linksym hmono
      (dtypesymBody U (U.info (U.info t).formal))
      { siggen := (U.info (U.info t).formal).typeSym :: st.siggen,
        log := st.log ++ [Event.call t] ++
          [Event.setSiggen (U.info (U.info t).formal).typeSym] }
    cases hr : runActions (dtypesym U fuel) (U.info (U.info t).formal).typeSym.Linksym
        (dtypesymBody U (U.info (U.info t).formal))
        { siggen := (U.info (U.info t).formal).typeSym :: st.siggen,
          log := st.log ++ [Event.call t] ++
            [Event.setSiggen (U.info (U.info t).formal).typeSym] } with
    | mk ok st3 =>
      rw [hr] at h1 h2
      cases ok with
      | false =>
        exact ⟨h1, ⟨more, by rw [h2]; simp⟩, fun l h => by cases h⟩
      | true =>
        exact ⟨h1, ⟨more, by rw [h2]; simp⟩, fun l h => by simpa using h.symm⟩

/-- A call of `dtypesym` with the `Siggen` flag of its type symbol set: it
returns the linker symbol, and only the call itself is logged. -/
theorem dtypesym_again (U : Universe) (fuel : Nat) (t : TypeId) (st : DState)
    (hty : (U.info (U.info t).formal).IsUntyped = false)
    (hs : (U.info (U.info t).formal).typeSym ∈ st.siggen) :
    dtypesym U (fuel + 1) t st = (some (U.info (U.info t).formal).typeSym.Linksym,
      { st with log := st.log ++ [Event.call t] }) := by
  simp only [dtypesym, hty, Bool.false_eq_true, if_false, hs, if_true]

/-- A call of `dtypesym` never clears a `Siggen` flag and never drops an event. -/
theorem dtypesym_mono (U : Universe) : ∀ (fuel : Nat) (t : TypeId) (st : DState),
    (∀ s ∈ st.siggen, s ∈ (dtypesym U fuel t st).2.siggen) ∧
    ∃ more, (dtypesym U fuel t st).2.log = st.log ++ more := by
  intro fuel
  induction fuel with
  | zero => intro t st; exact ⟨fun s hs => hs, [], by simp [dtypesym]⟩
  | succ fuel ih =>
    intro t st
    by_cases hty : (U.info (U.info t).formal).IsUntyped = true
    · simp only [dtypesym, hty, if_true]
      exact ⟨fun s hs => hs, [Event.call t], rfl⟩
    · have hty' : (U.info (U.info t).formal).IsUntyped = false := by simpa using hty
      by_cases hs : (U.info (U.info t).formal).typeSym ∈ st.siggen
      · rw [dtypesym_again U fuel t st hty' hs]
        exact ⟨fun s hs => hs, [Event.call t], rfl⟩
      · obtain ⟨h1, ⟨rest, h2⟩, -⟩ := dtypesym_first U fuel t st ih hty' hs
        exact ⟨fun s hs' => h1 s (List.mem_cons_of_mem _ hs'), _, h2⟩

/-- C8: descriptor emission is idempotent per type. For every type `t` that is
not untyped: a call `dtypesym(t)` made while the `Siggen` flag of the type symbol
is clear records the call and sets the flag before anything else happens, in
particular before any recursive request; afterwards the flag is set, and what the
call returns is the linker symbol of the type symbol. No call of `dtypesym`
clears the flag. Every call `dtypesym(t)` made while the flag is set, also a
recursive one made while `t` is still being emitted, returns the same linker
symbol and changes nothing but the record of the call itself: no descriptor byte
is written and no descriptor is requested. -/
theorem dtypesym_idempotent (U : Universe) (t : TypeId) (fuel : Nat) (st : DState)
    (hty : (U.info (U.info t).formal).IsUntyped = false) :
    ((U.info (U.info t).formal).typeSym ∉ st.siggen →
      ∃ rest, (dtypesym U (fuel + 1) t st).2.log = st.log ++ Event.call t ::
        Event.setSiggen (U.info (U.info t).formal).typeSym :: rest) ∧
    (U.info (U.info t).formal).typeSym ∈ (dtypesym U (fuel + 1) t st).2.siggen ∧
    (∀ l, (dtypesym U (fuel + 1) t st).1 = some l →
      l = (U.info (U.info t).formal).typeSym.Linksym) ∧
    (∀ (fuel' : Nat) (t' : TypeId) (st' : DState),
      (U.info (U.info t).formal).typeSym ∈ st'.siggen →
      (U.info (U.info t).formal).typeSym ∈ (dtypesym U fuel' t' st').2.siggen) ∧
    (∀ (fuel' : Nat) (st' : DState), (U.info (U.info t).formal).typeSym ∈ st'.siggen →
      dtypesym U (fuel' + 1) t st' = (some (U.info (U.info t).formal).typeSym.Linksym,
        { st' with log := st'.log ++ [Event.call t] })) := by
  refine ⟨?_, ?_, ?_, ?_, ?_⟩
  · intro hs
    exact (dtypesym_first U fuel t st (dtypesym_mono U fuel) hty hs).2.1
  · by_cases hs : (U.info (U.info t).formal).typeSym ∈ st.siggen
    · exact (dtypesym_mono U (fuel + 1) t st).1 _ hs
    · exact (dtypesym_first U fuel t st (dtypesym_mono U fuel) hty hs).1 _
        (List.mem_cons_self _ _)
  · by_cases hs : (U.info (U.info t).formal).typeSym ∈ st.siggen
    · rw [dtypesym_again U fuel t st hty hs]
      intro l h
      simpa using h.symm
    · exact (dtypesym_first U fuel t st (dtypesym_mono U fuel) hty hs).2.2
  · intro fuel' t' st' hs
    exact (dtypesym_mono U fuel' t' st').1 _ hs
  · intro fuel' st' hs
    exact dtypesym_again U fuel' t st' hty hs

/-- Witness of `dtypesym_idempotent`: the recursive type `T struct { next *T }`
in the example universe. Its descriptor is emitted with enough fuel, and a second
request returns the same symbol and only records the call. -/
theorem dtypesym_idempotent_witness :
    (dtypesym exampleUniverse 4 0 ⟨[], []⟩).1 = some ⟨⟨"type", "T"⟩⟩ ∧
    (∀ (fuel' : Nat) (st' : DState),
      (exampleUniverse.info (exampleUniverse.info 0).formal).typeSym ∈ st'.siggen →
      dtypesym exampleUniverse (fuel' + 1) 0 st'
        = (some (exampleUniverse.info (exampleUniverse.info 0).formal).typeSym.Linksym,
          { st' with log := st'.log ++ [Event.call 0] })) :=
  ⟨by decide, (dtypesym_idempotent exampleUniverse 0 3 ⟨[], []⟩ rfl).2.2.2.2⟩

theorem expand_append (p : List GCInstr) (i : GCInstr) :
    expand (p ++ [i]) = (match i with
      | .lit b => expand p ++ [b]
      | .rep n c => repeatLast n c (expand p)) := by
  simp [expand, List.foldl_append]

theorem repeatLast_length (n : Nat) : ∀ (c : Nat) (acc : List Bool), n ≤ acc.length →
    (repeatLast n c acc).length = acc.length + n * c := by
  intro c
  induction c with
  | zero => intro acc _; simp [repeatLast]
  | succ c ih =>
    intro acc h
    rw [repeatLast, ih _ (by simp; omega)]
    simp only [List.length_append, List.length_drop]
    have : acc.length - (acc.length - n) = n := by omega
    rw [this]
    ring

theorem repeatLast_extends (n : Nat) : ∀ (c : Nat) (acc : List Bool),
    acc <+: repeatLast n c acc := by
  intro c
  induction c with
  | zero => intro acc; exact List.prefix_refl _
  | succ c ih =>
    intro acc
    rw [repeatLast]
    exact (List.prefix_append _ _).trans (ih _)

/-- The bits that a repetition appends: bit `q` of the new part is bit `q % n` of
the last `n` bits before it. -/
theorem repeatLast_getD (n : Nat) (hn : 0 < n) : ∀ (c : Nat) (acc : List Bool),
    n ≤ acc.length → ∀ q, q < n * c →
    (repeatLast n c acc).getD (acc.length + q) false
      = acc.getD (acc.length - n + q % n) false := by
  intro c
  induction c with
  | zero => intro acc _ q hq; simp at hq
  | succ c ih =>
    intro acc h q hq
    rw [repeatLast]
    have hlen : (acc ++ acc.drop (acc.length - n)).length = acc.length + n := by
      simp only [List.length_append, List.length_drop]; omega
    by_cases hqn : q < n
    · -- inside the first copy
      have hpre := repeatLast_extends n c (acc ++ acc.drop (acc.length - n))
      obtain ⟨t, ht⟩ := hpre
      rw [← ht, List.getD_append _ _ _ _ (by rw [hlen]; omega),
        List.getD_append_right _ _ _ _ (by omega)]
      rw [Nat.mod_eq_of_lt hqn]
      simp only [Nat.add_sub_cancel_left, List.getD_eq_getElem?_getD, List.getElem?_drop]
    · have hq' : q - n < n * c := by
        have : n * (c + 1) = n * c + n := by ring
        omega
      have := ih (acc ++ acc.drop (acc.length - n)) (by rw [hlen]; omega) (q - n) hq'
      rw [hlen] at this
      rw [show acc.length + q = acc.length + n + (q - n) by omega, this]
      have hmod : (q - n) % n = q % n := by
        conv_rhs => rw [show q = (q - n) + n by omega]
        rw [Nat.add_mod_right]
      rw [hmod]
      have hlt : q % n < n := Nat.mod_lt _ hn
      rw [show acc.length + n - n + q % n = acc.length + q % n by omega,
        List.getD_append_right _ _ _ _ (by omega)]
      simp only [Nat.add_sub_cancel_left, List.getD_eq_getElem?_getD, List.getElem?_drop]

theorem repeatLast_one (b : Bool) : ∀ (c : Nat) (xs : List Bool),
    repeatLast 1 c (xs ++ [b]) = xs ++ List.replicate (c + 1) b := by
  intro c
  induction c with
  | zero => intro xs; simp [repeatLast]
  | succ c ih =>
    intro xs
    rw [repeatLast]
    have : (xs ++ [b]).drop ((xs ++ [b]).length - 1) = [b] := by simp
    rw [this, ih (xs ++ [b]), List.append_assoc]
    congr 1

theorem Typ.Width_leaf (k : Kind) (w a : Nat) (nih : Bool) : (Typ.leaf k w a nih).Width = w := rfl

theorem Typ.Width_array (e : Typ) (n w a : Nat) : (Typ.array e n w a).Width = w := rfl

theorem Typ.Align_leaf (k : Kind) (w a : Nat) (nih : Bool) : (Typ.leaf k w a nih).Align = a := rfl

theorem Typ.Align_array (e : Typ) (n w a : Nat) : (Typ.array e n w a).Align = a := rfl

theorem validAlign_cases (a : Nat) (h : validAlign a = true) : a = 1 ∨ a = 2 ∨ a = 4 ∨ a = 8 := by
  simp only [validAlign, Bool.or_eq_true, beq_iff_eq] at h
  tauto

theorem Sized_leaf (P : Nat) (k : Kind) (w a : Nat) (nih : Bool)
    (h : (Typ.leaf k w a nih).Sized P = true) :
    validAlign a = true ∧ w % a = 0 ∧
    ((Typ.leaf k w a nih).HasPointers = true → a = P ∧
      ((k = .TINTER ∨ k = .TSTRING) ∧ w = 2 * P ∨ k = .TSLICE ∧ w = 3 * P ∨
        (k ≠ .TINTER ∧ k ≠ .TSTRING ∧ k ≠ .TSLICE) ∧ w = P)) := by
  simp only [Typ.Sized, Bool.and_eq_true, beq_iff_eq] at h
  obtain ⟨⟨h1, h2⟩, h3⟩ := h
  refine ⟨h1, h2, ?_⟩
  intro hp
  cases k <;> simp_all [Typ.HasPointers]

theorem Sized_array (P : Nat) (e : Typ) (n w a : Nat) (h : (Typ.array e n w a).Sized P = true) :
    e.Sized P = true ∧ w = n * e.Width ∧ a = e.Align := by
  simpa [Typ.Sized, and_assoc] using h

theorem Sized_struct (P : Nat) (fs : FieldList) (w a : Nat)
    (h : (Typ.struct fs w a).Sized P = true) :
    validAlign a = true ∧ w % a = 0 ∧ fs.Sized P 0 w a = true := by
  simpa [Typ.Sized, and_assoc] using h

theorem Sized_cons (P : Nat) (name : String) (off : Nat) (t : Typ) (rest : FieldList)
    (lo w a : Nat) (h : (FieldList.cons name off t rest).Sized P lo w a = true) :
    t.Sized P = true ∧ lo ≤ off ∧ off % t.Align = 0 ∧ a % t.Align = 0 ∧
      rest.Sized P (off + t.Width) w a = true := by
  simpa [FieldList.Sized, and_assoc] using h

/-- The alignment of a sized type is 1, 2, 4 or 8 and divides its width. -/
theorem Sized_align (P : Nat) : ∀ (t : Typ), t.Sized P = true →
    validAlign t.Align = true ∧ t.Width % t.Align = 0
  | .leaf k w a nih, h => by
    obtain ⟨h1, h2, -⟩ := Sized_leaf P k w a nih h
    exact ⟨h1, h2⟩
  | .array e n w a, h => by
    obtain ⟨h1, h2, h3⟩ := Sized_array P e n w a h
    obtain ⟨i1, i2⟩ := Sized_align P e h1
    subst h2 h3
    refine ⟨i1, ?_⟩
    show (n * e.Width) % e.Align = 0
    rw [Nat.mul_mod, i2]
    simp
  | .struct fs w a, h => by
    obtain ⟨h1, h2, -⟩ := Sized_struct P fs w a h
    exact ⟨h1, h2⟩

theorem HasPointers_array (e : Typ) (n w a : Nat) :
    (Typ.array e n w a).HasPointers = true ↔ n ≠ 0 ∧ e.HasPointers = true := by
  simp [Typ.HasPointers]

theorem HasPointers_struct (fs : FieldList) (w a : Nat) :
    (Typ.struct fs w a).HasPointers = fs.HasPointers := by
  simp [Typ.HasPointers]

theorem HasPointers_cons (name : String) (off : Nat) (t : Typ) (rest : FieldList) :
    (FieldList.cons name off t rest).HasPointers = (t.HasPointers || rest.HasPointers) := by
  simp [FieldList.HasPointers]

mutual
/-- A sized type with pointers is pointer-aligned and a whole number of words
wide. -/
theorem Sized_ptr (P : Nat) : ∀ (t : Typ), t.Sized P = true → t.HasPointers = true →
    P ∣ t.Align ∧ P ∣ t.Width
  | .leaf k w a nih, h, hp => by
    obtain ⟨-, -, h3⟩ := Sized_leaf P k w a nih h
    obtain ⟨ha, hw⟩ := h3 hp
    refine ⟨by rw [ha]; exact dvd_refl _, ?_⟩
    show P ∣ w
    rcases hw with ⟨-, hw⟩ | ⟨-, hw⟩ | ⟨-, hw⟩ <;> rw [hw]
    · exact Dvd.intro_left _ rfl
    · exact Dvd.intro_left _ rfl
  | .array e n w a, h, hp => by
    obtain ⟨h1, h2, h3⟩ := Sized_array P e n w a h
    obtain ⟨i1, i2⟩ := Sized_ptr P e h1 ((HasPointers_array e n w a).1 hp).2
    subst h2 h3
    exact ⟨i1, Dvd.dvd.mul_left i2 n⟩
  | .struct fs w a, h, hp => by
    obtain ⟨h1, h2, h3⟩ := Sized_struct P fs w a h
    have := Sized_ptr_fields P fs 0 w a h3 (by rw [← HasPointers_struct fs w a]; exact hp)
    exact ⟨this, this.trans (Nat.dvd_of_mod_eq_zero h2)⟩
theorem Sized_ptr_fields (P : Nat) : ∀ (fs : FieldList) (lo w a : Nat),
    fs.Sized P lo w a = true → fs.HasPointers = true → P ∣ a
  | .nil, _, _, _, _, hp => by simp [FieldList.HasPointers] at hp
  | .cons name off t rest, lo, w, a, h, hp => by
    obtain ⟨h1, h2, h3, h4, h5⟩ := Sized_cons P name off t rest lo w a h
    rw [HasPointers_cons] at hp
    by_cases ht : t.HasPointers = true
    · exact (Sized_ptr P t h1 ht).1.trans (Nat.dvd_of_mod_eq_zero h4)
    · have : rest.HasPointers = true := by simpa [ht] using hp
      exact Sized_ptr_fields P rest _ w a h5 this
end

mutual
/-- A type without pointers has no pointer word. -/
theorem isPtrWord_noptr (P : Nat) : ∀ (t : Typ), t.HasPointers = false →
    ∀ j, t.isPtrWord P j = false
  | .leaf k w a nih, h, j => by simp [Typ.isPtrWord, h]
  | .array e n w a, h, j => by
    by_cases hc : n ≠ 0 ∧ e.HasPointers = true
    · have : (Typ.array e n w a).HasPointers = true := (HasPointers_array e n w a).2 hc
      rw [h] at this
      cases this
    · simp only [Typ.isPtrWord]
      rcases not_and_or.1 hc with h1 | h1
      · simp [not_not.1 h1]
      · simp [h1]
  | .struct fs w a, h, j => by
    rw [HasPointers_struct] at h
    simp only [Typ.isPtrWord]
    exact isPtrWord_noptr_fields P fs h j
theorem isPtrWord_noptr_fields (P : Nat) : ∀ (fs : FieldList), fs.HasPointers = false →
    ∀ j, fs.isPtrWord P j = false
  | .nil, _, j => by simp [FieldList.isPtrWord]
  | .cons name off t rest, h, j => by
    rw [HasPointers_cons, Bool.or_eq_false_iff] at h
    simp [FieldList.isPtrWord, h.1, isPtrWord_noptr_fields P rest h.2 j]
end

theorem PtrDataEnd_noptr (P : Nat) : ∀ (fs : FieldList), fs.HasPointers = false →
    ∀ acc, fs.PtrDataEnd P acc = acc
  | .nil, _, acc => by simp [FieldList.PtrDataEnd]
  | .cons name off t rest, h, acc => by
    rw [HasPointers_cons, Bool.or_eq_false_iff] at h
    simp [FieldList.PtrDataEnd, h.1, PtrDataEnd_noptr P rest h.2]

/-- The fields of a sized struct end inside the struct. -/
theorem Sized_end (P : Nat) : ∀ (fs : FieldList) (lo w a : Nat),
    fs.Sized P lo w a = true → lo ≤ w
  | .nil, lo, w, a, h => by simpa [FieldList.Sized] using h
  | .cons name off t rest, lo, w, a, h => by
    obtain ⟨h1, h2, h3, h4, h5⟩ := Sized_cons P name off t rest lo w a h
    have := Sized_end P rest _ w a h5
    omega

theorem div_mul_of_dvd (P x : Nat) (h : P ∣ x) : x / P * P = x := Nat.div_mul_cancel h

mutual
/-- The pointer data of a sized type with pointers: a positive whole number of
words, inside the type, and beyond every pointer word; there is a pointer
word. -/
theorem PtrData_typ (P : Nat) (hP : 0 < P) : ∀ (t : Typ), t.Sized P = true →
    t.HasPointers = true →
    P ∣ PtrDataSize P t ∧ 0 < PtrDataSize P t ∧ PtrDataSize P t ≤ t.Width ∧
      (∀ j, t.isPtrWord P j = true → (j + 1) * P ≤ PtrDataSize P t) ∧
      ∃ j, t.isPtrWord P j = true
  | .leaf k w a nih, h, hp => by
    obtain ⟨-, -, h3⟩ := Sized_leaf P k w a nih h
    obtain ⟨-, hw⟩ := h3 hp
    have hp' : (!(Typ.leaf k w a nih).HasPointers) = false := by simp [hp]
    simp only [PtrDataSize, hp, Bool.not_true, Bool.false_eq_true, if_false, Typ.Width_leaf,
      Typ.isPtrWord, Bool.true_and]
    cases k
    all_goals first
      | (exfalso; simp [Typ.HasPointers] at hp; done)
      | (simp at hw
         subst hw
         dsimp only
         refine ⟨by simp, by omega, by omega, ?_, ?_⟩
         · intro j hj
           simp at hj
           subst hj
           omega
         · simp)
  | .array e n w a, h, hp => by
    obtain ⟨h1, h2, h3⟩ := Sized_array P e n w a h
    obtain ⟨hn, he⟩ := (HasPointers_array e n w a).1 hp
    obtain ⟨i1, i2, i3, i4, j0, i5⟩ := PtrData_typ P hP e h1 he
    obtain ⟨-, dw⟩ := Sized_ptr P e h1 he
    have hp' : (!(Typ.array e n w a).HasPointers) = false := by simp [hp]
    simp only [PtrDataSize, hp', Bool.false_eq_true, if_false, Typ.Width_array, Typ.Width_struct, Typ.isPtrWord]
    obtain ⟨k, hk⟩ := dw
    have hkP : e.Width / P = k := by rw [hk]; exact Nat.mul_div_cancel_left k hP
    have hkpos : 0 < k := by
      rcases Nat.eq_zero_or_pos k with h0 | h0
      · subst h0; omega
      · exact h0
    have hj0 : j0 < k := by
      have := i4 j0 i5
      have : (j0 + 1) * P ≤ P * k := by omega
      rw [Nat.mul_comm P k] at this
      exact Nat.lt_of_succ_le (Nat.le_of_mul_le_mul_right this hP)
    refine ⟨Dvd.dvd.add (Dvd.dvd.mul_left ⟨k, hk⟩ _) i1, by omega, ?_, ?_, j0, ?_⟩
    · subst h2
      have : n * e.Width = (n - 1) * e.Width + e.Width := by
        conv_lhs => rw [show n = (n - 1) + 1 by omega]
        ring
      omega
    · intro j hj
      simp only [Bool.and_eq_true, decide_eq_true_eq, hkP] at hj
      obtain ⟨⟨⟨-, -⟩, hjn⟩, hje⟩ := hj
      have hmod := i4 _ hje
      have hdiv : j / k ≤ n - 1 := by
        have : j / k < n := Nat.div_lt_of_lt_mul (by rw [Nat.mul_comm]; exact hjn)
        omega
      have hsplit : j = k * (j / k) + j % k := (Nat.div_add_mod j k).symm
      have h1' : (j / k) * (P * k) ≤ (n - 1) * (P * k) := Nat.mul_le_mul_right _ hdiv
      rw [hk]
      calc (j + 1) * P = (j / k) * (P * k) + (j % k + 1) * P := by
            conv_lhs => rw [hsplit]
            ring
        _ ≤ (n - 1) * (P * k) + PtrDataSize P e := Nat.add_le_add h1' hmod
    · simp only [Bool.and_eq_true, decide_eq_true_eq, hkP]
      refine ⟨⟨⟨hn, he⟩, ?_⟩, ?_⟩
      · calc j0 < k := hj0
          _ = 1 * k := (Nat.one_mul k).symm
          _ ≤ n * k := Nat.mul_le_mul_right k (by omega)
      · rw [Nat.mod_eq_of_lt hj0]; exact i5
  | .struct fs w a, h, hp => by
    obtain ⟨h1, h2, h3⟩ := Sized_struct P fs w a h
    rw [HasPointers_struct] at hp
    obtain ⟨i1, -, i3, i4, i5⟩ := PtrData_fields P hP fs 0 w a h3 hp 0
    have hp' : (!(Typ.struct fs w a).HasPointers) = false := by simp [HasPointers_struct, hp]
    simp only [PtrDataSize, hp', Bool.false_eq_true, if_false, Typ.Width_array, Typ.Width_struct, Typ.isPtrWord]
    refine ⟨i1, ?_, i3, fun j hj => (i4 j hj).1, i5⟩
    obtain ⟨j, hj⟩ := i5
    have := (i4 j hj).1
    have : 0 < (j + 1) * P := Nat.mul_pos (by omega) hP
    omega
theorem PtrData_fields (P : Nat) (hP : 0 < P) : ∀ (fs : FieldList) (lo w a : Nat),
    fs.Sized P lo w a = true → fs.HasPointers = true → ∀ acc,
    P ∣ fs.PtrDataEnd P acc ∧ lo ≤ fs.PtrDataEnd P acc ∧ fs.PtrDataEnd P acc ≤ w ∧
      (∀ j, fs.isPtrWord P j = true → (j + 1) * P ≤ fs.PtrDataEnd P acc ∧ lo ≤ j * P) ∧
      ∃ j, fs.isPtrWord P j = true
  | .nil, _, _, _, _, hp, _ => by simp [FieldList.HasPointers] at hp
  | .cons name off t rest, lo, w, a, h, hp, acc => by
    obtain ⟨h1, h2, h3, h4, h5⟩ := Sized_cons P name off t rest lo w a h
    rw [HasPointers_cons] at hp
    simp only [FieldList.PtrDataEnd, FieldList.isPtrWord]
    by_cases hr : rest.HasPointers = true
    · obtain ⟨i1, i2, i3, i4, j1, i5⟩ := PtrData_fields P hP rest (off + t.Width) w a h5 hr
        (if t.HasPointers then off + PtrDataSize P t else acc)
      refine ⟨i1, by omega, i3, ?_, j1, by simp [i5]⟩
      intro j hj
      simp only [Bool.or_eq_true, Bool.and_eq_true, decide_eq_true_eq] at hj
      rcases hj with ⟨⟨ht, hoj⟩, hjt⟩ | hj
      · obtain ⟨-, -, k3, k4, -⟩ := PtrData_typ P hP t h1 ht
        obtain ⟨da, -⟩ := Sized_ptr P t h1 ht
        have doff : P ∣ off := da.trans (Nat.dvd_of_mod_eq_zero h3)
        have e1 := div_mul_of_dvd P off doff
        have e2 := k4 _ hjt
        have e3 : (j - off / P + 1) * P = (j + 1) * P - off := by
          rw [Nat.add_mul, Nat.sub_mul, e1, Nat.add_mul]
          have : off ≤ j * P := by
            calc off = off / P * P := e1.symm
              _ ≤ j * P := Nat.mul_le_mul_right _ hoj
          omega
        have e4 : off ≤ j * P := by
          calc off = off / P * P := e1.symm
            _ ≤ j * P := Nat.mul_le_mul_right _ hoj
        constructor
        · have : (j + 1) * P = j * P + P := by ring
          omega
        · omega
      · have := i4 j hj
        exact ⟨this.1, by omega⟩
    · have hr' : rest.HasPointers = false := by simpa using hr
      have ht : t.HasPointers = true := by simpa [hr'] using hp
      obtain ⟨k1, k2, k3, k4, j0, k5⟩ := PtrData_typ P hP t h1 ht
      obtain ⟨da, -⟩ := Sized_ptr P t h1 ht
      have doff : P ∣ off := da.trans (Nat.dvd_of_mod_eq_zero h3)
      have e1 := div_mul_of_dvd P off doff
      have hend : rest.Sized P (off + t.Width) w a = true → off + t.Width ≤ w := by
        intro _
        exact Sized_end P rest _ w a h5
      rw [PtrDataEnd_noptr P rest hr', if_pos ht]
      refine ⟨Dvd.dvd.add doff k1, by omega, by have := hend h5; omega, ?_,
        off / P + j0, ?_⟩
      · intro j hj
        simp only [isPtrWord_noptr_fields P rest hr' j, Bool.or_false, Bool.and_eq_true,
          decide_eq_true_eq] at hj
        obtain ⟨⟨-, hoj⟩, hjt⟩ := hj
        have e2 := k4 _ hjt
        have e4 : off ≤ j * P := by
          calc off = off / P * P := e1.symm
            _ ≤ j * P := Nat.mul_le_mul_right _ hoj
        have e3 : (j - off / P + 1) * P = (j + 1) * P - off := by
          rw [Nat.add_mul, Nat.sub_mul, e1, Nat.add_mul]
          omega
        constructor
        · have : (j + 1) * P = j * P + P := by ring
          omega
        · omega
      · simp [ht, k5]
end

theorem Writer.bits_lit (w : Writer) (b : Bool) : (w.lit b).bits = w.bits ++ [b] := by
  simp [Writer.bits, Writer.lit, expand_append]

theorem Writer.index_lit (w : Writer) (b : Bool) : (w.lit b).index = w.index + 1 := rfl

theorem Writer.bits_zeros : ∀ (k : Nat) (w : Writer),
    (w.zeros k).bits = w.bits ++ List.replicate k false ∧ (w.zeros k).index = w.index + k := by
  intro k
  induction k with
  | zero => intro w; simp [Writer.zeros]
  | succ k ih =>
    intro w
    rw [Writer.zeros]
    obtain ⟨h1, h2⟩ := ih (w.lit false)
    rw [h1, h2, Writer.bits_lit, Writer.index_lit, List.append_assoc]
    refine ⟨?_, by omega⟩
    congr 1

theorem Writer.bits_Repeat (w : Writer) (n c : Nat) (hn : n ≠ 0) (hc : c ≠ 0) :
    (w.Repeat n c).bits = repeatLast n c w.bits ∧ (w.Repeat n c).index = w.index + n * c := by
  simp [Writer.Repeat, hn, hc, Writer.bits, expand_append]

/-- The method `ZeroUntil` appends zero bits up to the index. -/
theorem Writer.ZeroUntil_spec (w : Writer) (idx : Nat) (h : w.index ≤ idx) :
    ∃ w1, w.ZeroUntil idx = some w1 ∧ w1.index = idx ∧
      w1.bits = w.bits ++ List.replicate (idx - w.index) false := by
  unfold Writer.ZeroUntil
  rw [if_neg (by omega)]
  dsimp only
  by_cases h0 : idx - w.index = 0
  · rw [if_pos h0]
    exact ⟨w, rfl, by omega, by simp [h0]⟩
  · rw [if_neg h0]
    by_cases h1 : idx - w.index < 4 * 8
    · rw [if_pos h1]
      obtain ⟨e1, e2⟩ := Writer.bits_zeros (idx - w.index) w
      exact ⟨_, rfl, by omega, e1⟩
    · rw [if_neg h1]
      obtain ⟨e1, e2⟩ := Writer.bits_Repeat (w.lit false) 1 (idx - w.index - 1) (by omega)
        (by omega)
      refine ⟨_, rfl, ?_, ?_⟩
      · rw [e2, Writer.index_lit]; omega
      · rw [e1, Writer.bits_lit, repeatLast_one]
        congr 2
        omega

/-- The method `Ptr` appends zero bits up to the index and a one bit there. -/
theorem Writer.Ptr_spec (w : Writer) (idx : Nat) (h : w.index ≤ idx) :
    ∃ w1, w.Ptr idx = some w1 ∧ w1.index = idx + 1 ∧
      w1.bits = w.bits ++ List.replicate (idx - w.index) false ++ [true] := by
  obtain ⟨w1, e1, e2, e3⟩ := Writer.ZeroUntil_spec w idx h
  unfold Writer.Ptr
  rw [if_neg (by omega), e1]
  exact ⟨_, rfl, by rw [Writer.index_lit, e2], by rw [Writer.bits_lit, e3]⟩

theorem getD_append_replicate (xs : List Bool) (k i : Nat) :
    (xs ++ List.replicate k false).getD i false = xs.getD i false := by
  by_cases hi : i < xs.length
  · rw [List.getD_append _ _ _ _ hi]
  · rw [List.getD_append_right _ _ _ _ (by omega), List.getD_eq_default xs _ (by omega)]
    simp only [List.getD_eq_getElem?_getD, List.getElem?_replicate]
    split <;> rfl

theorem Writer.Extends_ZeroUntil (isPtr : Nat → Bool) (base : Nat) (w w1 : Writer) (idx : Nat)
    (h : Writer.Extends isPtr base w w1) (hi : w1.index ≤ idx)
    (hz : ∀ j, isPtr j = true → base + j < w1.index) :
    ∃ w2, w1.ZeroUntil idx = some w2 ∧ w2.index = idx ∧ Writer.Extends isPtr base w w2 := by
  obtain ⟨w2, e1, e2, e3⟩ := Writer.ZeroUntil_spec w1 idx hi
  obtain ⟨i1, i2, i3, i4⟩ := h
  refine ⟨w2, e1, e2, ?_, by omega, ?_, ?_⟩
  · unfold Writer.Inv at *
    change w2.index = w2.bits.length
    change w1.index = w1.bits.length at i1
    rw [e3, e2]
    simp
    omega
  · intro i hi
    rw [e3, getD_append_replicate]
    exact i3 i hi
  · intro i hi1 hi2
    rw [e3, getD_append_replicate]
    by_cases hlt : i < w1.index
    · exact i4 i hi1 hlt
    · change w1.index = w1.bits.length at i1
      rw [List.getD_eq_default _ _ (by omega)]
      symm
      by_cases hb : base ≤ i
      · have : isPtr (i - base) = false := by
          by_contra hc
          have := hz (i - base) (by simpa using hc)
          omega
        simp [this]
      · simp [hb]

theorem Writer.Extends_refl (isPtr : Nat → Bool) (base : Nat) (w : Writer) (h : w.Inv) :
    Writer.Extends isPtr base w w :=
  ⟨h, le_refl _, fun _ _ => rfl, fun i h1 h2 => absurd h2 (by omega)⟩

theorem Writer.Extends_congr (f g : Nat → Bool) (base : Nat) (w w1 : Writer)
    (hfg : ∀ j, f j = g j) (h : Writer.Extends f base w w1) : Writer.Extends g base w w1 := by
  have : f = g := funext hfg
  rw [← this]
  exact h

/-- One more element in front of `c` elements of `k` words each. -/
theorem Writer.Extends_tile (isPtr : Nat → Bool) (k c B : Nat) (w w1 w2 : Writer)
    (hk : 0 < k) (h1 : Writer.Extends isPtr B w w1) (hw1 : w1.index ≤ B + k)
    (hlow : ∀ j, isPtr j = true → B + j < w1.index)
    (h2 : Writer.Extends (fun j => decide (j < c * k) && isPtr (j % k)) (B + k) w1 w2) :
    Writer.Extends (fun j => decide (j < (c + 1) * k) && isPtr (j % k)) B w w2 := by
  obtain ⟨a1, a2, a3, a4⟩ := h1
  obtain ⟨b1, b2, b3, b4⟩ := h2
  have hck : (c + 1) * k = c * k + k := by ring
  refine ⟨b1, by omega, ?_, ?_⟩
  · intro i hi
    rw [b3 i (by omega), a3 i hi]
  · intro i hi1 hi2
    by_cases hlt : i < w1.index
    · rw [b3 i hlt, a4 i hi1 hlt]
      by_cases hb : B ≤ i
      · have e1 : (i - B) % k = i - B := Nat.mod_eq_of_lt (by omega)
        have e2 : i - B < (c + 1) * k := by rw [hck]; omega
        simp [hb, e1, e2]
      · simp [hb]
    · rw [b4 i (by omega) hi2]
      by_cases hb : B + k ≤ i
      · have e0 : i - B = (i - (B + k)) + k := by omega
        have e1 : (i - B) % k = (i - (B + k)) % k := by rw [e0, Nat.add_mod_right]
        have e2 : (i - B < (c + 1) * k) ↔ (i - (B + k) < c * k) := by rw [hck]; omega
        have hb2 : B ≤ i := by omega
        simp only [hb, hb2, e1, decide_True, Bool.true_and, decide_eq_decide.2 e2]
      · have e1 : isPtr ((i - B) % k) = false ∨ ¬ B ≤ i := by
          by_cases hb2 : B ≤ i
          · left
            rw [Nat.mod_eq_of_lt (by omega)]
            by_contra hc
            have := hlow (i - B) (by simpa using hc)
            omega
          · right; exact hb2
        rcases e1 with e1 | e1
        · simp [hb, e1]
        · simp [hb, e1]

theorem getD_of_extends (xs ys : List Bool) (h : xs <+: ys) (i : Nat) (hi : i < xs.length) :
    ys.getD i false = xs.getD i false := by
  obtain ⟨t, rfl⟩ := h
  exact List.getD_append _ _ _ _ hi

/-- A repetition of the last `k` words. -/
theorem Writer.Extends_Repeat (isPtr : Nat → Bool) (k c B : Nat) (w w2 : Writer)
    (hk : 0 < k) (hc : c ≠ 0) (h : Writer.Extends isPtr B w w2) (hidx : w2.index = B + k)
    (hwB : w.index ≤ B) :
    Writer.Extends (fun j => decide (j < (c + 1) * k) && isPtr (j % k)) B w (w2.Repeat k c) ∧
      (w2.Repeat k c).index = B + (c + 1) * k := by
  obtain ⟨a1, a2, a3, a4⟩ := h
  obtain ⟨e1, e2⟩ := Writer.bits_Repeat w2 k c (by omega) hc
  change w2.index = w2.bits.length at a1
  have hck : (c + 1) * k = k * c + k := by ring
  have hlen : (repeatLast k c w2.bits).length = w2.bits.length + k * c :=
    repeatLast_length k c _ (by omega)
  refine ⟨⟨?_, by omega, ?_, ?_⟩, by rw [e2, hidx, hck]; omega⟩
  · change (w2.Repeat k c).index = (w2.Repeat k c).bits.length
    rw [e1, e2, hlen, a1]
  · intro i hi
    rw [e1, getD_of_extends _ _ (repeatLast_extends k c _) i (by omega), a3 i hi]
  · intro i hi1 hi2
    rw [e1]
    rw [e2] at hi2
    by_cases hlt : i < w2.index
    · rw [getD_of_extends _ _ (repeatLast_extends k c _) i (by omega), a4 i hi1 hlt]
      by_cases hb : B ≤ i
      · have e1 : (i - B) % k = i - B := Nat.mod_eq_of_lt (by omega)
        have e2 : i - B < (c + 1) * k := by rw [hck]; omega
        simp [hb, e1, e2]
      · simp [hb]
    · have hq : i = w2.bits.length + (i - (B + k)) := by omega
      have hmod : (i - (B + k)) % k < k := Nat.mod_lt _ hk
      have e3 := repeatLast_getD k hk c w2.bits (by omega) (i - (B + k)) (by omega)
      rw [← hq] at e3
      rw [e3]
      have e4 : w2.bits.length - k + (i - (B + k)) % k = B + (i - (B + k)) % k := by omega
      rw [e4, a4 _ (by omega) (by omega)]
      have e0 : i - B = (i - (B + k)) + k := by omega
      have e5 : (i - B) % k = (i - (B + k)) % k := by rw [e0, Nat.add_mod_right]
      have e6 : i - B < (c + 1) * k := by rw [hck]; omega
      have hb2 : B ≤ i := by omega
      simp [hb2, e5, e6]

/-- The method `Ptr` at distance `d` from `base`, when word `d` is the only
pointer word. -/
theorem Writer.Extends_Ptr (isPtr : Nat → Bool) (base d : Nat) (w : Writer) (hInv : w.Inv)
    (h : w.index ≤ base + d) (hp : ∀ j, isPtr j = decide (j = d)) :
    ∃ w1, w.Ptr (base + d) = some w1 ∧ w1.index = base + d + 1 ∧
      Writer.Extends isPtr base w w1 := by
  obtain ⟨w1, e1, e2, e3⟩ := Writer.Ptr_spec w (base + d) h
  change w.index = w.bits.length at hInv
  refine ⟨w1, e1, e2, ?_, by omega, ?_, ?_⟩
  · change w1.index = w1.bits.length
    rw [e3, e2]
    simp
    omega
  · intro i hi
    rw [e3, List.append_assoc, List.getD_append _ _ _ _ (by omega)]
  · intro i hi1 hi2
    rw [e3, hp]
    by_cases hlt : i < base + d
    · rw [List.getD_append _ _ _ _ (by simp; omega), getD_append_replicate,
        List.getD_eq_default _ _ (by omega)]
      by_cases hb : base ≤ i
      · have : ¬ (i - base = d) := by omega
        simp [this]
      · simp [hb]
    · have hi : i = base + d := by omega
      subst hi
      rw [List.getD_append_right _ _ _ _ (by simp; omega)]
      simp only [List.length_append, List.length_replicate]
      have e0 : base + d - (w.bits.length + (base + d - w.index)) = 0 := by omega
      rw [e0]
      simp

theorem flattenArray_sizeOf : ∀ (u : Typ) (c : Nat), sizeOf (flattenArray c u).2 ≤ sizeOf u
  | .leaf _ _ _ _, c => by simp [flattenArray]
  | .struct _ _ _, c => by simp [flattenArray]
  | .array e n w a, c => by
    have := flattenArray_sizeOf e (c * n)
    simp only [flattenArray, Typ.array.sizeOf_spec]
    omega

/-- The loop that flattens an array of arrays keeps the total width, the pointer
data and the pointer words. -/
theorem flattenArray_spec (P : Nat) (hP : 0 < P) : ∀ (e : Typ) (n : Nat),
    e.Sized P = true → e.HasPointers = true → n ≠ 0 →
    (flattenArray n e).2.Sized P = true ∧ (flattenArray n e).2.HasPointers = true ∧
    (flattenArray n e).1 ≠ 0 ∧
    n * e.Width = (flattenArray n e).1 * (flattenArray n e).2.Width ∧
    (n - 1) * e.Width + PtrDataSize P e
      = ((flattenArray n e).1 - 1) * (flattenArray n e).2.Width
        + PtrDataSize P (flattenArray n e).2 ∧
    ∀ j, (decide (j < n * (e.Width / P)) && e.isPtrWord P (j % (e.Width / P)))
      = (decide (j < (flattenArray n e).1 * ((flattenArray n e).2.Width / P))
          && (flattenArray n e).2.isPtrWord P (j % ((flattenArray n e).2.Width / P)))
  | .leaf k w a nih, n, hs, hp, hn => by
    simpa [flattenArray] using ⟨hs, hp, hn⟩
  | .struct fs w a, n, hs, hp, hn => by
    simpa [flattenArray] using ⟨hs, hp, hn⟩
  | .array e m w a, n, hs, hp, hn => by
    obtain ⟨h1, h2, h3⟩ := Sized_array P e m w a hs
    obtain ⟨hm, he⟩ := (HasPointers_array e m w a).1 hp
    obtain ⟨i1, i2, i3, i4, i5, i6⟩ := flattenArray_spec P hP e (n * m) h1 he
      (Nat.mul_ne_zero hn hm)
    obtain ⟨-, dw⟩ := Sized_ptr P e h1 he
    obtain ⟨k, hk⟩ := dw
    have hkP : e.Width / P = k := by rw [hk]; exact Nat.mul_div_cancel_left k hP
    obtain ⟨-, p2, p3, -, -⟩ := PtrData_typ P hP e h1 he
    have hkpos : 0 < k := by
      rcases Nat.eq_zero_or_pos k with h0 | h0
      · subst h0; omega
      · exact h0
    have hwP : w / P = m * k := by
      rw [h2, hk, ← Nat.mul_assoc, Nat.mul_comm m P, Nat.mul_assoc]
      exact Nat.mul_div_cancel_left _ hP
    have hp' : (!(Typ.array e m w a).HasPointers) = false := by simp [hp]
    simp only [flattenArray, Typ.Width_array]
    refine ⟨i1, i2, i3, ?_, ?_, ?_⟩
    · rw [← i4, h2, Nat.mul_assoc]
    · rw [← i5]
      simp only [PtrDataSize, hp', Bool.false_eq_true, if_false]
      rw [h2]
      obtain ⟨n', rfl⟩ : ∃ n', n = n' + 1 := ⟨n - 1, by omega⟩
      obtain ⟨m', rfl⟩ : ∃ m', m = m' + 1 := ⟨m - 1, by omega⟩
      have : (n' + 1) * (m' + 1) - 1 = n' * (m' + 1) + m' := by
        have : (n' + 1) * (m' + 1) = n' * (m' + 1) + m' + 1 := by ring
        omega
      simp only [Nat.add_sub_cancel, this]
      ring
    · intro j
      rw [← i6 j]
      simp only [Typ.isPtrWord, hkP, hwP]
      have hmk : 0 < m * k := Nat.mul_pos (by omega) hkpos
      have e1 : j % (m * k) < m * k := Nat.mod_lt _ hmk
      have e2 : j % (m * k) % k = j % k := Nat.mod_mul_left_mod j m k
      simp only [hm, ne_eq, not_false_eq_true, decide_True, he, Bool.true_and, e1, e2,
        Nat.mul_assoc]

theorem emit_noptr (P : Nat) (t : Typ) (o : Nat) (w : Writer) (h : t.HasPointers = false) :
    GCProg.emit P t o w = some w := by
  rw [GCProg.emit.eq_def]
  simp [h]

/-- The loop over the elements of an array, one call of `emit` for each. -/
theorem emit_loop (P : Nat) (hP : 0 < P) (f : Nat → Writer → Option Writer)
    (isPtr : Nat → Bool) (W PD k : Nat) (hW : W = k * P) (hk : 0 < k)
    (hlt : ∀ j, isPtr j = true → (j + 1) * P ≤ PD)
    (H : EmitSpec P f isPtr PD W) :
    ∀ (c offset : Nat) (w : Writer), w.Inv → P ∣ offset → w.index * P ≤ offset →
      ∃ w1, forOffsets f c offset W w = some w1 ∧
        Writer.Extends (fun j => decide (j < c * k) && isPtr (j % k)) (offset / P) w w1 ∧
        (c ≠ 0 → offset + (c - 1) * W + PD ≤ w1.index * P) ∧
        w1.index * P ≤ offset + c * W := by
  intro c
  induction c with
  | zero =>
    intro offset w hInv hd hi
    exact ⟨w, rfl, Writer.Extends_refl _ _ w hInv, fun h => absurd rfl h, by omega⟩
  | succ c ih =>
    intro offset w hInv hd hi
    obtain ⟨B, rfl⟩ := hd
    obtain ⟨w1, e1, e2, e3, e4⟩ := H (P * B) w hInv (Dvd.intro _ rfl) hi
    have hd2 : P ∣ P * B + W := by
      rw [hW]
      exact Dvd.dvd.add (Dvd.intro _ rfl) (Dvd.intro_left _ rfl)
    obtain ⟨w2, f1, f2, f3, f4⟩ := ih (P * B + W) w1 e2.1 hd2 e4
    have hB : P * B / P = B := Nat.mul_div_cancel_left B hP
    have hBk : (P * B + W) / P = B + k := by
      rw [hW, Nat.mul_comm P B, ← Nat.add_mul]
      exact Nat.mul_div_cancel _ hP
    rw [hB] at e2 ⊢
    rw [hBk] at f2
    have hidx1 : w1.index ≤ B + k := by
      have : w1.index * P ≤ (B + k) * P := by rw [Nat.add_mul, ← hW, Nat.mul_comm B P]; exact e4
      exact Nat.le_of_mul_le_mul_right this hP
    have hlow : ∀ j, isPtr j = true → B + j < w1.index := by
      intro j hj
      have h1 := hlt j hj
      have : (B + j + 1) * P ≤ w1.index * P := by
        have : (B + j + 1) * P = P * B + (j + 1) * P := by ring
        omega
      exact Nat.le_of_mul_le_mul_right this hP
    have hmono : w1.index * P ≤ w2.index * P := Nat.mul_le_mul_right P f2.2.1
    have hcW : (c + 1) * W = c * W + W := by ring
    refine ⟨w2, ?_, Writer.Extends_tile isPtr k c B w w1 w2 hk e2 hidx1 hlow f2, ?_, ?_⟩
    · simp only [forOffsets, e1]
      exact f1
    · intro _
      simp only [Nat.add_sub_cancel]
      rcases Nat.eq_zero_or_pos c with h0 | h0
      · subst h0
        simp only [Nat.zero_mul, Nat.add_zero]
        omega
      · have := f3 (by omega)
        obtain ⟨c', rfl⟩ : ∃ c', c = c' + 1 := ⟨c - 1, by omega⟩
        simp only [Nat.add_sub_cancel] at this
        have : (c' + 1) * W = c' * W + W := by ring
        omega
    · rw [hcW]; omega

/-- The case `t.Width == Widthptr` of `GCProg.emit`. -/
theorem emit_width_ptr (P : Nat) (hP : 0 < P) (t : Typ) (hs : t.Sized P = true)
    (hp : t.HasPointers = true) (hW : t.Width = P) :
    EmitSpec P (fun o w => GCProg.emit P t o w) (t.isPtrWord P) (PtrDataSize P t) t.Width := by
  intro offset w hInv hd hi
  obtain ⟨p1, p2, p3, p4, j0, p5⟩ := PtrData_typ P hP t hs hp
  have hPD : PtrDataSize P t = P := by
    obtain ⟨c, hc⟩ := p1
    rw [hW] at p3
    rcases c with _ | _ | c
    · omega
    · omega
    · rw [hc] at p3
      have : P * (c + 1 + 1) = P * c + P + P := by ring
      omega
  have hz : ∀ j, t.isPtrWord P j = true → j = 0 := by
    intro j hj
    have := p4 j hj
    rw [hPD] at this
    rcases j with _ | j
    · rfl
    · have : (j + 1 + 1) * P = j * P + P + P := by ring
      omega
  have hisp : ∀ j, t.isPtrWord P j = decide (j = 0) := by
    intro j
    by_cases hj : t.isPtrWord P j = true
    · rw [hj, hz j hj]; rfl
    · rcases Nat.eq_zero_or_pos j with h0 | h0
      · subst h0
        rw [hz j0 p5] at p5
        exact absurd p5 hj
      · have : ¬ j = 0 := by omega
        simp only [this, decide_False]
        simpa using hj
  obtain ⟨B, rfl⟩ := hd
  have hB : P * B / P = B := Nat.mul_div_cancel_left B hP
  have hiB : w.index ≤ B := by
    rw [Nat.mul_comm P B] at hi
    exact Nat.le_of_mul_le_mul_right hi hP
  obtain ⟨w1, e1, e2, e3⟩ := Writer.Extends_Ptr (t.isPtrWord P) B 0 w hInv (by omega) hisp
  simp only [Nat.add_zero] at e1 e2
  refine ⟨w1, ?_, by rw [hB]; exact e3, ?_, ?_⟩
  · show GCProg.emit P t (P * B) w = some w1
    rw [GCProg.emit.eq_def]
    simp only [hp, Bool.not_true, Bool.false_eq_true, if_false, hW, if_true, hB]
    exact e1
  · rw [hPD, e2, Nat.add_mul, Nat.mul_comm B P]; omega
  · rw [hW, e2, Nat.add_mul, Nat.mul_comm B P]; omega

/-- The cases `TSTRING`, `TINTER` and `TSLICE` of `GCProg.emit`. -/
theorem emit_leaf (P : Nat) (hP : 0 < P) (k : Kind) (W a : Nat) (nih : Bool)
    (hs : (Typ.leaf k W a nih).Sized P = true)
    (hp : (Typ.leaf k W a nih).HasPointers = true) (hW : W ≠ P) :
    EmitSpec P (fun o w => GCProg.emit P (Typ.leaf k W a nih) o w)
      ((Typ.leaf k W a nih).isPtrWord P) (PtrDataSize P (Typ.leaf k W a nih)) W := by
  intro offset w hInv hd hi
  obtain ⟨-, -, h3⟩ := Sized_leaf P k W a nih hs
  obtain ⟨-, hw⟩ := h3 hp
  obtain ⟨B, rfl⟩ := hd
  have hB : P * B / P = B := Nat.mul_div_cancel_left B hP
  have hiB : w.index ≤ B := by
    rw [Nat.mul_comm P B] at hi
    exact Nat.le_of_mul_le_mul_right hi hP
  show ∃ w1, GCProg.emit P (Typ.leaf k W a nih) (P * B) w = some w1 ∧ _
  rw [GCProg.emit.eq_def]
  simp only [hp, Bool.not_true, Bool.false_eq_true, if_false, Typ.Width_leaf, if_neg hW, hB,
    PtrDataSize, Typ.isPtrWord, Bool.true_and]
  rcases hw with ⟨hk | hk, hw⟩ | ⟨hk, hw⟩ | ⟨-, hw⟩
  · subst hk
    dsimp only
    obtain ⟨w1, e1, e2, e3⟩ := Writer.Extends_Ptr (fun j => j == 1) B 1 w hInv (by omega)
      (fun j => by by_cases h : j = 1 <;> simp [h])
    refine ⟨w1, e1, e3, ?_, ?_⟩
    · rw [e2]
      have : (B + 1 + 1) * P = P * B + 2 * P := by ring
      omega
    · rw [e2, hw]
      have : (B + 1 + 1) * P = P * B + 2 * P := by ring
      omega
  · subst hk
    dsimp only
    obtain ⟨w1, e1, e2, e3⟩ := Writer.Extends_Ptr (fun j => j == 0) B 0 w hInv (by omega)
      (fun j => by by_cases h : j = 0 <;> simp [h])
    simp only [Nat.add_zero] at e1 e2
    refine ⟨w1, e1, e3, ?_, ?_⟩
    · rw [e2]
      have : (B + 1) * P = P * B + P := by ring
      omega
    · rw [e2, hw]
      have : (B + 1) * P = P * B + P := by ring
      omega
  · subst hk
    dsimp only
    obtain ⟨w1, e1, e2, e3⟩ := Writer.Extends_Ptr (fun j => j == 0) B 0 w hInv (by omega)
      (fun j => by by_cases h : j = 0 <;> simp [h])
    simp only [Nat.add_zero] at e1 e2
    refine ⟨w1, e1, e3, ?_, ?_⟩
    · rw [e2]
      have : (B + 1) * P = P * B + P := by ring
      omega
    · rw [e2, hw]
      have : (B + 1) * P = P * B + P := by ring
      omega
  · exact absurd hw hW

/-- The case `TSTRUCT` of `GCProg.emit`. -/
theorem emit_struct (P : Nat) (fs : FieldList) (W a : Nat)
    (hp : (Typ.struct fs W a).HasPointers = true) (hW : W ≠ P)
    (H : EmitFieldsSpec P fs 0 W) :
    EmitSpec P (fun o w => GCProg.emit P (Typ.struct fs W a) o w)
      ((Typ.struct fs W a).isPtrWord P) (PtrDataSize P (Typ.struct fs W a)) W := by
  intro offset w hInv hd hi
  obtain ⟨w1, e1, e2, e3, e4⟩ := H offset w hInv hd (by omega)
  refine ⟨w1, ?_, ?_, ?_, e3⟩
  · show GCProg.emit P (Typ.struct fs W a) offset w = some w1
    rw [GCProg.emit.eq_def]
    simp only [hp, Bool.not_true, Bool.false_eq_true, if_false, Typ.Width_struct, if_neg hW]
    exact e1
  · exact Writer.Extends_congr _ _ _ _ _ (fun j => by simp [Typ.isPtrWord]) e2
  · simp only [PtrDataSize, hp, Bool.not_true, Bool.false_eq_true, if_false]
    exact e4 ((HasPointers_struct fs W a).symm.trans hp) 0

theorem emit_fields_nil (P lo W : Nat) (h : lo ≤ W) : EmitFieldsSpec P .nil lo W := by
  intro offset w hInv hd hi
  refine ⟨w, ?_, Writer.Extends_refl _ _ w hInv, by omega, ?_⟩
  · rw [GCProg.emitFields.eq_def]
  · intro h
    simp [FieldList.HasPointers] at h

/-- The case `TARRAY` of `GCProg.emit`, given the contract for the flattened
element type. -/
theorem emit_array (P : Nat) (hP : 0 < P) (e : Typ) (n W a : Nat)
    (hs : (Typ.array e n W a).Sized P = true)
    (hp : (Typ.array e n W a).HasPointers = true) (hW : W ≠ P)
    (H : EmitSpec P (fun o w => GCProg.emit P (flattenArray n e).2 o w)
      ((flattenArray n e).2.isPtrWord P) (PtrDataSize P (flattenArray n e).2)
      (flattenArray n e).2.Width) :
    EmitSpec P (fun o w => GCProg.emit P (Typ.array e n W a) o w)
      ((Typ.array e n W a).isPtrWord P) (PtrDataSize P (Typ.array e n W a)) W := by
  intro offset w hInv hd hi
  obtain ⟨h1, h2, h3⟩ := Sized_array P e n W a hs
  obtain ⟨hn, he⟩ := (HasPointers_array e n W a).1 hp
  obtain ⟨f1, f2, f3, f4, f5, f6⟩ := flattenArray_spec P hP e n h1 he hn
  obtain ⟨-, dw⟩ := Sized_ptr P _ f1 f2
  obtain ⟨k, hk⟩ := dw
  obtain ⟨-, p2, p3, p4, -⟩ := PtrData_typ P hP _ f1 f2
  have hkP : (flattenArray n e).2.Width / P = k := by
    rw [hk]; exact Nat.mul_div_cancel_left k hP
  have hkW : (flattenArray n e).2.Width = k * P := by rw [hk, Nat.mul_comm]
  have hkpos : 0 < k := by
    rcases Nat.eq_zero_or_pos k with h0 | h0
    · subst h0; omega
    · exact h0
  have hcong : ∀ j, (decide (j < (flattenArray n e).1 * k)
      && (flattenArray n e).2.isPtrWord P (j % k)) = (Typ.array e n W a).isPtrWord P j := by
    intro j
    have := f6 j
    rw [hkP] at this
    rw [← this]
    simp only [Typ.isPtrWord, hn, ne_eq, not_false_eq_true, decide_True, he, Bool.true_and]
  have hPD : PtrDataSize P (Typ.array e n W a)
      = ((flattenArray n e).1 - 1) * (flattenArray n e).2.Width
        + PtrDataSize P (flattenArray n e).2 := by
    rw [← f5]
    simp only [PtrDataSize, hp, Bool.not_true, Bool.false_eq_true, if_false]
  have hWW : W = (flattenArray n e).1 * (flattenArray n e).2.Width := by rw [h2, f4]
  show ∃ w1, GCProg.emit P (Typ.array e n W a) offset w = some w1 ∧ _
  rw [GCProg.emit.eq_def]
  simp only [hp, Bool.not_true, Bool.false_eq_true, if_false, Typ.Width_array, if_neg hW,
    if_neg hn]
  by_cases hr : ShouldRepeat ((flattenArray n e).2.Width / P) (flattenArray n e).1 = true
  · simp only [hr, Bool.not_true, Bool.false_eq_true, if_false]
    have hc1 : 1 < (flattenArray n e).1 := by
      simp only [ShouldRepeat, Bool.and_eq_true, decide_eq_true_eq] at hr
      exact hr.1
    obtain ⟨w1, e1, e2, e3, e4⟩ := H offset w hInv hd hi
    obtain ⟨B, rfl⟩ := hd
    have hB : P * B / P = B := Nat.mul_div_cancel_left B hP
    have hBk : (P * B + (flattenArray n e).2.Width) / P = B + k := by
      rw [hkW, Nat.mul_comm P B, ← Nat.add_mul]
      exact Nat.mul_div_cancel _ hP
    have hiB : w.index ≤ B := by
      rw [Nat.mul_comm P B] at hi
      exact Nat.le_of_mul_le_mul_right hi hP
    rw [hB] at e2 ⊢
    have hidx1 : w1.index ≤ B + k := by
      have : w1.index * P ≤ (B + k) * P := by
        rw [Nat.add_mul, ← hkW, Nat.mul_comm B P]; exact e4
      exact Nat.le_of_mul_le_mul_right this hP
    have hlow : ∀ j, (flattenArray n e).2.isPtrWord P j = true → B + j < w1.index := by
      intro j hj
      have h1 := p4 j hj
      have : (B + j + 1) * P ≤ w1.index * P := by
        have : (B + j + 1) * P = P * B + (j + 1) * P := by ring
        omega
      exact Nat.le_of_mul_le_mul_right this hP
    obtain ⟨w2, g1, g2, g3⟩ := Writer.Extends_ZeroUntil _ B w w1 (B + k) e2 hidx1 hlow
    obtain ⟨r1, r2⟩ := Writer.Extends_Repeat _ k ((flattenArray n e).1 - 1) B w w2 hkpos
      (by omega) g3 g2 hiB
    have hcc : (flattenArray n e).1 - 1 + 1 = (flattenArray n e).1 := by omega
    rw [hcc] at r1 r2
    simp only [e1, hBk, g1, hkP]
    refine ⟨_, rfl, Writer.Extends_congr _ _ _ _ _ hcong r1, ?_, ?_⟩
    · rw [r2, hPD, Nat.add_mul, Nat.mul_comm B P, Nat.mul_assoc, ← hkW]
      obtain ⟨c', hc'⟩ : ∃ c', (flattenArray n e).1 = c' + 1 := ⟨_, hcc.symm⟩
      rw [hc', Nat.add_sub_cancel, Nat.succ_mul]
      omega
    · rw [r2, hWW, Nat.add_mul, Nat.mul_comm B P, Nat.mul_assoc, ← hkW]
  · have hr' : ShouldRepeat ((flattenArray n e).2.Width / P) (flattenArray n e).1 = false := by
      simpa using hr
    simp only [hr', Bool.not_false, if_true]
    obtain ⟨w1, e1, e2, e3, e4⟩ := emit_loop P hP _ _ _ _ k hkW hkpos p4 H
      (flattenArray n e).1 offset w hInv hd hi
    refine ⟨w1, e1, Writer.Extends_congr _ _ _ _ _ hcong e2, ?_, ?_⟩
    · rw [hPD]
      have := e3 f3
      omega
    · rw [hWW]; exact e4

/-- One more field in front of the fields of a struct. -/
theorem emit_fields_cons (P : Nat) (hP : 0 < P) (name : String) (o : Nat) (t : Typ)
    (rest : FieldList) (lo W a : Nat)
    (hs : (FieldList.cons name o t rest).Sized P lo W a = true)
    (Ht : t.HasPointers = true → EmitSpec P (fun o w => GCProg.emit P t o w) (t.isPtrWord P)
      (PtrDataSize P t) t.Width)
    (Hrest : EmitFieldsSpec P rest (o + t.Width) W) :
    EmitFieldsSpec P (FieldList.cons name o t rest) lo W := by
  intro offset w hInv hd hi
  obtain ⟨h1, h2, h3, h4, h5⟩ := Sized_cons P name o t rest lo W a hs
  have hunf : ∀ w1, (match GCProg.emit P t (offset + o) w with
      | none => none
      | some w1 => GCProg.emitFields P rest offset w1) = some w1 →
      GCProg.emitFields P (FieldList.cons name o t rest) offset w = some w1 := by
    intro w1 h
    rw [GCProg.emitFields.eq_def]
    exact h
  by_cases hp : t.HasPointers = true
  · obtain ⟨da, dw⟩ := Sized_ptr P t h1 hp
    have doff : P ∣ o := da.trans (Nat.dvd_of_mod_eq_zero h3)
    obtain ⟨-, p2, p3, p4, -⟩ := PtrData_typ P hP t h1 hp
    obtain ⟨w1, e1, e2, e3, e4⟩ := Ht hp (offset + o) w hInv (Dvd.dvd.add hd doff) (by omega)
    replace e1 : GCProg.emit P t (offset + o) w = some w1 := e1
    obtain ⟨w2, g1, g2, g3, g4⟩ := Hrest offset w1 e2.1 hd (by omega)
    obtain ⟨B, rfl⟩ := hd
    obtain ⟨O, rfl⟩ := doff
    have hB : P * B / P = B := Nat.mul_div_cancel_left B hP
    have hO : P * O / P = O := Nat.mul_div_cancel_left O hP
    have hBO : (P * B + P * O) / P = B + O := by
      rw [← Nat.mul_add]; exact Nat.mul_div_cancel_left _ hP
    rw [hB] at g2 ⊢
    rw [hBO] at e2
    obtain ⟨a1, a2, a3, a4⟩ := e2
    obtain ⟨b1, b2, b3, b4⟩ := g2
    have hmono : w1.index * P ≤ w2.index * P := Nat.mul_le_mul_right P b2
    refine ⟨w2, hunf w2 (by rw [e1]; exact g1), ⟨b1, by omega, ?_, ?_⟩, g3, ?_⟩
    · intro i hi
      rw [b3 i (by omega), a3 i hi]
    · intro i hi1 hi2
      simp only [FieldList.isPtrWord, hp, Bool.true_and, hO]
      by_cases hlt : i < w1.index
      · rw [b3 i hlt, a4 i hi1 hlt]
        have hrest : B ≤ i → rest.isPtrWord P (i - B) = false := by
          intro hBi
          by_contra hc
          have hc' : rest.isPtrWord P (i - B) = true := by simpa using hc
          have hrp : rest.HasPointers = true := by
            by_contra hn
            have := isPtrWord_noptr_fields P rest (by simpa using hn) (i - B)
            rw [this] at hc'
            cases hc'
          obtain ⟨-, -, -, q4, -⟩ := PtrData_fields P hP rest _ W a h5 hrp 0
          have q := (q4 _ hc').2
          have e5 : (i - B) * P = i * P - P * B := by rw [Nat.sub_mul, Nat.mul_comm B P]
          have e6 : (i + 1) * P ≤ w1.index * P := Nat.mul_le_mul_right P hlt
          have e7 : (i + 1) * P = i * P + P := by ring
          omega
        by_cases hBO2 : B + O ≤ i
        · have e8 : i - (B + O) = i - B - O := by omega
          have e9 : O ≤ i - B := by omega
          simp [hBO2, e8, e9, hrest (by omega), show B ≤ i by omega]
        · by_cases hBi : B ≤ i
          · have e9 : ¬ O ≤ i - B := by omega
            simp [hBO2, e9, hrest hBi]
          · simp [hBO2, hBi]
      · rw [b4 i (by omega) hi2]
        have ht : O ≤ i - B → t.isPtrWord P (i - B - O) = false := by
          intro hOi
          by_contra hc
          have hc' : t.isPtrWord P (i - B - O) = true := by simpa using hc
          have q := p4 _ hc'
          have e5 : (i - B - O) * P = i * P - P * B - P * O := by
            rw [Nat.sub_mul, Nat.sub_mul, Nat.mul_comm B P, Nat.mul_comm O P]
          have e6 : w1.index * P ≤ i * P := Nat.mul_le_mul_right P (by omega)
          have e7 : (i - B - O + 1) * P = (i - B - O) * P + P := by ring
          have e8 : P * B + P * O ≤ i * P := by omega
          omega
        by_cases hOi : O ≤ i - B
        · simp [hOi, ht hOi]
        · simp [hOi]
    · intro _ acc
      simp only [FieldList.PtrDataEnd, hp, if_true]
      by_cases hrp : rest.HasPointers = true
      · exact g4 hrp _
      · rw [PtrDataEnd_noptr P rest (by simpa using hrp)]
        omega
  · have hp' : t.HasPointers = false := by simpa using hp
    have e1 := emit_noptr P t (offset + o) w hp'
    obtain ⟨w2, g1, g2, g3, g4⟩ := Hrest offset w hInv hd (by omega)
    refine ⟨w2, hunf w2 (by rw [e1]; exact g1), ?_, g3, ?_⟩
    · refine Writer.Extends_congr _ _ _ _ _ (fun j => ?_) g2
      simp [FieldList.isPtrWord, hp']
    · intro hh acc
      rw [HasPointers_cons, hp', Bool.false_or] at hh
      simp only [FieldList.PtrDataEnd, hp', Bool.false_eq_true, if_false]
      exact g4 hh acc

/-- The contract of `GCProg.emit` and of its loop over struct fields, for every
regularly laid out type. -/
theorem emit_spec_aux (P : Nat) (hP : 0 < P) : ∀ (N : Nat),
    (∀ (t : Typ), sizeOf t ≤ N → t.Sized P = true → t.HasPointers = true →
      EmitSpec P (fun o w => GCProg.emit P t o w) (t.isPtrWord P) (PtrDataSize P t) t.Width) ∧
    (∀ (fs : FieldList) (lo W a : Nat), sizeOf fs ≤ N → fs.Sized P lo W a = true →
      EmitFieldsSpec P fs lo W) := by
  intro N
  induction N with
  | zero =>
    constructor
    · intro t h
      cases t <;> simp at h
    · intro fs lo W a h
      cases fs <;> simp at h
  | succ N ih =>
    constructor
    · intro t hsz hs hp
      by_cases hW : t.Width = P
      · exact emit_width_ptr P hP t hs hp hW
      · cases t with
        | leaf k W a nih => exact emit_leaf P hP k W a nih hs hp hW
        | array e n W a =>
          obtain ⟨h1, -, -⟩ := Sized_array P e n W a hs
          obtain ⟨hn, he⟩ := (HasPointers_array e n W a).1 hp
          obtain ⟨f1, f2, -⟩ := flattenArray_spec P hP e n h1 he hn
          have hsz2 := flattenArray_sizeOf e n
          simp only [Typ.array.sizeOf_spec] at hsz
          exact emit_array P hP e n W a hs hp hW (ih.1 _ (by omega) f1 f2)
        | struct fs W a =>
          obtain ⟨-, -, h3⟩ := Sized_struct P fs W a hs
          simp only [Typ.struct.sizeOf_spec] at hsz
          exact emit_struct P fs W a hp hW (ih.2 fs 0 W a (by omega) h3)
    · intro fs lo W a hsz hs
      cases fs with
      | nil => exact emit_fields_nil P lo W (by simpa [FieldList.Sized] using hs)
      | cons name o t rest =>
        obtain ⟨h1, -, -, -, h5⟩ := Sized_cons P name o t rest lo W a hs
        simp only [FieldList.cons.sizeOf_spec] at hsz
        exact emit_fields_cons P hP name o t rest lo W a hs
          (fun hp => ih.1 t (by omega) h1 hp) (ih.2 rest _ W a (by omega) h5)

/-- What `GCProg.emit(t, 0)` writes into a new program: the words up to the writer's
index are the pointer words of `t`, and the index is not before the end of the
pointer data. -/
theorem emit_spec (P : Nat) (hP : 0 < P) (t : Typ) (hs : t.Sized P = true)
    (hp : t.HasPointers = true) :
    ∃ w, GCProg.emit P t 0 Writer.init = some w ∧ w.index = w.bits.length ∧
      PtrDataSize P t / P ≤ w.index ∧
      ∀ i, i < w.index → w.bits.getD i false = t.isPtrWord P i := by
  obtain ⟨w, e1, e2, e3, e4⟩ := (emit_spec_aux P hP (sizeOf t)).1 t (le_refl _) hs hp 0
    Writer.init rfl (dvd_zero P) (by simp [Writer.init])
  obtain ⟨a1, a2, a3, a4⟩ := e2
  refine ⟨w, e1, a1, ?_, ?_⟩
  · rw [Nat.zero_add] at e3
    exact Nat.div_le_of_le_mul (by rw [Nat.mul_comm]; exact e3)
  · intro i hi
    have := a4 i (by simp [Writer.init]) hi
    simpa using this

theorem and_mask (a off : Nat) (ha : validAlign a = true) : off &&& (a - 1) = off % a := by
  rcases validAlign_cases a ha with h | h | h | h <;> subst h
  · simp [Nat.mod_one]
  · exact Nat.and_pow_two_sub_one_eq_mod off 1
  · exact Nat.and_pow_two_sub_one_eq_mod off 2
  · exact Nat.and_pow_two_sub_one_eq_mod off 3

theorem align_check (a off : Nat) (ha : validAlign a = true) (hd : a ∣ off) :
    ¬ (a > 0 ∧ off &&& (a - 1) ≠ 0) := by
  rw [and_mask a off ha, Nat.mod_eq_zero_of_dvd hd]
  simp

theorem toInt32_small (x : Nat) (h : x < 2 ^ 31) : toInt32 (x : Int) = (x : Int) := by
  unfold toInt32
  omega

theorem BitVec.Set_spec (bv : BitVec) (x : Nat) (hx : x < bv.N) (hN : bv.N < 2 ^ 31) :
    ∃ bv1, bv.Set (toInt32 (x : Int)) = some bv1 ∧ bv1.N = bv.N ∧
      ∀ i, bv1.B.getD i false = (bv.B.getD i false || decide (i = x)) := by
  rw [toInt32_small x (by omega)]
  unfold BitVec.Set
  rw [if_neg (by omega)]
  refine ⟨_, rfl, by simp [BitVec.N], ?_⟩
  intro i
  simp only [Int.toNat_ofNat, List.getD_eq_getElem?_getD, List.getElem?_set]
  unfold BitVec.N at hx
  by_cases hi : i = x
  · subst hi
    simp [hx]
  · have : ¬ x = i := fun h => hi h.symm
    simp [hi, this]

theorem BitVec.Get_spec (bv : BitVec) (x : Nat) (hx : x < bv.N) (hN : bv.N < 2 ^ 31) :
    bv.Get (toInt32 (x : Int)) = some (bv.B.getD x false) := by
  rw [toInt32_small x (by omega)]
  unfold BitVec.Get
  rw [if_neg (by omega)]
  simp

/-- The loop over the elements of an array in `onebitwalktype1`. -/
theorem walk_loop (P : Nat) (hP : 0 < P) (f : Nat → BitVec → Option BitVec)
    (isPtr : Nat → Bool) (A W k : Nat) (hW : W = k * P) (hk : 0 < k) (hA : A ∣ W)
    (hlt : ∀ j, isPtr j = true → j < k) (H : WalkSpec P f isPtr A) :
    ∀ (c off : Nat) (bv : BitVec), A ∣ off → P ∣ off → bv.N < 2 ^ 31 →
      (∀ j, j < c * k → isPtr (j % k) = true → off / P + j < bv.N) →
      ∃ bv1, forOffsets f c off W bv = some bv1 ∧ bv1.N = bv.N ∧
        ∀ i, bv1.B.getD i false = (bv.B.getD i false ||
          (decide (off / P ≤ i) && (decide (i - off / P < c * k) && isPtr ((i - off / P) % k)))) := by
  intro c
  induction c with
  | zero =>
    intro off bv _ _ _ _
    exact ⟨bv, rfl, rfl, fun i => by simp⟩
  | succ c ih =>
    intro off bv hAo hd hN hb
    obtain ⟨B, rfl⟩ := hd
    have hB : P * B / P = B := Nat.mul_div_cancel_left B hP
    have hBk : (P * B + W) / P = B + k := by
      rw [hW, Nat.mul_comm P B, ← Nat.add_mul]
      exact Nat.mul_div_cancel _ hP
    have hck : (c + 1) * k = c * k + k := by ring
    rw [hB] at hb ⊢
    obtain ⟨bv1, e1, e2, e3⟩ := H (P * B) bv hAo hN (by
      intro j hj
      rw [hB]
      have := hlt j hj
      exact hb j (by rw [hck]; omega) (by rw [Nat.mod_eq_of_lt this]; exact hj))
    rw [hB] at e3
    have hd2 : P ∣ P * B + W := by
      rw [hW]
      exact Dvd.dvd.add (Dvd.intro _ rfl) (Dvd.intro_left _ rfl)
    obtain ⟨bv2, g1, g2, g3⟩ := ih (P * B + W) bv1 (Dvd.dvd.add hAo hA) hd2 (by omega) (by
      intro j hj hjp
      rw [hBk, e2]
      have := hb (j + k) (by rw [hck]; omega) (by rw [Nat.add_mod_right]; exact hjp)
      omega)
    rw [hBk] at g3
    refine ⟨bv2, ?_, by omega, ?_⟩
    · simp only [forOffsets, e1]
      exact g1
    · intro i
      rw [g3 i, e3 i]
      by_cases hb1 : B + k ≤ i
      · have e0 : i - B = (i - (B + k)) + k := by omega
        have e5 : (i - B) % k = (i - (B + k)) % k := by rw [e0, Nat.add_mod_right]
        have e6 : (i - B < (c + 1) * k) ↔ (i - (B + k) < c * k) := by rw [hck]; omega
        have hb2 : B ≤ i := by omega
        have e7 : isPtr (i - B) = false := by
          by_contra hc
          have := hlt (i - B) (by simpa using hc)
          omega
        simp only [hb1, hb2, e5, e7, decide_True, Bool.true_and, decide_eq_decide.2 e6,
          Bool.or_false]
      · by_cases hb2 : B ≤ i
        · have e5 : (i - B) % k = i - B := Nat.mod_eq_of_lt (by omega)
          have e6 : i - B < (c + 1) * k := by rw [hck]; omega
          simp [hb1, hb2, e5, e6]
        · simp [hb1, hb2]

theorem ptr_bit (B d i : Nat) : decide (i = B + d) = (decide (B ≤ i) && (i - B == d)) := by
  by_cases h : i = B + d
  · subst h
    simp
  · by_cases hb : B ≤ i
    · have : ¬ (i - B = d) := by omega
      simp [h, hb, this]
    · simp [h, hb]

theorem cast_div_add_one (off P : Nat) :
    ((off : Int) / (P : Int) + 1) = (((off / P + 1 : Nat)) : Int) := by
  push_cast
  rfl

theorem cast_div (off P : Nat) : ((off : Int) / (P : Int)) = (((off / P : Nat)) : Int) := by
  push_cast
  rfl

mutual
/-- The contract of `onebitwalktype1` for every regularly laid out type. -/
theorem walk_typ (P : Nat) : ∀ (t : Typ), t.Sized P = true →
    WalkSpec P (fun o b => onebitwalktype1 P t o b) (t.isPtrWord P) t.Align
  | .leaf k W a nih, hs => by
    intro off bv hA hN hb
    obtain ⟨ha, -, h3⟩ := Sized_leaf P k W a nih hs
    rw [Typ.Align_leaf] at hA
    show ∃ bv1, onebitwalktype1 P (Typ.leaf k W a nih) off bv = some bv1 ∧ _
    simp only [onebitwalktype1]
    rw [if_neg (align_check a off ha hA)]
    by_cases hp : (Typ.leaf k W a nih).HasPointers = true
    · obtain ⟨haP, -⟩ := h3 hp
      subst haP
      have hchk : ¬ (off &&& (a - 1) ≠ 0) := by
        rw [and_mask a off ha, Nat.mod_eq_zero_of_dvd hA]
        simp
      simp only [hp, Bool.not_true, Bool.false_eq_true, if_false, Typ.isPtrWord, Bool.true_and,
        if_neg hchk] at hb ⊢
      cases k
      all_goals first
        | (exfalso; simp [Typ.HasPointers] at hp; done)
        | (dsimp only at hb ⊢
           have hx := hb 0 (by simp)
           obtain ⟨bv1, e1, e2, e3⟩ := BitVec.Set_spec bv (off / a) (by omega) hN
           refine ⟨bv1, ?_, e2, ?_⟩
           · rw [← e1, cast_div]
           · intro i
             rw [e3 i]
             have := ptr_bit (off / a) 0 i
             rw [Nat.add_zero] at this
             rw [this])
        | (dsimp only at hb ⊢
           have hx := hb 1 (by simp)
           obtain ⟨bv1, e1, e2, e3⟩ := BitVec.Set_spec bv (off / a + 1) (by omega) hN
           refine ⟨bv1, ?_, e2, ?_⟩
           · rw [← e1, cast_div_add_one]
           · intro i
             rw [e3 i, ptr_bit])
    · have hp' : (Typ.leaf k W a nih).HasPointers = false := by simpa using hp
      simp only [hp', Bool.not_false, if_true]
      refine ⟨bv, rfl, rfl, fun i => ?_⟩
      rw [isPtrWord_noptr P _ hp']
      simp
  | .array e n W a, hs => by
    intro off bv hA hN hb
    obtain ⟨h1, h2, h3⟩ := Sized_array P e n W a hs
    obtain ⟨ha, -⟩ := Sized_align P _ hs
    rw [Typ.Align_array] at hA ha
    show ∃ bv1, onebitwalktype1 P (Typ.array e n W a) off bv = some bv1 ∧ _
    simp only [onebitwalktype1]
    rw [if_neg (align_check a off ha hA)]
    by_cases hp : (Typ.array e n W a).HasPointers = true
    · obtain ⟨hn, he⟩ := (HasPointers_array e n W a).1 hp
      obtain ⟨da, dw⟩ := Sized_ptr P e h1 he
      have hP : 0 < P := by
        rcases Nat.eq_zero_or_pos P with h0 | h0
        · subst h0
          have := Nat.eq_zero_of_zero_dvd da
          rw [← h3] at this
          subst this
          simp [validAlign] at ha
        · exact h0
      obtain ⟨-, p2, p3, p4, -⟩ := PtrData_typ P hP e h1 he
      obtain ⟨-, hAW⟩ := Sized_align P e h1
      obtain ⟨k, hk⟩ := dw
      have hkP : e.Width / P = k := by rw [hk]; exact Nat.mul_div_cancel_left k hP
      have hkW : e.Width = k * P := by rw [hk, Nat.mul_comm]
      have hkpos : 0 < k := by
        rcases Nat.eq_zero_or_pos k with h0 | h0
        · subst h0; omega
        · exact h0
      have hlt : ∀ j, e.isPtrWord P j = true → j < k := by
        intro j hj
        have := p4 j hj
        have : (j + 1) * P ≤ k * P := by omega
        exact Nat.le_of_mul_le_mul_right this hP
      have hw0 : ¬ e.Width = 0 := by omega
      simp only [hp, Bool.not_true, Bool.false_eq_true, if_false, if_neg hw0]
      subst h3
      obtain ⟨bv1, e1, e2, e3⟩ := walk_loop P hP _ _ e.Align e.Width k hkW hkpos
        (Nat.dvd_of_mod_eq_zero hAW) hlt (walk_typ P e h1) n off bv hA (da.trans hA) hN (by
          intro j hj hjp
          apply hb
          simp only [Typ.isPtrWord, hkP, hn, ne_eq, not_false_eq_true, decide_True, he, hj,
            hjp, Bool.and_self])
      refine ⟨bv1, e1, e2, fun i => ?_⟩
      rw [e3 i]
      simp only [Typ.isPtrWord, hkP, hn, ne_eq, not_false_eq_true, decide_True, he,
        Bool.true_and]
    · have hp' : (Typ.array e n W a).HasPointers = false := by simpa using hp
      simp only [hp', Bool.not_false, if_true]
      refine ⟨bv, rfl, rfl, fun i => ?_⟩
      rw [isPtrWord_noptr P _ hp']
      simp
  | .struct fs W a, hs => by
    intro off bv hA hN hb
    obtain ⟨ha, -, h3⟩ := Sized_struct P fs W a hs
    rw [Typ.Align_struct] at hA
    show ∃ bv1, onebitwalktype1 P (Typ.struct fs W a) off bv = some bv1 ∧ _
    simp only [onebitwalktype1]
    rw [if_neg (align_check a off ha hA)]
    by_cases hp : (Typ.struct fs W a).HasPointers = true
    · obtain ⟨da, -⟩ := Sized_ptr P _ hs hp
      rw [Typ.Align_struct] at da
      simp only [hp, Bool.not_true, Bool.false_eq_true, if_false]
      obtain ⟨bv1, e1, e2, e3⟩ := walk_fields P fs 0 W a h3 off bv hA (da.trans hA) hN (by
        intro j hj
        exact hb j (by simpa [Typ.isPtrWord] using hj))
      refine ⟨bv1, e1, e2, fun i => ?_⟩
      rw [e3 i]
      simp only [Typ.isPtrWord]
    · have hp' : (Typ.struct fs W a).HasPointers = false := by simpa using hp
      simp only [hp', Bool.not_false, if_true]
      refine ⟨bv, rfl, rfl, fun i => ?_⟩
      rw [isPtrWord_noptr P _ hp']
      simp
/-- The contract of the loop over struct fields in `onebitwalktype1`. -/
theorem walk_fields (P : Nat) : ∀ (fs : FieldList) (lo W a : Nat),
    fs.Sized P lo W a = true → ∀ (off : Nat) (bv : BitVec), a ∣ off → P ∣ off →
    bv.N < 2 ^ 31 → (∀ j, fs.isPtrWord P j = true → off / P + j < bv.N) →
    ∃ bv1, walkFields P fs off bv = some bv1 ∧ bv1.N = bv.N ∧
      ∀ i, bv1.B.getD i false
        = (bv.B.getD i false || (decide (off / P ≤ i) && fs.isPtrWord P (i - off / P)))
  | .nil, lo, W, a, hs => by
    intro off bv _ _ _ _
    exact ⟨bv, by simp [walkFields], rfl, fun i => by simp [FieldList.isPtrWord]⟩
  | .cons name o t rest, lo, W, a, hs => by
    intro off bv hA hd hN hb
    obtain ⟨h1, h2, h3, h4, h5⟩ := Sized_cons P name o t rest lo W a hs
    have hAt : t.Align ∣ off + o :=
      Dvd.dvd.add ((Nat.dvd_of_mod_eq_zero h4).trans hA) (Nat.dvd_of_mod_eq_zero h3)
    by_cases hp : t.HasPointers = true
    · obtain ⟨da, -⟩ := Sized_ptr P t h1 hp
      have doff : P ∣ o := da.trans (Nat.dvd_of_mod_eq_zero h3)
      obtain ⟨va, -⟩ := Sized_align P t h1
      have hP : 0 < P := by
        rcases Nat.eq_zero_or_pos P with h0 | h0
        · subst h0
          have := Nat.eq_zero_of_zero_dvd da
          rw [this] at va
          simp [validAlign] at va
        · exact h0
      obtain ⟨B, rfl⟩ := hd
      obtain ⟨O, rfl⟩ := doff
      have hB : P * B / P = B := Nat.mul_div_cancel_left B hP
      have hO : P * O / P = O := Nat.mul_div_cancel_left O hP
      have hBO : (P * B + P * O) / P = B + O := by
        rw [← Nat.mul_add]; exact Nat.mul_div_cancel_left _ hP
      rw [hB] at hb ⊢
      obtain ⟨bv1, e1, e2, e3⟩ := walk_typ P t h1 (P * B + P * O) bv hAt hN (by
        intro j hj
        rw [hBO]
        have := hb (O + j) (by simp [FieldList.isPtrWord, hp, hO, hj])
        omega)
      replace e1 : onebitwalktype1 P t (P * B + P * O) bv = some bv1 := e1
      rw [hBO] at e3
      obtain ⟨bv2, g1, g2, g3⟩ := walk_fields P rest _ W a h5 (P * B) bv1 hA
        (Dvd.intro _ rfl) (by omega) (by
          intro j hj
          rw [hB, e2]
          exact hb j (by simp [FieldList.isPtrWord, hj]))
      rw [hB] at g3
      refine ⟨bv2, by simp only [walkFields, e1]; exact g1, by omega, fun i => ?_⟩
      rw [g3 i, e3 i]
      simp only [FieldList.isPtrWord, hp, Bool.true_and, hO]
      by_cases hBi : B ≤ i
      · by_cases hOi : O ≤ i - B
        · have e8 : i - (B + O) = i - B - O := by omega
          have e9 : B + O ≤ i := by omega
          simp only [hBi, hOi, e8, e9, decide_True, Bool.true_and, Bool.or_assoc]
        · have e9 : ¬ B + O ≤ i := by omega
          simp [hBi, hOi, e9]
      · have e9 : ¬ B + O ≤ i := by omega
        simp [hBi, e9]
    · have hp' : t.HasPointers = false := by simpa using hp
      obtain ⟨bv1, e1, e2, e3⟩ := walk_typ P t h1 (off + o) bv hAt hN (by
        intro j hj
        rw [isPtrWord_noptr P t hp' j] at hj
        cases hj)
      replace e1 : onebitwalktype1 P t (off + o) bv = some bv1 := e1
      obtain ⟨bv2, g1, g2, g3⟩ := walk_fields P rest _ W a h5 off bv1 hA hd (by omega) (by
        intro j hj
        rw [e2]
        exact hb j (by simp [FieldList.isPtrWord, hj]))
      refine ⟨bv2, by simp only [walkFields, e1]; exact g1, by omega, fun i => ?_⟩
      rw [g3 i, e3 i]
      simp [FieldList.isPtrWord, hp', isPtrWord_noptr P t hp']
end

theorem maskBit_set (pm : List Nat) (n q : Nat) (h : n / 8 < pm.length) :
    maskBit (pm.set (n / 8) (pm.getD (n / 8) 0 ||| 1 <<< (n % 8))) q
      = (maskBit pm q || decide (q = n)) := by
  unfold maskBit
  simp only [List.getD_eq_getElem?_getD, List.getElem?_set]
  by_cases h8 : n / 8 = q / 8
  · rw [if_pos h8, if_pos h]
    simp only [Option.getD_some, Nat.testBit_or, Nat.one_shiftLeft, Nat.testBit_two_pow, h8]
    congr 1
    have : (n % 8 = q % 8) ↔ (q = n) := by omega
    exact decide_eq_decide.2 this
  · rw [if_neg h8]
    have : ¬ q = n := by
      intro hq
      subst hq
      exact h8 rfl
    simp [this]

/-- The loop of `fillptrmask` copies the first `n` bits of the vector into a zero
mask that is long enough. -/
theorem fillLoop_spec (vec : BitVec) (hN : vec.N < 2 ^ 31) : ∀ (n : Nat) (pm : List Nat),
    n ≤ vec.N → n ≤ 8 * pm.length → (∀ q, maskBit pm q = false) →
    ∃ pm1, fillLoop vec n pm = some pm1 ∧ pm1.length = pm.length ∧
      ∀ q, maskBit pm1 q = (decide (q < n) && vec.B.getD q false) := by
  intro n
  induction n with
  | zero =>
    intro pm _ _ hz
    exact ⟨pm, rfl, rfl, fun q => by simp [hz q]⟩
  | succ n ih =>
    intro pm h1 h2 hz
    obtain ⟨pm1, e1, e2, e3⟩ := ih pm (by omega) (by omega) hz
    have hget := BitVec.Get_spec vec n (by omega) hN
    simp only [fillLoop, e1, hget, Option.some_bind]
    cases hv : vec.B.getD n false with
    | false =>
      refine ⟨pm1, by simp, e2, fun q => ?_⟩
      rw [e3 q]
      by_cases hq : q = n
      · subst hq
        rw [hv]
        simp
      · have : (q < n + 1) ↔ (q < n) := by omega
        rw [decide_eq_decide.2 this]
    | true =>
      have hlen : n / 8 < pm1.length := by omega
      simp only [if_pos hlen, if_true]
      refine ⟨_, rfl, by simp [e2], fun q => ?_⟩
      rw [maskBit_set pm1 n q hlen, e3 q]
      by_cases hq : q = n
      · subst hq
        rw [hv]
        simp
      · have hd : decide (q < n + 1) = decide (q < n) := decide_eq_decide.2 (by omega)
        rw [hd]
        simp [hq]

theorem maskBit_zero (n q : Nat) :
    maskBit ((List.replicate n 0).map (fun _ => 0)) q = false := by
  unfold maskBit
  simp only [List.getD_eq_getElem?_getD, List.map_replicate, List.getElem?_replicate]
  split <;> simp

theorem Sized_ptr_pos (P : Nat) (t : Typ) (hs : t.Sized P = true) (hp : t.HasPointers = true) :
    0 < P := by
  obtain ⟨da, -⟩ := Sized_ptr P t hs hp
  obtain ⟨va, -⟩ := Sized_align P t hs
  rcases Nat.eq_zero_or_pos P with h0 | h0
  · subst h0
    have := Nat.eq_zero_of_zero_dvd da
    rw [this] at va
    simp [validAlign] at va
  · exact h0

/-- The pointer mask that `fillptrmask` computes: bit `i` says whether word `i` of
the type holds a pointer, for the words of the pointer data. -/
theorem dgcptrmask_spec (P : Nat) (t : Typ) (hs : t.Sized P = true)
    (hp : t.HasPointers = true) (hb : PtrDataSize P t / P ≤ 2 ^ 31 - 8) :
    ∃ mask, dgcptrmaskBytes P t = some mask ∧
      mask.length = (PtrDataSize P t / P + 7) / 8 ∧
      ∀ i, maskBit mask i = (decide (i < PtrDataSize P t / P) && t.isPtrWord P i) := by
  have hP := Sized_ptr_pos P t hs hp
  obtain ⟨p1, p2, p3, p4, -⟩ := PtrData_typ P hP t hs hp
  have hlen : (PtrDataSize P t / P + 7) / 8 < 2 ^ 28 := by omega
  have hnew : BitVec.New (toInt32 (8 * toInt32 (((PtrDataSize P t / P + 7) / 8 : Nat) : Int)))
      = some ⟨List.replicate (8 * ((PtrDataSize P t / P + 7) / 8)) false⟩ := by
    rw [toInt32_small _ (by omega)]
    have : (8 : Int) * (((PtrDataSize P t / P + 7) / 8 : Nat) : Int)
        = ((8 * ((PtrDataSize P t / P + 7) / 8) : Nat) : Int) := by push_cast; rfl
    rw [this, toInt32_small _ (by omega)]
    unfold BitVec.New
    rw [if_neg (by omega)]
    simp only [Int.toNat_ofNat]
  have hN0 : (BitVec.mk (List.replicate (8 * ((PtrDataSize P t / P + 7) / 8)) false)).N
      = 8 * ((PtrDataSize P t / P + 7) / 8) := by simp [BitVec.N]
  obtain ⟨vec, e1, e2, e3⟩ := walk_typ P t hs 0
    ⟨List.replicate (8 * ((PtrDataSize P t / P + 7) / 8)) false⟩ (dvd_zero _)
    (by rw [hN0]; omega) (by
      intro j hj
      rw [hN0, Nat.zero_div, Nat.zero_add]
      have h1 := p4 j hj
      have h2 : j + 1 ≤ PtrDataSize P t / P := (Nat.le_div_iff_mul_le hP).2 h1
      omega)
  replace e1 : onebitwalktype1 P t 0
    ⟨List.replicate (8 * ((PtrDataSize P t / P + 7) / 8)) false⟩ = some vec := e1
  rw [hN0] at e2
  obtain ⟨mask, f1, f2, f3⟩ := fillLoop_spec vec (by omega) (PtrDataSize P t / P)
    ((List.replicate ((PtrDataSize P t / P + 7) / 8) 0).map (fun _ => 0)) (by omega)
    (by simp; omega) (maskBit_zero _)
  refine ⟨mask, ?_, by simpa using f2, fun i => ?_⟩
  · unfold dgcptrmaskBytes fillptrmask
    simp only [hp, Bool.not_true, Bool.false_eq_true, if_false, List.length_map,
      List.length_replicate, hnew, e1, Option.some_bind]
    exact f1
  · have h0 : (List.replicate (8 * ((PtrDataSize P t / P + 7) / 8)) false).getD i false
        = false := by
      simp only [List.getD_eq_getElem?_getD, List.getElem?_replicate]
      split <;> simp
    rw [f3 i, e3 i, h0]
    simp only [Nat.zero_div, Nat.zero_le, decide_True, Nat.sub_zero, Bool.true_and,
      Bool.false_or]

/-- C7 (amended): for every regularly laid out type `t` that contains pointers and
whose pointer data is at most `2^31 - 8` words long, `GCProg.emit(t, 0)` writes a
program into a new writer and `fillptrmask` computes a mask of
`(nptr + 7) / 8` bytes, where `nptr = PtrDataSize(t) / PtrSize`; the expansion of
the program is at least `nptr` bits long, and over the first `nptr` words bit `i`
of the expansion is bit `i` of the mask, which says whether word `i` of `t` holds
a pointer. -/
theorem gcprog_matches_ptrmask (P : Nat) (t : Typ) (hs : t.Sized P = true)
    (hp : t.HasPointers = true) (hb : PtrDataSize P t / P ≤ 2 ^ 31 - 8) :
    ∃ w mask, GCProg.emit P t 0 Writer.init = some w ∧ dgcptrmaskBytes P t = some mask ∧
      mask.length = (PtrDataSize P t / P + 7) / 8 ∧
      PtrDataSize P t / P ≤ (expand w.prog).length ∧
      ∀ i, i < PtrDataSize P t / P →
        (expand w.prog).getD i false = maskBit mask i ∧ maskBit mask i = t.isPtrWord P i := by
  have hP := Sized_ptr_pos P t hs hp
  obtain ⟨w, e1, e2, e3, e4⟩ := emit_spec P hP t hs hp
  obtain ⟨mask, f1, f2, f3⟩ := dgcptrmask_spec P t hs hp hb
  refine ⟨w, mask, e1, f1, f2, ?_, fun i hi => ?_⟩
  · have : w.bits.length = (expand w.prog).length := rfl
    omega
  · have h1 := e4 i (by omega)
    have h2 := f3 i
    simp only [hi, decide_True, Bool.true_and] at h2
    exact ⟨by rw [h2]; exact h1, h2⟩

theorem gcprog_matches_ptrmask_witness :
    ptrArray40.Sized 8 = true ∧ ptrArray40.HasPointers = true ∧
    PtrDataSize 8 ptrArray40 / 8 ≤ 2 ^ 31 - 8 ∧
    ∃ w mask, GCProg.emit 8 ptrArray40 0 Writer.init = some w ∧
      dgcptrmaskBytes 8 ptrArray40 = some mask ∧
      mask.length = (PtrDataSize 8 ptrArray40 / 8 + 7) / 8 ∧
      PtrDataSize 8 ptrArray40 / 8 ≤ (expand w.prog).length ∧
      ∀ i, i < PtrDataSize 8 ptrArray40 / 8 →
        (expand w.prog).getD i false = maskBit mask i ∧
          maskBit mask i = ptrArray40.isPtrWord 8 i :=
  ⟨by decide, by decide, by decide,
    gcprog_matches_ptrmask 8 ptrArray40 (by decide) (by decide) (by decide)⟩

/-- C7 (as stated) fails for `[1 << 31]*T` with pointers of 8 bytes: the type is
regularly laid out and contains pointers, but its mask would be `2^28` bytes long,
`8 * int32(len(ptrmask))` wraps around to `-2^31`, and `fillptrmask` ends in a
fatal error instead of a mask. -/
theorem gcprog_matches_ptrmask_fails :
    hugePtrArray.Sized 8 = true ∧ hugePtrArray.HasPointers = true ∧
    dgcptrmaskBytes 8 hugePtrArray = none ∧
    ¬ ∃ w mask, GCProg.emit 8 hugePtrArray 0 Writer.init = some w ∧
      dgcptrmaskBytes 8 hugePtrArray = some mask ∧
      mask.length = (PtrDataSize 8 hugePtrArray / 8 + 7) / 8 ∧
      PtrDataSize 8 hugePtrArray / 8 ≤ (expand w.prog).length ∧
      ∀ i, i < PtrDataSize 8 hugePtrArray / 8 →
        (expand w.prog).getD i false = maskBit mask i ∧
          maskBit mask i = hugePtrArray.isPtrWord 8 i := by
  have hs : hugePtrArray.Sized 8 = true := by decide
  have hp : hugePtrArray.HasPointers = true := by decide
  have hPD : PtrDataSize 8 hugePtrArray = 2 ^ 34 := by decide
  have hnew : BitVec.New (toInt32 (8 * toInt32 (((2 ^ 34 / 8 + 7) / 8 : Nat) : Int))) = none := by
    unfold BitVec.New toInt32
    norm_num
  have hnone : dgcptrmaskBytes 8 hugePtrArray = none := by
    unfold dgcptrmaskBytes fillptrmask
    simp only [hp, Bool.not_true, Bool.false_eq_true, if_false, List.length_map,
      List.length_replicate, hPD, hnew, Option.none_bind]
  refine ⟨hs, hp, hnone, ?_⟩
  rintro ⟨w, mask, -, h, -⟩
  rw [hnone] at h
  cases h

theorem stringOff_strings_extends (p : iexporter) (s : List Nat) :
    p.strings.buf <+: (p.stringOff s).2.strings.buf := by
  cases h : p.stringIndex.lookup s with
  | some off =>
    rw [stringOff_of_lookup p s off h]
  | none =>
    simp only [iexporter.stringOff, h, intWriter.Write, intWriter.uint64, List.append_assoc]
    exact List.prefix_append _ _

theorem StoredAt_mono (p q : iexporter) (s : List Nat) (o : Nat)
    (hpq : p.strings.buf <+: q.strings.buf) (ho : o ≤ p.strings.Len) (h : p.StoredAt s o) :
    q.StoredAt s o := by
  obtain ⟨t, ht⟩ := hpq
  unfold iexporter.StoredAt at *
  rw [← ht, List.drop_append_of_le_length ho]
  exact h.trans (List.prefix_append _ _)

theorem stringOff_StoredAt (p : iexporter) (s : List Nat)
    (hl : ∀ t o, p.stringIndex.lookup t = some o → o < p.strings.Len ∧ p.StoredAt t o) :
    ∀ t o, (p.stringOff s).2.stringIndex.lookup t = some o →
      o < (p.stringOff s).2.strings.Len ∧ (p.stringOff s).2.StoredAt t o := by
  intro t o h
  cases hs : p.stringIndex.lookup s with
  | some off =>
    rw [stringOff_of_lookup p s off hs] at h ⊢
    exact hl t o h
  | none =>
    have hlt := stringOff_Len_lt p s hs
    have hidx : (p.stringOff s).2.stringIndex = (s, p.strings.Len) :: p.stringIndex := by
      simp [iexporter.stringOff, hs]
    rw [hidx] at h
    by_cases hts : t = s
    · subst hts
      rw [lookup_cons_self] at h
      cases h
      refine ⟨hlt, ?_⟩
      unfold iexporter.StoredAt
      simp only [iexporter.stringOff, hs, intWriter.Write, intWriter.uint64, intWriter.Len,
        List.append_assoc, List.drop_left]
      exact List.prefix_refl _
    · rw [lookup_cons_ne t s _ _ hts] at h
      obtain ⟨h1, h2⟩ := hl t o h
      exact ⟨by omega, StoredAt_mono p _ t o (stringOff_strings_extends p s) (by omega) h2⟩

theorem Reachable_StoredAt (p : iexporter) (hp : p.Reachable) :
    ∀ t o, p.stringIndex.lookup t = some o → o < p.strings.Len ∧ p.StoredAt t o := by
  induction hp with
  | init =>
    intro t o h
    simp [iexporter.init] at h
  | step p s _ ih => exact stringOff_StoredAt p s ih

/-- C11: in every exporter state `p` reachable from the empty string table by
`stringOff` calls, each interned string `t` with offset `o` is stored at `o`: the
string section holds there the uvarint encoding of `len(t)` immediately followed
by the bytes of `t`. A further `stringOff` call only appends: the string section
before the call is a prefix of the section after it, and every earlier offset is
still recorded and still points at its string. -/
theorem string_table_layout (p : iexporter) (hp : p.Reachable) :
    (∀ t o, p.stringIndex.lookup t = some o →
      (PutUvarint t.length ++ t) <+: p.strings.buf.drop o) ∧
    ∀ s, p.strings.buf <+: (p.stringOff s).2.strings.buf ∧
      ∀ t o, p.stringIndex.lookup t = some o →
        (p.stringOff s).2.stringIndex.lookup t = some o ∧
        (PutUvarint t.length ++ t) <+: (p.stringOff s).2.strings.buf.drop o := by
  refine ⟨fun t o h => (Reachable_StoredAt p hp t o h).2, fun s => ?_⟩
  refine ⟨stringOff_strings_extends p s, fun t o h => ?_⟩
  have h1 := stringOff_lookup_mono p s t o h
  exact ⟨h1, (Reachable_StoredAt _ (iexporter.Reachable.step p s hp) t o h1).2⟩

theorem string_table_layout_witness :
    (iexporter.init.stringOff [104, 105]).2.Reachable ∧
    (iexporter.init.stringOff [104, 105]).2.stringIndex.lookup [104, 105] = some 0 ∧
    (PutUvarint ([104, 105] : List Nat).length ++ [104, 105])
      <+: (iexporter.init.stringOff [104, 105]).2.strings.buf.drop 0 :=
  ⟨iexporter.Reachable.step _ _ iexporter.Reachable.init, by decide,
   (string_table_layout _ (iexporter.Reachable.step _ [104, 105] iexporter.Reachable.init)).1
     [104, 105] 0 (by decide)⟩

theorem leBytes_last_ne_zero (n : Nat) : (leBytes n).reverse.head? ≠ some 0 := by
  induction n using Nat.strong_induction_on with
  | _ n ih =>
    by_cases h : n = 0
    · subst h; rw [leBytes_zero]; simp
    · rw [leBytes_pos n h]
      have ih' := ih (n / 256) (Nat.div_lt_self (by omega) (by norm_num))
      by_cases hq : n / 256 = 0
      · rw [hq, leBytes_zero]
        simp only [List.reverse_cons, List.reverse_nil, List.nil_append, List.head?_cons, ne_eq,
          Option.some.injEq]
        omega
      · have hne : (leBytes (n / 256)).reverse ≠ [] := by
          rw [leBytes_pos _ hq]
          simp
        rw [List.reverse_cons, List.head?_append_of_ne_nil _ hne]
        exact ih'

/-- The number of bytes of `n` is minimal: `256 ^ (k - 1) ≤ n < 256 ^ k`. -/
theorem leBytes_length_bounds (n : Nat) :
    n < 256 ^ (leBytes n).length ∧ (1 ≤ (leBytes n).length → 256 ^ ((leBytes n).length - 1) ≤ n) := by
  induction n using Nat.strong_induction_on with
  | _ n ih =>
    by_cases h : n = 0
    · subst h; rw [leBytes_zero]; simp
    · rw [leBytes_pos n h]
      obtain ⟨i1, i2⟩ := ih (n / 256) (Nat.div_lt_self (by omega) (by norm_num))
      simp only [List.length_cons, Nat.add_sub_cancel, pow_succ]
      refine ⟨by omega, fun _ => ?_⟩
      by_cases hq : (leBytes (n / 256)).length = 0
      · rw [hq]; simp; omega
      · have := i2 (by omega)
        obtain ⟨k, hk⟩ : ∃ k, (leBytes (n / 256)).length = k + 1 := ⟨_, (Nat.succ_pred hq).symm⟩
        rw [hk] at this ⊢
        simp only [Nat.add_sub_cancel] at this
        rw [pow_succ]
        omega

theorem leBytes_length_le (n m : Nat) (h : n < 256 ^ m) : (leBytes n).length ≤ m := by
  by_contra hc
  have h1 := (leBytes_length_bounds n).2 (by omega)
  have h2 : 256 ^ m ≤ 256 ^ ((leBytes n).length - 1) :=
    Nat.pow_le_pow_right (by norm_num) (by omega)
  omega

/-- The function `mpint` accepts every value of a type of at most 64 bytes whose
magnitude fits the type (for a signed type of one byte: whose zig-zag value is
below 256), and writes the small or the length-prefixed encoding. -/
theorem mpintBytes_total (signed : Bool) (mb : Nat) (h64 : mb ≤ 64) (x : Int)
    (hs : signed = false → 0 ≤ x) (hx : x.natAbs < 256 ^ mb)
    (h1 : signed = true → mb = 1 → smallVal true x < 256) :
    mpintBytes signed mb x = some
      (if (leBytes x.natAbs).length ≤ 1 ∧ smallVal signed x < maxSmall signed mb
       then [smallVal signed x]
       else lenByte signed x (leBytes x.natAbs).length :: (leBytes x.natAbs).reverse) ∧
    (¬ ((leBytes x.natAbs).length ≤ 1 ∧ smallVal signed x < maxSmall signed mb) →
      1 ≤ (leBytes x.natAbs).length ∧
      maxSmall signed mb ≤ lenByte signed x (leBytes x.natAbs).length ∧
      lenByte signed x (leBytes x.natAbs).length < 256) := by
  have hL := leBytes_length_le _ _ hx
  have hms : maxSmall signed mb ≤ 256 := by unfold maxSmall; split_ifs <;> omega
  have hbig : ¬ ((leBytes x.natAbs).length ≤ 1 ∧ smallVal signed x < maxSmall signed mb) →
      1 ≤ (leBytes x.natAbs).length ∧
      maxSmall signed mb ≤ lenByte signed x (leBytes x.natAbs).length ∧
      lenByte signed x (leBytes x.natAbs).length < 256 := by
    intro hns
    have hk1 : 1 ≤ (leBytes x.natAbs).length := by
      by_contra h0
      have h0 : (leBytes x.natAbs).length = 0 := by omega
      have hx0 : x.natAbs = 0 := (leBytes_length_eq_zero _).1 h0
      apply hns
      refine ⟨by omega, ?_⟩
      have : smallVal signed x = 0 := by
        unfold smallVal
        split_ifs <;> omega
      rw [this]
      unfold maxSmall
      split_ifs <;> omega
    refine ⟨hk1, ?_, ?_⟩
    · unfold maxSmall lenByte
      by_cases hm1 : mb = 1
      · exfalso
        apply hns
        have hk : (leBytes x.natAbs).length ≤ 1 := by omega
        refine ⟨hk, ?_⟩
        unfold maxSmall
        rw [if_pos hm1]
        cases signed with
        | true => exact h1 rfl hm1
        | false =>
          unfold smallVal
          simp only [Bool.false_eq_true, if_false]
          rw [hm1] at hx
          omega
      · rw [if_neg hm1]
        split_ifs <;> omega
    · unfold lenByte
      split_ifs <;> omega
  refine ⟨?_, hbig⟩
  unfold mpintBytes
  simp only [constantBytes, List.length_reverse]
  have c1 : ¬ ((!signed && decide (x < 0)) = true) := by
    cases signed with
    | true => simp
    | false =>
      have := hs rfl
      simp
      omega
  rw [if_neg c1]
  have c2 : ¬ (0 < (leBytes x.natAbs).length ∧ (leBytes x.natAbs).reverse.head? = some 0) :=
    fun h => leBytes_last_ne_zero _ h.2
  rw [if_neg c2, if_neg (by omega)]
  by_cases hsm : (leBytes x.natAbs).length ≤ 1 ∧ smallVal signed x < maxSmall signed mb
  · have c4 : (leBytes x.natAbs).length ≤ 1 ∧
        mpintUx signed (decide (x < 0)) (leBytes x.natAbs).reverse < mpintMaxSmall signed mb := by
      rw [mpintMaxSmall_eq signed mb h64, mpintUx_eq signed x hsm.1]
      exact hsm
    rw [if_pos c4, if_pos hsm, mpintUx_eq signed x hsm.1, Nat.mod_eq_of_lt (by omega)]
  · have c4 : ¬ ((leBytes x.natAbs).length ≤ 1 ∧
        mpintUx signed (decide (x < 0)) (leBytes x.natAbs).reverse < mpintMaxSmall signed mb) := by
      rintro ⟨ha, hb⟩
      rw [mpintMaxSmall_eq signed mb h64, mpintUx_eq signed x ha] at hb
      exact hsm ⟨ha, hb⟩
    obtain ⟨b1, b2, b3⟩ := hbig hsm
    rw [if_neg c4, if_neg hsm, mpintMaxSmall_eq signed mb h64, mpintN_eq signed x _ (by omega),
      if_neg (by omega), Nat.mod_eq_of_lt b3]

/-- C12: for a type with `intSize` unsigned and `m` bytes (`m ≤ 64`) and every value
`0 ≤ v < 2^(8m)`, with `maxSmall` 256 when `m = 1` and `256 - m` otherwise: if
`v < maxSmall`, `mpint` writes the single byte `v`; otherwise it writes the byte
`256 - k` followed by the `k` big-endian bytes of `v`, where `k` is the minimal
byte length of `v` (`1 ≤ k ≤ m`, `256^(k-1) ≤ v < 256^k`). A type of one byte
always takes the single byte. -/
theorem mpint_unsigned (w : exportWriter) (typ : NumType) (m : Nat) (v : Int)
    (ht : intSize typ = (false, m)) (hm : m ≤ 64) (h0 : 0 ≤ v) (hv : v < 2 ^ (8 * m)) :
    (v < maxSmall false m →
      w.mpint v typ = some { w with data := w.data.Write [v.toNat] }) ∧
    (¬ v < maxSmall false m →
      w.mpint v typ = some { w with data := w.data.Write (
        (256 - (leBytes v.toNat).length) :: (leBytes v.toNat).reverse) } ∧
      1 ≤ (leBytes v.toNat).length ∧ (leBytes v.toNat).length ≤ m ∧
      256 ^ ((leBytes v.toNat).length - 1) ≤ v.toNat ∧
      v.toNat < 256 ^ (leBytes v.toNat).length ∧ ofLE (leBytes v.toNat) = v.toNat) ∧
    (m = 1 → v < maxSmall false m) := by
  have hnat : v.natAbs = v.toNat := by omega
  have hvn : v.natAbs < 256 ^ m := by
    have h256 : (256 : Nat) ^ m = 2 ^ (8 * m) := by rw [pow_mul]; norm_num
    rw [h256]
    have : ((v.natAbs : Nat) : Int) < ((2 ^ (8 * m) : Nat) : Int) := by
      rw [Int.natAbs_of_nonneg h0]
      push_cast
      exact hv
    exact Int.ofNat_lt.1 this
  obtain ⟨e1, e2⟩ := mpintBytes_total false m hm v (fun _ => h0) hvn (fun h => by cases h)
  have hsv : smallVal false v = v.toNat := by
    unfold smallVal
    simp only [Bool.false_eq_true, if_false]
    exact hnat
  have hms : maxSmall false m ≤ 256 := by unfold maxSmall; split_ifs <;> omega
  have hbnd := leBytes_length_bounds v.natAbs
  rw [hsv, hnat] at e1 e2
  rw [hnat] at hbnd
  have hiff : ((leBytes v.toNat).length ≤ 1 ∧ v.toNat < maxSmall false m)
      ↔ v < maxSmall false m := by
    constructor
    · rintro ⟨-, h⟩
      omega
    · intro h
      have hlt : v.toNat < maxSmall false m := by omega
      refine ⟨leBytes_length_le _ 1 (by omega), hlt⟩
  have hlb : ∀ k, lenByte false v k = 256 - k := by
    intro k
    unfold lenByte
    simp
  unfold exportWriter.mpint
  rw [ht]
  simp only
  refine ⟨fun hs => ?_, fun hs => ?_, fun h1 => ?_⟩
  · rw [e1, if_pos (hiff.2 hs)]
  · rw [e1, if_neg (fun h => hs (hiff.1 h)), hlb]
    obtain ⟨b1, -, -⟩ := e2 (fun h => hs (hiff.1 h))
    exact ⟨rfl, b1, leBytes_length_le _ _ (hnat ▸ hvn), hbnd.2 b1, hbnd.1, ofLE_leBytes _⟩
  · subst h1
    unfold maxSmall
    simp only [if_true]
    have : (2 : Int) ^ (8 * 1) = 256 := by norm_num
    omega

theorem mpint_unsigned_witness :
    intSize ⟨false, EType.other, false, 2⟩ = (false, 2) ∧ 2 ≤ 64 ∧ (0 : Int) ≤ 300 ∧
    (300 : Int) < 2 ^ (8 * 2) ∧
    (¬ (300 : Int) < maxSmall false 2 →
      iexporter.init.newWriter.mpint 300 ⟨false, EType.other, false, 2⟩
        = some { iexporter.init.newWriter with data := iexporter.init.newWriter.data.Write (
          (256 - (leBytes (300 : Int).toNat).length) :: (leBytes (300 : Int).toNat).reverse) } ∧
      1 ≤ (leBytes (300 : Int).toNat).length ∧ (leBytes (300 : Int).toNat).length ≤ 2 ∧
      256 ^ ((leBytes (300 : Int).toNat).length - 1) ≤ (300 : Int).toNat ∧
      (300 : Int).toNat < 256 ^ (leBytes (300 : Int).toNat).length ∧
      ofLE (leBytes (300 : Int).toNat) = (300 : Int).toNat) :=
  ⟨by decide, by decide, by decide, by norm_num,
    (mpint_unsigned iexporter.init.newWriter ⟨false, EType.other, false, 2⟩ 2 300
      (by decide) (by decide) (by decide) (by norm_num)).2.1⟩

/-- C13 (amended): for a type with `intSize` signed and `m` bytes (`m ≤ 64`) and
every value `v` whose magnitude fits in `m` bytes and, when `m = 1`, whose zig-zag
value is below 256 (`-128 ≤ v ≤ 127`): with `zz = 2|v| - (1 if v < 0 else 0)` and
`maxSmall` 256 when `m = 1` and `256 - 2m` otherwise, if `|v| ≤ 255` and
`zz < maxSmall`, `mpint` writes the single byte `zz`; otherwise it writes the byte
`256 - 2k`, plus one exactly when `v` is negative, followed by the `k` big-endian
bytes of `|v|`, where `k` is the minimal byte length of `|v|`. -/
theorem mpint_signed (w : exportWriter) (typ : NumType) (m : Nat) (v : Int)
    (ht : intSize typ = (true, m)) (hm : m ≤ 64) (hv : v.natAbs < 256 ^ m)
    (h8 : m = 1 → smallVal true v < 256) :
    (v.natAbs ≤ 255 ∧ smallVal true v < maxSmall true m →
      w.mpint v typ = some { w with data := w.data.Write [smallVal true v] }) ∧
    (¬ (v.natAbs ≤ 255 ∧ smallVal true v < maxSmall true m) →
      w.mpint v typ = some { w with data := w.data.Write (
        (256 - 2 * (leBytes v.natAbs).length + (if v < 0 then 1 else 0))
          :: (leBytes v.natAbs).reverse) } ∧
      ((256 - 2 * (leBytes v.natAbs).length + (if v < 0 then 1 else 0)) % 2 = 1 ↔ v < 0) ∧
      1 ≤ (leBytes v.natAbs).length ∧ (leBytes v.natAbs).length ≤ m ∧
      256 ^ ((leBytes v.natAbs).length - 1) ≤ v.natAbs ∧
      v.natAbs < 256 ^ (leBytes v.natAbs).length ∧ ofLE (leBytes v.natAbs) = v.natAbs) ∧
    smallVal true v = 2 * v.natAbs - (if v < 0 then 1 else 0) := by
  obtain ⟨e1, e2⟩ := mpintBytes_total true m hm v (fun h => by cases h) hv (fun _ => h8)
  have hbnd := leBytes_length_bounds v.natAbs
  have hLm := leBytes_length_le _ _ hv
  have hiff : ((leBytes v.natAbs).length ≤ 1 ∧ smallVal true v < maxSmall true m)
      ↔ (v.natAbs ≤ 255 ∧ smallVal true v < maxSmall true m) := by
    constructor
    · rintro ⟨h1, h2⟩
      exact ⟨by have := (leBytes_length_le_one _ h1).1; omega, h2⟩
    · rintro ⟨h1, h2⟩
      exact ⟨leBytes_length_le _ 1 (by omega), h2⟩
  have hlb : ∀ k, lenByte true v k = 256 - 2 * k + (if v < 0 then 1 else 0) := by
    intro k
    unfold lenByte
    simp
  unfold exportWriter.mpint
  rw [ht]
  simp only
  refine ⟨fun hs => ?_, fun hs => ?_, ?_⟩
  · rw [e1, if_pos (hiff.2 hs)]
  · rw [e1, if_neg (fun h => hs (hiff.1 h)), hlb]
    obtain ⟨b1, -, -⟩ := e2 (fun h => hs (hiff.1 h))
    refine ⟨rfl, ?_, b1, hLm, hbnd.2 b1, hbnd.1, ofLE_leBytes _⟩
    split_ifs with hneg
    · simp only [hneg, iff_true]
      omega
    · simp only [hneg, iff_false]
      omega
  · unfold smallVal
    simp

theorem mpint_signed_witness :
    intSize ⟨false, EType.TINT, true, 8⟩ = (true, 8) ∧ 8 ≤ 64 ∧
    (-300 : Int).natAbs < 256 ^ 8 ∧
    (¬ ((-300 : Int).natAbs ≤ 255 ∧ smallVal true (-300) < maxSmall true 8) →
      iexporter.init.newWriter.mpint (-300) ⟨false, EType.TINT, true, 8⟩
        = some { iexporter.init.newWriter with data := iexporter.init.newWriter.data.Write (
          (256 - 2 * (leBytes (-300 : Int).natAbs).length + (if (-300 : Int) < 0 then 1 else 0))
            :: (leBytes (-300 : Int).natAbs).reverse) } ∧
      ((256 - 2 * (leBytes (-300 : Int).natAbs).length + (if (-300 : Int) < 0 then 1 else 0)) % 2
        = 1 ↔ (-300 : Int) < 0) ∧
      1 ≤ (leBytes (-300 : Int).natAbs).length ∧ (leBytes (-300 : Int).natAbs).length ≤ 8 ∧
      256 ^ ((leBytes (-300 : Int).natAbs).length - 1) ≤ (-300 : Int).natAbs ∧
      (-300 : Int).natAbs < 256 ^ (leBytes (-300 : Int).natAbs).length ∧
      ofLE (leBytes (-300 : Int).natAbs) = (-300 : Int).natAbs) :=
  ⟨by decide, by decide, by decide,
    (mpint_signed iexporter.init.newWriter ⟨false, EType.TINT, true, 8⟩ 8 (-300)
      (by decide) (by decide) (by decide) (by decide)).2.1⟩

/-- C13 (as stated) fails for a signed type of one byte and the value 200: its
magnitude fits in one byte and it is not small (`zz = 400`), so the claim has
`mpint` write the byte 254 and the byte 200; but `n = 254` is below
`maxSmall = 256` and `mpint` ends in `base.Fatalf`. -/
theorem mpint_signed_fails :
    intSize ⟨false, EType.other, true, 1⟩ = (true, 1) ∧ (200 : Int).natAbs < 256 ^ 1 ∧
    ¬ ((200 : Int).natAbs ≤ 255 ∧ smallVal true 200 < maxSmall true 1) ∧
    iexporter.init.newWriter.mpint 200 ⟨false, EType.other, true, 1⟩ = none := by
  refine ⟨by decide, by decide, by decide, ?_⟩
  simp [exportWriter.mpint, mpintBytes, intSize, constantBytes, leBytes, mpintUx,
    mpintMaxSmall, mpintN, usub]

theorem bmap_overflow (PtrSize : Nat) (t : MapType) (hcache : t.Bucket = none)
    (bucket : Typ) (t' : MapType) (h : bmap PtrSize t = .ok (bucket, t')) :
    bucket.FieldType 3 = some
      (if !(bmapElemtype PtrSize t).HasPointers && !(bmapKeytype PtrSize t).HasPointers
       then uintptrType PtrSize else unsafePointerType PtrSize) := by
  unfold bmap at h
  rw [hcache] at h
  simp only at h
  cases hs : NewStruct (bmapFields PtrSize t) with
  | none => rw [hs] at h; cases h
  | some b =>
    rw [hs] at h
    simp only at h
    cases hc : bmapCheck PtrSize t b with
    | error e => rw [hc] at h; cases h
    | ok u =>
      rw [hc] at h
      simp only [Except.ok.injEq, Prod.mk.injEq] at h
      obtain ⟨rfl, rfl⟩ := h
      rw [(NewStruct_get? _ b hs 3).1]
      rfl

theorem bmapKeytype_HasPointers (PtrSize : Nat) (t : MapType) :
    (bmapKeytype PtrSize t).HasPointers
      = if t.Key.Width > MAXKEYSIZE then !t.keyNotInHeap else t.Key.HasPointers := by
  unfold bmapKeytype
  split_ifs <;> rfl

theorem bmapElemtype_HasPointers (PtrSize : Nat) (t : MapType) :
    (bmapElemtype PtrSize t).HasPointers
      = if t.Elem.Width > MAXELEMSIZE then !t.elemNotInHeap else t.Elem.HasPointers := by
  unfold bmapElemtype
  split_ifs <;> rfl

/-- C20 (amended): in the bucket that `bmap` builds for a map type, the overflow
field has the pointer-free type `uintptr` if the stored key type and the stored
element type are both pointer-free, and the pointer type `unsafe.Pointer` if
either contains pointers; the stored type is the key (the element) itself or, when
that is wider than 128 bytes, a pointer to it. So for a key and an element of at
most 128 bytes the overflow field is `uintptr` if both are pointer-free and
`unsafe.Pointer` if either contains pointers, and whenever the key or the element
contains pointers and is not a not-in-heap type the overflow field is
`unsafe.Pointer`. -/
theorem bmap_overflow_type (PtrSize : Nat) (t : MapType) (hcache : t.Bucket = none)
    (bucket : Typ) (t' : MapType) (h : bmap PtrSize t = .ok (bucket, t')) :
    ((bmapKeytype PtrSize t).HasPointers = false ∧ (bmapElemtype PtrSize t).HasPointers = false →
      bucket.FieldType 3 = some (uintptrType PtrSize)) ∧
    ((bmapKeytype PtrSize t).HasPointers = true ∨ (bmapElemtype PtrSize t).HasPointers = true →
      bucket.FieldType 3 = some (unsafePointerType PtrSize)) ∧
    (t.Key.Width ≤ MAXKEYSIZE → t.Elem.Width ≤ MAXELEMSIZE →
      (t.Key.HasPointers = false ∧ t.Elem.HasPointers = false →
        bucket.FieldType 3 = some (uintptrType PtrSize)) ∧
      (t.Key.HasPointers = true ∨ t.Elem.HasPointers = true →
        bucket.FieldType 3 = some (unsafePointerType PtrSize))) ∧
    ((t.Key.HasPointers = true ∧ t.keyNotInHeap = false) ∨
        (t.Elem.HasPointers = true ∧ t.elemNotInHeap = false) →
      bucket.FieldType 3 = some (unsafePointerType PtrSize)) ∧
    (uintptrType PtrSize).HasPointers = false ∧ (unsafePointerType PtrSize).HasPointers = true := by
  have h3 := bmap_overflow PtrSize t hcache bucket t' h
  have hk := bmapKeytype_HasPointers PtrSize t
  have he := bmapElemtype_HasPointers PtrSize t
  refine ⟨?_, ?_, ?_, ?_, rfl, rfl⟩
  · rintro ⟨a, b⟩
    rw [h3, a, b]
    rfl
  · rintro (a | b)
    · rw [h3, a]
      simp
    · rw [h3, b]
      simp
  · intro wk we
    rw [if_neg (by omega)] at hk he
    constructor
    · rintro ⟨a, b⟩
      rw [h3, hk, he, a, b]
      rfl
    · rintro (a | b)
      · rw [h3, hk, a]
        simp
      · rw [h3, he, b]
        simp
  · rintro (⟨a, b⟩ | ⟨a, b⟩)
    · have : (bmapKeytype PtrSize t).HasPointers = true := by
        rw [hk, a, b]
        simp
      rw [h3, this]
      simp
    · have : (bmapElemtype PtrSize t).HasPointers = true := by
        rw [he, a, b]
        simp
      rw [h3, this]
      simp

/-- Witness of `bmap_overflow_type`: `map[string]int64`, whose string keys carry
pointers, gets a bucket whose overflow field is an `unsafe.Pointer`. -/
theorem bmap_overflow_type_witness :
    mapStringInt64.Bucket = none ∧
    bmap 8 mapStringInt64
      = .ok (mapStringInt64Bucket, { mapStringInt64 with Bucket := some mapStringInt64Bucket }) ∧
    mapStringInt64.Key.HasPointers = true ∧
    mapStringInt64Bucket.FieldType 3 = some (unsafePointerType 8) :=
  ⟨rfl, rfl, rfl,
    (bmap_overflow_type 8 mapStringInt64 rfl mapStringInt64Bucket _ rfl).2.1 (Or.inl rfl)⟩

/-- C20 (as stated) fails for `map[[200]uint8]int64` on a 64-bit target: the key
type and the element type are both pointer-free, but the key is wider than 128
bytes and is stored through a pointer, so the overflow field of the bucket is an
`unsafe.Pointer` and not a `uintptr`. -/
theorem bmap_overflow_type_fails :
    mapBigKeyInt64.Key.HasPointers = false ∧ mapBigKeyInt64.Elem.HasPointers = false ∧
    ∃ (bucket : Typ) (t' : MapType), bmap 8 mapBigKeyInt64 = .ok (bucket, t') ∧
      bucket.FieldType 3 = some (unsafePointerType 8) ∧
      bucket.FieldType 3 ≠ some (uintptrType 8) := by
  refine ⟨rfl, rfl, ?_⟩
  obtain ⟨b, hb, -⟩ := bmap_total 8 mapBigKeyInt64 rfl (Or.inr rfl) rfl
    (Or.inl rfl) (by decide) (by decide) (Or.inr (Or.inr (Or.inr rfl))) (by decide) (by decide)
  have h3 : b.FieldType 3 = some (unsafePointerType 8) :=
    bmap_overflow 8 mapBigKeyInt64 rfl b _ hb
  refine ⟨b, _, hb, h3, ?_⟩
  rw [h3]
  simp [unsafePointerType, uintptrType]

theorem mapSet_keys_mem {κ ν : Type} [DecidableEq κ] (m : List (κ × ν)) (k : κ) (v : ν)
    (h : (m.lookup k).isSome = true) : (ix.mapSet m k v).map Prod.fst = m.map Prod.fst := by
  unfold ix.mapSet
  rw [if_pos h, List.map_map]
  apply List.map_congr_left
  intro e _
  simp only [Function.comp]
  split_ifs with hk
  · exact hk.symm
  · rfl

theorem mapSet_keys_new {κ ν : Type} [DecidableEq κ] (m : List (κ × ν)) (k : κ) (v : ν)
    (h : (m.lookup k).isSome = false) :
    (ix.mapSet m k v).map Prod.fst = m.map Prod.fst ++ [k] := by
  unfold ix.mapSet
  rw [if_neg (by simp [h])]
  simp

theorem lookup_isSome_iff {κ ν : Type} [DecidableEq κ] (m : List (κ × ν)) (k : κ) :
    (m.lookup k).isSome = true ↔ k ∈ m.map Prod.fst := by
  induction m with
  | nil => simp
  | cons e m ih =>
    obtain ⟨a, b⟩ := e
    by_cases hk : k = a
    · subst hk
      simp [List.lookup]
    · have : (k == a) = false := by simpa using hk
      simp only [List.lookup, this, List.map_cons, List.mem_cons, hk, false_or]
      exact ih

theorem lookup_cons_eq {κ ν : Type} [DecidableEq κ] (m : List (κ × ν)) (k a : κ) (b : ν) :
    List.lookup k ((a, b) :: m) = if k = a then some b else List.lookup k m := by
  by_cases h : k = a
  · subst h
    simp [List.lookup]
  · have : (k == a) = false := by simpa using h
    simp [List.lookup, this, h]

theorem lookup_map_replace {κ ν : Type} [DecidableEq κ] (m : List (κ × ν)) (k k' : κ) (v : ν) :
    (m.map (fun e => if e.1 = k then (k, v) else e)).lookup k'
      = if k' = k then (m.lookup k).map (fun _ => v) else m.lookup k' := by
  induction m with
  | nil => simp
  | cons e m ih =>
    obtain ⟨a, b⟩ := e
    rw [List.map_cons]
    by_cases hak : a = k
    · subst hak
      rw [if_pos rfl, lookup_cons_eq, ih, lookup_cons_eq, lookup_cons_eq]
      by_cases hk' : k' = a
      · simp [hk']
      · simp [hk']
    · have hka : ¬ k = a := fun h => hak h.symm
      rw [if_neg hak, lookup_cons_eq, ih, lookup_cons_eq, lookup_cons_eq, if_neg hka]
      by_cases hk' : k' = a
      · have : ¬ k' = k := fun h => hak (hk'.symm.trans h)
        simp [hk', this, hak]
      · simp [hk']

theorem lookup_append_single {κ ν : Type} [DecidableEq κ] (m : List (κ × ν)) (k k' : κ)
    (v : ν) (h : m.lookup k = none) :
    (m ++ [(k, v)]).lookup k' = if k' = k then some v else m.lookup k' := by
  induction m with
  | nil => rw [List.nil_append, lookup_cons_eq]
  | cons e m ih =>
    obtain ⟨a, b⟩ := e
    rw [lookup_cons_eq] at h
    by_cases hka : k = a
    · rw [if_pos hka] at h
      cases h
    · rw [if_neg hka] at h
      rw [List.cons_append, lookup_cons_eq, lookup_cons_eq, ih h]
      by_cases hk' : k' = a
      · have : ¬ k' = k := fun hc => hka (hc.symm.trans hk')
        rw [if_pos hk', if_neg this, if_pos hk']
      · simp [hk']

theorem mapSet_lookup {κ ν : Type} [DecidableEq κ] (m : List (κ × ν)) (k k' : κ) (v : ν) :
    (ix.mapSet m k v).lookup k' = if k' = k then some v else m.lookup k' := by
  unfold ix.mapSet
  cases hl : m.lookup k with
  | none =>
    simp only [Option.isSome_none, Bool.false_eq_true, if_false]
    exact lookup_append_single m k k' v hl
  | some x =>
    simp only [Option.isSome_some, if_true]
    rw [lookup_map_replace, hl]
    rfl

theorem QueueInv_congr (g : ix.Globals) (U : List ix.Node) (p q : ix.iexporter)
    (done cur : List ix.Node) (h1 : q.declIndex = p.declIndex) (h2 : q.declTodo = p.declTodo)
    (h : ix.QueueInv g U p done cur) : ix.QueueInv g U q done cur := by
  unfold ix.QueueInv at *
  rw [h1, h2]
  exact h

theorem pushDecl_cases (g : ix.Globals) (p q : ix.iexporter) (n : ix.Node)
    (h : p.pushDecl g n = some q) :
    ∃ s, n.Sym = some s ∧ (n.defIsSelf = true ∨ n.isOTYPE = true) ∧
      (((s.Pkg = g.BuiltinPkg ∨ s.Pkg = g.unsafepkg ∨ (p.declIndex.lookup n).isSome = true) ∧
          q = p) ∨
       (s.Pkg ≠ g.BuiltinPkg ∧ s.Pkg ≠ g.unsafepkg ∧ p.declIndex.lookup n = none ∧
          q = { p with declIndex := ix.mapSet p.declIndex n ix.placeholder,
                       declTodo := p.declTodo ++ [n] })) := by
  unfold ix.iexporter.pushDecl at h
  cases hs : n.Sym with
  | none => rw [hs] at h; cases h
  | some s =>
    rw [hs] at h
    simp only at h
    refine ⟨s, rfl, ?_⟩
    by_cases hw : (!n.defIsSelf && !n.isOTYPE) = true
    · rw [if_pos hw] at h; cases h
    rw [if_neg hw] at h
    have hw' : n.defIsSelf = true ∨ n.isOTYPE = true := by
      cases h1 : n.defIsSelf <;> cases h2 : n.isOTYPE <;> simp [h1, h2] at hw ⊢
    refine ⟨hw', ?_⟩
    by_cases hb : s.Pkg = g.BuiltinPkg ∨ s.Pkg = g.unsafepkg
    · rw [if_pos hb] at h
      left
      exact ⟨by tauto, (Option.some.inj h).symm⟩
    rw [if_neg hb] at h
    by_cases hl : (p.declIndex.lookup n).isSome = true
    · rw [if_pos hl] at h
      left
      exact ⟨Or.inr (Or.inr hl), (Option.some.inj h).symm⟩
    rw [if_neg hl] at h
    right
    refine ⟨fun hc => hb (Or.inl hc), fun hc => hb (Or.inr hc), ?_, (Option.some.inj h).symm⟩
    cases hx : p.declIndex.lookup n with
    | none => rfl
    | some x => rw [hx] at hl; simp at hl

theorem pushDecl_QueueInv (g : ix.Globals) (U : List ix.Node) (p q : ix.iexporter)
    (done cur : List ix.Node) (n : ix.Node) (hn : n ∈ U)
    (h : ix.QueueInv g U p done cur) (hq : p.pushDecl g n = some q) :
    ix.QueueInv g U q done cur := by
  obtain ⟨s, hs, hw, ⟨-, rfl⟩ | ⟨hb1, hb2, hl, rfl⟩⟩ := pushDecl_cases g p q n hq
  · exact h
  · obtain ⟨i1, i2, i3, i4, i5, i6⟩ := h
    have hsome : (p.declIndex.lookup n).isSome = false := by rw [hl]; rfl
    have hnk : n ∉ p.declIndex.map Prod.fst := by
      intro hc
      have := (lookup_isSome_iff _ _).2 hc
      rw [hsome] at this
      cases this
    have hkeys := mapSet_keys_new p.declIndex n ix.placeholder hsome
    have hnot : n ∉ p.declTodo ++ done ++ cur := by
      intro hc
      apply hnk
      rw [i3]
      simp only [List.mem_append] at hc
      tauto
    refine ⟨?_, ?_, ?_, ?_, ?_, ?_⟩
    · show ((p.declTodo ++ [n]) ++ done ++ cur).Nodup
      have hperm : ((p.declTodo ++ [n]) ++ done ++ cur).Perm (n :: (p.declTodo ++ done ++ cur)) := by
        rw [List.append_assoc, List.append_assoc, List.append_assoc]
        refine (List.perm_append_comm).trans ?_
        simp only [List.append_assoc, List.singleton_append]
        refine (List.perm_append_comm).trans ?_
        simp
      exact hperm.nodup_iff.2 (List.nodup_cons.2 ⟨hnot, i1⟩)
    · show ((ix.mapSet p.declIndex n ix.placeholder).map Prod.fst).Nodup
      rw [hkeys]
      exact List.Nodup.append i2 (List.nodup_singleton n) (by
        intro a ha hb
        simp only [List.mem_singleton] at hb
        subst hb
        exact hnk ha)
    · intro m
      show m ∈ (ix.mapSet p.declIndex n ix.placeholder).map Prod.fst
        ↔ m ∈ p.declTodo ++ [n] ∨ m ∈ done ∨ m ∈ cur
      rw [hkeys, List.mem_append, List.mem_append, i3 m, List.mem_singleton]
      tauto
    · intro m hm
      show (ix.mapSet p.declIndex n ix.placeholder).lookup m = some ix.placeholder
      rw [mapSet_lookup]
      by_cases hmn : m = n
      · rw [if_pos hmn]
      · rw [if_neg hmn]
        have : m ∈ p.declTodo := by
          rcases List.mem_append.1 hm with h | h
          · exact h
          · exact absurd (List.mem_singleton.1 h) hmn
        exact i4 m this
    · intro m hm
      show ∃ off, (ix.mapSet p.declIndex n ix.placeholder).lookup m = some off ∧ _
      rw [mapSet_lookup]
      have hmn : m ≠ n := by
        rintro rfl
        apply hnot
        simp [hm]
      rw [if_neg hmn]
      exact i5 m hm
    · intro m hm
      have hm' : m ∈ (ix.mapSet p.declIndex n ix.placeholder).map Prod.fst := hm
      rw [hkeys, List.mem_append, List.mem_singleton] at hm'
      rcases hm' with h | h
      · exact i6 m h
      · subst h
        exact ⟨⟨s, hs, hb1, hb2⟩, hn⟩

theorem PushReach_QueueInv (g : ix.Globals) (U : List ix.Node) (p q : ix.iexporter)
    (done cur : List ix.Node) (hr : ix.PushReach g U p q) (h : ix.QueueInv g U p done cur) :
    ix.QueueInv g U q done cur := by
  induction hr with
  | refl => exact h
  | other q r _ h1 h2 ih => exact QueueInv_congr g U q r done cur h1 h2 ih
  | push q r n _ hn hq ih => exact pushDecl_QueueInv g U q r done cur n hn ih hq

theorem doDecl_QueueInv (g : ix.Globals) (U : List ix.Node)
    (body : ix.Node → ix.exportWriter → Option ix.exportWriter)
    (hbody : ∀ n w w1, body n w = some w1 →
      ix.PushReach g U w.p w1.p ∧ w1.p.data0.Len < 2 ^ 63)
    (p p1 : ix.iexporter) (done : List ix.Node) (n : ix.Node)
    (h : ix.QueueInv g U p done [n]) (hd : p.doDecl body n = some p1) :
    ix.QueueInv g U p1 (done ++ [n]) [] := by
  unfold ix.iexporter.doDecl at hd
  cases hb : body n p.newWriter with
  | none => rw [hb] at hd; cases hd
  | some w =>
    rw [hb] at hd
    simp only [Option.some.injEq] at hd
    subst hd
    obtain ⟨hr, hlen⟩ := hbody n _ w hb
    obtain ⟨i1, i2, i3, i4, i5, i6⟩ := PushReach_QueueInv g U _ _ done [n] hr h
    have hoff : w.flush.1 ≠ ix.placeholder := by
      show w.p.data0.Len ≠ 2 ^ 64 - 1
      omega
    have hnk : n ∈ w.p.declIndex.map Prod.fst := (i3 n).2 (Or.inr (Or.inr (by simp)))
    have hkeys := mapSet_keys_mem w.p.declIndex n w.flush.1 ((lookup_isSome_iff _ _).2 hnk)
    refine ⟨?_, ?_, ?_, ?_, ?_, ?_⟩
    · show (w.p.declTodo ++ (done ++ [n]) ++ []).Nodup
      rw [List.append_nil, ← List.append_assoc]
      exact i1
    · show ((ix.mapSet w.p.declIndex n w.flush.1).map Prod.fst).Nodup
      rw [hkeys]
      exact i2
    · intro m
      show m ∈ (ix.mapSet w.p.declIndex n w.flush.1).map Prod.fst
        ↔ m ∈ w.p.declTodo ∨ m ∈ done ++ [n] ∨ m ∈ []
      rw [hkeys, i3 m, List.mem_append]
      simp
    · intro m hm
      show (ix.mapSet w.p.declIndex n w.flush.1).lookup m = some ix.placeholder
      have hmn : m ≠ n := by
        rintro rfl
        have := List.nodup_append.1 i1
        exact this.2.2 (List.mem_append_left _ hm) (by simp)
      rw [mapSet_lookup, if_neg hmn]
      exact i4 m hm
    · intro m hm
      show ∃ off, (ix.mapSet w.p.declIndex n w.flush.1).lookup m = some off ∧ _
      rw [mapSet_lookup]
      by_cases hmn : m = n
      · rw [if_pos hmn]
        exact ⟨_, rfl, hoff⟩
      · rw [if_neg hmn]
        rcases List.mem_append.1 hm with h | h
        · exact i5 m h
        · exact absurd (List.mem_singleton.1 h) hmn
    · intro m hm
      have hm' : m ∈ (ix.mapSet w.p.declIndex n w.flush.1).map Prod.fst := hm
      rw [hkeys] at hm'
      exact i6 m hm'

theorem QueueInv_pop (g : ix.Globals) (U : List ix.Node) (p : ix.iexporter)
    (done : List ix.Node) (n : ix.Node) (rest : List ix.Node) (ht : p.declTodo = n :: rest)
    (h : ix.QueueInv g U p done []) :
    ix.QueueInv g U { p with declTodo := rest } done [n] := by
  obtain ⟨i1, i2, i3, i4, i5, i6⟩ := h
  rw [ht] at i1 i3 i4
  refine ⟨?_, i2, ?_, ?_, i5, i6⟩
  · show (rest ++ done ++ [n]).Nodup
    have hperm : (rest ++ done ++ [n]).Perm (n :: rest ++ done ++ []) := by
      rw [List.append_nil]
      refine (List.perm_append_comm).trans ?_
      simp
    exact hperm.nodup_iff.2 i1
  · intro m
    show m ∈ p.declIndex.map Prod.fst ↔ m ∈ rest ∨ m ∈ done ∨ m ∈ [n]
    rw [i3 m]
    simp only [List.mem_cons, List.mem_singleton, List.not_mem_nil, or_false]
    tauto
  · intro m hm
    exact i4 m (List.mem_cons_of_mem _ hm)

theorem declLoop_QueueInv (g : ix.Globals) (U : List ix.Node)
    (body : ix.Node → ix.exportWriter → Option ix.exportWriter)
    (hbody : ∀ n w w1, body n w = some w1 →
      ix.PushReach g U w.p w1.p ∧ w1.p.data0.Len < 2 ^ 63) :
    ∀ (fuel : Nat) (p : ix.iexporter) (done : List ix.Node) (res : ix.iexporter × List ix.Node),
      ix.QueueInv g U p done [] → ix.declLoop body fuel p done = some res →
      ix.QueueInv g U res.1 res.2 [] ∧ res.1.declTodo = [] := by
  intro fuel
  induction fuel with
  | zero =>
    intro p done res h hl
    unfold ix.declLoop at hl
    by_cases ht : p.declTodo = []
    · rw [if_pos ht] at hl
      cases hl
      exact ⟨h, ht⟩
    · rw [if_neg ht] at hl
      cases hl
  | succ fuel ih =>
    intro p done res h hl
    unfold ix.declLoop at hl
    cases ht : p.declTodo with
    | nil =>
      rw [ht] at hl
      cases hl
      exact ⟨h, ht⟩
    | cons n rest =>
      rw [ht] at hl
      simp only at hl
      cases hd : ix.iexporter.doDecl body { p with declTodo := rest } n with
      | none => rw [hd] at hl; cases hl
      | some p1 =>
        rw [hd] at hl
        exact ih p1 (done ++ [n]) res
          (doDecl_QueueInv g U body hbody _ p1 done n (QueueInv_pop g U p done n rest ht h) hd) hl

theorem pushAll_QueueInv (g : ix.Globals) (U : List ix.Node) :
    ∀ (l : List ix.Node) (p q : ix.iexporter), (∀ n ∈ l, n ∈ U) → ix.QueueInv g U p [] [] →
      ix.pushAll g p l = some q → ix.QueueInv g U q [] [] := by
  intro l
  induction l with
  | nil =>
    intro p q _ h hq
    cases hq
    exact h
  | cons n rest ih =>
    intro p q hU h hq
    unfold ix.pushAll at hq
    cases hp : p.pushDecl g n with
    | none => rw [hp] at hq; cases hq
    | some p1 =>
      rw [hp] at hq
      exact ih p1 q (fun m hm => hU m (List.mem_cons_of_mem _ hm))
        (pushDecl_QueueInv g U p p1 [] [] n (hU n (List.mem_cons_self _ _)) h hp) hq

theorem pushDecl_todo_mono (g : ix.Globals) (p q : ix.iexporter) (n m : ix.Node)
    (h : p.pushDecl g n = some q) (hm : m ∈ p.declTodo) : m ∈ q.declTodo := by
  obtain ⟨s, -, -, ⟨-, rfl⟩ | ⟨-, -, -, rfl⟩⟩ := pushDecl_cases g p q n h
  · exact hm
  · exact List.mem_append_left _ hm

theorem PushReach_todo_mono (g : ix.Globals) (U : List ix.Node) (p q : ix.iexporter)
    (m : ix.Node) (hr : ix.PushReach g U p q) (hm : m ∈ p.declTodo) : m ∈ q.declTodo := by
  induction hr with
  | refl => exact hm
  | other q r _ _ h2 ih => rw [h2]; exact ih
  | push q r n _ _ hq ih => exact pushDecl_todo_mono g q r n m hq ih

theorem doDecl_todo_mono (g : ix.Globals) (U : List ix.Node)
    (body : ix.Node → ix.exportWriter → Option ix.exportWriter)
    (hbody : ∀ n w w1, body n w = some w1 →
      ix.PushReach g U w.p w1.p ∧ w1.p.data0.Len < 2 ^ 63)
    (p p1 : ix.iexporter) (n m : ix.Node) (hd : p.doDecl body n = some p1)
    (hm : m ∈ p.declTodo) : m ∈ p1.declTodo := by
  unfold ix.iexporter.doDecl at hd
  cases hb : body n p.newWriter with
  | none => rw [hb] at hd; cases hd
  | some w =>
    rw [hb] at hd
    simp only [Option.some.injEq] at hd
    subst hd
    exact PushReach_todo_mono g U p w.p m (hbody n _ w hb).1 hm

theorem declLoop_done_mono (g : ix.Globals) (U : List ix.Node)
    (body : ix.Node → ix.exportWriter → Option ix.exportWriter)
    (hbody : ∀ n w w1, body n w = some w1 →
      ix.PushReach g U w.p w1.p ∧ w1.p.data0.Len < 2 ^ 63) :
    ∀ (fuel : Nat) (p : ix.iexporter) (done : List ix.Node) (res : ix.iexporter × List ix.Node),
      ix.declLoop body fuel p done = some res →
      ∀ m, m ∈ p.declTodo ∨ m ∈ done → m ∈ res.2 := by
  intro fuel
  induction fuel with
  | zero =>
    intro p done res hl m hm
    unfold ix.declLoop at hl
    by_cases ht : p.declTodo = []
    · rw [if_pos ht] at hl
      cases hl
      rw [ht] at hm
      simpa using hm
    · rw [if_neg ht] at hl
      cases hl
  | succ fuel ih =>
    intro p done res hl m hm
    unfold ix.declLoop at hl
    cases ht : p.declTodo with
    | nil =>
      rw [ht] at hl hm
      cases hl
      simpa using hm
    | cons n rest =>
      rw [ht] at hl hm
      simp only at hl
      cases hd : ix.iexporter.doDecl body { p with declTodo := rest } n with
      | none => rw [hd] at hl; cases hl
      | some p1 =>
        rw [hd] at hl
        apply ih p1 (done ++ [n]) res hl m
        rcases hm with hm | hm
        · rcases List.mem_cons.1 hm with h | h
          · right; simp [h]
          · left
            exact doDecl_todo_mono g U body hbody _ p1 n m hd h
        · right; simp [hm]

theorem pushDecl_keys_mono (g : ix.Globals) (p q : ix.iexporter) (n m : ix.Node)
    (h : p.pushDecl g n = some q) (hm : (p.declIndex.lookup m).isSome = true) :
    (q.declIndex.lookup m).isSome = true := by
  obtain ⟨s, -, -, ⟨-, rfl⟩ | ⟨-, -, -, rfl⟩⟩ := pushDecl_cases g p q n h
  · exact hm
  · show ((ix.mapSet p.declIndex n ix.placeholder).lookup m).isSome = true
    rw [mapSet_lookup]
    split_ifs
    · rfl
    · exact hm

theorem pushDecl_keys_self (g : ix.Globals) (p q : ix.iexporter) (n : ix.Node)
    (h : p.pushDecl g n = some q) (he : ix.Exportable g n) :
    (q.declIndex.lookup n).isSome = true := by
  obtain ⟨s, hs, -, ⟨hc, rfl⟩ | ⟨-, -, -, rfl⟩⟩ := pushDecl_cases g p q n h
  · obtain ⟨s', hs', e1, e2⟩ := he
    rw [hs] at hs'
    cases hs'
    rcases hc with hc | hc | hc
    · exact absurd hc e1
    · exact absurd hc e2
    · exact hc
  · show ((ix.mapSet p.declIndex n ix.placeholder).lookup n).isSome = true
    rw [mapSet_lookup, if_pos rfl]
    rfl

theorem pushAll_keys (g : ix.Globals) : ∀ (l : List ix.Node) (p q : ix.iexporter),
    ix.pushAll g p l = some q →
    (∀ m, (p.declIndex.lookup m).isSome = true → (q.declIndex.lookup m).isSome = true) ∧
    (∀ n ∈ l, ix.Exportable g n → (q.declIndex.lookup n).isSome = true) := by
  intro l
  induction l with
  | nil =>
    intro p q h
    cases h
    exact ⟨fun _ h => h, fun n hn => absurd hn (List.not_mem_nil n)⟩
  | cons a rest ih =>
    intro p q h
    unfold ix.pushAll at h
    cases hp : p.pushDecl g a with
    | none => rw [hp] at h; cases h
    | some p1 =>
      rw [hp] at h
      obtain ⟨j1, j2⟩ := ih p1 q h
      refine ⟨fun m hm => j1 m (pushDecl_keys_mono g p p1 a m hp hm), ?_⟩
      intro n hn he
      rcases List.mem_cons.1 hn with rfl | hn'
      · exact j1 n (pushDecl_keys_self g p p1 n hp he)
      · exact j2 n hn' he

theorem declLoop_terminates (g : ix.Globals) (U : List ix.Node)
    (body : ix.Node → ix.exportWriter → Option ix.exportWriter)
    (hbody : ∀ n w w1, body n w = some w1 →
      ix.PushReach g U w.p w1.p ∧ w1.p.data0.Len < 2 ^ 63)
    (htot : ∀ n w, n ∈ U → (body n w).isSome = true) :
    ∀ (fuel : Nat) (p : ix.iexporter) (done : List ix.Node),
      ix.QueueInv g U p done [] → U.dedup.length ≤ fuel + done.length →
      ∃ res, ix.declLoop body fuel p done = some res := by
  intro fuel
  induction fuel with
  | zero =>
    intro p done h hlen
    have hsub : p.declTodo ++ done ⊆ U.dedup := by
      intro m hm
      rw [List.mem_dedup]
      exact (h.2.2.2.2.2 m ((h.2.2.1 m).2 (by
        simp only [List.mem_append] at hm
        tauto))).2
    have hnd : (p.declTodo ++ done).Nodup := by
      have := h.1
      rw [List.append_nil] at this
      exact this
    have hle := (List.subperm_of_subset hnd hsub).length_le
    rw [List.length_append] at hle
    have ht : p.declTodo = [] := List.length_eq_zero.1 (by omega)
    exact ⟨(p, done), by unfold ix.declLoop; rw [if_pos ht]⟩
  | succ fuel ih =>
    intro p done h hlen
    cases ht : p.declTodo with
    | nil => exact ⟨(p, done), by unfold ix.declLoop; rw [ht]⟩
    | cons n rest =>
      have hnU : n ∈ U := (h.2.2.2.2.2 n ((h.2.2.1 n).2 (Or.inl (by rw [ht]; simp)))).2
      have hpop := QueueInv_pop g U p done n rest ht h
      obtain ⟨w, hw⟩ := Option.isSome_iff_exists.1
        (htot n (ix.iexporter.newWriter { p with declTodo := rest }) hnU)
      have hd : ix.iexporter.doDecl body { p with declTodo := rest } n
          = some { w.flush.2 with declIndex := ix.mapSet w.flush.2.declIndex n w.flush.1 } := by
        unfold ix.iexporter.doDecl
        rw [hw]
      obtain ⟨res, hres⟩ := ih _ (done ++ [n])
        (doDecl_QueueInv g U body hbody _ _ done n hpop hd) (by
          rw [List.length_append, List.length_singleton]; omega)
      refine ⟨res, ?_⟩
      unfold ix.declLoop
      rw [ht]
      simp only [hd]
      exact hres

/-- C19: each declaration enters the export work queue at most once in an export
session. `pushDecl(n)` for a node that is present in `declIndex`, or whose symbol
belongs to the builtin package or to package unsafe, leaves the exporter (queue
and `declIndex` included) unchanged; otherwise it marks `n` in `declIndex` with
the placeholder `^uint64(0)`, keeps the other entries and appends `n` to the
right end of the queue. In a session that starts from an empty `declIndex` and
queue, pushes the export list and runs `doDecl` until the queue is empty, where
the writing of a declaration reaches the queue and `declIndex` only through
`pushDecl` and the data section stays below `2^63` bytes: `doDecl` runs once on
each declaration that has an entry in `declIndex` and on no other (so the number
of runs is the number of entries), these are declarations that are not
predeclared and include those of the export list, and no entry holds the
placeholder at the end. If the declarations come from a finite list `U` and none
is fatal, the loop does reach the empty queue, after at most `len(U)` runs. -/
theorem pushDecl_queue_once (g : ix.Globals) (U : List ix.Node)
    (body : ix.Node → ix.exportWriter → Option ix.exportWriter)
    (hbody : ∀ n w w1, body n w = some w1 →
      ix.PushReach g U w.p w1.p ∧ w1.p.data0.Len < 2 ^ 63)
    (pinit p0 : ix.iexporter) (hi1 : pinit.declIndex = []) (hi2 : pinit.declTodo = [])
    (exportlist : List ix.Node) (hU : ∀ n ∈ exportlist, n ∈ U)
    (hpush : ix.pushAll g pinit exportlist = some p0) :
    (∀ (p : ix.iexporter) (n : ix.Node) (s : ix.Sym), n.Sym = some s →
      (n.defIsSelf = true ∨ n.isOTYPE = true) →
      ((p.declIndex.lookup n).isSome = true ∨ s.Pkg = g.BuiltinPkg ∨ s.Pkg = g.unsafepkg) →
      p.pushDecl g n = some p) ∧
    (∀ (p : ix.iexporter) (n : ix.Node) (s : ix.Sym), n.Sym = some s →
      (n.defIsSelf = true ∨ n.isOTYPE = true) →
      p.declIndex.lookup n = none → s.Pkg ≠ g.BuiltinPkg → s.Pkg ≠ g.unsafepkg →
      ∃ q, p.pushDecl g n = some q ∧ q.declTodo = p.declTodo ++ [n] ∧
        q.declIndex.lookup n = some ix.placeholder ∧
        ∀ m, m ≠ n → q.declIndex.lookup m = p.declIndex.lookup m) ∧
    (∀ (fuel : Nat) (p : ix.iexporter) (done : List ix.Node),
      ix.declLoop body fuel p0 [] = some (p, done) →
      p.declTodo = [] ∧ done.Nodup ∧
      (∀ n, n ∈ done ↔ (p.declIndex.lookup n).isSome = true) ∧
      done.length = p.declIndex.length ∧
      (∀ n off, p.declIndex.lookup n = some off → off ≠ ix.placeholder) ∧
      (∀ n ∈ done, ix.Exportable g n) ∧
      (∀ n ∈ exportlist, ix.Exportable g n → n ∈ done)) ∧
    ((∀ n w, n ∈ U → (body n w).isSome = true) →
      ∃ p done, ix.declLoop body U.length p0 [] = some (p, done)) := by
  have hinit : ix.QueueInv g U pinit [] [] := by
    unfold ix.QueueInv
    rw [hi1, hi2]
    simp
  have h0 := pushAll_QueueInv g U exportlist pinit p0 hU hinit hpush
  refine ⟨?_, ?_, ?_, ?_⟩
  · intro p n s hs hw hc
    unfold ix.iexporter.pushDecl
    rw [hs]
    simp only
    have hw' : ¬ ((!n.defIsSelf && !n.isOTYPE) = true) := by
      rcases hw with h | h <;> simp [h]
    rw [if_neg hw']
    by_cases hb : s.Pkg = g.BuiltinPkg ∨ s.Pkg = g.unsafepkg
    · rw [if_pos hb]
    · rw [if_neg hb]
      rcases hc with hc | hc | hc
      · rw [if_pos hc]
      · exact absurd (Or.inl hc) hb
      · exact absurd (Or.inr hc) hb
  · intro p n s hs hw hl hb1 hb2
    refine ⟨{ p with declIndex := ix.mapSet p.declIndex n ix.placeholder,
                     declTodo := p.declTodo ++ [n] }, ?_, rfl, ?_, ?_⟩
    · unfold ix.iexporter.pushDecl
      rw [hs]
      simp only
      have hw' : ¬ ((!n.defIsSelf && !n.isOTYPE) = true) := by
        rcases hw with h | h <;> simp [h]
      rw [if_neg hw', if_neg (by tauto), hl]
      simp
    · show (ix.mapSet p.declIndex n ix.placeholder).lookup n = some ix.placeholder
      rw [mapSet_lookup, if_pos rfl]
    · intro m hm
      show (ix.mapSet p.declIndex n ix.placeholder).lookup m = p.declIndex.lookup m
      rw [mapSet_lookup, if_neg hm]
  · intro fuel p done hl
    obtain ⟨⟨i1, i2, i3, i4, i5, i6⟩, ht⟩ := declLoop_QueueInv g U body hbody fuel p0 [] _ h0 hl
    simp only at i1 i2 i3 i4 i5 i6 ht
    rw [ht] at i1 i3
    have hmem : ∀ n, n ∈ done ↔ (p.declIndex.lookup n).isSome = true := by
      intro n
      rw [lookup_isSome_iff, i3 n]
      simp
    have hnd : done.Nodup := by simpa using i1
    refine ⟨ht, hnd, hmem, ?_, ?_, ?_, ?_⟩
    · have hperm : done.Perm (p.declIndex.map Prod.fst) :=
        (List.perm_ext_iff_of_nodup hnd i2).2 (fun n => by rw [i3 n]; simp)
      rw [hperm.length_eq, List.length_map]
    · intro n off hn
      have : n ∈ done := (hmem n).2 (by rw [hn]; rfl)
      obtain ⟨off', h1, h2⟩ := i5 n this
      rw [hn] at h1
      cases h1
      exact h2
    · intro n hn
      exact (i6 n ((lookup_isSome_iff _ _).1 ((hmem n).1 hn))).1
    · intro n hn he
      have hk := (pushAll_keys g exportlist pinit p0 hpush).2 n hn he
      have : n ∈ p0.declTodo := by
        have := (h0.2.2.1 n).1 ((lookup_isSome_iff _ _).1 hk)
        simpa using this
      exact declLoop_done_mono g U body hbody fuel p0 [] _ hl n (Or.inl this)
  · intro htot
    obtain ⟨res, hres⟩ := declLoop_terminates g U body hbody htot U.length p0 [] h0 (by
      have := (List.dedup_sublist U).length_le
      simp only [List.length_nil, Nat.add_zero]
      exact this)
    exact ⟨res.1, res.2, hres⟩

theorem exampleBody_spec (U : List ix.Node) (n : ix.Node) (w w1 : ix.exportWriter)
    (h : ix.exampleBody n w = some w1) :
    ix.PushReach ix.exampleGlobals U w.p w1.p ∧ w1.p.data0.Len < 2 ^ 63 := by
  unfold ix.exampleBody at h
  by_cases hl : w.p.data0.Len < 2 ^ 63
  · rw [if_pos hl] at h
    cases h
    exact ⟨ix.PushReach.refl _, hl⟩
  · rw [if_neg hl] at h
    cases h

/-- Witness of `pushDecl_queue_once`: a session that exports the one declaration
`A`. -/
theorem pushDecl_queue_once_witness :
    ix.pushAll ix.exampleGlobals ix.iexporter.empty [ix.nodeA]
      = some { ix.iexporter.empty with
          declIndex := [(ix.nodeA, ix.placeholder)], declTodo := [ix.nodeA] } ∧
    ∀ (fuel : Nat) (p : ix.iexporter) (done : List ix.Node),
      ix.declLoop ix.exampleBody fuel
        { ix.iexporter.empty with
          declIndex := [(ix.nodeA, ix.placeholder)], declTodo := [ix.nodeA] } []
        = some (p, done) →
      p.declTodo = [] ∧ done.Nodup ∧
      (∀ n, n ∈ done ↔ (p.declIndex.lookup n).isSome = true) ∧
      done.length = p.declIndex.length ∧
      (∀ n off, p.declIndex.lookup n = some off → off ≠ ix.placeholder) ∧
      (∀ n ∈ done, ix.Exportable ix.exampleGlobals n) ∧
      (∀ n ∈ [ix.nodeA], ix.Exportable ix.exampleGlobals n → n ∈ done) :=
  ⟨rfl, (pushDecl_queue_once ix.exampleGlobals [ix.nodeA] ix.exampleBody
    (exampleBody_spec [ix.nodeA]) ix.iexporter.empty _ rfl rfl [ix.nodeA]
    (fun _ h => h) rfl).2.2.1⟩

theorem strLess_irrefl : ∀ (a : List Nat), strLess a a = false
  | [] => rfl
  | a :: as => by simp [strLess, strLess_irrefl as]

theorem strLess_asymm : ∀ (a b : List Nat), strLess a b = true → strLess b a = false
  | [], [], h => by simp [strLess] at h
  | [], _ :: _, _ => by simp [strLess]
  | _ :: _, [], h => by simp [strLess] at h
  | a :: as, b :: bs, h => by
    simp only [strLess, Bool.or_eq_true, decide_eq_true_eq, Bool.and_eq_true, beq_iff_eq] at h
    simp only [strLess, Bool.or_eq_false_iff, decide_eq_false_iff_not, Bool.and_eq_false_imp,
      beq_iff_eq]
    rcases h with h | ⟨rfl, h⟩
    · exact ⟨by omega, fun hc => by omega⟩
    · exact ⟨by omega, fun _ => strLess_asymm as bs h⟩

theorem strLess_total : ∀ (a b : List Nat), strLess a b = false → strLess b a = false → a = b
  | [], [], _, _ => rfl
  | [], _ :: _, h, _ => by simp [strLess] at h
  | _ :: _, [], _, h => by simp [strLess] at h
  | a :: as, b :: bs, h1, h2 => by
    simp only [strLess, Bool.or_eq_false_iff, decide_eq_false_iff_not, Bool.and_eq_false_imp,
      beq_iff_eq] at h1 h2
    have hab : a = b := by omega
    subst hab
    rw [strLess_total as bs (h1.2 rfl) (h2.2 rfl)]

/-- A list sorted by `sort.Slice` whose elements have pairwise different keys is
strictly increasing. -/
theorem sorted_strict {α : Type} (key : α → List Nat) (l : List α)
    (hs : l.Pairwise (fun a b => strLess (key b) (key a) = false)) (hnd : l.Nodup)
    (hinj : ∀ a ∈ l, ∀ b ∈ l, key a = key b → a = b) :
    l.Pairwise (fun a b => strLess (key a) (key b) = true) := by
  have hboth := hs.and hnd
  refine hboth.imp_of_mem ?_
  intro a b ha hb hab
  by_contra hc
  have hc' : strLess (key a) (key b) = false := by simpa using hc
  exact hab.2 (hinj a ha b hb (strLess_total _ _ hc' hab.1))

/-- Two strictly increasing lists with the same elements are equal. -/
theorem sorted_unique {α : Type} (key : α → List Nat) (l1 l2 : List α)
    (h1 : l1.Pairwise (fun a b => strLess (key a) (key b) = true))
    (h2 : l2.Pairwise (fun a b => strLess (key a) (key b) = true))
    (hm : ∀ x, x ∈ l1 ↔ x ∈ l2) : l1 = l2 := by
  have hne : ∀ a b : α, strLess (key a) (key b) = true → a ≠ b := by
    intro a b h hab
    subst hab
    rw [strLess_irrefl] at h
    cases h
  have n1 : l1.Nodup := h1.imp (fun {a b} h => hne a b h)
  have n2 : l2.Nodup := h2.imp (fun {a b} h => hne a b h)
  have hp : l1.Perm l2 := (List.perm_ext_iff_of_nodup n1 n2).2 hm
  haveI : IsAntisymm α (fun a b => strLess (key a) (key b) = true) :=
    ⟨fun a b hab hba => by rw [strLess_asymm _ _ hab] at hba; cases hba⟩
  exact List.eq_of_perm_of_sorted hp h1 h2

theorem lookup_map_snd {κ ν : Type} [DecidableEq κ] (f : ν → ν) (m : List (κ × ν)) (k : κ) :
    (m.map (fun e => (e.1, f e.2))).lookup k = (m.lookup k).map f := by
  induction m with
  | nil => rfl
  | cons e m ih =>
    obtain ⟨a, b⟩ := e
    rw [List.map_cons, lookup_cons_eq, lookup_cons_eq, ih]
    split_ifs <;> rfl

theorem mapSet_keys_nodup {κ ν : Type} [DecidableEq κ] (m : List (κ × ν)) (k : κ) (v : ν)
    (h : (m.map Prod.fst).Nodup) : ((ix.mapSet m k v).map Prod.fst).Nodup := by
  by_cases hk : (m.lookup k).isSome = true
  · rw [mapSet_keys_mem m k v hk]
    exact h
  · have hk' : (m.lookup k).isSome = false := by
      cases hx : (m.lookup k).isSome
      · rfl
      · exact absurd hx hk
    rw [mapSet_keys_new m k v hk']
    refine List.Nodup.append h (List.nodup_singleton k) ?_
    intro a ha hb
    rw [List.mem_singleton] at hb
    subst hb
    exact hk ((lookup_isSome_iff m a).2 ha)

theorem mapSet_keys_iff {κ ν : Type} [DecidableEq κ] (m : List (κ × ν)) (k k' : κ) (v : ν) :
    k' ∈ (ix.mapSet m k v).map Prod.fst ↔ k' = k ∨ k' ∈ m.map Prod.fst := by
  by_cases hk : (m.lookup k).isSome = true
  · rw [mapSet_keys_mem m k v hk]
    constructor
    · exact Or.inr
    · rintro (rfl | h)
      · exact (lookup_isSome_iff m k').1 hk
      · exact h
  · have hk' : (m.lookup k).isSome = false := by
      cases hx : (m.lookup k).isSome
      · rfl
      · exact absurd hx hk
    rw [mapSet_keys_new m k v hk', List.mem_append, List.mem_singleton]
    tauto

theorem objsGet_mapSet (m : List (Pkg × List ix.Node)) (k k' : Pkg) (v : List ix.Node) :
    ix.objsGet (ix.mapSet m k v) k' = if k' = k then v else ix.objsGet m k' := by
  unfold ix.objsGet
  rw [mapSet_lookup]
  split_ifs <;> rfl

theorem PkgObjsInv_pkgs : ∀ (l : List Pkg) (m : List (Pkg × List ix.Node)) (K : List Pkg),
    ix.PkgObjsInv m K [] →
    ix.PkgObjsInv (l.foldl (fun m pkg => ix.mapSet m pkg []) m) (K ++ l) [] := by
  intro l
  induction l with
  | nil =>
    intro m K h
    rw [List.append_nil]
    exact h
  | cons a rest ih =>
    intro m K h
    rw [List.foldl_cons]
    have := ih (ix.mapSet m a []) (K ++ [a]) (by
      obtain ⟨i1, i2, i3⟩ := h
      refine ⟨mapSet_keys_nodup m a [] i1, ?_, ?_⟩
      · intro pkg
        rw [mapSet_keys_iff, i2 pkg, List.mem_append, List.mem_singleton]
        simp
        tauto
      · intro pkg
        rw [objsGet_mapSet, i3 pkg]
        simp)
    rw [List.append_assoc] at this
    exact this

theorem PkgObjsInv_nodes : ∀ (l : List (ix.Node × Nat)) (m : List (Pkg × List ix.Node))
    (K : List Pkg) (ns : List ix.Node),
    ix.PkgObjsInv m K ns → (∀ e ∈ l, e.1.Sym.isSome = true) →
    ∃ m1, l.foldl (fun (om : Option (List (Pkg × List ix.Node))) e =>
        match om, e.1.Sym with
        | some m, some s => some (ix.mapSet m s.Pkg (ix.objsGet m s.Pkg ++ [e.1]))
        | _, _ => none) (some m) = some m1 ∧
      ix.PkgObjsInv m1 K (ns ++ l.map Prod.fst) := by
  intro l
  induction l with
  | nil =>
    intro m K ns h _
    exact ⟨m, rfl, by simpa using h⟩
  | cons e rest ih =>
    intro m K ns h hs
    obtain ⟨s, hsym⟩ := Option.isSome_iff_exists.1 (hs e (List.mem_cons_self _ _))
    rw [List.foldl_cons, hsym]
    simp only
    obtain ⟨i1, i2, i3⟩ := h
    obtain ⟨m1, e1, e2⟩ := ih (ix.mapSet m s.Pkg (ix.objsGet m s.Pkg ++ [e.1])) K (ns ++ [e.1])
      (by
        refine ⟨mapSet_keys_nodup _ _ _ i1, ?_, ?_⟩
        · intro pkg
          rw [mapSet_keys_iff, i2 pkg]
          constructor
          · rintro (rfl | h | ⟨n, hn, t, ht, rfl⟩)
            · exact Or.inr ⟨e.1, by simp, s, hsym, rfl⟩
            · exact Or.inl h
            · exact Or.inr ⟨n, by simp [hn], t, ht, rfl⟩
          · rintro (h | ⟨n, hn, t, ht, rfl⟩)
            · exact Or.inr (Or.inl h)
            · rcases List.mem_append.1 hn with hn | hn
              · exact Or.inr (Or.inr ⟨n, hn, t, ht, rfl⟩)
              · rw [List.mem_singleton] at hn
                subst hn
                rw [hsym] at ht
                cases ht
                exact Or.inl rfl
        · intro pkg
          rw [objsGet_mapSet, List.filter_append]
          by_cases hp : pkg = s.Pkg
          · subst hp
            rw [if_pos rfl, i3]
            simp [hsym]
          · rw [if_neg hp, i3]
            have : ¬ (s.Pkg = pkg) := fun h => hp h.symm
            simp [hsym, this])
      (fun e' he' => hs e' (List.mem_cons_of_mem _ he'))
    refine ⟨m1, e1, ?_⟩
    rw [List.append_assoc, List.singleton_append] at e2
    exact e2

theorem PkgObjsInv_empty : ix.PkgObjsInv [] [] [] := by
  refine ⟨List.nodup_nil, fun pkg => by simp, fun pkg => by simp [ix.objsGet]⟩

/-- The map `pkgObjs` that `writeIndex` builds. -/
theorem buildPkgObjs_spec (g : ix.Globals) (lib : ix.Lib) (allPkgs : List Pkg)
    (index : List (ix.Node × Nat)) (mainIndex : Bool)
    (hs : ∀ e ∈ index, e.1.Sym.isSome = true) (hlib : lib.Ok) :
    ∃ m, ix.buildPkgObjs g lib allPkgs index mainIndex = some m ∧
      ix.PkgObjsInv m (if mainIndex then g.LocalPkg :: lib.rangePkgs allPkgs else [])
        ((lib.rangeIndex index).map Prod.fst) := by
  have hs' : ∀ e ∈ lib.rangeIndex index, e.1.Sym.isSome = true :=
    fun e he => hs e ((hlib.2.1 index).mem_iff.1 he)
  unfold ix.buildPkgObjs
  cases mainIndex with
  | false =>
    simp only [Bool.false_eq_true, if_false]
    obtain ⟨m1, e1, e2⟩ := PkgObjsInv_nodes (lib.rangeIndex index) [] [] [] PkgObjsInv_empty hs'
    exact ⟨m1, e1, by simpa using e2⟩
  | true =>
    simp only [if_true]
    have h0 : ix.PkgObjsInv (ix.mapSet ([] : List (Pkg × List ix.Node)) g.LocalPkg [])
        [g.LocalPkg] [] := by
      refine ⟨by simp [ix.mapSet], fun pkg => by simp [ix.mapSet], fun pkg => ?_⟩
      rw [objsGet_mapSet]
      simp [ix.objsGet]
    have h1 := PkgObjsInv_pkgs (lib.rangePkgs allPkgs) _ _ h0
    obtain ⟨m1, e1, e2⟩ := PkgObjsInv_nodes (lib.rangeIndex index) _ _ [] h1 hs'
    exact ⟨m1, e1, by simpa using e2⟩

/-- The slices that `writeIndex` writes: the packages of the index in strictly
increasing order of path, each with its declarations in strictly increasing
order of name. -/
theorem indexEntries_spec (g : ix.Globals) (lib : ix.Lib) (allPkgs : List Pkg)
    (index : List (ix.Node × Nat)) (mainIndex : Bool) (m : List (Pkg × List ix.Node))
    (hlib : lib.Ok)
    (hinv : ix.PkgObjsInv m (if mainIndex then g.LocalPkg :: lib.rangePkgs allPkgs else [])
      ((lib.rangeIndex index).map Prod.fst))
    (hnd : (index.map Prod.fst).Nodup)
    (hpaths : ∀ pkg pkg1, ix.IndexPkg g allPkgs index mainIndex pkg →
      ix.IndexPkg g allPkgs index mainIndex pkg1 → pkg.Path = pkg1.Path → pkg = pkg1)
    (hnames : ∀ pkg n n1, ix.IndexObj index pkg n → ix.IndexObj index pkg n1 →
      n.name = n1.name → n = n1) :
    ∃ (pkgs : List Pkg) (f : Pkg → List ix.Node),
      ix.indexEntries lib m = pkgs.map (fun pkg => (pkg, f pkg)) ∧
      pkgs.Pairwise (fun a b => strLess a.Path b.Path = true) ∧
      (∀ pkg, pkg ∈ pkgs ↔ ix.IndexPkg g allPkgs index mainIndex pkg) ∧
      ∀ pkg ∈ pkgs, (f pkg).Pairwise (fun a b => strLess a.name b.name = true) ∧
        ∀ n, n ∈ f pkg ↔ ix.IndexObj index pkg n := by
  obtain ⟨l1, l2, l3, l4, l5⟩ := hlib
  obtain ⟨i1, i2, i3⟩ := hinv
  have hperm : (lib.sortPkgs ((lib.rangePkgObjs m).map Prod.fst)).Perm (m.map Prod.fst) :=
    (l5 _).1.trans ((l3 m).map Prod.fst)
  have hns : ((lib.rangeIndex index).map Prod.fst).Perm (index.map Prod.fst) :=
    (l2 index).map Prod.fst
  have hkey : ∀ pkg, pkg ∈ m.map Prod.fst ↔ ix.IndexPkg g allPkgs index mainIndex pkg := by
    intro pkg
    rw [i2 pkg]
    unfold ix.IndexPkg
    constructor
    · rintro (h | ⟨n, hn, s, hs, rfl⟩)
      · left
        cases mainIndex with
        | false => simp at h
        | true =>
          simp only [if_true, List.mem_cons] at h
          refine ⟨rfl, h.imp id (fun h => (l1 allPkgs).mem_iff.1 h)⟩
      · right
        obtain ⟨e, he, rfl⟩ := List.mem_map.1 (hns.mem_iff.1 hn)
        exact ⟨e, he, s, hs, rfl⟩
    · rintro (⟨hm, h⟩ | ⟨e, he, s, hs, rfl⟩)
      · left
        subst hm
        simp only [if_true, List.mem_cons]
        exact h.imp id (fun h => (l1 allPkgs).mem_iff.2 h)
      · right
        exact ⟨e.1, hns.mem_iff.2 (List.mem_map_of_mem _ he), s, hs, rfl⟩
  have hobj : ∀ pkg n, n ∈ ix.objsGet m pkg ↔ ix.IndexObj index pkg n := by
    intro pkg n
    rw [i3 pkg, List.mem_filter, hns.mem_iff]
    unfold ix.IndexObj
    simp only [decide_eq_true_eq, Option.map_eq_some']
  have hobjnd : ∀ pkg, (ix.objsGet m pkg).Nodup := by
    intro pkg
    rw [i3 pkg]
    exact (hns.nodup_iff.2 hnd).filter _
  refine ⟨lib.sortPkgs ((lib.rangePkgObjs m).map Prod.fst),
    fun pkg => lib.sortObjs (ix.objsGet m pkg), ?_, ?_, ?_, ?_⟩
  · unfold ix.indexEntries
    simp only
    apply List.map_congr_left
    intro pkg hpkg
    have hk : pkg ∈ m.map Prod.fst := hperm.mem_iff.1 hpkg
    obtain ⟨v, hv⟩ := Option.isSome_iff_exists.1 ((lookup_isSome_iff m pkg).2 hk)
    simp only [ix.objsGet, lookup_map_snd, hv, Option.map_some', Option.getD_some]
  · refine sorted_strict (fun p : Pkg => p.Path) _ (l5 _).2 (hperm.nodup_iff.2 i1) ?_
    intro a ha b hb hab
    exact hpaths a b ((hkey a).1 (hperm.mem_iff.1 ha)) ((hkey b).1 (hperm.mem_iff.1 hb)) hab
  · intro pkg
    rw [hperm.mem_iff, hkey]
  · intro pkg _
    have hp := (l4 (ix.objsGet m pkg)).1
    refine ⟨sorted_strict (fun n : ix.Node => n.name) _ (l4 _).2 (hp.nodup_iff.2 (hobjnd pkg)) ?_,
      fun n => by rw [hp.mem_iff, hobj]⟩
    intro a ha b hb hab
    exact hnames pkg a b ((hobj pkg a).1 (hp.mem_iff.1 ha)) ((hobj pkg b).1 (hp.mem_iff.1 hb)) hab

/-- The slices that `writeIndex` writes are determined by the index. -/
theorem indexEntries_unique (pkgs1 pkgs2 : List Pkg) (f1 f2 : Pkg → List ix.Node)
    (P : Pkg → Prop) (Q : Pkg → ix.Node → Prop)
    (s1 : pkgs1.Pairwise (fun a b => strLess a.Path b.Path = true))
    (s2 : pkgs2.Pairwise (fun a b => strLess a.Path b.Path = true))
    (m1 : ∀ pkg, pkg ∈ pkgs1 ↔ P pkg) (m2 : ∀ pkg, pkg ∈ pkgs2 ↔ P pkg)
    (o1 : ∀ pkg ∈ pkgs1, (f1 pkg).Pairwise (fun a b => strLess a.name b.name = true) ∧
      ∀ n, n ∈ f1 pkg ↔ Q pkg n)
    (o2 : ∀ pkg ∈ pkgs2, (f2 pkg).Pairwise (fun a b => strLess a.name b.name = true) ∧
      ∀ n, n ∈ f2 pkg ↔ Q pkg n) :
    pkgs1.map (fun pkg => (pkg, f1 pkg)) = pkgs2.map (fun pkg => (pkg, f2 pkg)) := by
  have hp : pkgs1 = pkgs2 :=
    sorted_unique (fun p : Pkg => p.Path) pkgs1 pkgs2 s1 s2 (fun x => by rw [m1, m2])
  subst hp
  apply List.map_congr_left
  intro pkg hpkg
  obtain ⟨a1, a2⟩ := o1 pkg hpkg
  obtain ⟨b1, b2⟩ := o2 pkg hpkg
  rw [sorted_unique (fun n : ix.Node => n.name) (f1 pkg) (f2 pkg) a1 b1
    (fun x => by rw [a2, b2])]

theorem strLess_le_trans : ∀ (a b c : List Nat),
    strLess b a = false → strLess c b = false → strLess c a = false
  | [], _, [], _, _ => rfl
  | [], _, _ :: _, _, _ => rfl
  | _ :: _, [], _, h, _ => by simp [strLess] at h
  | _ :: _, _ :: _, [], _, h => by simp [strLess] at h
  | a :: as, b :: bs, c :: cs, h1, h2 => by
    simp only [strLess, Bool.or_eq_false_iff, decide_eq_false_iff_not, Bool.and_eq_false_imp,
      beq_iff_eq] at h1 h2 ⊢
    refine ⟨by omega, fun hca => ?_⟩
    subst hca
    have hab : b = c := by omega
    subst hab
    exact strLess_le_trans as bs cs (h1.2 rfl) (h2.2 rfl)

theorem insertionSort_key_ok {α : Type} (key : α → List Nat) (l : List α) :
    (l.insertionSort (fun a b => strLess (key b) (key a) = false)).Perm l ∧
    (l.insertionSort (fun a b => strLess (key b) (key a) = false)).Pairwise
      (fun a b => strLess (key b) (key a) = false) := by
  haveI : IsTotal α (fun a b => strLess (key b) (key a) = false) := ⟨fun a b => by
    cases h : strLess (key b) (key a) with
    | false => exact Or.inl rfl
    | true => exact Or.inr (strLess_asymm _ _ h)⟩
  haveI : IsTrans α (fun a b => strLess (key b) (key a) = false) :=
    ⟨fun a b c h1 h2 => strLess_le_trans (key a) (key b) (key c) h1 h2⟩
  exact ⟨List.perm_insertionSort _ l, List.sorted_insertionSort _ l⟩

theorem exampleLib_Ok : ix.exampleLib.Ok :=
  ⟨fun l => List.Perm.refl l, fun l => List.reverse_perm l, fun l => List.Perm.refl l,
    fun l => insertionSort_key_ok (fun n : ix.Node => n.name) l,
    fun l => insertionSort_key_ok (fun p : Pkg => p.Path) l⟩

/-- C18: the index that `writeIndex` produces is canonical. For every index map
whose declarations have symbols, with distinct names inside a package and distinct
paths of the packages listed, and for any two behaviours of map iteration and
of `sort.Slice`, the method writes the same: the number of packages, then the
packages in strictly increasing order of path, each with the number of its
declarations and the declarations in strictly increasing order of name. The
packages listed are those of the declarations and, in the main index, the local
package and every package referenced during the export, with or without
declarations; each package of the main index is written with path, name and
height, each package of the inline index with its path only. -/
theorem writeIndex_canonical (g : ix.Globals) (lib1 lib2 : ix.Lib) (h1 : lib1.Ok)
    (h2 : lib2.Ok) (w : ix.exportWriter) (index : List (ix.Node × Nat)) (mainIndex : Bool)
    (hs : ∀ e ∈ index, e.1.Sym.isSome = true) (hnd : (index.map Prod.fst).Nodup)
    (hpaths : ∀ pkg pkg1, ix.IndexPkg g w.p.allPkgs index mainIndex pkg →
      ix.IndexPkg g w.p.allPkgs index mainIndex pkg1 → pkg.Path = pkg1.Path → pkg = pkg1)
    (hnames : ∀ pkg n n1, ix.IndexObj index pkg n → ix.IndexObj index pkg n1 →
      n.name = n1.name → n = n1) :
    ∃ (pkgs : List Pkg) (f : Pkg → List ix.Node),
      w.writeIndex g lib1 index mainIndex
        = some ((w.uint64 pkgs.length).writePkgs index mainIndex
            (pkgs.map (fun pkg => (pkg, f pkg)))) ∧
      w.writeIndex g lib2 index mainIndex = w.writeIndex g lib1 index mainIndex ∧
      pkgs.Pairwise (fun a b => strLess a.Path b.Path = true) ∧
      (∀ pkg, pkg ∈ pkgs ↔ ix.IndexPkg g w.p.allPkgs index mainIndex pkg) ∧
      (∀ pkg ∈ pkgs, (f pkg).Pairwise (fun a b => strLess a.name b.name = true) ∧
        ∀ n, n ∈ f pkg ↔ ix.IndexObj index pkg n) ∧
      (mainIndex = true → g.LocalPkg ∈ pkgs ∧ ∀ pkg ∈ w.p.allPkgs, pkg ∈ pkgs) ∧
      (∀ (w1 : ix.exportWriter) (pkg : Pkg) (objs : List ix.Node)
          (rest : List (Pkg × List ix.Node)),
        w1.writePkgs index false ((pkg, objs) :: rest)
          = ix.exportWriter.writePkgs
              (((w1.string pkg.Path).uint64 objs.length).writeObjs index objs) index false rest ∧
        w1.writePkgs index true ((pkg, objs) :: rest)
          = ix.exportWriter.writePkgs
              (((((w1.string pkg.Path).string pkg.Name).uint64 pkg.Height).uint64
                objs.length).writeObjs index objs) index true rest) := by
  obtain ⟨m1, b1, v1⟩ := buildPkgObjs_spec g lib1 w.p.allPkgs index mainIndex hs h1
  obtain ⟨m2, b2, v2⟩ := buildPkgObjs_spec g lib2 w.p.allPkgs index mainIndex hs h2
  obtain ⟨pkgs1, f1, e1, s1, k1, o1⟩ :=
    indexEntries_spec g lib1 w.p.allPkgs index mainIndex m1 h1 v1 hnd hpaths hnames
  obtain ⟨pkgs2, f2, e2, s2, k2, o2⟩ :=
    indexEntries_spec g lib2 w.p.allPkgs index mainIndex m2 h2 v2 hnd hpaths hnames
  have heq := indexEntries_unique pkgs1 pkgs2 f1 f2 _ _ s1 s2 k1 k2 o1 o2
  have hw1 : w.writeIndex g lib1 index mainIndex
      = some ((w.uint64 pkgs1.length).writePkgs index mainIndex
          (pkgs1.map (fun pkg => (pkg, f1 pkg)))) := by
    unfold ix.exportWriter.writeIndex
    rw [b1]
    simp only [e1, List.length_map]
  have hw2 : w.writeIndex g lib2 index mainIndex
      = some ((w.uint64 pkgs2.length).writePkgs index mainIndex
          (pkgs2.map (fun pkg => (pkg, f2 pkg)))) := by
    unfold ix.exportWriter.writeIndex
    rw [b2]
    simp only [e2, List.length_map]
  have hlen : pkgs2.length = pkgs1.length := by
    have := congrArg List.length heq
    simpa using this.symm
  refine ⟨pkgs1, f1, hw1, ?_, s1, k1, o1, ?_, fun w1 pkg objs rest => ⟨rfl, rfl⟩⟩
  · rw [hw1, hw2, ← heq, hlen]
  · intro hm
    exact ⟨(k1 _).2 (Or.inl ⟨hm, Or.inl rfl⟩), fun pkg hp => (k1 _).2 (Or.inl ⟨hm, Or.inr hp⟩)⟩

theorem exampleLib2_Ok : ix.exampleLib2.Ok :=
  ⟨fun l => List.Perm.refl l, fun l => List.Perm.refl l, fun l => List.Perm.refl l,
    fun l => insertionSort_key_ok (fun n : ix.Node => n.name) l,
    fun l => insertionSort_key_ok (fun p : Pkg => p.Path) l⟩

theorem exampleIndex_pkg (pkg : Pkg)
    (h : ix.IndexPkg ix.exampleGlobals [] ix.exampleIndex true pkg) :
    pkg = ⟨0, [112], [112], 0⟩ := by
  rcases h with ⟨-, h | h⟩ | ⟨e, he, s, hs, rfl⟩
  · exact h
  · simp at h
  · simp only [ix.exampleIndex, List.mem_cons, List.mem_singleton, List.not_mem_nil,
      or_false] at he
    rcases he with rfl | rfl
    · simp only [ix.nodeB, Option.some.injEq] at hs
      subst hs
      rfl
    · simp only [ix.nodeA, Option.some.injEq] at hs
      subst hs
      rfl

theorem exampleIndex_names (pkg : Pkg) (n n1 : ix.Node)
    (h : ix.IndexObj ix.exampleIndex pkg n) (h1 : ix.IndexObj ix.exampleIndex pkg n1)
    (hn : n.name = n1.name) : n = n1 := by
  obtain ⟨a, -⟩ := h
  obtain ⟨b, -⟩ := h1
  simp only [ix.exampleIndex, List.map_cons, List.map_nil, List.mem_cons, List.mem_singleton,
    List.not_mem_nil, or_false] at a b
  rcases a with rfl | rfl <;> rcases b with rfl | rfl
  · rfl
  · simp [ix.Node.name, ix.nodeA, ix.nodeB] at hn
  · simp [ix.Node.name, ix.nodeA, ix.nodeB] at hn
  · rfl

/-- Witness of `writeIndex_canonical`: the main index of the declarations `B` and
`A` is the same whether the map is visited forwards or backwards. -/
theorem writeIndex_canonical_witness :
    ix.exampleLib.Ok ∧ ix.exampleLib2.Ok ∧
    (∀ e ∈ ix.exampleIndex, e.1.Sym.isSome = true) ∧
    (ix.exampleIndex.map Prod.fst).Nodup ∧
    ix.iexporter.empty.newWriter.writeIndex ix.exampleGlobals ix.exampleLib2 ix.exampleIndex true
      = ix.iexporter.empty.newWriter.writeIndex ix.exampleGlobals ix.exampleLib
          ix.exampleIndex true :=
  ⟨exampleLib_Ok, exampleLib2_Ok, by decide, by decide,
    (writeIndex_canonical ix.exampleGlobals ix.exampleLib ix.exampleLib2 exampleLib_Ok
      exampleLib2_Ok ix.iexporter.empty.newWriter ix.exampleIndex true (by decide) (by decide)
      (fun pkg pkg1 h h1 _ => (exampleIndex_pkg pkg h).trans (exampleIndex_pkg pkg1 h1).symm)
      exampleIndex_names).elim (fun _ h => h.elim (fun _ h => h.2.1))⟩

theorem Appends_refl (w : ix.exportWriter) : w.Appends w :=
  ⟨List.prefix_refl _, List.prefix_refl _, rfl, rfl, rfl, rfl, rfl, rfl⟩

theorem Appends_trans (w w1 w2 : ix.exportWriter) (h1 : w.Appends w1) (h2 : w1.Appends w2) :
    w.Appends w2 := by
  obtain ⟨a1, a2, a3, a4, a5, a6, a7, a8⟩ := h1
  obtain ⟨b1, b2, b3, b4, b5, b6, b7, b8⟩ := h2
  exact ⟨a1.trans b1, a2.trans b2, b3.trans a3, b4.trans a4, b5.trans a5, b6.trans a6,
    b7.trans a7, b8.trans a8⟩

theorem Appends_uint64 (w : ix.exportWriter) (x : Nat) : w.Appends (w.uint64 x) :=
  ⟨List.prefix_append _ _, List.prefix_refl _, rfl, rfl, rfl, rfl, rfl, rfl⟩

theorem Appends_string (w : ix.exportWriter) (s : List Nat) : w.Appends (w.string s) :=
  ⟨List.prefix_append _ _, stringOff_strings_extends _ s, rfl, rfl, rfl, rfl, rfl, rfl⟩

theorem Appends_writeObjs (index : List (ix.Node × Nat)) : ∀ (objs : List ix.Node)
    (w : ix.exportWriter), w.Appends (w.writeObjs index objs)
  | [], w => Appends_refl w
  | n :: rest, w => by
    rw [ix.exportWriter.writeObjs]
    exact Appends_trans _ _ _ (Appends_trans _ _ _ (Appends_string w _) (Appends_uint64 _ _))
      (Appends_writeObjs index rest _)

theorem Appends_writePkgs (index : List (ix.Node × Nat)) (mainIndex : Bool) :
    ∀ (entries : List (Pkg × List ix.Node)) (w : ix.exportWriter),
      w.Appends (w.writePkgs index mainIndex entries)
  | [], w => Appends_refl w
  | (pkg, objs) :: rest, w => by
    rw [ix.exportWriter.writePkgs]
    refine Appends_trans _ _ _ ?_ (Appends_writePkgs index mainIndex rest _)
    refine Appends_trans _ _ _ ?_ (Appends_writeObjs index objs _)
    refine Appends_trans _ _ _ ?_ (Appends_uint64 _ _)
    cases mainIndex with
    | false => exact Appends_string w _
    | true =>
      exact Appends_trans _ _ _ (Appends_trans _ _ _ (Appends_string w _) (Appends_string _ _))
        (Appends_uint64 _ _)

theorem Appends_writeIndex (g : ix.Globals) (lib : ix.Lib) (w w1 : ix.exportWriter)
    (index : List (ix.Node × Nat)) (mainIndex : Bool)
    (h : w.writeIndex g lib index mainIndex = some w1) : w.Appends w1 := by
  unfold ix.exportWriter.writeIndex at h
  cases hb : ix.buildPkgObjs g lib w.p.allPkgs index mainIndex with
  | none => rw [hb] at h; cases h
  | some m =>
    rw [hb] at h
    simp only [Option.some.injEq] at h
    subst h
    exact Appends_trans _ _ _ (Appends_uint64 _ _) (Appends_writePkgs _ _ _ _)

theorem writeIndex_total (g : ix.Globals) (lib : ix.Lib) (w : ix.exportWriter)
    (index : List (ix.Node × Nat)) (mainIndex : Bool) (hlib : lib.Ok)
    (hs : ∀ e ∈ index, e.1.Sym.isSome = true) :
    ∃ w1, w.writeIndex g lib index mainIndex = some w1 := by
  obtain ⟨m, hm, -⟩ := buildPkgObjs_spec g lib w.p.allPkgs index mainIndex hs hlib
  unfold ix.exportWriter.writeIndex
  rw [hm]
  exact ⟨_, rfl⟩

theorem fingerprint_length (sum : List Nat) : (ix.fingerprint sum).length = 8 := by
  unfold ix.fingerprint
  rw [List.length_take, List.length_append, List.length_replicate]
  omega

/-- The layout of what the end of `iexport` writes. -/
theorem iexportOutput_spec (g : ix.Globals) (lib : ix.Lib) (md5 : List Nat → List Nat)
    (p : ix.iexporter) (out : List Nat) (h : ix.iexportOutput g lib md5 p = some out) :
    ∃ (strs idxMain idxInline fp : List Nat),
      out = ([105] ++ PutUvarint iexportVersion ++ PutUvarint strs.length
          ++ PutUvarint p.data0.Len) ++ strs ++ p.data0.buf ++ idxMain ++ idxInline ++ fp ∧
      fp.length = 8 ∧ p.strtab.strings.buf <+: strs ∧
      ∃ w1 w2, p.newWriter.writeIndex g lib p.declIndex true = some w1 ∧
        w1.writeIndex g lib p.inlineIndex false = some w2 ∧
        w1.data.buf = idxMain ∧ w2.data.buf = idxMain ++ idxInline ∧
        w2.p.strtab.strings.buf = strs := by
  unfold ix.iexportOutput at h
  simp only at h
  cases h1 : p.newWriter.writeIndex g lib p.declIndex true with
  | none => rw [h1] at h; cases h
  | some w1 =>
    rw [h1] at h
    simp only at h
    cases h2 : w1.writeIndex g lib w1.p.inlineIndex false with
    | none => rw [h2] at h; cases h
    | some w2 =>
      rw [h2] at h
      simp only [Option.some.injEq] at h
      obtain ⟨a1, a2, a3, a4, a5, a6, a7, a8⟩ := Appends_writeIndex g lib _ w1 _ _ h1
      obtain ⟨b1, b2, b3, b4, b5, b6, b7, b8⟩ := Appends_writeIndex g lib w1 w2 _ _ h2
      obtain ⟨idxInline, hi⟩ := b1
      have hinl : w1.p.inlineIndex = p.inlineIndex := a5
      rw [hinl] at h2
      have hd0 : w2.p.data0 = p.data0 := b3.trans a3
      refine ⟨w2.p.strtab.strings.buf, w1.data.buf, idxInline,
        ix.fingerprint (md5 (((((intWriter.Write ⟨[]⟩ [105]).uint64 iexportVersion).uint64
          w2.flush.2.strtab.strings.Len).uint64 p.data0.Len).buf
          ++ w2.flush.2.strtab.strings.buf ++ w2.flush.2.data0.buf)),
        ?_, fingerprint_length _, a2.trans b2, w1, w2, rfl, h2, rfl, hi.symm, rfl⟩
      rw [← h]
      simp only [ix.exportWriter.flush, intWriter.Write, intWriter.uint64, intWriter.Len, hd0,
        List.nil_append, List.append_assoc, ← hi]

theorem iexportOutput_total (g : ix.Globals) (lib : ix.Lib) (md5 : List Nat → List Nat)
    (p : ix.iexporter) (hlib : lib.Ok) (hd : ∀ e ∈ p.declIndex, e.1.Sym.isSome = true)
    (hi : ∀ e ∈ p.inlineIndex, e.1.Sym.isSome = true) :
    ∃ out, ix.iexportOutput g lib md5 p = some out := by
  obtain ⟨w1, h1⟩ := writeIndex_total g lib p.newWriter p.declIndex true hlib hd
  have a5 : w1.p.inlineIndex = p.inlineIndex := (Appends_writeIndex g lib _ w1 _ _ h1).2.2.2.2.1
  obtain ⟨w2, h2⟩ := writeIndex_total g lib w1 w1.p.inlineIndex false hlib (by rw [a5]; exact hi)
  unfold ix.iexportOutput
  simp only [h1, h2]
  exact ⟨_, rfl⟩

theorem drop_three (H S D R : List Nat) :
    (H ++ S ++ D ++ R).drop (H.length + (S.length + D.length)) = R := by
  have : (H ++ S ++ D).length = H.length + (S.length + D.length) := by
    simp only [List.length_append]
    omega
  rw [← this]
  exact List.drop_left _ _

/-- C17: the output of `iexport` is the header (the byte `'i'`, the uvarint of the
version 1, the uvarint of `StringSize` and the uvarint of `DataSize`) followed by
the string section, the data section, the main index, the inline index and a
fingerprint of 8 bytes. `StringSize` is the length of the string section at the
end (after the indices were written, which may add strings), and `DataSize` is
the length of the data section of the exporter `p` at the moment the queue is
empty, before the indices are appended; so the main index starts exactly
`StringSize + DataSize` bytes after the end of the header. -/
theorem iexport_layout (g : ix.Globals) (lib : ix.Lib) (md5 : List Nat → List Nat)
    (body : ix.Node → ix.exportWriter → Option ix.exportWriter)
    (predeclared : List Nat) (exportlist : List ix.Node) (fuel : Nat) (out : List Nat)
    (h : ix.iexport g lib md5 body predeclared exportlist fuel = some out) :
    ∃ (p : ix.iexporter) (hdr strs idxMain idxInline fp : List Nat),
      out = hdr ++ strs ++ p.data0.buf ++ idxMain ++ idxInline ++ fp ∧
      hdr = [105] ++ PutUvarint 1 ++ PutUvarint strs.length ++ PutUvarint p.data0.Len ∧
      fp.length = 8 ∧
      out.drop (hdr.length + (strs.length + p.data0.Len)) = idxMain ++ idxInline ++ fp ∧
      (∃ ps p0 done, ix.iexporter.setup predeclared = some ps ∧
        ix.pushAll g ps exportlist = some p0 ∧
        ix.declLoop body fuel p0 [] = some (p, done) ∧ p.declTodo = []) ∧
      p.strtab.strings.buf <+: strs ∧
      ∃ w1 w2, p.newWriter.writeIndex g lib p.declIndex true = some w1 ∧
        w1.writeIndex g lib p.inlineIndex false = some w2 ∧
        w1.data.buf = idxMain ∧ w2.data.buf = idxMain ++ idxInline ∧
        w2.p.strtab.strings.buf = strs := by
  unfold ix.iexport at h
  cases hs : ix.iexporter.setup predeclared with
  | none => rw [hs] at h; cases h
  | some ps =>
    rw [hs] at h
    simp only at h
    cases hp : ix.pushAll g ps exportlist with
    | none => rw [hp] at h; cases h
    | some p0 =>
      rw [hp] at h
      simp only at h
      cases hl : ix.declLoop body fuel p0 [] with
      | none => rw [hl] at h; cases h
      | some res =>
        obtain ⟨p, done⟩ := res
        rw [hl] at h
        simp only at h
        obtain ⟨strs, idxMain, idxInline, fp, e1, e2, e3, e4⟩ :=
          iexportOutput_spec g lib md5 p out h
        have hempty : p.declTodo = [] := by
          have : ∀ (fuel : Nat) (q : ix.iexporter) (d : List ix.Node)
              (r : ix.iexporter × List ix.Node),
              ix.declLoop body fuel q d = some r → r.1.declTodo = [] := by
            intro fuel
            induction fuel with
            | zero =>
              intro q d r hr
              unfold ix.declLoop at hr
              by_cases ht : q.declTodo = []
              · rw [if_pos ht] at hr
                cases hr
                exact ht
              · rw [if_neg ht] at hr
                cases hr
            | succ fuel ih =>
              intro q d r hr
              unfold ix.declLoop at hr
              cases ht : q.declTodo with
              | nil =>
                rw [ht] at hr
                cases hr
                exact ht
              | cons n rest =>
                rw [ht] at hr
                simp only at hr
                cases hd : ix.iexporter.doDecl body { q with declTodo := rest } n with
                | none => rw [hd] at hr; cases hr
                | some q1 =>
                  rw [hd] at hr
                  exact ih q1 _ r hr
          exact this fuel p0 [] (p, done) hl
        refine ⟨p, [105] ++ PutUvarint 1 ++ PutUvarint strs.length ++ PutUvarint p.data0.Len,
          strs, idxMain, idxInline, fp, e1, rfl, e2, ?_, ⟨ps, p0, done, rfl, hp, hl, hempty⟩,
          e3, e4⟩
        have e1' : out = ([105] ++ PutUvarint 1 ++ PutUvarint strs.length
            ++ PutUvarint p.data0.Len) ++ strs ++ p.data0.buf
            ++ (idxMain ++ idxInline ++ fp) := by
          rw [e1]
          simp only [iexportVersion, List.append_assoc]
        rw [e1']
        exact drop_three _ _ _ _

theorem iexport_example :
    ∃ out, ix.iexport ix.exampleGlobals ix.exampleLib (fun _ => []) ix.exampleBody []
      [ix.nodeA] 1 = some out := by
  have h3 : ix.declLoop ix.exampleBody 1
      { ix.iexporter.empty with
        declIndex := [(ix.nodeA, ix.placeholder)], declTodo := [ix.nodeA] } []
      = some ({ ix.iexporter.empty with declIndex := [(ix.nodeA, 0)] }, [ix.nodeA]) := by
    decide
  obtain ⟨out, ho⟩ := iexportOutput_total ix.exampleGlobals ix.exampleLib (fun _ => [])
    { ix.iexporter.empty with declIndex := [(ix.nodeA, 0)] } exampleLib_Ok (by decide)
    (by decide)
  refine ⟨out, ?_⟩
  unfold ix.iexport
  have h1 : ix.iexporter.setup [] = some ix.iexporter.empty := by decide
  have h2 : ix.pushAll ix.exampleGlobals ix.iexporter.empty [ix.nodeA]
      = some { ix.iexporter.empty with
          declIndex := [(ix.nodeA, ix.placeholder)], declTodo := [ix.nodeA] } := by decide
  rw [h1]
  simp only [h2, h3]
  exact ho

/-- Witness of `iexport_layout`: the export of the one declaration `A`. -/
theorem iexport_layout_witness :
    ∃ out, ix.iexport ix.exampleGlobals ix.exampleLib (fun _ => []) ix.exampleBody []
        [ix.nodeA] 1 = some out ∧
      ∃ (p : ix.iexporter) (hdr strs idxMain idxInline fp : List Nat),
        out = hdr ++ strs ++ p.data0.buf ++ idxMain ++ idxInline ++ fp ∧
        hdr = [105] ++ PutUvarint 1 ++ PutUvarint strs.length ++ PutUvarint p.data0.Len ∧
        fp.length = 8 ∧
        out.drop (hdr.length + (strs.length + p.data0.Len)) = idxMain ++ idxInline ++ fp :=
  iexport_example.elim (fun out h => ⟨out, h,
    (iexport_layout ix.exampleGlobals ix.exampleLib (fun _ => []) ix.exampleBody []
      [ix.nodeA] 1 out h).elim (fun p hp => ⟨p, hp.elim (fun hdr hh => ⟨hdr,
        hh.elim (fun strs hs => ⟨strs, hs.elim (fun a ha => ⟨a, ha.elim (fun b hb => ⟨b,
          hb.elim (fun fp hf => ⟨fp, hf.1, hf.2.1, hf.2.2.1, hf.2.2.2.1⟩)⟩)⟩)⟩)⟩)⟩)⟩)

theorem Same_refl (p : ix.iexporter) : p.Same p := ⟨rfl, rfl⟩

theorem Same_trans (p q r : ix.iexporter) (h1 : p.Same q) (h2 : q.Same r) : p.Same r :=
  ⟨h2.1.trans h1.1, h2.2.trans h1.2⟩

theorem Step_refl (predeclared : List Nat) (p : ix.iexporter) :
    ix.iexporter.Step predeclared p p :=
  ⟨fun h => h, fun _ _ h => h, List.prefix_refl _⟩

theorem Step_trans (predeclared : List Nat) (p q r : ix.iexporter)
    (h1 : ix.iexporter.Step predeclared p q) (h2 : ix.iexporter.Step predeclared q r) :
    ix.iexporter.Step predeclared p r :=
  ⟨fun h => h2.1 (h1.1 h), fun id off h => h2.2.1 id off (h1.2.1 id off h), h1.2.2.trans h2.2.2⟩

theorem Step_of_same (predeclared : List Nat) (p q : ix.iexporter) (h : p.Same q) :
    ix.iexporter.Step predeclared p q := by
  obtain ⟨h1, h2⟩ := h
  refine ⟨fun hp => ?_, fun id off hl => ?_, ?_⟩
  · rw [h1]; exact hp
  · rw [h1]; exact hl
  · rw [h2]

theorem uint64_same (w : ix.exportWriter) (x : Nat) : w.p.Same (w.uint64 x).p := ⟨rfl, rfl⟩

theorem string_same (w : ix.exportWriter) (s : List Nat) : w.p.Same (w.string s).p :=
  ⟨rfl, rfl⟩

theorem pkg_same (w : ix.exportWriter) (pkg : Pkg) : w.p.Same (w.pkg pkg).p := ⟨rfl, rfl⟩

theorem pos_same (w : ix.exportWriter) (file : List Nat) (line column : Int) :
    w.p.Same (w.pos file line column).p := by
  unfold ix.exportWriter.pos
  dsimp only
  split_ifs <;> exact ⟨rfl, rfl⟩

theorem setPkg_same (g : ix.Globals) (w : ix.exportWriter) (pkg : Option Pkg)
    (write : Bool) : w.p.Same (w.setPkg g pkg write).p := by
  unfold ix.exportWriter.setPkg
  cases write <;> exact ⟨rfl, rfl⟩

theorem pushDecl_same (g : ix.Globals) (p q : ix.iexporter) (n : ix.Node)
    (h : p.pushDecl g n = some q) : p.Same q := by
  obtain ⟨s, -, -, ⟨-, rfl⟩ | ⟨-, -, -, rfl⟩⟩ := pushDecl_cases g p q n h
  · exact ⟨rfl, rfl⟩
  · exact ⟨rfl, rfl⟩

theorem qualifiedIdent_same (g : ix.Globals) (w w1 : ix.exportWriter) (n : ix.Node)
    (h : w.qualifiedIdent g n = some w1) : w.p.Same w1.p := by
  unfold ix.exportWriter.qualifiedIdent at h
  cases hp : w.p.pushDecl g n with
  | none => rw [hp] at h; simp at h
  | some p1 =>
    rw [hp, Option.some_bind] at h
    cases hs : n.Sym with
    | none => rw [hs] at h; simp at h
    | some s =>
      rw [hs] at h
      simp only [Option.some.injEq] at h
      rw [← h]
      exact pushDecl_same g w.p p1 n hp

theorem selector_same (g : ix.Globals) (w w1 : ix.exportWriter) (s : Option ix.Sym)
    (h : w.selector g s = some w1) : w.p.Same w1.p := by
  unfold ix.exportWriter.selector at h
  cases hc : w.currPkg with
  | none => rw [hc] at h; simp at h
  | some c =>
    rw [hc] at h
    cases s with
    | none => simp at h
    | some s =>
      dsimp only at h
      split_ifs at h <;> simp only [Option.some.injEq] at h <;> rw [← h] <;> exact ⟨rfl, rfl⟩

theorem localIdent_same (g : ix.Globals) (w w1 : ix.exportWriter) (s : Option ix.Sym)
    (v : Int) (h : w.localIdent g s v = some w1) : w.p.Same w1.p := by
  unfold ix.exportWriter.localIdent at h
  cases s with
  | none =>
    simp only [Option.some.injEq] at h
    rw [← h]; exact ⟨rfl, rfl⟩
  | some s =>
    dsimp only at h
    split_ifs at h <;> simp only [Option.some.injEq] at h <;> rw [← h] <;> exact ⟨rfl, rfl⟩

theorem TypIndexInv_set (predeclared : List Nat) (m : List (Nat × Nat)) (id off : Nat)
    (hm : ix.TypIndexInv predeclared m) (hid : id ∉ predeclared) (ho : predeclReserved ≤ off) :
    ix.TypIndexInv predeclared (ix.mapSet m id off) := by
  refine ⟨fun i hi => ?_, fun i o h hi => ?_⟩
  · rw [mapSet_lookup, if_neg (fun (e : i = id) => hid (e ▸ hi))]
    exact hm.1 i hi
  · rw [mapSet_lookup] at h
    by_cases e : i = id
    · rw [if_pos e] at h
      simp only [Option.some.injEq] at h
      omega
    · rw [if_neg e] at h
      exact hm.2 i o h hi

theorem typOffWith_cases (doTyp : ix.exportWriter → Option ix.exportWriter) (id : Nat)
    (p p1 : ix.iexporter) (off : Nat) (h : p.typOffWith doTyp id = some (off, p1)) :
    (p.typIndex.lookup id = some off ∧ p1 = p) ∨
    (p.typIndex.lookup id = none ∧ ∃ w, doTyp p.newWriter = some w ∧
      off = predeclReserved + w.p.data0.Len ∧
      p1 = { w.flush.2 with typIndex := ix.mapSet w.p.typIndex id off }) := by
  unfold ix.iexporter.typOffWith at h
  cases hl : p.typIndex.lookup id with
  | some o =>
    rw [hl] at h
    simp only [Option.some.injEq, Prod.mk.injEq] at h
    exact Or.inl ⟨by rw [h.1], h.2.symm⟩
  | none =>
    rw [hl] at h
    dsimp only at h
    cases hd : doTyp p.newWriter with
    | none => rw [hd] at h; simp at h
    | some w =>
      rw [hd] at h
      simp only [Option.some.injEq, Prod.mk.injEq] at h
      refine Or.inr ⟨rfl, w, rfl, h.1.symm, ?_⟩
      rw [← h.2, ← h.1]
      rfl

theorem typOffWith_step (predeclared : List Nat)
    (doTyp : ix.exportWriter → Option ix.exportWriter) (hd : ix.Keeps predeclared doTyp)
    (id : Nat) (p p1 : ix.iexporter) (off : Nat)
    (h : p.typOffWith doTyp id = some (off, p1)) : ix.iexporter.Step predeclared p p1 := by
  rcases typOffWith_cases doTyp id p p1 off h with ⟨-, rfl⟩ | ⟨hl, w, hw, ho, rfl⟩
  · exact Step_refl predeclared _
  · obtain ⟨s1, s2, s3⟩ := hd _ _ hw
    refine ⟨fun hp => ?_, fun i o hi => ?_, ?_⟩
    · have hid : id ∉ predeclared := by
        intro hi
        rw [hp.1 id hi] at hl
        simp at hl
      exact TypIndexInv_set predeclared _ id off (s1 hp) hid (by omega)
    · show (ix.mapSet w.p.typIndex id off).lookup i = some o
      rw [mapSet_lookup, if_neg]
      · exact s2 i o hi
      · rintro rfl
        rw [hl] at hi
        simp at hi
    · exact s3.trans (List.prefix_append _ _)

theorem typWith_keeps (predeclared : List Nat)
    (doTyp : ix.exportWriter → Option ix.exportWriter) (hd : ix.Keeps predeclared doTyp)
    (id : Nat) : ix.Keeps predeclared (fun w => w.typWith doTyp id) := by
  intro w w1 h
  dsimp only [ix.exportWriter.typWith] at h
  cases hr : w.p.typOffWith doTyp id with
  | none => rw [hr] at h; simp at h
  | some r =>
    obtain ⟨off, p1⟩ := r
    rw [hr, Option.some_bind] at h
    simp only [Option.some.injEq] at h
    rw [← h]
    exact typOffWith_step predeclared doTyp hd id w.p p1 off hr

theorem Keeps_bind (predeclared : List Nat) (f k : ix.exportWriter → Option ix.exportWriter)
    (hf : ix.Keeps predeclared f) (hk : ix.Keeps predeclared k) :
    ix.Keeps predeclared (fun w => (f w).bind k) := by
  intro w w1 h
  dsimp only at h
  cases hr : f w with
  | none => rw [hr] at h; simp at h
  | some w2 =>
    rw [hr, Option.some_bind] at h
    exact Step_trans predeclared _ _ _ (hf _ _ hr) (hk _ _ h)

theorem Keeps_pre (predeclared : List Nat) (f : ix.exportWriter → Option ix.exportWriter)
    (k : ix.exportWriter → ix.exportWriter) (hk : ∀ w : ix.exportWriter, w.p.Same (k w).p)
    (hf : ix.Keeps predeclared f) : ix.Keeps predeclared (fun w => f (k w)) := by
  intro w w1 h
  exact Step_trans predeclared _ _ _ (Step_of_same predeclared _ _ (hk w)) (hf _ _ h)

theorem Keeps_of_same (predeclared : List Nat)
    (f : ix.exportWriter → Option ix.exportWriter)
    (hf : ∀ w w1, f w = some w1 → w.p.Same w1.p) : ix.Keeps predeclared f := by
  intro w w1 h
  exact Step_of_same predeclared _ _ (hf w w1 h)

theorem signatureWith_keeps (predeclared : List Nat)
    (params results : ix.exportWriter → Option ix.exportWriter)
    (hps : ix.Keeps predeclared params) (hrs : ix.Keeps predeclared results) (n : Nat)
    (isDDD : Bool) : ix.Keeps predeclared (ix.exportWriter.signatureWith params results n isDDD) := by
  intro w w1 h
  unfold ix.exportWriter.signatureWith at h
  cases h1 : params w with
  | none => rw [h1] at h; simp at h
  | some w2 =>
    rw [h1, Option.some_bind] at h
    cases h2 : results w2 with
    | none => rw [h2] at h; simp at h
    | some w3 =>
      rw [h2, Option.some_bind] at h
      have h3 := Step_trans predeclared _ _ _ (hps _ _ h1) (hrs _ _ h2)
      split_ifs at h <;> simp only [Option.some.injEq] at h <;> rw [← h] <;> exact h3

theorem paramList_keeps_of (predeclared : List Nat) (g : ix.Globals) (fs : ix.Fields)
    (h : ix.Keeps predeclared (ix.exportWriter.paramLoop g fs)) :
    ix.Keeps predeclared (fun w1 => ix.exportWriter.paramLoop g fs (w1.uint64 fs.NumFields)) :=
  Keeps_pre predeclared _ (fun w => w.uint64 fs.NumFields) (fun _ => ⟨rfl, rfl⟩) h

mutual
theorem doTyp_keeps (g : ix.Globals) (predeclared : List Nat) :
    ∀ t : ix.Typ, ix.Keeps predeclared (ix.exportWriter.doTyp g t)
  | .defined _ sym nod => by
    intro w w1 h
    rw [ix.exportWriter.doTyp] at h
    split_ifs at h
    have hs := Step_of_same predeclared _ _ (qualifiedIdent_same g (w.startType definedType) _ nod h)
    exact hs
  | .ptr _ elem => by
    intro w w1 h
    rw [ix.exportWriter.doTyp] at h
    have hs := typWith_keeps predeclared _ (doTyp_keeps g predeclared elem) elem.id _ w1 h
    exact hs
  | .slice _ elem => by
    intro w w1 h
    rw [ix.exportWriter.doTyp] at h
    have hs := typWith_keeps predeclared _ (doTyp_keeps g predeclared elem) elem.id _ w1 h
    exact hs
  | .array _ n elem => by
    intro w w1 h
    rw [ix.exportWriter.doTyp] at h
    have hs := typWith_keeps predeclared _ (doTyp_keeps g predeclared elem) elem.id _ w1 h
    exact hs
  | .chan _ dir elem => by
    intro w w1 h
    rw [ix.exportWriter.doTyp] at h
    have hs := typWith_keeps predeclared _ (doTyp_keeps g predeclared elem) elem.id _ w1 h
    exact hs
  | .map _ key elem => by
    intro w w1 h
    rw [ix.exportWriter.doTyp] at h
    exact Keeps_bind predeclared _ _
      (typWith_keeps predeclared _ (doTyp_keeps g predeclared key) key.id)
      (typWith_keeps predeclared _ (doTyp_keeps g predeclared elem) elem.id)
      (w.startType mapType) w1 h
  | .func _ pkg params results => by
    intro w w1 h
    rw [ix.exportWriter.doTyp] at h
    exact Keeps_pre predeclared _ (fun w => (w.startType signatureType).setPkg g pkg true)
      (fun w => setPkg_same g _ pkg true)
      (signatureWith_keeps predeclared _ _
        (paramList_keeps_of predeclared g params (paramLoop_keeps g predeclared params))
        (paramList_keeps_of predeclared g results (paramLoop_keeps g predeclared results))
        _ _) w w1 h
  | .struct _ pkg fields => by
    intro w w1 h
    rw [ix.exportWriter.doTyp] at h
    exact Keeps_pre predeclared _
      (fun w => ((w.startType structType).setPkg g pkg true).uint64 fields.NumFields)
      (fun w => setPkg_same g _ pkg true) (structLoop_keeps g predeclared fields) w w1 h
  | .inter _ pkg methods => by
    intro w w1 h
    rw [ix.exportWriter.doTyp] at h
    exact Keeps_pre predeclared _
      (fun w => ((w.startType interfaceType).setPkg g pkg true).uint64 methods.numEmbeddeds)
      (fun w => setPkg_same g _ pkg true)
      (Keeps_bind predeclared _ _ (embeddedLoop_keeps g predeclared methods)
        (Keeps_pre predeclared _ (fun w => w.uint64 methods.numMethods) (fun _ => ⟨rfl, rfl⟩)
          (methodLoop_keeps g predeclared methods))) w w1 h
  | .other _ => by
    intro w w1 h
    rw [ix.exportWriter.doTyp] at h
    simp at h
theorem paramLoop_keeps (g : ix.Globals) (predeclared : List Nat) :
    ∀ fs : ix.Fields, ix.Keeps predeclared (ix.exportWriter.paramLoop g fs)
  | .nil => by
    intro w w1 h
    rw [ix.exportWriter.paramLoop] at h
    simp only [Option.some.injEq] at h
    rw [← h]; exact Step_refl predeclared _
  | .cons f t rest => by
    intro w w1 h
    rw [ix.exportWriter.paramLoop] at h
    refine Keeps_bind predeclared
      (fun w => ((w.pos f.file f.line f.column).localIdent g (g.OrigSym f.Sym) 0).bind fun w1 =>
        w1.typWith (ix.exportWriter.doTyp g t) t.id) _ ?_
      (paramLoop_keeps g predeclared rest) w w1 h
    refine Keeps_bind predeclared
      (fun w => (w.pos f.file f.line f.column).localIdent g (g.OrigSym f.Sym) 0) _ ?_
      (typWith_keeps predeclared _ (doTyp_keeps g predeclared t) t.id)
    exact Keeps_of_same predeclared _ (fun a b hab =>
      Same_trans _ _ _ (pos_same a _ _ _) (localIdent_same g _ _ _ _ hab))
theorem structLoop_keeps (g : ix.Globals) (predeclared : List Nat) :
    ∀ fs : ix.Fields, ix.Keeps predeclared (ix.exportWriter.structLoop g fs)
  | .nil => by
    intro w w1 h
    rw [ix.exportWriter.structLoop] at h
    simp only [Option.some.injEq] at h
    rw [← h]; exact Step_refl predeclared _
  | .cons f t rest => by
    intro w w1 h
    rw [ix.exportWriter.structLoop] at h
    refine Keeps_bind predeclared
      (fun w => ((w.pos f.file f.line f.column).selector g f.Sym).bind fun w1 =>
        w1.typWith (ix.exportWriter.doTyp g t) t.id) _ ?_
      (Keeps_pre predeclared _ (fun w2 => (w2.bool (f.Embedded != 0)).string f.Note)
        (fun _ => ⟨rfl, rfl⟩) (structLoop_keeps g predeclared rest)) w w1 h
    refine Keeps_bind predeclared
      (fun w => (w.pos f.file f.line f.column).selector g f.Sym) _ ?_
      (typWith_keeps predeclared _ (doTyp_keeps g predeclared t) t.id)
    exact Keeps_of_same predeclared _ (fun a b hab =>
      Same_trans _ _ _ (pos_same a _ _ _) (selector_same g _ _ _ hab))
theorem embeddedLoop_keeps (g : ix.Globals) (predeclared : List Nat) :
    ∀ fs : ix.Fields, ix.Keeps predeclared (ix.exportWriter.embeddedLoop g fs)
  | .nil => by
    intro w w1 h
    rw [ix.exportWriter.embeddedLoop] at h
    simp only [Option.some.injEq] at h
    rw [← h]; exact Step_refl predeclared _
  | .cons f t rest => by
    intro w w1 h
    rw [ix.exportWriter.embeddedLoop] at h
    split_ifs at h
    · exact embeddedLoop_keeps g predeclared rest w w1 h
    · exact Keeps_bind predeclared _ _
        (Keeps_pre predeclared _ (fun w => w.pos f.file f.line f.column)
          (fun w => pos_same w _ _ _)
          (typWith_keeps predeclared _ (doTyp_keeps g predeclared t) t.id))
        (embeddedLoop_keeps g predeclared rest) w w1 h
theorem methodLoop_keeps (g : ix.Globals) (predeclared : List Nat) :
    ∀ fs : ix.Fields, ix.Keeps predeclared (ix.exportWriter.methodLoop g fs)
  | .nil => by
    intro w w1 h
    rw [ix.exportWriter.methodLoop] at h
    simp only [Option.some.injEq] at h
    rw [← h]; exact Step_refl predeclared _
  | .cons f t rest => by
    intro w w1 h
    rw [ix.exportWriter.methodLoop] at h
    split_ifs at h
    · cases h1 : (w.pos f.file f.line f.column).selector g f.Sym with
      | none => rw [h1] at h; simp at h
      | some w2 =>
        rw [h1, Option.some_bind] at h
        have hp2 : ix.iexporter.Step predeclared w.p w2.p :=
          Step_of_same predeclared _ _
            (Same_trans _ _ _ (pos_same w _ _ _) (selector_same g _ _ _ h1))
        cases t with
        | func _ pkg params results =>
          dsimp only at h
          exact Step_trans predeclared _ _ _ hp2 (Keeps_bind predeclared _ _
            (signatureWith_keeps predeclared _ _
              (paramList_keeps_of predeclared g params (paramLoop_keeps g predeclared params))
              (paramList_keeps_of predeclared g results (paramLoop_keeps g predeclared results))
              _ _)
            (methodLoop_keeps g predeclared rest) w2 w1 h)
        | _ => simp at h
    · exact methodLoop_keeps g predeclared rest w w1 h
end

theorem setup_example : ix.iexporter.setup ix.examplePredeclared = some ix.exampleSetup := by
  decide

theorem typOff_example :
    ix.exampleSetup.typOff ix.exampleGlobals ix.sliceOfInt = some (32, ix.exampleAfter) := by
  have h1 : PutUvarint 1 = [1] := PutUvarint_small 1 (by norm_num)
  have h2 : PutUvarint 2 = [2] := PutUvarint_small 2 (by norm_num)
  have l1 : List.lookup 100 [(1, 0), (2, 1), (3, 2)] = none := by decide
  have l2 : List.lookup 2 [(1, 0), (2, 1), (3, 2)] = some 1 := by decide
  simp only [ix.iexporter.typOff, ix.iexporter.typOffWith, ix.sliceOfInt, ix.intType, ix.Typ.id,
    ix.exportWriter.doTyp, ix.exportWriter.typWith, ix.exampleSetup, ix.exportWriter.startType,
    ix.exportWriter.uint64, intWriter.uint64, intWriter.Write, sliceType, h1, h2,
    ix.iexporter.newWriter, ix.iexporter.empty, ix.exportWriter.flush, intWriter.Len, l1, l2,
    Option.some_bind]
  decide

theorem setup_fold (l : List Nat) : ∀ (n : Nat) (m : List (Nat × Nat)), l.Nodup → ∀ id : Nat,
    ((List.enumFrom n l).foldl (fun m e => ix.mapSet m e.2 e.1) m).lookup id
      = if id ∈ l then some (n + l.indexOf id) else m.lookup id := by
  induction l with
  | nil => intro n m _ id; simp
  | cons a l ih =>
    intro n m hnd id
    rw [List.nodup_cons] at hnd
    rw [List.enumFrom_cons, List.foldl_cons, ih (n + 1) _ hnd.2 id, mapSet_lookup]
    by_cases e : id = a
    · subst e
      simp [hnd.1]
    · have e1 : a ≠ id := fun h => e h.symm
      by_cases hl : id ∈ l
      · rw [if_pos hl, if_pos (List.mem_cons_of_mem _ hl), List.indexOf_cons_ne _ e1]
        simp only [Option.some.injEq]
        omega
      · rw [if_neg hl, if_neg e, if_neg]
        simp only [List.mem_cons, not_or]
        exact ⟨e, hl⟩

theorem setup_spec (predeclared : List Nat) (hnd : predeclared.Nodup) (p : ix.iexporter)
    (h : ix.iexporter.setup predeclared = some p) :
    ix.TypIndexInv predeclared p.typIndex ∧ predeclared.length ≤ predeclReserved ∧
      p.data0.buf = [] := by
  unfold ix.iexporter.setup at h
  dsimp only at h
  split_ifs at h with hlen
  simp only [Option.some.injEq] at h
  have hl := setup_fold predeclared 0 [] hnd
  rw [← h]
  refine ⟨⟨fun id hid => ?_, fun id off ho hid => ?_⟩, ?_, rfl⟩
  · show List.lookup id (List.foldl _ [] predeclared.enum) = _
    rw [List.enum, hl id, if_pos hid, Nat.zero_add]
  · exfalso
    have ho1 : List.lookup id (List.foldl (fun m e => ix.mapSet m e.2 e.1) []
        predeclared.enum) = some off := ho
    rw [List.enum, hl id, if_neg hid] at ho1
    simp at ho1
  · have hsub : predeclared ⊆ (List.foldl (fun m e => ix.mapSet m e.2 e.1) []
        predeclared.enum).map Prod.fst := by
      intro id hid
      rw [← lookup_isSome_iff, List.enum, hl id, if_pos hid]
      rfl
    have h1 := (List.subperm_of_subset hnd hsub).length_le
    rw [List.length_map] at h1
    omega

theorem TypReach_step (g : ix.Globals) (predeclared : List Nat) (p q : ix.iexporter)
    (h : ix.TypReach g p q) : ix.iexporter.Step predeclared p q := by
  induction h with
  | refl => exact Step_refl predeclared p
  | other q r _ h1 h2 ih =>
    refine Step_trans predeclared _ _ _ ih ⟨fun hq => ?_, fun id off hl => ?_, h2⟩
    · rw [h1]; exact hq
    · rw [h1]; exact hl
  | typOff q r t off _ h1 ih =>
    exact Step_trans predeclared _ _ _ ih
      (typOffWith_step predeclared _ (doTyp_keeps g predeclared t) t.id q r off h1)

theorem typOff_recorded (g : ix.Globals) (q : ix.iexporter) (t : ix.Typ) (off : Nat)
    (h : q.typIndex.lookup t.id = some off) : q.typOff g t = some (off, q) := by
  unfold ix.iexporter.typOff ix.iexporter.typOffWith
  rw [h]

/-- C16: in a session that `iexport` has set up for the list `predeclared` of
distinct predeclared types, a call `typOff(t)` that returns `off` has
`off < predeclReserved` exactly when `t` is predeclared, and then `off` is the
index of `t` in the list and the exporter is left as it was. For a type with no
offset recorded yet (which is not predeclared), the descriptor that `doTyp`
writes is flushed at the end of the data section, and `off` is `predeclReserved`
plus the offset at which it starts. In every later state of the session
`typOff(t)` returns the same `off` and leaves the exporter, and so the data
section, as it is. -/
theorem typOff_separates (g : ix.Globals) (predeclared : List Nat) (hnd : predeclared.Nodup)
    (p0 : ix.iexporter) (h0 : ix.iexporter.setup predeclared = some p0) (p : ix.iexporter)
    (hp : ix.TypReach g p0 p) (t : ix.Typ) (off : Nat) (p1 : ix.iexporter)
    (h : p.typOff g t = some (off, p1)) :
    (off < predeclReserved ↔ t.id ∈ predeclared) ∧
    (t.id ∈ predeclared → off = predeclared.indexOf t.id ∧ p1 = p) ∧
    (p.typIndex.lookup t.id = none → t.id ∉ predeclared ∧
      ∃ w, ix.exportWriter.doTyp g t p.newWriter = some w ∧
        off = predeclReserved + w.p.data0.Len ∧
        p1.data0.buf = w.p.data0.buf ++ w.data.buf) ∧
    (∀ q, ix.TypReach g p1 q → q.typOff g t = some (off, q)) := by
  obtain ⟨hinv0, hlen, -⟩ := setup_spec predeclared hnd p0 h0
  have hinv := (TypReach_step g predeclared p0 p hp).1 hinv0
  have hidx : ∀ id ∈ predeclared, predeclared.indexOf id < predeclReserved := fun id hid =>
    lt_of_lt_of_le (List.indexOf_lt_length.2 hid) hlen
  have hlater : p1.typIndex.lookup t.id = some off →
      ∀ q, ix.TypReach g p1 q → q.typOff g t = some (off, q) := fun h1 q hq =>
    typOff_recorded g q t off ((TypReach_step g predeclared p1 q hq).2.1 _ _ h1)
  rcases typOffWith_cases _ t.id p p1 off h with ⟨hl, rfl⟩ | ⟨hl, w, hw, ho, rfl⟩
  · refine ⟨⟨fun ho => ?_, fun hid => ?_⟩, fun hid => ⟨?_, rfl⟩, fun hn => ?_, hlater hl⟩
    · by_contra hid1
      have := hinv.2 _ _ hl hid1
      omega
    · rw [hinv.1 _ hid] at hl
      simp only [Option.some.injEq] at hl
      rw [← hl]
      exact hidx _ hid
    · rw [hinv.1 _ hid] at hl
      simp only [Option.some.injEq] at hl
      exact hl.symm
    · rw [hl] at hn
      simp at hn
  · have hid : t.id ∉ predeclared := by
      intro hi
      rw [hinv.1 _ hi] at hl
      simp at hl
    refine ⟨⟨fun ho1 => ?_, fun hi => absurd hi hid⟩, fun hi => absurd hi hid,
      fun _ => ⟨hid, w, hw, ho, rfl⟩, hlater ?_⟩
    · omega
    · show (ix.mapSet w.p.typIndex t.id off).lookup t.id = some off
      rw [mapSet_lookup, if_pos rfl]

theorem typOff_separates_witness :
    ix.examplePredeclared.Nodup ∧
    ix.exampleSetup.typOff ix.exampleGlobals ix.sliceOfInt = some (32, ix.exampleAfter) ∧
    ((32 < predeclReserved ↔ ix.sliceOfInt.id ∈ ix.examplePredeclared) ∧
    (ix.sliceOfInt.id ∈ ix.examplePredeclared →
      32 = ix.examplePredeclared.indexOf ix.sliceOfInt.id ∧ ix.exampleAfter = ix.exampleSetup) ∧
    (ix.exampleSetup.typIndex.lookup ix.sliceOfInt.id = none →
      ix.sliceOfInt.id ∉ ix.examplePredeclared ∧
      ∃ w, ix.exportWriter.doTyp ix.exampleGlobals ix.sliceOfInt ix.exampleSetup.newWriter
          = some w ∧
        32 = predeclReserved + w.p.data0.Len ∧
        ix.exampleAfter.data0.buf = w.p.data0.buf ++ w.data.buf) ∧
    (∀ q, ix.TypReach ix.exampleGlobals ix.exampleAfter q →
      q.typOff ix.exampleGlobals ix.sliceOfInt = some (32, q))) :=
  ⟨by decide, typOff_example,
    typOff_separates ix.exampleGlobals ix.examplePredeclared (by decide) ix.exampleSetup
      setup_example ix.exampleSetup (ix.TypReach.refl) ix.sliceOfInt 32 ix.exampleAfter
      typOff_example⟩

theorem PutVarint_zero : PutVarint 0 = [0] := by
  have h : (toUint64 0 <<< 1) % 2 ^ 64 = 0 := by decide
  unfold PutVarint
  simp only [h, lt_self_iff_false, if_false]
  exact PutUvarint_small 0 (by norm_num)

theorem paramList_intParam (w : ix.exportWriter) (hf : w.prevFile = []) (hl : w.prevLine = 0)
    (hc : w.prevColumn = 0) (hs : w.p.strtab = iexporter.init)
    (ht : w.p.typIndex.lookup 2 = some 1) :
    ∃ w1, w.paramList ix.exampleGlobals ix.intParam = some w1 ∧
      w1.data.buf = w.data.buf ++ [1, 0, 0, 1] ∧ w1.prevFile = [] ∧ w1.prevLine = 0 ∧
      w1.prevColumn = 0 ∧ w1.p.typIndex = w.p.typIndex := by
  have h0 : PutUvarint 0 = [0] := PutUvarint_small 0 (by norm_num)
  have h1 : PutUvarint 1 = [1] := PutUvarint_small 1 (by norm_num)
  have hd : shl1 (toInt64 (toUint64 (0 - 0))) = 0 := by decide
  have hb : lowBit 0 = false := by decide
  simp only [ix.exportWriter.paramList, ix.intParam, ix.exportWriter.paramLoop,
    ix.Fields.NumFields, ix.exportWriter.pos, ix.exportWriter.uint64, hf, hl, hc, hd,
    ix.exportWriter.int64, intWriter.int64, intWriter.uint64, intWriter.Write, PutVarint_zero,
    h1, ne_eq, not_true_eq_false, if_false, hb, Bool.false_eq_true, ix.exampleGlobals,
    ix.exportWriter.localIdent, ix.exportWriter.string, hs, Option.some_bind,
    ix.exportWriter.typWith, ix.iexporter.typOffWith, ix.intType, ix.Typ.id, ht]
  refine ⟨_, rfl, ?_, rfl, rfl, rfl, rfl⟩
  simp [iexporter.stringOff, iexporter.init, intWriter.Len, h0, h1]

theorem paramList_nil (g : ix.Globals) (w : ix.exportWriter) :
    w.paramList g .nil = some (w.uint64 0) := rfl

/-- C15: `signature` writes the Variadic bool by the parameters, not by the
results. For `func(int)`, which has no result, a new writer gets the two lists
(bytes 1, 0, 0, 1 for the parameters and 0 for the results) and after them the
bool, a byte 0; for `func() int`, which has a result, it gets the two lists
(0, then 1, 0, 0, 1) and nothing after them. -/
theorem signature_variadic_by_params :
    (ix.exampleSetup.newWriter.signature ix.exampleGlobals ix.funcIntNoResult).map
      (fun w => w.data.buf) = some [1, 0, 0, 1, 0, 0] ∧
    ((ix.exampleSetup.newWriter.paramList ix.exampleGlobals ix.intParam).bind
      fun w => w.paramList ix.exampleGlobals .nil).map (fun w => w.data.buf)
      = some [1, 0, 0, 1, 0] ∧
    (ix.exampleSetup.newWriter.signature ix.exampleGlobals ix.funcNoParamInt).map
      (fun w => w.data.buf) = some [0, 1, 0, 0, 1] ∧
    ((ix.exampleSetup.newWriter.paramList ix.exampleGlobals .nil).bind
      fun w => w.paramList ix.exampleGlobals ix.intParam).map (fun w => w.data.buf)
      = some [0, 1, 0, 0, 1] := by
  have h0 : PutUvarint 0 = [0] := PutUvarint_small 0 (by norm_num)
  obtain ⟨w1, e1, d1, -⟩ := paramList_intParam ix.exampleSetup.newWriter rfl rfl rfl rfl
    (by decide)
  obtain ⟨w2, e2, d2, -⟩ := paramList_intParam (ix.exampleSetup.newWriter.uint64 0) rfl rfl rfl
    rfl (by decide)
  have d0 : (ix.exampleSetup.newWriter.uint64 0).data.buf = [0] := by
    simp [ix.exportWriter.uint64, intWriter.uint64, intWriter.Write, h0, ix.iexporter.newWriter]
  have dn : ix.exampleSetup.newWriter.data.buf = [] := rfl
  rw [d0] at d2
  rw [dn] at d1
  refine ⟨?_, ?_, ?_, ?_⟩
  · have hn : ix.intParam.NumFields = 1 := rfl
    have hd : ix.intParam.lastIsDDD = false := rfl
    simp only [ix.exportWriter.signature, ix.funcIntNoResult, e1, Option.some_bind,
      paramList_nil, hn, hd]
    simp [ix.exportWriter.bool, ix.exportWriter.uint64, intWriter.uint64, intWriter.Write, h0, d1]
  · simp only [e1, Option.some_bind, paramList_nil]
    simp [ix.exportWriter.uint64, intWriter.uint64, intWriter.Write, h0, d1]
  · simp only [ix.exportWriter.signature, ix.funcNoParamInt, paramList_nil, Option.some_bind, e2,
      ix.Fields.NumFields]
    simp [d2]
  · simp only [paramList_nil, Option.some_bind, e2]
    simp [d2]

theorem typ_eq_typWith (g : ix.Globals) (w : ix.exportWriter) (t : ix.Typ) :
    w.typ g t = w.typWith (ix.exportWriter.doTyp g t) t.id := rfl

theorem doTyp_func (g : ix.Globals) (w : ix.exportWriter) (id : Nat) (pkg : Option Pkg)
    (params results : ix.Fields) :
    ix.exportWriter.doTyp g (.func id pkg params results) w
      = ((w.startType signatureType).setPkg g pkg true).signature g
          (.func id pkg params results) := by
  rw [ix.exportWriter.doTyp]
  rfl

theorem paramLoop_cons (g : ix.Globals) (w : ix.exportWriter) (f : ix.FieldInfo) (t : ix.Typ)
    (rest : ix.Fields) :
    ix.exportWriter.paramLoop g (.cons f t rest) w
      = (w.param g f t).bind fun w1 => ix.exportWriter.paramLoop g rest w1 := by
  rw [ix.exportWriter.paramLoop]
  rfl

theorem bitLenAux_lt : ∀ (fuel m : Nat), m ≤ fuel → m < 2 ^ bitLenAux fuel m := by
  intro fuel
  induction fuel with
  | zero => intro m h; simp [bitLenAux]; omega
  | succ fuel ih =>
    intro m h
    rw [bitLenAux]
    split_ifs with h0
    · subst h0; norm_num
    · have := ih (m / 2) (by omega)
      rw [pow_succ]
      omega

theorem bitLen_lt (m : Nat) : m < 2 ^ bitLen m := bitLenAux_lt m m (le_refl m)

theorem trailingZeroBitsAux_dvd : ∀ (fuel m : Nat), 0 < m → m ≤ fuel →
    2 ^ trailingZeroBitsAux fuel m ∣ m := by
  intro fuel
  induction fuel with
  | zero => intro m h0 h; omega
  | succ fuel ih =>
    intro m h0 h
    rw [trailingZeroBitsAux]
    split_ifs with h1
    · simp
    · have h2 := ih (m / 2) (by omega) (by omega)
      have h3 : m = 2 * (m / 2) := by omega
      rw [pow_succ, mul_comm]
      conv_rhs => rw [h3]
      exact Nat.mul_dvd_mul_left 2 h2

theorem trailingZeroBits_dvd (m : Nat) (h : 0 < m) : 2 ^ trailingZeroBits m ∣ m := by
  unfold trailingZeroBits
  rw [if_neg (by omega)]
  exact trailingZeroBitsAux_dvd m m h (le_refl m)

theorem trailingZeroBits_lt_bitLen (m : Nat) (h : 0 < m) : trailingZeroBits m < bitLen m := by
  have h1 := Nat.le_of_dvd h (trailingZeroBits_dvd m h)
  have h2 := bitLen_lt m
  exact (Nat.pow_lt_pow_iff_right (by norm_num : 1 < 2)).1 (lt_of_le_of_lt h1 h2)

theorem toInt64_natCast (u : Nat) (h : u < 2 ^ 63) : toInt64 u = (u : ℤ) := by
  unfold toInt64
  have : u % 2 ^ 64 = u := Nat.mod_eq_of_lt (by omega)
  rw [this, if_pos h]

theorem mpint_total (w : exportWriter) (typ : NumType) (mb : Nat) (M : ℤ)
    (ht : intSize typ = (true, mb)) (hmb : mb ≤ 64) (h1 : mb ≠ 1) (hM : M.natAbs < 256 ^ mb) :
    ∃ w1, w.mpint M typ = some w1 := by
  obtain ⟨h, -⟩ := mpintBytes_total true mb hmb M (by simp) hM (fun _ h => absurd h h1)
  unfold exportWriter.mpint
  rw [ht]
  dsimp only
  rw [h]
  exact ⟨_, rfl⟩

theorem mpfloat_zero (w : exportWriter) (f : big.Float) (typ : NumType)
    (hz : f.form = .zero) :
    w.mpfloat f typ = (w.mpint 0 typ).bind fun w1 => some w1 := by
  have h1 : f.IsInf = false := by simp [big.Float.IsInf, hz]
  have h2 : f.MantExp = (f, 0) := by simp [big.Float.MantExp, hz]
  have h3 : f.MinPrec = 0 := by simp [big.Float.MinPrec, hz]
  have h4 : f.SetMantExp (toInt64 (0 : Nat)) = f := by simp [big.Float.SetMantExp, hz]
  have h5 : f.Int = (some 0, true) := by simp [big.Float.Int, hz]
  unfold exportWriter.mpfloat
  simp only [h1, h2, h3, h4, h5, Bool.false_eq_true, if_false, ne_eq, not_true_eq_false]

theorem mpfloat_finite (w : exportWriter) (f : big.Float) (typ : NumType)
    (hfin : f.form = .finite) (hv : f.Valid) (hp : f.MinPrec ≤ 512) :
    w.mpfloat f typ
      = (w.mpint (if f.neg then -((f.mant / 2 ^ trailingZeroBits f.mant : Nat) : ℤ)
            else ((f.mant / 2 ^ trailingZeroBits f.mant : Nat) : ℤ)) typ).bind
          fun w1 => some (w1.int64 (f.exp - (f.MinPrec : ℤ))) := by
  obtain ⟨hm, hlo, hhi⟩ := hv hfin
  have hz := trailingZeroBits_lt_bitLen f.mant hm
  have hd := trailingZeroBits_dvd f.mant hm
  have hprec : f.MinPrec = bitLen f.mant - trailingZeroBits f.mant := by
    simp [big.Float.MinPrec, hfin]
  have h1 : f.IsInf = false := by simp [big.Float.IsInf, hfin]
  have h2 : f.MantExp = ({ f with exp := 0 }, f.exp) := by simp [big.Float.MantExp, hfin]
  have h3 : ({ f with exp := 0 } : big.Float).MinPrec = f.MinPrec := by
    simp [big.Float.MinPrec, hfin]
  have h4 : toInt64 f.MinPrec = (f.MinPrec : ℤ) := toInt64_natCast _ (by omega)
  have h5 : ({ f with exp := 0 } : big.Float).SetMantExp (f.MinPrec : ℤ)
      = { f with exp := (f.MinPrec : ℤ) } := by
    unfold big.Float.SetMantExp
    simp only [hfin, if_true, zero_add]
    rw [if_neg, if_neg]
    · unfold big.MaxExp; omega
    · unfold big.MinExp; omega
  have h6 : toInt64 (toUint64 (f.exp - (f.MinPrec : ℤ))) = f.exp - (f.MinPrec : ℤ) := by
    unfold big.MinExp at hlo
    unfold big.MaxExp at hhi
    exact toInt64_toUint64 _ (by omega) (by omega)
  have habs : (if (f.MinPrec : ℤ).toNat > bitLen f.mant then
        f.mant <<< ((f.MinPrec : ℤ).toNat - bitLen f.mant)
      else if (f.MinPrec : ℤ).toNat < bitLen f.mant then
        f.mant >>> (bitLen f.mant - (f.MinPrec : ℤ).toNat)
      else f.mant) = f.mant / 2 ^ trailingZeroBits f.mant := by
    rw [Int.toNat_ofNat, if_neg (by omega)]
    split_ifs with hlt
    · rw [Nat.shiftRight_eq_div_pow]
      congr 2
      omega
    · have : trailingZeroBits f.mant = 0 := by omega
      rw [this]
      simp
  have h7 : ({ f with exp := (f.MinPrec : ℤ) } : big.Float).Int
      = (some (if f.neg then -((f.mant / 2 ^ trailingZeroBits f.mant : Nat) : ℤ)
            else ((f.mant / 2 ^ trailingZeroBits f.mant : Nat) : ℤ)), true) := by
    unfold big.Float.Int
    simp only [hfin]
    rw [if_neg (by omega), habs]
    have : (⟨.finite, f.neg, f.mant, (f.MinPrec : ℤ)⟩ : big.Float).MinPrec = f.MinPrec := by
      simp [big.Float.MinPrec, hfin]
    rw [this]
    simp
  have hq : 1 ≤ f.mant / 2 ^ trailingZeroBits f.mant :=
    Nat.div_pos (Nat.le_of_dvd hm hd) (by positivity)
  have hM : (if f.neg then -((f.mant / 2 ^ trailingZeroBits f.mant : Nat) : ℤ)
            else ((f.mant / 2 ^ trailingZeroBits f.mant : Nat) : ℤ)) ≠ 0 := by
    split_ifs <;> omega
  unfold exportWriter.mpfloat
  simp only [h1, h2, h3, h4, h5, h6, h7, Bool.false_eq_true, if_false, ne_eq, hM,
    not_false_eq_true, if_true]

theorem mantissa_value (m : Nat) (hm : 0 < m) (e : ℤ) :
    ((m / 2 ^ trailingZeroBits m : Nat) : ℚ)
        * 2 ^ (e - ((bitLen m - trailingZeroBits m : Nat) : ℤ))
      = (m : ℚ) / 2 ^ bitLen m * 2 ^ e := by
  have hz := trailingZeroBits_lt_bitLen m hm
  have hd := trailingZeroBits_dvd m hm
  have hmq : (m : ℚ) = 2 ^ trailingZeroBits m * ((m / 2 ^ trailingZeroBits m : Nat) : ℚ) := by
    have := Nat.mul_div_cancel' hd
    conv_lhs => rw [← this]
    push_cast
    ring
  rw [Nat.cast_sub hz.le, zpow_sub₀ (two_ne_zero), zpow_sub₀ (two_ne_zero), zpow_natCast,
    zpow_natCast]
  conv_rhs => rw [hmq]
  field_simp
  ring

/-- C14: for a constant `f` that is not an infinity (a valid `big.Float`) and a
type with `intSize` signed and `mb` bytes (`mb ≤ 64`, not 1: the float and
complex types have 3, 7 or 64) in which `f` is representable (its minimum
precision is at most `8 * mb` bits), `mpfloat` returns, having written an integer
mantissa `M` as `mpint` does and after it, exactly when `M` is not zero, the
exponent `E` as a signed varint, where `M * 2^E` is the value of `f` and `E` is
an `int64`; `M` is zero exactly when `f` is. -/
theorem mpfloat_decomposes (w : exportWriter) (f : big.Float) (typ : NumType) (mb : Nat)
    (hf : f.IsInf = false) (hv : f.Valid) (ht : intSize typ = (true, mb)) (hmb : mb ≤ 64)
    (h1 : mb ≠ 1) (hp : f.MinPrec ≤ 8 * mb) :
    ∃ (M E : ℤ) (w1 : exportWriter),
      w.mpint M typ = some w1 ∧
      w.mpfloat f typ = some (if M ≠ 0 then w1.int64 E else w1) ∧
      (M : ℚ) * 2 ^ E = f.val ∧ (M = 0 ↔ f.val = 0) ∧ -2 ^ 63 ≤ E ∧ E < 2 ^ 63 := by
  cases hform : f.form with
  | inf => simp [big.Float.IsInf, hform] at hf
  | zero =>
    obtain ⟨w1, hw1⟩ := mpint_total w typ mb 0 ht hmb h1 (by simp)
    have hval : f.val = 0 := by simp [big.Float.val, hform]
    refine ⟨0, 0, w1, hw1, ?_, ?_, ?_, by norm_num, by norm_num⟩
    · rw [mpfloat_zero w f typ hform, hw1]
      simp
    · rw [hval]; simp
    · simp [hval]
  | finite =>
    obtain ⟨hm, hlo, hhi⟩ := hv hform
    have hz := trailingZeroBits_lt_bitLen f.mant hm
    have hd := trailingZeroBits_dvd f.mant hm
    have hprec : f.MinPrec = bitLen f.mant - trailingZeroBits f.mant := by
      simp [big.Float.MinPrec, hform]
    have hq : 1 ≤ f.mant / 2 ^ trailingZeroBits f.mant :=
      Nat.div_pos (Nat.le_of_dvd hm hd) (by positivity)
    have hqlt : f.mant / 2 ^ trailingZeroBits f.mant < 256 ^ mb := by
      have h2 : f.mant / 2 ^ trailingZeroBits f.mant
          < 2 ^ (bitLen f.mant - trailingZeroBits f.mant) := by
        rw [Nat.div_lt_iff_lt_mul (by positivity), ← pow_add,
          Nat.sub_add_cancel hz.le]
        exact bitLen_lt f.mant
      have h3 : 2 ^ (bitLen f.mant - trailingZeroBits f.mant) ≤ 2 ^ (8 * mb) :=
        Nat.pow_le_pow_right (by norm_num) (by omega)
      have h4 : (256 : Nat) ^ mb = 2 ^ (8 * mb) := by
        rw [pow_mul]; norm_num
      omega
    have hqval := mantissa_value f.mant hm f.exp
    have hvalpos : (0 : ℚ) < (f.mant : ℚ) / 2 ^ bitLen f.mant * 2 ^ f.exp := by
      have : (0 : ℚ) < (f.mant : ℚ) := by exact_mod_cast hm
      positivity
    unfold big.MinExp at hlo
    unfold big.MaxExp at hhi
    cases hneg : f.neg with
    | false =>
      obtain ⟨w1, hw1⟩ := mpint_total w typ mb
        ((f.mant / 2 ^ trailingZeroBits f.mant : Nat) : ℤ) ht hmb h1
        (by rw [Int.natAbs_ofNat]; exact hqlt)
      have hval : f.val = (f.mant : ℚ) / 2 ^ bitLen f.mant * 2 ^ f.exp := by
        simp [big.Float.val, hform, hneg]
      refine ⟨_, f.exp - (f.MinPrec : ℤ), w1, hw1, ?_, ?_, ?_, by omega, by omega⟩
      · rw [mpfloat_finite w f typ hform hv (by omega), hneg]
        simp only [Bool.false_eq_true, if_false, hw1, Option.some_bind]
        rw [if_pos (by omega)]
      · rw [hval, hprec]
        exact_mod_cast hqval
      · rw [hval]
        constructor
        · intro h; omega
        · intro h; rw [h] at hvalpos; exact absurd hvalpos (lt_irrefl _)
    | true =>
      obtain ⟨w1, hw1⟩ := mpint_total w typ mb
        (-((f.mant / 2 ^ trailingZeroBits f.mant : Nat) : ℤ)) ht hmb h1
        (by rw [Int.natAbs_neg, Int.natAbs_ofNat]; exact hqlt)
      have hval : f.val = -((f.mant : ℚ) / 2 ^ bitLen f.mant * 2 ^ f.exp) := by
        simp [big.Float.val, hform, hneg]
      refine ⟨_, f.exp - (f.MinPrec : ℤ), w1, hw1, ?_, ?_, ?_, by omega, by omega⟩
      · rw [mpfloat_finite w f typ hform hv (by omega), hneg]
        simp only [if_true, hw1, Option.some_bind]
        rw [if_pos (by omega)]
      · rw [hval, hprec, ← hqval, Int.cast_neg, Int.cast_natCast, neg_mul]
      · rw [hval]
        constructor
        · intro h; omega
        · intro h
          have : (f.mant : ℚ) / 2 ^ bitLen f.mant * 2 ^ f.exp = 0 := by linarith
          rw [this] at hvalpos; exact absurd hvalpos (lt_irrefl _)

theorem mpfloat_decomposes_witness :
    big.oneAndHalf.IsInf = false ∧ big.oneAndHalf.Valid ∧ intSize float64Type = (true, 7) ∧
    big.oneAndHalf.MinPrec ≤ 8 * 7 ∧ big.oneAndHalf.val = 3 / 2 ∧
    ∃ (M E : ℤ) (w1 : exportWriter),
      iexporter.init.newWriter.mpint M float64Type = some w1 ∧
      iexporter.init.newWriter.mpfloat big.oneAndHalf float64Type
        = some (if M ≠ 0 then w1.int64 E else w1) ∧
      (M : ℚ) * 2 ^ E = big.oneAndHalf.val ∧ (M = 0 ↔ big.oneAndHalf.val = 0) ∧
      -2 ^ 63 ≤ E ∧ E < 2 ^ 63 :=
  ⟨by decide, fun _ => by decide, by decide, by decide,
    by simp [big.Float.val, big.oneAndHalf, show bitLen 3 = 2 by decide]; norm_num,
    mpfloat_decomposes iexporter.init.newWriter big.oneAndHalf float64Type 7 (by decide)
      (fun _ => by decide) (by decide) (by decide) (by decide) (by decide)⟩

theorem hexLoop_length : ∀ (n id : Nat), (bisect.hexLoop n id).length = n := by
  intro n
  induction n with
  | zero => intro id; rfl
  | succ n ih => intro id; simp [bisect.hexLoop, ih]

theorem Marker_length (id : Nat) : (bisect.Marker id).length = 33 := by
  simp [bisect.Marker, bisect.AppendMarker, hexLoop_length, bytes]

/-- C30: `PrintMarker` makes one call of `Write`, and the bytes it passes are the
50 zero bytes of `buf`, then `Marker(h)`, then a newline: 84 bytes, not the 34
of the marker and the newline alone. -/
theorem PrintMarker_writes_buffer (w : bisect.Writer) (h : Nat) :
    (bisect.PrintMarker w h).written
      = w.written ++ [List.replicate 50 0 ++ bisect.Marker h ++ [10]] ∧
    (List.replicate 50 0 ++ bisect.Marker h ++ [10]).length = 84 ∧
    List.replicate 50 0 ++ bisect.Marker h ++ [10] ≠ bisect.Marker h ++ [10] := by
  have hlen : (List.replicate 50 0 ++ bisect.Marker h ++ [10]).length = 84 := by
    simp [Marker_length]
  refine ⟨?_, hlen, ?_⟩
  · simp [bisect.PrintMarker, bisect.Writer.Write, bisect.Marker, bisect.AppendMarker]
  · intro he
    have := congrArg List.length he
    rw [hlen] at this
    simp [Marker_length] at this

/-- C28: `New("")` returns a nil matcher and no error, and on the nil matcher
`ShouldEnable` is true and `ShouldPrint` is false for every id, and `FileLine`
returns true and leaves the writer as it was. -/
theorem nil_matcher_valid :
    bisect.New [] = .ok none ∧
    (∀ id : Nat, bisect.Matcher.ShouldEnable none id = true ∧
      bisect.Matcher.ShouldPrint none id = false) ∧
    (∀ (w : bisect.Writer) (file : List Nat) (line : Int),
      bisect.Matcher.FileLine none w file line = some (true, w)) :=
  ⟨rfl, fun _ => ⟨rfl, rfl⟩, fun _ _ _ => rfl⟩

theorem skipNot_flip (pat1 pat2 : List Nat) : ∀ (p : List Nat) (e : Bool) (r : List Nat)
    (e1 : Bool), bisect.skipNot pat1 p e = .ok (r, e1) →
    bisect.skipNot pat2 p (!e) = .ok (r, !e1) := by
  intro p
  induction p with
  | nil =>
    intro e r e1 h
    simp only [bisect.skipNot, Except.ok.injEq, Prod.mk.injEq] at h ⊢
    exact ⟨h.1, by rw [h.2]⟩
  | cons c p ih =>
    intro e r e1 h
    rw [bisect.skipNot] at h ⊢
    by_cases hc : c = 33
    · rw [if_pos hc] at h ⊢
      by_cases hp : p = []
      · rw [if_pos hp] at h
        cases h
      · rw [if_neg hp] at h ⊢
        exact ih _ _ _ h
    · rw [if_neg hc] at h ⊢
      simp only [Except.ok.injEq, Prod.mk.injEq] at h ⊢
      exact ⟨h.1, by rw [h.2]⟩

theorem parseStep_pattern (pat1 pat2 p : List Nat) (s s1 : bisect.parseState) (i : Nat)
    (h : bisect.parseStep pat1 p s i = .ok s1) : bisect.parseStep pat2 p s i = .ok s1 := by
  unfold bisect.parseStep at h ⊢
  dsimp only at h ⊢
  generalize (if i < p.length then p.getD i 0 else 45) = c at h ⊢
  by_cases h1 : i = s.start ∧ s.wid = 1 ∧ c = 120
  · rw [if_pos h1] at h ⊢; exact h
  rw [if_neg h1] at h ⊢
  by_cases h2 : 50 ≤ c ∧ c ≤ 57
  · rw [if_pos h2] at h ⊢
    by_cases h3 : s.wid ≠ 4
    · rw [if_pos h3] at h; cases h
    · rw [if_neg h3] at h ⊢; exact h
  rw [if_neg h2] at h ⊢
  by_cases h3 : c = 48 ∨ c = 49
  · rw [if_pos h3] at h ⊢; exact h
  rw [if_neg h3] at h ⊢
  by_cases h4 : (97 ≤ c ∧ c ≤ 102) ∨ (65 ≤ c ∧ c ≤ 70)
  · rw [if_pos h4] at h ⊢
    by_cases h5 : s.wid ≠ 4
    · rw [if_pos h5] at h; cases h
    · rw [if_neg h5] at h ⊢; exact h
  rw [if_neg h4] at h ⊢
  by_cases h5 : c = 121
  · rw [if_pos h5] at h ⊢
    by_cases h6 : i + 1 < p.length ∧ (p.getD (i + 1) 0 = 48 ∨ p.getD (i + 1) 0 = 49)
    · rw [if_pos h6] at h; cases h
    · rw [if_neg h6] at h ⊢; exact h
  rw [if_neg h5] at h ⊢
  by_cases h6 : c = 43 ∨ c = 45
  · rw [if_pos h6] at h ⊢
    by_cases h7 : c = 43 ∧ s.result = false
    · rw [if_pos h7] at h; cases h
    rw [if_neg h7] at h ⊢
    by_cases h8 : i > 0
    · rw [if_pos h8] at h ⊢
      by_cases h9 : ((i : Int) - (s.start : Int)) * (s.wid : Int) > 64
      · rw [if_pos h9] at h; cases h
      rw [if_neg h9] at h ⊢
      by_cases h10 : ((i : Int) - (s.start : Int)) * (s.wid : Int) ≤ 0
      · rw [if_pos h10] at h; cases h
      rw [if_neg h10] at h ⊢
      exact h
    · rw [if_neg h8] at h ⊢; exact h
  · rw [if_neg h6] at h; cases h

theorem parseLoop_pattern (pat1 pat2 p : List Nat) : ∀ (todo i : Nat)
    (s s1 : bisect.parseState), bisect.parseLoop pat1 p todo i s = .ok s1 →
    bisect.parseLoop pat2 p todo i s = .ok s1 := by
  intro todo
  induction todo with
  | zero => intro i s s1 h; exact h
  | succ todo ih =>
    intro i s s1 h
    rw [bisect.parseLoop] at h ⊢
    cases hs : bisect.parseStep pat1 p s i with
    | error e => rw [hs] at h; cases h
    | ok s2 =>
      rw [hs] at h
      rw [parseStep_pattern pat1 pat2 p s s2 i hs]
      exact ih _ _ _ h

theorem skipV_other (pattern : List Nat) (c : Nat) (p : List Nat) (v : Bool) (hc : c ≠ 118) :
    bisect.skipV pattern (c :: p) v = .ok (c :: p, v) := by
  rw [bisect.skipV, if_neg hc]

theorem New_cases (p : List Nat) (m : Option bisect.Matcher) (hp : p ≠ [])
    (h : bisect.New p = .ok m) :
    ∃ p1 verbose p2 enable s, bisect.skipV p p false = .ok (p1, verbose) ∧
      bisect.skipNot p p1 true = .ok (p2, enable) ∧
      bisect.parseLoop p (if p2 = [110] then [121] else p2)
        ((if p2 = [110] then [121] else p2).length + 1) 0 ⟨[], true, 0, 0, 1⟩ = .ok s ∧
      m = some ⟨verbose, if p2 = [110] then !enable else enable, s.list⟩ := by
  unfold bisect.New at h
  rw [if_neg hp] at h
  cases h1 : bisect.skipV p p false with
  | error e => rw [h1] at h; cases h
  | ok r1 =>
    obtain ⟨p1, verbose⟩ := r1
    rw [h1] at h
    dsimp only at h
    cases h2 : bisect.skipNot p p1 true with
    | error e => rw [h2] at h; cases h
    | ok r2 =>
      obtain ⟨p2, enable⟩ := r2
      rw [h2] at h
      dsimp only at h
      cases h3 : bisect.parseLoop p (if p2 = [110] then [121] else p2)
        ((if p2 = [110] then [121] else p2).length + 1) 0 ⟨[], true, 0, 0, 1⟩ with
      | error e => rw [h3] at h; cases h
      | ok s =>
        rw [h3] at h
        simp only [Except.ok.injEq] at h
        exact ⟨p1, verbose, p2, enable, s, rfl, h2, h3, h.symm⟩

theorem ShouldEnable_flip (verbose enable : Bool) (list : List bisect.cond) (id : Nat) :
    bisect.Matcher.ShouldEnable (some ⟨verbose, !enable, list⟩) id
      = !bisect.Matcher.ShouldEnable (some ⟨verbose, enable, list⟩) id := by
  unfold bisect.Matcher.ShouldEnable
  dsimp only
  cases bisect.lastMatch id list.reverse with
  | none => cases enable <;> rfl
  | some c =>
    obtain ⟨mk, b, r⟩ := c
    cases enable <;> cases r <;> rfl

/-- C27 (amended): for every pattern `p` that is not empty and does not start
with `v` and that `New` accepts, `New("!" + p)` succeeds too, and for every id
its `ShouldEnable` is the negation of that of `New(p)` while its `ShouldPrint` is
the same; `New("n")` and `New("!y")` return the same matcher, for which nothing
is enabled and everything is printed. -/
theorem not_inverts_enable (p : List Nat) (m : Option bisect.Matcher) (hp : p ≠ [])
    (hv : p.head? ≠ some 118) (h : bisect.New p = .ok m) :
    (∃ m1, bisect.New (33 :: p) = .ok m1 ∧ ∀ id : Nat,
      bisect.Matcher.ShouldEnable m1 id = !bisect.Matcher.ShouldEnable m id ∧
      bisect.Matcher.ShouldPrint m1 id = bisect.Matcher.ShouldPrint m id) ∧
    bisect.New (bytes "n") = bisect.New (bytes "!y") ∧
    ∃ mn, bisect.New (bytes "n") = .ok mn ∧ ∀ id : Nat,
      bisect.Matcher.ShouldEnable mn id = false ∧ bisect.Matcher.ShouldPrint mn id = true := by
  refine ⟨?_, rfl, some ⟨false, false, [⟨0, 0, true⟩]⟩, rfl, fun id => ?_⟩
  · obtain ⟨p1, verbose, p2, enable, s, h1, h2, h3, rfl⟩ := New_cases p m hp h
    obtain ⟨c, rest, rfl⟩ := List.exists_cons_of_ne_nil hp
    have hc : c ≠ 118 := by
      intro e
      apply hv
      rw [e]
      rfl
    rw [skipV_other _ c rest false hc] at h1
    simp only [Except.ok.injEq, Prod.mk.injEq] at h1
    obtain ⟨rfl, rfl⟩ := h1
    have h2' := skipNot_flip (c :: rest) (33 :: c :: rest) _ _ _ _ h2
    have h3' := parseLoop_pattern (c :: rest) (33 :: c :: rest) _ _ _ _ _ h3
    refine ⟨some ⟨false, if p2 = [110] then !(!enable) else !enable, s.list⟩, ?_, fun id => ?_⟩
    · unfold bisect.New
      rw [if_neg (by simp), skipV_other _ 33 (c :: rest) false (by norm_num)]
      dsimp only
      have h4 : bisect.skipNot (33 :: c :: rest) (33 :: c :: rest) true
          = .ok (p2, !enable) := by
        rw [bisect.skipNot, if_pos rfl, if_neg (by simp)]
        exact h2'
      rw [h4]
      dsimp only
      rw [h3']
    · constructor
      · by_cases hn : p2 = [110]
        · simp only [hn, if_true]
          exact ShouldEnable_flip _ _ _ _
        · simp only [hn, if_false]
          exact ShouldEnable_flip _ _ _ _
      · rfl
  · constructor
    · simp [bisect.Matcher.ShouldEnable, bisect.lastMatch]
    · simp [bisect.Matcher.ShouldPrint, bisect.lastMatch]

theorem not_inverts_enable_witness :
    bytes "y" ≠ [] ∧ (bytes "y").head? ≠ some 118 ∧
    bisect.New (bytes "y") = .ok (some ⟨false, true, [⟨0, 0, true⟩]⟩) ∧
    ((∃ m1, bisect.New (33 :: bytes "y") = .ok m1 ∧ ∀ id : Nat,
      bisect.Matcher.ShouldEnable m1 id
        = !bisect.Matcher.ShouldEnable (some ⟨false, true, [⟨0, 0, true⟩]⟩) id ∧
      bisect.Matcher.ShouldPrint m1 id
        = bisect.Matcher.ShouldPrint (some ⟨false, true, [⟨0, 0, true⟩]⟩) id) ∧
    bisect.New (bytes "n") = bisect.New (bytes "!y") ∧
    ∃ mn, bisect.New (bytes "n") = .ok mn ∧ ∀ id : Nat,
      bisect.Matcher.ShouldEnable mn id = false ∧ bisect.Matcher.ShouldPrint mn id = true) :=
  ⟨by decide, by decide, rfl,
    not_inverts_enable (bytes "y") _ (by decide) (by decide) rfl⟩

/-- C27, as stated, fails for the empty pattern: `New("")` succeeds (with the nil
matcher) and the pattern does not start with `v`, but `New("!")` is an error. -/
theorem not_inverts_enable_fails :
    bisect.New [] = .ok none ∧ ([] : List Nat).head? ≠ some 118 ∧
    ∀ m1, bisect.New (33 :: []) ≠ .ok m1 := by
  refine ⟨rfl, by decide, fun m1 h => ?_⟩
  have : bisect.New [33] = .error ⟨bytes "invalid pattern syntax: " ++ [33]⟩ := rfl
  rw [this] at h
  cases h

theorem parseLoop_add (pat p : List Nat) : ∀ (k t i : Nat) (s : bisect.parseState),
    bisect.parseLoop pat p (k + t) i s
      = match bisect.parseLoop pat p k i s with
        | .error e => .error e
        | .ok s1 => bisect.parseLoop pat p t (i + k) s1 := by
  intro k
  induction k with
  | zero => intro t i s; simp [bisect.parseLoop]
  | succ k ih =>
    intro t i s
    rw [show k + 1 + t = (k + t) + 1 by omega, bisect.parseLoop, bisect.parseLoop]
    cases bisect.parseStep pat p s i with
    | error e => rfl
    | ok s1 =>
      dsimp only
      rw [ih, show i + 1 + k = i + (k + 1) by omega]

theorem parseStep_digit (pat p : List Nat) (s : bisect.parseState) (i d : Nat)
    (hi : i < p.length) (hd : p.getD i 0 = d) (hb : d = 48 ∨ d = 49) (hw : s.wid = 1) :
    bisect.parseStep pat p s i
      = .ok { s with bits := ((s.bits <<< 1) % 2 ^ 64) ||| (d - 48) } := by
  unfold bisect.parseStep
  dsimp only
  rw [if_pos hi, hd, if_neg (by omega), if_neg (by omega), if_pos hb, hw]

theorem parseLoop_digits (pat p : List Nat) (t : Nat) : ∀ (ds : List Nat) (i : Nat)
    (s : bisect.parseState), s.wid = 1 → bisect.isBinary ds →
    (∀ j < ds.length, i + j < p.length ∧ p.getD (i + j) 0 = ds.getD j 0) →
    bisect.parseLoop pat p (ds.length + t) i s
      = bisect.parseLoop pat p t (i + ds.length)
          { s with bits := bisect.readBits s.bits ds } := by
  intro ds
  induction ds with
  | nil => intro i s _ _ _; simp [bisect.readBits]
  | cons d ds ih =>
    intro i s hw hb hp
    have h0 := hp 0 (by simp)
    simp only [Nat.add_zero, List.getD_cons_zero] at h0
    rw [List.length_cons, show ds.length + 1 + t = (ds.length + t) + 1 by omega,
      bisect.parseLoop, parseStep_digit pat p s i d h0.1 h0.2 (hb d (by simp)) hw]
    dsimp only
    have hrest : ∀ j < ds.length, i + 1 + j < p.length ∧ p.getD (i + 1 + j) 0 = ds.getD j 0 := by
      intro j hj
      have := hp (j + 1) (by simp; omega)
      rw [show i + 1 + j = i + (j + 1) by omega]
      simpa using this
    have hih := ih (i + 1) { s with bits := ((s.bits <<< 1) % 2 ^ 64) ||| (d - 48) } hw
      (fun x hx => hb x (List.mem_cons_of_mem _ hx)) hrest
    rw [hih]
    simp only [bisect.readBits, List.foldl_cons]
    rw [show i + 1 + ds.length = i + (ds.length + 1) by omega]

theorem readBits_eq : ∀ (ds : List Nat) (b k : Nat), bisect.isBinary ds → b < 2 ^ k →
    k + ds.length ≤ 64 →
    bisect.readBits b ds = ds.foldl (fun v d => 2 * v + (d - 48)) b ∧
    ds.foldl (fun v d => 2 * v + (d - 48)) b < 2 ^ (k + ds.length) := by
  intro ds
  induction ds with
  | nil => intro b k _ hb _; exact ⟨rfl, by simpa using hb⟩
  | cons d ds ih =>
    intro b k hbin hb hk
    simp only [List.length_cons] at hk
    have hd : d - 48 < 2 := by
      rcases hbin d (by simp) with h | h <;> omega
    have h2 : b * 2 ^ 1 < 2 ^ 64 := by
      have : 2 ^ (k + 1) ≤ 2 ^ 64 := Nat.pow_le_pow_right (by norm_num) (by omega)
      rw [pow_succ] at this
      omega
    have hstep : ((b <<< 1) % 2 ^ 64) ||| (d - 48) = 2 * b + (d - 48) := by
      rw [shl_mod b 1 h2, pow_one]
      rcases Nat.lt_succ_iff.1 hd with h
      interval_cases (d - 48)
      · simp
      · exact even_or_one _ (by omega)
    have hlt : 2 * b + (d - 48) < 2 ^ (k + 1) := by
      rw [pow_succ]; omega
    obtain ⟨e1, e2⟩ := ih (2 * b + (d - 48)) (k + 1)
      (fun x hx => hbin x (List.mem_cons_of_mem _ hx)) hlt (by omega)
    simp only [bisect.readBits, List.foldl_cons, List.length_cons] at e1 ⊢
    rw [hstep]
    refine ⟨e1, ?_⟩
    rw [show k + (ds.length + 1) = k + 1 + ds.length by omega]
    exact e2

theorem readBits_binVal (ds : List Nat) (hb : bisect.isBinary ds) (hl : ds.length ≤ 64) :
    bisect.readBits 0 ds = bisect.binVal ds ∧ bisect.binVal ds < 2 ^ ds.length := by
  have := readBits_eq ds 0 0 hb (by norm_num) (by omega)
  simpa [bisect.binVal] using this

theorem maskOf_eq (n : Nat) (hn : n ≤ 64) : bisect.maskOf n = 2 ^ n - 1 := by
  unfold bisect.maskOf
  rw [Nat.shiftLeft_eq, one_mul]
  rcases Nat.lt_or_eq_of_le hn with h | h
  · have h1 : 2 ^ n < 2 ^ 64 := Nat.pow_lt_pow_right (by norm_num) h
    have h2 : 0 < 2 ^ n := by positivity
    rw [Nat.mod_eq_of_lt h1]
    omega
  · subst h
    norm_num

theorem parseStep_op (pat p : List Nat) (s : bisect.parseState) (i op : Nat)
    (hop : op = 43 ∨ op = 45) (hc : (if i < p.length then p.getD i 0 else 45) = op)
    (hw : s.wid = 1) (hs : s.start < i) (hn : i - s.start ≤ 64)
    (hy : p.getD s.start 0 ≠ 121) (hr : ¬ (op = 43 ∧ s.result = false)) :
    bisect.parseStep pat p s i
      = .ok { list := s.list ++ [⟨2 ^ (i - s.start) - 1, s.bits, s.result⟩],
              result := decide (op = 43), bits := 0, start := i + 1, wid := 1 } := by
  unfold bisect.parseStep
  dsimp only
  rw [hc, if_neg (by omega), if_neg (by omega), if_neg (by omega), if_neg (by omega),
    if_neg (by omega), if_pos hop, if_neg hr, if_pos (by omega), hw]
  have hn1 : ((i : Int) - (s.start : Int)) * ((1 : Nat) : Int) = ((i - s.start : Nat) : Int) := by
    omega
  rw [hn1, if_neg (by omega), if_neg (by omega), if_neg hy, Int.toNat_ofNat,
    maskOf_eq _ hn]

theorem New_plain (p : List Nat) (x : Nat) (hx : p.head? = some x) (h1 : x ≠ 118)
    (h2 : x ≠ 33) (h3 : x ≠ 110) :
    bisect.New p = match bisect.parseLoop p p (p.length + 1) 0 ⟨[], true, 0, 0, 1⟩ with
      | .error e => .error e
      | .ok s => .ok (some ⟨false, true, s.list⟩) := by
  obtain ⟨c, rest, rfl⟩ : ∃ c rest, p = c :: rest := by
    cases p with
    | nil => simp at hx
    | cons c rest => exact ⟨c, rest, rfl⟩
  simp only [List.head?_cons, Option.some.injEq] at hx
  subst hx
  have hn : c :: rest ≠ [110] := by
    intro e
    simp only [List.cons.injEq] at e
    exact h3 e.1
  unfold bisect.New
  rw [if_neg (by simp), skipV_other _ c rest false h1]
  dsimp only
  rw [bisect.skipNot, if_neg h2]
  dsimp only
  simp only [if_neg hn]

theorem getD_mid (pre seg rest : List Nat) (j : Nat) (hj : j < seg.length) :
    pre.length + j < (pre ++ (seg ++ rest)).length ∧
    (pre ++ (seg ++ rest)).getD (pre.length + j) 0 = seg.getD j 0 := by
  constructor
  · simp; omega
  · rw [List.getD_append_right _ _ _ _ (by omega), Nat.add_sub_cancel_left,
      List.getD_append _ _ _ _ hj]

theorem isBinary_head (s : List Nat) (hs : bisect.isBinary s) (hne : s ≠ []) :
    s.getD 0 0 = 48 ∨ s.getD 0 0 = 49 := by
  cases s with
  | nil => exact absurd rfl hne
  | cons d ds => exact hs d (by simp)

theorem lastMatch_three (id : Nat) (la lb lc va vb vc : Nat) (ra rb rc : Bool) :
    bisect.lastMatch id
      ([⟨2 ^ la - 1, va, ra⟩, ⟨2 ^ lb - 1, vb, rb⟩, ⟨2 ^ lc - 1, vc, rc⟩] :
        List bisect.cond).reverse
      = if id % 2 ^ lc = vc then some ⟨2 ^ lc - 1, vc, rc⟩
        else if id % 2 ^ lb = vb then some ⟨2 ^ lb - 1, vb, rb⟩
        else if id % 2 ^ la = va then some ⟨2 ^ la - 1, va, ra⟩ else none := by
  simp only [List.reverse_cons, List.reverse_nil, List.nil_append, List.cons_append,
    bisect.lastMatch, Nat.and_pow_two_sub_one_eq_mod]

theorem parse_sum_diff (pat a b c : List Nat) (ha : a ≠ []) (hb : b ≠ []) (hc : c ≠ [])
    (ha2 : bisect.isBinary a) (hb2 : bisect.isBinary b) (hc2 : bisect.isBinary c)
    (hla : a.length ≤ 64) (hlb : b.length ≤ 64) (hlc : c.length ≤ 64) :
    bisect.parseLoop pat (a ++ ([43] ++ (b ++ ([45] ++ c))))
        ((a ++ ([43] ++ (b ++ ([45] ++ c)))).length + 1) 0 ⟨[], true, 0, 0, 1⟩
      = .ok ⟨[⟨2 ^ a.length - 1, bisect.binVal a, true⟩,
              ⟨2 ^ b.length - 1, bisect.binVal b, true⟩,
              ⟨2 ^ c.length - 1, bisect.binVal c, false⟩], false, 0,
             a.length + 1 + b.length + 1 + c.length + 1, 1⟩ := by
  have hap : 0 < a.length := List.length_pos.2 ha
  have hbp : 0 < b.length := List.length_pos.2 hb
  have hcp : 0 < c.length := List.length_pos.2 hc
  generalize hp : a ++ ([43] ++ (b ++ ([45] ++ c))) = p
  have hlen : p.length = a.length + 1 + b.length + 1 + c.length := by
    rw [← hp]; simp; omega
  -- the characters of the pattern
  have hA : ∀ j < a.length, 0 + j < p.length ∧ p.getD (0 + j) 0 = a.getD j 0 := by
    intro j hj
    have := getD_mid [] a ([43] ++ (b ++ ([45] ++ c))) j hj
    rw [← hp]
    exact this
  have hB : ∀ j < b.length, a.length + 1 + j < p.length ∧
      p.getD (a.length + 1 + j) 0 = b.getD j 0 := by
    intro j hj
    have e : a ++ ([43] ++ (b ++ ([45] ++ c))) = (a ++ [43]) ++ (b ++ ([45] ++ c)) := by simp
    have l : (a ++ [43]).length = a.length + 1 := by simp
    rw [← hp, e, ← l]
    exact getD_mid _ b _ j hj
  have hC : ∀ j < c.length, a.length + 1 + b.length + 1 + j < p.length ∧
      p.getD (a.length + 1 + b.length + 1 + j) 0 = c.getD j 0 := by
    intro j hj
    have e : a ++ ([43] ++ (b ++ ([45] ++ c))) = (a ++ ([43] ++ (b ++ [45]))) ++ (c ++ []) := by
      simp
    have l : (a ++ ([43] ++ (b ++ [45]))).length = a.length + 1 + b.length + 1 := by
      simp; omega
    rw [← hp, e, ← l]
    exact getD_mid _ c _ j hj
  have hplus : p.getD a.length 0 = 43 := by
    have := (getD_mid a [43] (b ++ ([45] ++ c)) 0 (by simp)).2
    rw [← hp]
    exact this
  have hminus : p.getD (a.length + 1 + b.length) 0 = 45 := by
    have e : a ++ ([43] ++ (b ++ ([45] ++ c))) = (a ++ ([43] ++ b)) ++ ([45] ++ c) := by simp
    have l : (a ++ ([43] ++ b)).length = a.length + 1 + b.length := by simp; omega
    have := (getD_mid (a ++ ([43] ++ b)) [45] c 0 (by simp)).2
    rw [← hp, e, ← l]
    exact this
  have ya : p.getD 0 0 ≠ 121 := by
    have h1 := (hA 0 hap).2
    rw [Nat.add_zero] at h1
    rcases isBinary_head a ha2 ha with h | h <;> omega
  have yb : p.getD (a.length + 1) 0 ≠ 121 := by
    have h1 := (hB 0 hbp).2
    rw [Nat.add_zero] at h1
    rcases isBinary_head b hb2 hb with h | h <;> omega
  have yc : p.getD (a.length + 1 + b.length + 1) 0 ≠ 121 := by
    have h1 := (hC 0 hcp).2
    rw [Nat.add_zero] at h1
    rcases isBinary_head c hc2 hc with h | h <;> omega
  obtain ⟨va, -⟩ := readBits_binVal a ha2 hla
  obtain ⟨vb, -⟩ := readBits_binVal b hb2 hlb
  obtain ⟨vc, -⟩ := readBits_binVal c hc2 hlc
  have hcount : a.length + 1 + b.length + 1 + c.length + 1
      = a.length + ((b.length + ((c.length + 1) + 1)) + 1) := by omega
  rw [hlen, hcount]
  -- the digits of a
  rw [parseLoop_digits pat p _ a 0 _ rfl ha2 hA]
  dsimp only
  rw [va, Nat.zero_add]
  -- the operator +
  rw [bisect.parseLoop, parseStep_op pat p _ a.length 43 (Or.inl rfl)
    (by rw [if_pos (by omega), hplus]) rfl hap (by simpa using hla) ya (by simp)]
  dsimp only
  rw [Nat.sub_zero]
  -- the digits of b
  rw [parseLoop_digits pat p _ b (a.length + 1) _ rfl hb2 hB]
  dsimp only
  rw [vb]
  -- the operator -
  rw [bisect.parseLoop, parseStep_op pat p _ (a.length + 1 + b.length) 45 (Or.inr rfl)
    (by rw [if_pos (by omega), hminus]) rfl (by simp; omega) (by simp; omega) yb (by simp)]
  dsimp only
  rw [show a.length + 1 + b.length - (a.length + 1) = b.length by omega]
  -- the digits of c
  rw [parseLoop_digits pat p _ c (a.length + 1 + b.length + 1) _ rfl hc2 hC]
  dsimp only
  rw [vc]
  -- the end of the pattern
  rw [bisect.parseLoop, parseStep_op pat p _ (a.length + 1 + b.length + 1 + c.length) 45
    (Or.inr rfl) (by rw [if_neg (by omega)]) rfl (by simp; omega) (by simp; omega) yc (by simp)]
  dsimp only
  rw [show a.length + 1 + b.length + 1 + c.length - (a.length + 1 + b.length + 1) = c.length
    by omega]
  rw [bisect.parseLoop, hcount]
  simp

/-- C26: for non-empty strings `a`, `b`, `c` of at most 64 binary digits,
`New(a + "+" + b + "-" + c)` parses without error, and for every id
`ShouldEnable` and `ShouldPrint` are both true exactly when the id ends in the
bits of `a` or of `b` and does not end in the bits of `c`. Also: `01+10` and
`+01+10` select the ids ending in 01 or 10, and `-01-1000` and `y-01-1000` the
ids ending in neither 01 nor 1000. -/
theorem pattern_semantics (a b c : List Nat) (ha : a ≠ []) (hb : b ≠ []) (hc : c ≠ [])
    (ha2 : bisect.isBinary a) (hb2 : bisect.isBinary b) (hc2 : bisect.isBinary c)
    (hla : a.length ≤ 64) (hlb : b.length ≤ 64) (hlc : c.length ≤ 64) :
    (∃ m, bisect.New (a ++ bytes "+" ++ b ++ bytes "-" ++ c) = .ok (some m) ∧
      ∀ id : Nat,
        bisect.Matcher.ShouldEnable (some m) id
          = ((bisect.endsIn id a || bisect.endsIn id b) && !bisect.endsIn id c) ∧
        bisect.Matcher.ShouldPrint (some m) id
          = ((bisect.endsIn id a || bisect.endsIn id b) && !bisect.endsIn id c)) ∧
    (∀ pattern, pattern = bytes "01+10" ∨ pattern = bytes "+01+10" →
      ∃ m, bisect.New pattern = .ok (some m) ∧ ∀ id : Nat,
        bisect.Matcher.ShouldEnable (some m) id = decide (id % 4 = 1 ∨ id % 4 = 2) ∧
        bisect.Matcher.ShouldPrint (some m) id = decide (id % 4 = 1 ∨ id % 4 = 2)) ∧
    (∀ pattern, pattern = bytes "-01-1000" ∨ pattern = bytes "y-01-1000" →
      ∃ m, bisect.New pattern = .ok (some m) ∧ ∀ id : Nat,
        bisect.Matcher.ShouldEnable (some m) id = decide (id % 4 ≠ 1 ∧ id % 16 ≠ 8) ∧
        bisect.Matcher.ShouldPrint (some m) id = decide (id % 4 ≠ 1 ∧ id % 16 ≠ 8)) := by
  refine ⟨?_, ?_, ?_⟩
  · have hp : a ++ bytes "+" ++ b ++ bytes "-" ++ c = a ++ ([43] ++ (b ++ ([45] ++ c))) := by
      simp [bytes]
    have hhead : (a ++ ([43] ++ (b ++ ([45] ++ c)))).head? = some (a.getD 0 0) := by
      cases a with
      | nil => exact absurd rfl ha
      | cons d ds => rfl
    have hd := isBinary_head a ha2 ha
    refine ⟨⟨false, true, [⟨2 ^ a.length - 1, bisect.binVal a, true⟩,
      ⟨2 ^ b.length - 1, bisect.binVal b, true⟩,
      ⟨2 ^ c.length - 1, bisect.binVal c, false⟩]⟩, ?_, fun id => ?_⟩
    · rw [hp, New_plain _ _ hhead (by omega) (by omega) (by omega),
        parse_sum_diff _ a b c ha hb hc ha2 hb2 hc2 hla hlb hlc]
    · unfold bisect.Matcher.ShouldEnable bisect.Matcher.ShouldPrint
      dsimp only
      rw [lastMatch_three]
      unfold bisect.endsIn
      by_cases h3 : id % 2 ^ c.length = bisect.binVal c
      · simp [h3]
      · by_cases h2 : id % 2 ^ b.length = bisect.binVal b
        · simp [h3, h2]
        · by_cases h1 : id % 2 ^ a.length = bisect.binVal a
          · simp [h3, h2, h1]
          · simp [h3, h2, h1]
  · intro pattern hpat
    refine ⟨⟨false, true, [⟨3, 1, true⟩, ⟨3, 2, true⟩]⟩, ?_, fun id => ?_⟩
    · rcases hpat with h | h <;> subst h <;> rfl
    · have e3 : id &&& 3 = id % 4 := Nat.and_pow_two_sub_one_eq_mod id 2
      simp only [bisect.Matcher.ShouldEnable, bisect.Matcher.ShouldPrint, List.reverse_cons,
        List.reverse_nil, List.nil_append, List.cons_append, bisect.lastMatch, e3]
      by_cases h2 : id % 4 = 2
      · simp [h2]
      · by_cases h1 : id % 4 = 1
        · simp [h2, h1]
        · simp [h2, h1]
  · intro pattern hpat
    refine ⟨⟨false, true, [⟨0, 0, true⟩, ⟨3, 1, false⟩, ⟨15, 8, false⟩]⟩, ?_, fun id => ?_⟩
    · rcases hpat with h | h <;> subst h <;> rfl
    · have e3 : id &&& 3 = id % 4 := Nat.and_pow_two_sub_one_eq_mod id 2
      have e15 : id &&& 15 = id % 16 := Nat.and_pow_two_sub_one_eq_mod id 4
      simp only [bisect.Matcher.ShouldEnable, bisect.Matcher.ShouldPrint, List.reverse_cons,
        List.reverse_nil, List.nil_append, List.cons_append, bisect.lastMatch, e3, e15,
        Nat.and_zero]
      by_cases h2 : id % 16 = 8
      · simp [h2]
      · by_cases h1 : id % 4 = 1
        · simp [h2, h1]
        · simp [h2, h1]

theorem pattern_semantics_witness :
    bisect.isBinary (bytes "01") ∧ bisect.isBinary (bytes "10") ∧
    bisect.isBinary (bytes "1001") ∧
    ∃ m, bisect.New (bytes "01" ++ bytes "+" ++ bytes "10" ++ bytes "-" ++ bytes "1001")
        = .ok (some m) ∧
      ∀ id : Nat,
        bisect.Matcher.ShouldEnable (some m) id
          = ((bisect.endsIn id (bytes "01") || bisect.endsIn id (bytes "10")) &&
              !bisect.endsIn id (bytes "1001")) ∧
        bisect.Matcher.ShouldPrint (some m) id
          = ((bisect.endsIn id (bytes "01") || bisect.endsIn id (bytes "10")) &&
              !bisect.endsIn id (bytes "1001")) :=
  ⟨by decide, by decide, by decide,
    (pattern_semantics (bytes "01") (bytes "10") (bytes "1001") (by decide) (by decide)
      (by decide) (by decide) (by decide) (by decide) (by decide) (by decide) (by decide)).1⟩

theorem hexChar_spec : ∀ v < 16, (bytes "0123456789abcdef").getD v 0
    = if v < 10 then 48 + v else 87 + v := by decide

theorem hexChar_val (v : Nat) (hv : v < 16) :
    bisect.isLowerHex ((bytes "0123456789abcdef").getD v 0) ∧
    bisect.hexDigitVal ((bytes "0123456789abcdef").getD v 0) = v := by
  rw [hexChar_spec v hv]
  unfold bisect.isLowerHex bisect.hexDigitVal
  split_ifs <;> omega

theorem hexLoop_lower : ∀ (n x : Nat), x < 2 ^ 64 → ∀ c ∈ bisect.hexLoop n x,
    bisect.isLowerHex c := by
  intro n
  induction n with
  | zero => intro x _ c hc; simp [bisect.hexLoop] at hc
  | succ n ih =>
    intro x hx c hc
    rw [bisect.hexLoop, List.mem_cons] at hc
    rcases hc with rfl | hc
    · refine (hexChar_val _ ?_).1
      rw [Nat.shiftRight_eq_div_pow]
      omega
    · exact ih _ (Nat.mod_lt _ (by norm_num)) c hc

theorem hexLoop_val : ∀ (n k x acc : Nat), 4 * n + k = 64 → x < 2 ^ 64 →
    (bisect.hexLoop n x).foldl (fun v c => 16 * v + bisect.hexDigitVal c) acc
      = acc * 2 ^ (4 * n) + x / 2 ^ k := by
  intro n
  induction n with
  | zero =>
    intro k x acc hk hx
    have : k = 64 := by omega
    subst this
    have h0 : x / 2 ^ 64 = 0 := Nat.div_eq_of_lt hx
    rw [h0]
    simp [bisect.hexLoop]
  | succ n ih =>
    intro k x acc hk hx
    have hh : x >>> 60 < 16 := by
      rw [Nat.shiftRight_eq_div_pow]; omega
    rw [bisect.hexLoop, List.foldl_cons, (hexChar_val _ hh).2,
      ih (k + 4) _ _ (by omega) (Nat.mod_lt _ (by norm_num))]
    rw [Nat.shiftRight_eq_div_pow, Nat.shiftLeft_eq]
    -- x = h * 2^60 + l
    obtain ⟨h, l, hl, rfl⟩ : ∃ h l, l < 2 ^ 60 ∧ x = h * 2 ^ 60 + l :=
      ⟨x / 2 ^ 60, x % 2 ^ 60, Nat.mod_lt _ (by norm_num), by omega⟩
    have hh1 : h < 16 := by omega
    have e1 : (h * 2 ^ 60 + l) / 2 ^ 60 = h := by omega
    have e2 : (h * 2 ^ 60 + l) * 2 ^ 4 % 2 ^ 64 = 16 * l := by omega
    have e3 : 16 * l / 2 ^ (k + 4) = l / 2 ^ k := by
      have : (2 : Nat) ^ (k + 4) = 16 * 2 ^ k := by rw [pow_add]; ring
      rw [this]
      exact Nat.mul_div_mul_left _ _ (by norm_num)
    have hk60 : (2 : Nat) ^ 60 = 2 ^ (4 * n) * 2 ^ k := by
      rw [← pow_add]; congr 1; omega
    have e4 : (h * 2 ^ 60 + l) / 2 ^ k = h * 2 ^ (4 * n) + l / 2 ^ k := by
      rw [hk60, ← Nat.mul_assoc, Nat.add_comm, Nat.add_mul_div_right _ _ (by positivity),
        Nat.add_comm]
    rw [e1, e2, e3, e4, show 4 * (n + 1) = 4 * n + 4 by ring, pow_add]
    ring

theorem foldl_hexStep (s : List Nat) : ∀ (k acc : Nat), 4 * s.length + k = 64 → acc < 2 ^ k →
    (∀ c ∈ s, bisect.isLowerHex c) →
    s.foldl bisect.hexStep acc = s.foldl (fun v c => 16 * v + bisect.hexDigitVal c) acc := by
  induction s with
  | nil => intro k acc _ _ _; rfl
  | cons c s ih =>
    intro k acc hk hacc hs
    simp only [List.length_cons] at hk
    have hc := hs c (by simp)
    have hpow : (2 : Nat) ^ (k + 4) ≤ 2 ^ 64 := Nat.pow_le_pow_right (by norm_num) (by omega)
    have hk4 : (2 : Nat) ^ (k + 4) = 2 ^ k * 16 := by rw [pow_add]; norm_num
    have hv : bisect.hexDigitVal c < 16 := by
      unfold bisect.hexDigitVal bisect.isLowerHex at *
      split_ifs <;> omega
    have hstep : bisect.hexStep acc c = 16 * acc + bisect.hexDigitVal c := by
      have hsh : (acc <<< 4) % 2 ^ 64 = 2 ^ 4 * acc := shl_mod acc 4 (by omega)
      have hor : ∀ v, v < 16 → 2 ^ 4 * acc ||| v = 16 * acc + v := by
        intro v hv
        rw [Nat.lor_comm, acc_or v acc 4 (by simpa using hv)]
        omega
      unfold bisect.hexStep bisect.hexDigitVal
      unfold bisect.isLowerHex at hc
      dsimp only
      rw [hsh]
      rcases hc with hc | hc
      · rw [if_pos hc, if_pos hc.2, hor _ (by omega)]
      · rw [if_neg (by omega), if_pos hc, if_neg (by omega), hor _ (by omega)]
        congr 1
        omega
    rw [List.foldl_cons, List.foldl_cons, hstep]
    exact ih (k + 4) _ (by omega) (by omega) (fun x hx => hs x (List.mem_cons_of_mem _ hx))

theorem hexLoop_roundtrip (id : Nat) (hid : id < 2 ^ 64) :
    bisect.hexVal (bisect.hexLoop 16 id) = id ∧
    (bisect.hexLoop 16 id).foldl bisect.hexStep 0 = id := by
  have h1 := hexLoop_val 16 0 id 0 (by norm_num) hid
  simp only [Nat.zero_mul, pow_zero, Nat.div_one, Nat.zero_add] at h1
  refine ⟨h1, ?_⟩
  rw [foldl_hexStep _ 0 0 (by rw [hexLoop_length]) (by norm_num) (hexLoop_lower 16 id hid)]
  exact h1

theorem findPrefix_lead (M : List Nat) (n : Nat)
    (hM : M.take (bytes "[bisect-match ").length = bytes "[bisect-match ") :
    ∀ (lead : List Nat) (i : Nat), 91 ∉ lead →
      i + lead.length + (bytes "[bisect-match ").length < n →
      bisect.findPrefix n (lead ++ M) i = some (i + lead.length) := by
  intro lead
  induction lead with
  | nil =>
    intro i _ hn
    cases M with
    | nil => simp [bytes] at hM
    | cons c rest =>
      have hc : c = 91 := by
        have := congrArg List.head? hM
        simpa [bytes] using this
      rw [List.nil_append, bisect.findPrefix, if_neg (by simpa using hn), if_pos ⟨hc, hM⟩]
      rfl
  | cons d lead ih =>
    intro i hd hn
    simp only [List.mem_cons, not_or] at hd
    simp only [List.length_cons] at hn
    rw [List.cons_append, bisect.findPrefix, if_neg (by omega),
      if_neg (fun h => hd.1 h.1.symm), ih (i + 1) hd.2 (by omega)]
    simp only [List.length_cons]
    congr 1
    omega

theorem scanTo_bracket : ∀ (s post : List Nat) (j : Nat), 93 ∉ s →
    bisect.scanTo (s ++ 93 :: post) j = j + s.length := by
  intro s
  induction s with
  | nil => intro post j _; simp [bisect.scanTo]
  | cons c s ih =>
    intro post j hs
    simp only [List.mem_cons, not_or] at hs
    rw [List.cons_append, bisect.scanTo, if_pos (fun h => hs.1 h.symm), ih post (j + 1) hs.2]
    simp only [List.length_cons]
    omega

theorem Marker_shape (id : Nat) (post : List Nat) :
    bisect.Marker id ++ post
      = bytes "[bisect-match " ++ (([48, 120] ++ bisect.hexLoop 16 id) ++ 93 :: post) := by
  have : bytes "[bisect-match 0x" = bytes "[bisect-match " ++ [48, 120] := by decide
  simp [bisect.Marker, bisect.AppendMarker, this]

theorem hexLoop_no_bracket (id : Nat) (hid : id < 2 ^ 64) :
    93 ∉ ([48, 120] ++ bisect.hexLoop 16 id : List Nat) := by
  intro h
  rw [List.mem_append] at h
  rcases h with h | h
  · revert h; decide
  · have := hexLoop_lower 16 id hid 93 h
    unfold bisect.isLowerHex at this
    omega

theorem parseId_hex (id : Nat) (hid : id < 2 ^ 64) :
    bisect.parseId ([48, 120] ++ bisect.hexLoop 16 id) = some id := by
  have hl : ([48, 120] ++ bisect.hexLoop 16 id : List Nat).length = 18 := by
    simp [hexLoop_length]
  have ht : ([48, 120] ++ bisect.hexLoop 16 id : List Nat).take 2 = bytes "0x" := by
    simp [bytes]
  have hd : ([48, 120] ++ bisect.hexLoop 16 id : List Nat).drop 2 = bisect.hexLoop 16 id := by
    simp
  unfold bisect.parseId
  rw [if_pos ⟨by omega, ht⟩, if_neg (by omega), hd, (hexLoop_roundtrip id hid).2]

theorem CutMarker_general (id : Nat) (hid : id < 2 ^ 64) (lead post : List Nat)
    (hlead : 91 ∉ lead) :
    bisect.CutMarker (lead ++ (bisect.Marker id ++ post))
      = if lead.length > 0 ∧ (lead ++ (bisect.Marker id ++ post)).getD (lead.length - 1) 0 = 32
        then (lead.take (lead.length - 1) ++ post, id, true)
        else if post ≠ [] ∧ post.head? = some 32 then (lead ++ post.drop 1, id, true)
        else (lead ++ post, id, true) := by
  have hP : (bytes "[bisect-match ").length = 14 := by decide
  have hH : ([48, 120] ++ bisect.hexLoop 16 id : List Nat).length = 18 := by
    simp [hexLoop_length]
  have hM : (bisect.Marker id ++ post).take (bytes "[bisect-match ").length
      = bytes "[bisect-match " := by
    rw [Marker_shape, List.take_left']
    rfl
  have hlen : (lead ++ (bisect.Marker id ++ post)).length = lead.length + 33 + post.length := by
    simp [Marker_length]; omega
  have hfind : bisect.findPrefix (lead ++ (bisect.Marker id ++ post)).length
      (lead ++ (bisect.Marker id ++ post)) 0 = some lead.length := by
    rw [findPrefix_lead _ _ hM lead 0 hlead (by rw [hlen, hP]; omega)]
    simp
  have hdrop : (lead ++ (bisect.Marker id ++ post)).drop (lead.length + 14)
      = ([48, 120] ++ bisect.hexLoop 16 id) ++ 93 :: post := by
    rw [Marker_shape, ← List.append_assoc, List.drop_left']
    rw [List.length_append, hP]
  have hscan : bisect.scanTo ((lead ++ (bisect.Marker id ++ post)).drop (lead.length + 14))
      (lead.length + 14) = lead.length + 32 := by
    rw [hdrop, scanTo_bracket _ _ _ (hexLoop_no_bracket id hid), hH]
  have htake : ((lead ++ (bisect.Marker id ++ post)).take (lead.length + 32)).drop
      (lead.length + 14) = [48, 120] ++ bisect.hexLoop 16 id := by
    rw [Marker_shape, ← List.append_assoc, ← List.append_assoc, List.take_left', List.drop_left']
    · rw [List.length_append, hP]
    · rw [List.length_append, List.length_append, hP, hH]
  have hdropj : (lead ++ (bisect.Marker id ++ post)).drop (lead.length + 32 + 1) = post := by
    rw [← List.append_assoc, List.drop_left']
    rw [List.length_append, Marker_length]
  have htakei : (lead ++ (bisect.Marker id ++ post)).take lead.length = lead := by
    rw [List.take_left']; rfl
  have htakei1 : (lead ++ (bisect.Marker id ++ post)).take (lead.length - 1)
      = lead.take (lead.length - 1) := by
    rw [List.take_append_of_le_length (by omega)]
  have hgetj : (lead ++ (bisect.Marker id ++ post)).getD (lead.length + 32 + 1) 0
      = post.getD 0 0 := by
    rw [← List.append_assoc]
    have hl : (lead ++ bisect.Marker id).length = lead.length + 32 + 1 := by
      rw [List.length_append, Marker_length]
    rw [← hl, List.getD_append_right _ _ _ _ (le_refl _)]
    simp
  have hdropj1 : (lead ++ (bisect.Marker id ++ post)).drop (lead.length + 32 + 1 + 1)
      = post.drop 1 := by
    rw [← List.drop_drop, hdropj]
  unfold bisect.CutMarker
  rw [hfind]
  simp only [hP, hscan, htake, parseId_hex id hid, hdropj, htakei, htakei1, hgetj, hdropj1]
  rw [if_neg (by rw [hlen]; omega)]
  by_cases h1 : lead.length > 0 ∧
      (lead ++ (bisect.Marker id ++ post)).getD (lead.length - 1) 0 = 32
  · rw [if_pos h1, if_pos h1]
  · rw [if_neg h1, if_neg h1]
    have hiff : (lead.length + 32 + 1 < (lead ++ (bisect.Marker id ++ post)).length ∧
        post.getD 0 0 = 32) ↔ (post ≠ [] ∧ post.head? = some 32) := by
      rw [hlen]
      cases post with
      | nil => simp
      | cons c r => simp
    by_cases h2 : post ≠ [] ∧ post.head? = some 32
    · rw [if_pos h2, if_pos (hiff.2 h2)]
    · rw [if_neg h2, if_neg (fun h => h2 (hiff.1 h))]

/-- C29: for every 64-bit id, `Marker(id)` is the 33-byte text `"[bisect-match 0x"`,
then 16 lower-case hexadecimal digits that denote `id`, then `"]"`;
`CutMarker(Marker(id))` returns the empty text, `id` and true; and for every text
`pre` without `'['` and every text `post`,
`CutMarker(pre + " " + Marker(id) + post)` returns `pre + post`, `id` and true. -/
theorem marker_round_trip (id : Nat) (hid : id < 2 ^ 64) (pre post : List Nat)
    (hpre : 91 ∉ pre) :
    (∃ H : List Nat, bisect.Marker id = bytes "[bisect-match 0x" ++ H ++ bytes "]" ∧
      H.length = 16 ∧ (∀ c ∈ H, bisect.isLowerHex c) ∧ bisect.hexVal H = id) ∧
    (bisect.Marker id).length = 33 ∧
    bisect.CutMarker (bisect.Marker id) = ([], id, true) ∧
    bisect.CutMarker (pre ++ bytes " " ++ bisect.Marker id ++ post)
      = (pre ++ post, id, true) := by
  refine ⟨⟨bisect.hexLoop 16 id, ?_, hexLoop_length 16 id, hexLoop_lower 16 id hid,
    (hexLoop_roundtrip id hid).1⟩, Marker_length id, ?_, ?_⟩
  · simp [bisect.Marker, bisect.AppendMarker, bytes]
  · have h := CutMarker_general id hid [] [] (by simp)
    simpa using h
  · have hl : (91 : Nat) ∉ pre ++ bytes " " := by
      intro h
      rw [List.mem_append] at h
      rcases h with h | h
      · exact hpre h
      · revert h; decide
    have h := CutMarker_general id hid (pre ++ bytes " ") post hl
    have hs : bytes " " = [32] := by decide
    rw [hs] at h
    rw [hs, List.append_assoc (pre ++ [32]), h, if_pos]
    · simp
    · refine ⟨by simp, ?_⟩
      rw [List.getD_append _ _ _ _ (by simp)]
      simp [List.getD_append_right]

theorem marker_round_trip_witness :
    (4660 : Nat) < 2 ^ 64 ∧ 91 ∉ bytes "foo" ∧
    bisect.CutMarker (bytes "foo" ++ bytes " " ++ bisect.Marker 4660 ++ bytes " bar")
      = (bytes "foo" ++ bytes " bar", 4660, true) :=
  ⟨by norm_num, by decide,
    (marker_round_trip 4660 (by norm_num) (bytes "foo") (bytes " bar") (by decide)).2.2.2⟩

theorem or_lt_four : ∀ a < 4, ∀ b < 4, a ||| b < 4 ∧ 3 ||| b = 3 := by decide

theorem getdynLoop_cons (h : ir.Node) (t : ir.Nodes) (mode : Nat) :
    getdynLoop (.cons h t) mode
      = if mode ||| getdyn h.value false = initDynamic ||| initConst
        then mode ||| getdyn h.value false
        else getdynLoop t (mode ||| getdyn h.value false) := by
  cases h <;> simp only [getdynLoop, ir.Node.value]

mutual
theorem getdyn_lt : ∀ (n : ir.Node) (top : Bool), getdyn n top < 4
  | .slicelit Len l, top => by
    rw [getdyn]
    split_ifs
    · decide
    · decide
    · exact getdynLoop_lt l 0 (by decide)
  | .arraylit l, _ => by rw [getdyn]; exact getdynLoop_lt l 0 (by decide)
  | .structlit l, _ => by rw [getdyn]; exact getdynLoop_lt l 0 (by decide)
  | .other c, _ => by rw [getdyn]; split_ifs <;> decide
  | .key _, _ => by rw [getdyn]; decide
  | .structkey _, _ => by rw [getdyn]; decide
theorem getdynLoop_lt : ∀ (l : ir.Nodes) (mode : Nat), mode < 4 → getdynLoop l mode < 4
  | .nil, mode, h => by rw [getdynLoop]; exact h
  | .cons (.key v) t, mode, h => by
    have hv := getdyn_lt v false
    have hm := (or_lt_four mode h _ hv).1
    rw [getdynLoop_cons]
    simp only [ir.Node.value]
    split_ifs
    · exact hm
    · exact getdynLoop_lt t _ hm
  | .cons (.structkey v) t, mode, h => by
    have hv := getdyn_lt v false
    have hm := (or_lt_four mode h _ hv).1
    rw [getdynLoop_cons]
    simp only [ir.Node.value]
    split_ifs
    · exact hm
    · exact getdynLoop_lt t _ hm
  | .cons (.other c) t, mode, h => by
    have hv := getdyn_lt (.other c) false
    have hm := (or_lt_four mode h _ hv).1
    rw [getdynLoop_cons]
    simp only [ir.Node.value]
    split_ifs
    · exact hm
    · exact getdynLoop_lt t _ hm
  | .cons (.slicelit n l) t, mode, h => by
    have hv := getdyn_lt (.slicelit n l) false
    have hm := (or_lt_four mode h _ hv).1
    rw [getdynLoop_cons]
    simp only [ir.Node.value]
    split_ifs
    · exact hm
    · exact getdynLoop_lt t _ hm
  | .cons (.arraylit l) t, mode, h => by
    have hv := getdyn_lt (.arraylit l) false
    have hm := (or_lt_four mode h _ hv).1
    rw [getdynLoop_cons]
    simp only [ir.Node.value]
    split_ifs
    · exact hm
    · exact getdynLoop_lt t _ hm
  | .cons (.structlit l) t, mode, h => by
    have hv := getdyn_lt (.structlit l) false
    have hm := (or_lt_four mode h _ hv).1
    rw [getdynLoop_cons]
    simp only [ir.Node.value]
    split_ifs
    · exact hm
    · exact getdynLoop_lt t _ hm
end

theorem foldl_or_three : ∀ (xs : List Nat), (∀ x ∈ xs, x < 4) →
    xs.foldl (· ||| ·) 3 = 3 := by
  intro xs
  induction xs with
  | nil => intro _; rfl
  | cons x xs ih =>
    intro h
    rw [List.foldl_cons, (or_lt_four 0 (by decide) x (h x (by simp))).2]
    exact ih fun y hy => h y (List.mem_cons_of_mem _ hy)

theorem getdynLoop_or : ∀ (l : ir.Nodes) (mode : Nat), mode < 4 →
    getdynLoop l mode
      = (l.toList.map fun n1 => getdyn n1.value false).foldl (· ||| ·) mode
  | .nil, _, _ => rfl
  | .cons h t, mode, hm => by
    have hv := getdyn_lt h.value false
    have hm1 := (or_lt_four mode hm _ hv).1
    rw [getdynLoop_cons, ir.Nodes.toList, List.map_cons, List.foldl_cons]
    split_ifs with h3
    · have e : initDynamic ||| initConst = 3 := by decide
      rw [h3, e, foldl_or_three]
      intro x hx
      rw [List.mem_map] at hx
      obtain ⟨n1, _, rfl⟩ := hx
      exact getdyn_lt _ _
    · exact getdynLoop_or t _ hm1

/-- C25: `getdyn` gives `initDynamic` to a top-level slice literal whose `Len/4`
is greater than the number of its entries and to every slice literal met while
recursing; to every other slice, array or struct literal it gives the bitwise OR
of what it gives, recursing, to the values of the entries; to a node of another
op it gives `initConst` if the node is a constant and `initDynamic` if not; and
an empty literal gets 0. -/
theorem getdyn_classifies (Len : Int) (l : ir.Nodes) (top c : Bool) :
    (Len.tdiv 4 > (l.len : Int) → getdyn (.slicelit Len l) true = initDynamic) ∧
    getdyn (.slicelit Len l) false = initDynamic ∧
    (¬ Len.tdiv 4 > (l.len : Int) → getdyn (.slicelit Len l) true = l.orOfValues) ∧
    getdyn (.arraylit l) top = l.orOfValues ∧
    getdyn (.structlit l) top = l.orOfValues ∧
    getdyn (.other c) top = (if c then initConst else initDynamic) ∧
    (¬ Len.tdiv 4 > 0 → getdyn (.slicelit Len .nil) true = 0) ∧
    getdyn (.arraylit .nil) top = 0 ∧ getdyn (.structlit .nil) top = 0 := by
  refine ⟨fun h => ?_, ?_, fun h => ?_, ?_, ?_, ?_, fun h => ?_, ?_, ?_⟩
  · rw [getdyn, if_neg (by simp), if_pos h]
  · rw [getdyn, if_pos (by simp)]
  · rw [getdyn, if_neg (by simp), if_neg h, getdynLoop_or l 0 (by decide)]
    rfl
  · rw [getdyn, getdynLoop_or l 0 (by decide)]
    rfl
  · rw [getdyn, getdynLoop_or l 0 (by decide)]
    rfl
  · rw [getdyn]
  · rw [getdyn, if_neg (by simp), if_neg (by simpa [ir.Nodes.len] using h), getdynLoop]
  · rw [getdyn, getdynLoop]
  · rw [getdyn, getdynLoop]

theorem getdyn_classifies_witness :
    ((8 : Int).tdiv 4 > ((ir.Nodes.cons (.other true) .nil).len : Int) ∧
      getdyn (.slicelit 8 (.cons (.other true) .nil)) true = initDynamic) ∧
    (¬ (4 : Int).tdiv 4
        > ((ir.Nodes.cons (.key (.other true)) (.cons (.other false) .nil)).len : Int) ∧
      getdyn (.slicelit 4 (.cons (.key (.other true)) (.cons (.other false) .nil))) true
        = (ir.Nodes.cons (.key (.other true)) (.cons (.other false) .nil)).orOfValues) ∧
    (¬ (0 : Int).tdiv 4 > 0 ∧ getdyn (.slicelit 0 .nil) true = 0) :=
  ⟨⟨by decide, (getdyn_classifies 8 (.cons (.other true) .nil) true true).1 (by decide)⟩,
    ⟨by decide, (getdyn_classifies 4 (.cons (.key (.other true)) (.cons (.other false) .nil))
      true true).2.2.1 (by decide)⟩,
    ⟨by decide, (getdyn_classifies 0 .nil true true).2.2.2.2.2.2.1 (by decide)⟩⟩

theorem NewStruct_hmapFields (PtrSize : Nat) (hP : PtrSize = 4 ∨ PtrSize = 8) :
    ∃ H, NewStruct (hmapFields PtrSize) = some H ∧ H.Width = 8 + 5 * PtrSize := by
  rcases hP with rfl | rfl
  · exact ⟨_, rfl, rfl⟩
  · exact ⟨_, rfl, rfl⟩

theorem NewStruct_hiterFields (PtrSize : Nat) (hP : PtrSize = 4 ∨ PtrSize = 8) (t : MapType) :
    ∃ I, NewStruct (hiterFields PtrSize t) = some I ∧ I.Width = 12 * PtrSize := by
  unfold hiterFields
  generalize t.keyNotInHeap = a
  generalize t.elemNotInHeap = b
  rcases hP with rfl | rfl <;> cases a <;> cases b <;> exact ⟨_, rfl, rfl⟩

theorem bmap_result (PtrSize : Nat) (t : MapType) (bucket : Typ) (t1 : MapType)
    (h : bmap PtrSize t = .ok (bucket, t1)) :
    t1 = { t with Bucket := some bucket } := by
  unfold bmap at h
  cases hb : t.Bucket with
  | some b =>
    rw [hb] at h
    simp only [Except.ok.injEq, Prod.mk.injEq] at h
    obtain ⟨rfl, rfl⟩ := h
    cases t
    simp only at hb
    subst hb
    rfl
  | none =>
    rw [hb] at h
    simp only at h
    cases hs : NewStruct (bmapFields PtrSize t) with
    | none => rw [hs] at h; cases h
    | some s =>
      rw [hs] at h
      simp only at h
      cases hc : bmapCheck PtrSize t s with
      | error e => rw [hc] at h; cases h
      | ok u =>
        rw [hc] at h
        simp only [Except.ok.injEq, Prod.mk.injEq] at h
        obtain ⟨rfl, rfl⟩ := h
        rfl

theorem bmap_cached (PtrSize : Nat) (t : MapType) (bucket : Typ) (h : t.Bucket = some bucket) :
    bmap PtrSize t = .ok (bucket, t) := by
  unfold bmap
  rw [h]

/-- C24: for pointer sizes 4 and 8 the struct that `hmap` lays out has width
`8 + 5*PtrSize` (48 and 28 bytes) and the struct that `hiter` lays out has width
`12*PtrSize`; neither size check aborts: `hmap` fails only where `bmap` does and
`hiter` only where `hmap` does, and otherwise they return these structs and cache
them. -/
theorem hmap_hiter_sizes (PtrSize : Nat) (hP : PtrSize = 4 ∨ PtrSize = 8) (t : MapType)
    (hh : t.Hmap = none) (hi : t.Hiter = none) :
    (∃ H, NewStruct (hmapFields PtrSize) = some H ∧ H.Width = 8 + 5 * PtrSize ∧
      (PtrSize = 8 → H.Width = 48) ∧ (PtrSize = 4 → H.Width = 28) ∧
      hmap PtrSize t = match bmap PtrSize t with
        | .error e => .error e
        | .ok (_, t1) => .ok (H, { t1 with Hmap := some H })) ∧
    (∃ I, NewStruct (hiterFields PtrSize t) = some I ∧ I.Width = 12 * PtrSize ∧
      hiter PtrSize t = match hmap PtrSize t with
        | .error e => .error e
        | .ok (_, t1) => .ok (I, { t1 with Hiter := some I })) := by
  obtain ⟨H, hH, hHw⟩ := NewStruct_hmapFields PtrSize hP
  obtain ⟨I, hI, hIw⟩ := NewStruct_hiterFields PtrSize hP t
  have hmapEq : hmap PtrSize t = match bmap PtrSize t with
      | .error e => .error e
      | .ok (_, t1) => .ok (H, { t1 with Hmap := some H }) := by
    unfold hmap
    rw [hh]
    simp only
    cases hb : bmap PtrSize t with
    | error e => rfl
    | ok r =>
      obtain ⟨b, t1⟩ := r
      simp only [hH]
      rw [if_neg (by rw [hHw]; push_cast; simp)]
  refine ⟨⟨H, hH, hHw, fun h => by rw [hHw, h], fun h => by rw [hHw, h], hmapEq⟩,
    I, hI, hIw, ?_⟩
  unfold hiter
  rw [hi]
  simp only
  rw [hmapEq]
  cases hb : bmap PtrSize t with
  | error e => rfl
  | ok r =>
    obtain ⟨b, t1⟩ := r
    have ht1 := bmap_result PtrSize t b t1 hb
    subst ht1
    simp only
    rw [bmap_cached PtrSize _ b rfl]
    simp only
    have hf : hiterFields PtrSize
        { Key := t.Key, Elem := t.Elem, keyNotInHeap := t.keyNotInHeap,
          elemNotInHeap := t.elemNotInHeap, keyComparable := t.keyComparable,
          Bucket := some b, Hmap := some H, Hiter := t.Hiter } = hiterFields PtrSize t := rfl
    rw [hf, hI]
    simp only
    rw [if_neg (by rw [hIw]; push_cast; simp)]

theorem hmap_hiter_sizes_witness :
    (∃ H, NewStruct (hmapFields 8) = some H ∧ H.Width = 8 + 5 * 8 ∧
      (8 = 8 → H.Width = 48) ∧ (8 = 4 → H.Width = 28) ∧
      hmap 8 mapStringInt64 = match bmap 8 mapStringInt64 with
        | .error e => .error e
        | .ok (_, t1) => .ok (H, { t1 with Hmap := some H })) ∧
    (∃ I, NewStruct (hiterFields 8 mapStringInt64) = some I ∧ I.Width = 12 * 8 ∧
      hiter 8 mapStringInt64 = match hmap 8 mapStringInt64 with
        | .error e => .error e
        | .ok (_, t1) => .ok (I, { t1 with Hiter := some I })) :=
  hmap_hiter_sizes 8 (Or.inr rfl) mapStringInt64 rfl rfl

theorem PtrDataSize_noptr (P : Nat) (t : Typ) (h : t.HasPointers = false) :
    PtrDataSize P t = 0 := by
  cases t <;> simp [PtrDataSize, h]

theorem dgcptrmask_noptr (P : Nat) (t : Typ) (h : t.HasPointers = false) :
    dgcptrmaskBytes P t = some [] := by
  unfold dgcptrmaskBytes fillptrmask
  simp [PtrDataSize_noptr P t h, h]

/-- C23: for a regularly laid out type, `dgcsym` takes the pointer-mask path when
the pointer data spans at most `maxPtrmaskBytes*8 = 16384` words: it returns a
mask, `useGCProg = false` and the pointer data size, and the mask has
`ceil(words/8)` bytes, at most `maxPtrmaskBytes = 2048`. For every larger type
it returns the GC program that `GCProg.emit` writes, with `useGCProg = true`. -/
theorem dgcsym_paths (P : Nat) (hP : 0 < P) (t : Typ) (hs : t.Sized P = true) :
    maxPtrmaskBytes * 8 = 16384 ∧ maxPtrmaskBytes = 2048 ∧
    (PtrDataSize P t / P ≤ 16384 →
      ∃ mask, dgcsym P t = some (.ptrmask mask, false, PtrDataSize P t) ∧
        mask.length = (PtrDataSize P t / P + 7) / 8 ∧
        PtrDataSize P t / P ≤ 8 * mask.length ∧ 8 * mask.length < PtrDataSize P t / P + 8 ∧
        mask.length ≤ maxPtrmaskBytes) ∧
    (16384 < PtrDataSize P t / P →
      ∃ w, GCProg.emit P t 0 Writer.init = some w ∧
        dgcsym P t = some (.gcprog w.prog, true, w.index * P) ∧
        PtrDataSize P t ≤ w.index * P ∧ w.index * P ≤ t.Width) := by
  refine ⟨rfl, rfl, fun h => ?_, fun h => ?_⟩
  · have hm : ∃ mask, dgcptrmaskBytes P t = some mask ∧
        mask.length = (PtrDataSize P t / P + 7) / 8 := by
      cases hp : t.HasPointers with
      | false =>
        refine ⟨[], dgcptrmask_noptr P t hp, ?_⟩
        rw [PtrDataSize_noptr P t hp]
        simp
      | true =>
        obtain ⟨mask, h1, h2, -⟩ := dgcptrmask_spec P t hs hp (by omega)
        exact ⟨mask, h1, h2⟩
    obtain ⟨mask, h1, h2⟩ := hm
    refine ⟨mask, ?_, h2, by omega, by omega, ?_⟩
    · unfold dgcsym
      simp only
      rw [if_pos (by rw [show maxPtrmaskBytes * 8 = 16384 from rfl]; exact h), h1]
    · rw [h2, show maxPtrmaskBytes = 2048 from rfl]
      omega
  · have hp : t.HasPointers = true := by
      cases hp : t.HasPointers with
      | false =>
        rw [PtrDataSize_noptr P t hp] at h
        simp at h
      | true => rfl
    obtain ⟨w, e1, -, e3, e4⟩ := (emit_spec_aux P hP (sizeOf t)).1 t (le_refl _) hs hp 0
      Writer.init rfl (dvd_zero P) (by simp [Writer.init])
    replace e1 : GCProg.emit P t 0 Writer.init = some w := e1
    rw [Nat.zero_add] at e3 e4
    refine ⟨w, e1, ?_, e3, e4⟩
    unfold dgcsym dgcprog
    simp only
    rw [if_neg (by rw [show maxPtrmaskBytes * 8 = 16384 from rfl]; omega), e1]
    simp only
    rw [if_neg (by omega)]

theorem dgcsym_paths_witness :
    (ptrType.Sized 8 = true ∧ PtrDataSize 8 ptrType / 8 ≤ 16384 ∧
      ∃ mask, dgcsym 8 ptrType = some (.ptrmask mask, false, PtrDataSize 8 ptrType) ∧
        mask.length = (PtrDataSize 8 ptrType / 8 + 7) / 8 ∧
        PtrDataSize 8 ptrType / 8 ≤ 8 * mask.length ∧
        8 * mask.length < PtrDataSize 8 ptrType / 8 + 8 ∧
        mask.length ≤ maxPtrmaskBytes) ∧
    (bigPtrArray.Sized 8 = true ∧ 16384 < PtrDataSize 8 bigPtrArray / 8 ∧
      ∃ w, GCProg.emit 8 bigPtrArray 0 Writer.init = some w ∧
        dgcsym 8 bigPtrArray = some (.gcprog w.prog, true, w.index * 8) ∧
        PtrDataSize 8 bigPtrArray ≤ w.index * 8 ∧ w.index * 8 ≤ bigPtrArray.Width) :=
  ⟨⟨by decide, by decide, (dgcsym_paths 8 (by decide) ptrType (by decide)).2.2.1 (by decide)⟩,
    ⟨by decide, by decide,
      (dgcsym_paths 8 (by decide) bigPtrArray (by decide)).2.2.2 (by decide)⟩⟩

theorem dnameBits_eq (tag : List Nat) (pkgNil exported : Bool) :
    dnameBits tag pkgNil exported
      = (if exported then 1 else 0) + (if tag ≠ [] then 2 else 0) + (if pkgNil then 0 else 4) := by
  unfold dnameBits
  have ht : tag.length > 0 ↔ tag ≠ [] := List.length_pos
  by_cases h : tag ≠ []
  · rw [if_pos h]
    simp only [if_pos (ht.2 h)]
    cases exported <;> cases pkgNil <;> decide
  · rw [if_neg h]
    simp only [if_neg (fun h1 => h (ht.1 h1))]
    cases exported <;> cases pkgNil <;> decide

theorem dnameDataWith_nil (ot : Nat) (name tag : List Nat) (exported : Bool) :
    dnameDataWith none ot name tag exported
      = if name.length > 65535 then .error "name too long"
        else if tag.length > 65535 then .error "tag too long"
        else .ok ((ot, dnameBytes name tag true exported), [],
          ot + (dnameBytes name tag true exported).length) := by
  have h16 : 1 <<< 16 - 1 = 65535 := by decide
  unfold dnameDataWith
  rw [h16]
  rfl

theorem dimportpath_error_iff (Pkgpath : List Nat) (p : ImportPkg) :
    (∃ e, dimportpath Pkgpath p = .error e) ↔
      (p.Pathsym = false ∧ ¬ (Pkgpath = bytes "runtime" ∧ p.isRuntime = true) ∧
        (if p.isLocalPkg then Pkgpath else p.Path).length > 65535) := by
  unfold dimportpath
  by_cases h1 : p.Pathsym = true
  · rw [if_pos h1]
    simp [h1]
  · rw [if_neg h1]
    have h1' : p.Pathsym = false := by simpa using h1
    by_cases h2 : Pkgpath = bytes "runtime" ∧ p.isRuntime = true
    · rw [if_pos h2]
      simp [h2]
    · rw [if_neg h2]
      simp only [dnameDataWith_nil]
      by_cases h3 : (if p.isLocalPkg then Pkgpath else p.Path).length > 65535
      · rw [if_pos h3]
        exact ⟨fun _ => ⟨h1', h2, h3⟩, fun _ => ⟨_, rfl⟩⟩
      · rw [if_neg h3, if_neg (by simp)]
        constructor
        · rintro ⟨e, he⟩
          cases he
        · rintro ⟨-, -, h⟩
          exact absurd h h3

theorem dimportpath_ok (Pkgpath : List Nat) (p : ImportPkg)
    (h : ¬ ∃ e, dimportpath Pkgpath p = .error e) : ∃ r, dimportpath Pkgpath p = .ok r := by
  cases hd : dimportpath Pkgpath p with
  | error e => exact absurd ⟨e, hd⟩ h
  | ok r => exact ⟨r, rfl⟩

theorem dnameBytes_shape (name tag : List Nat) (pkgNil exported : Bool)
    (hn : name.length ≤ 65535) (ht : tag.length ≤ 65535) :
    dnameBytes name tag pkgNil exported
      = dnameBits tag pkgNil exported :: (name.length / 256) :: (name.length % 256) :: name ++
        (if tag = [] then [] else tag.length / 256 :: tag.length % 256 :: tag) := by
  unfold dnameBytes
  have e1 : (name.length >>> 8) % 256 = name.length / 256 := by
    rw [Nat.shiftRight_eq_div_pow]
    omega
  have e2 : (tag.length >>> 8) % 256 = tag.length / 256 := by
    rw [Nat.shiftRight_eq_div_pow]
    omega
  rw [e1, e2]
  by_cases h : tag = []
  · subst h
    simp
  · rw [if_pos (List.length_pos.2 h), if_neg h]
    simp

theorem dnameBits_bits (tag : List Nat) (pkgNil exported : Bool) :
    (dnameBits tag pkgNil exported).testBit 0 = exported ∧
    (dnameBits tag pkgNil exported).testBit 1 = decide (tag ≠ []) ∧
    (dnameBits tag pkgNil exported).testBit 2 = !pkgNil ∧
    dnameBits tag pkgNil exported < 8 := by
  rw [dnameBits_eq]
  by_cases h : tag = []
  · subst h
    cases exported <;> cases pkgNil <;> decide
  · simp only [ne_eq, h, not_false_eq_true, if_true, decide_True]
    cases exported <;> cases pkgNil <;> decide

/-- The outcome of `dnameData` in terms of that of `dimportpath`. -/
theorem dnameData_cases (Pkgpath : List Nat) (ot : Nat) (name tag : List Nat)
    (pkg : Option ImportPkg) (exported : Bool) (hn : name.length ≤ 65535)
    (ht : tag.length ≤ 65535) :
    (pkg = none → dnameData Pkgpath ot name tag pkg exported
      = .ok ((ot, dnameBytes name tag true exported), [],
          ot + (dnameBytes name tag true exported).length)) ∧
    (∀ p, pkg = some p → p.isLocalPkg = true ∧ Pkgpath = [] →
      dnameData Pkgpath ot name tag pkg exported
        = .ok ((ot, dnameBytes name tag false exported),
            [.write (ot + (dnameBytes name tag false exported).length) 4 "pkgpath"],
            ot + (dnameBytes name tag false exported).length + 4)) ∧
    (∀ p, pkg = some p → ¬ (p.isLocalPkg = true ∧ Pkgpath = []) →
      dnameData Pkgpath ot name tag pkg exported
        = match dimportpath Pkgpath p with
          | .error e => .error e
          | .ok _ => .ok ((ot, dnameBytes name tag false exported),
              [.aux "dimportpath",
                .write (ot + (dnameBytes name tag false exported).length) 4 "pkgpath"],
              ot + (dnameBytes name tag false exported).length + 4)) := by
  have h16 : 1 <<< 16 - 1 = 65535 := by decide
  refine ⟨?_, ?_, ?_⟩
  · rintro rfl
    unfold dnameData
    rw [Option.map_none', dnameDataWith_nil, if_neg (by omega), if_neg (by omega)]
  · rintro p rfl hl
    unfold dnameData dnameDataWith
    rw [h16, if_neg (by omega), if_neg (by omega)]
    simp only [Option.map_some', Option.isNone_some, dgopkgpathOffPkg, if_pos hl, objwSymPtrOff,
      WriteBytes]
  · rintro p rfl hl
    unfold dnameData dnameDataWith
    rw [h16, if_neg (by omega), if_neg (by omega)]
    simp only [Option.map_some', Option.isNone_some, dgopkgpathOffPkg, if_neg hl, WriteBytes]
    cases dimportpath Pkgpath p with
    | error e => rfl
    | ok r => rfl

/-- A call of `dgopkgpathOff` that returns writes the bytes and returns the offset
that the steps of `dgopkgpathOff` give. -/
theorem dgopkgpathOffPkg_ok (Pkgpath : List Nat) (ot : Nat) (pkg : Option ImportPkg)
    (r : List Action × Nat) (h : dgopkgpathOffPkg Pkgpath ot pkg = .ok r) :
    r.2 = (dgopkgpathOff ot pkg.isNone).2 ∧
    r.1.filterMap Action.span = (dgopkgpathOff ot pkg.isNone).1.filterMap Action.span := by
  cases pkg with
  | none =>
    simp only [dgopkgpathOffPkg] at h
    cases h
    exact ⟨rfl, rfl⟩
  | some p =>
    simp only [dgopkgpathOffPkg] at h
    by_cases hl : p.isLocalPkg = true ∧ Pkgpath = []
    · rw [if_pos hl] at h
      cases h
      exact ⟨rfl, rfl⟩
    · rw [if_neg hl] at h
      cases hd : dimportpath Pkgpath p with
      | error e =>
        rw [hd] at h
        cases h
      | ok x =>
        rw [hd] at h
        cases h
        exact ⟨rfl, rfl⟩

/-- C22 (amended): `dnameData` is fatal exactly when the name or the tag is longer
than 65535 bytes, or when a package is given for which `dimportpath` has to make
the path symbol (the package is not the local package with an unknown path, its
path symbol is not set, and it is not the runtime package while `runtime` is
compiled) and the path is longer than 65535 bytes. Otherwise its one call of
`WriteBytes` is at offset `ot` and writes the flag byte (bit 0 for exported, bit 1
for a tag that is not empty, bit 2 for a package), the length of the name in two
bytes, high byte first, the name and, only for a tag that is not empty, its
length in two bytes and the tag; a 4-byte package path offset follows only for a
package; and the offset returned is the one after what was written. -/
theorem dnameData_layout (Pkgpath : List Nat) (ot : Nat) (name tag : List Nat)
    (pkg : Option ImportPkg) (exported : Bool) :
    ((∃ e, dnameData Pkgpath ot name tag pkg exported = .error e) ↔
      (name.length > 65535 ∨ tag.length > 65535 ∨
        ∃ p, pkg = some p ∧ ¬ (p.isLocalPkg = true ∧ Pkgpath = []) ∧ p.Pathsym = false ∧
          ¬ (Pkgpath = bytes "runtime" ∧ p.isRuntime = true) ∧
          (if p.isLocalPkg then Pkgpath else p.Path).length > 65535)) ∧
    ((¬ ∃ e, dnameData Pkgpath ot name tag pkg exported = .error e) →
      ∃ bits hi lo b steps,
        (bits.testBit 0 = exported ∧ bits.testBit 1 = decide (tag ≠ []) ∧
          bits.testBit 2 = pkg.isSome ∧ bits < 8) ∧
        (hi < 256 ∧ lo < 256 ∧ 256 * hi + lo = name.length) ∧
        b = bits :: hi :: lo :: name ++
          (if tag = [] then [] else tag.length / 256 :: tag.length % 256 :: tag) ∧
        (tag.length / 256 < 256 ∧ 256 * (tag.length / 256) + tag.length % 256 = tag.length) ∧
        dnameData Pkgpath ot name tag pkg exported
          = .ok ((ot, b), steps, ot + b.length + (if pkg.isSome then 4 else 0)) ∧
        steps.filterMap Action.span = (if pkg.isSome then [(ot + b.length, 4)] else [])) := by
  have h16 : 1 <<< 16 - 1 = 65535 := by decide
  have hiff : (∃ e, dnameData Pkgpath ot name tag pkg exported = .error e) ↔
      (name.length > 65535 ∨ tag.length > 65535 ∨
        ∃ p, pkg = some p ∧ ¬ (p.isLocalPkg = true ∧ Pkgpath = []) ∧ p.Pathsym = false ∧
          ¬ (Pkgpath = bytes "runtime" ∧ p.isRuntime = true) ∧
          (if p.isLocalPkg then Pkgpath else p.Path).length > 65535) := by
    by_cases hn : name.length > 65535
    · refine ⟨fun _ => Or.inl hn, fun _ => ⟨"name too long", ?_⟩⟩
      unfold dnameData dnameDataWith
      rw [h16, if_pos hn]
    by_cases ht : tag.length > 65535
    · refine ⟨fun _ => Or.inr (Or.inl ht), fun _ => ⟨"tag too long", ?_⟩⟩
      unfold dnameData dnameDataWith
      rw [h16, if_neg hn, if_pos ht]
    obtain ⟨c1, c2, c3⟩ := dnameData_cases Pkgpath ot name tag pkg exported (by omega) (by omega)
    cases pkg with
    | none =>
      rw [c1 rfl]
      constructor
      · rintro ⟨e, he⟩
        cases he
      · rintro (h | h | ⟨p, hp, -⟩)
        · exact absurd h hn
        · exact absurd h ht
        · cases hp
    | some p =>
      by_cases hl : p.isLocalPkg = true ∧ Pkgpath = []
      · rw [c2 p rfl hl]
        constructor
        · rintro ⟨e, he⟩
          cases he
        · rintro (h | h | ⟨q, hq, hnl, -⟩)
          · exact absurd h hn
          · exact absurd h ht
          · cases hq
            exact absurd hl hnl
      · rw [c3 p rfl hl]
        constructor
        · rintro ⟨e, he⟩
          have hd : ∃ e, dimportpath Pkgpath p = .error e := by
            cases hdp : dimportpath Pkgpath p with
            | error e1 => exact ⟨e1, rfl⟩
            | ok r => rw [hdp] at he; cases he
          obtain ⟨d1, d2, d3⟩ := (dimportpath_error_iff Pkgpath p).1 hd
          exact Or.inr (Or.inr ⟨p, rfl, hl, d1, d2, d3⟩)
        · rintro (h | h | ⟨q, hq, -, d1, d2, d3⟩)
          · exact absurd h hn
          · exact absurd h ht
          · cases hq
            obtain ⟨e, he⟩ := (dimportpath_error_iff Pkgpath p).2 ⟨d1, d2, d3⟩
            exact ⟨e, by rw [he]⟩
  refine ⟨hiff, fun hne => ?_⟩
  rw [hiff] at hne
  simp only [not_or] at hne
  obtain ⟨hn, ht, hp⟩ := hne
  have hn' : name.length ≤ 65535 := by omega
  have ht' : tag.length ≤ 65535 := by omega
  obtain ⟨c1, c2, c3⟩ := dnameData_cases Pkgpath ot name tag pkg exported hn' ht'
  have hbits := dnameBits_bits tag pkg.isNone exported
  have hshape := dnameBytes_shape name tag pkg.isNone exported hn' ht'
  cases pkg with
  | none =>
    simp only [Option.isNone_none] at hbits hshape
    refine ⟨dnameBits tag true exported, name.length / 256, name.length % 256,
      dnameBytes name tag true exported, [],
      ⟨hbits.1, hbits.2.1, by simpa using hbits.2.2.1, hbits.2.2.2⟩,
      ⟨by omega, by omega, by omega⟩, hshape, ⟨by omega, by omega⟩, ?_, by simp⟩
    rw [c1 rfl]
    simp
  | some p =>
    simp only [Option.isNone_some] at hshape hbits
    by_cases hl : p.isLocalPkg = true ∧ Pkgpath = []
    · refine ⟨dnameBits tag false exported, name.length / 256, name.length % 256,
        dnameBytes name tag false exported,
        [.write (ot + (dnameBytes name tag false exported).length) 4 "pkgpath"],
        ⟨hbits.1, hbits.2.1, by simpa using hbits.2.2.1, hbits.2.2.2⟩,
        ⟨by omega, by omega, by omega⟩, hshape, ⟨by omega, by omega⟩, ?_, ?_⟩
      · rw [c2 p rfl hl]
        simp
      · simp [Action.span]
    · have hok : ∃ r, dimportpath Pkgpath p = .ok r := by
        apply dimportpath_ok
        intro hd
        obtain ⟨d1, d2, d3⟩ := (dimportpath_error_iff Pkgpath p).1 hd
        exact hp ⟨p, rfl, hl, d1, d2, d3⟩
      obtain ⟨r, hr⟩ := hok
      refine ⟨dnameBits tag false exported, name.length / 256, name.length % 256,
        dnameBytes name tag false exported,
        [.aux "dimportpath",
          .write (ot + (dnameBytes name tag false exported).length) 4 "pkgpath"],
        ⟨hbits.1, hbits.2.1, by simpa using hbits.2.2.1, hbits.2.2.2⟩,
        ⟨by omega, by omega, by omega⟩, hshape, ⟨by omega, by omega⟩, ?_, ?_⟩
      · rw [c3 p rfl hl, hr]
        simp
      · simp [Action.span]

theorem dnameData_layout_witness :
    ∃ bits hi lo b steps,
      (bits.testBit 0 = true ∧ bits.testBit 1 = decide (bytes "json" ≠ []) ∧
        bits.testBit 2 = (some osPkg).isSome ∧ bits < 8) ∧
      (hi < 256 ∧ lo < 256 ∧ 256 * hi + lo = (bytes "Abc").length) ∧
      b = bits :: hi :: lo :: bytes "Abc" ++
        (if bytes "json" = [] then []
          else (bytes "json").length / 256 :: (bytes "json").length % 256 :: bytes "json") ∧
      ((bytes "json").length / 256 < 256 ∧
        256 * ((bytes "json").length / 256) + (bytes "json").length % 256
          = (bytes "json").length) ∧
      dnameData (bytes "main") 0 (bytes "Abc") (bytes "json") (some osPkg) true
        = .ok ((0, b), steps, 0 + b.length + (if (some osPkg).isSome then 4 else 0)) ∧
      steps.filterMap Action.span = (if (some osPkg).isSome then [(0 + b.length, 4)] else []) :=
  (dnameData_layout (bytes "main") 0 (bytes "Abc") (bytes "json") (some osPkg) true).2
    (fun h => by
      rcases (dnameData_layout (bytes "main") 0 (bytes "Abc") (bytes "json") (some osPkg)
        true).1.1 h with h1 | h1 | ⟨p, hp, -, -, -, h1⟩
      · revert h1; decide
      · revert h1; decide
      · cases hp
        revert h1
        decide)

/-- C22, as stated, fails for a short name and an empty tag with a package whose
path has 65536 bytes and whose path symbol is not yet made: neither the name nor
the tag is longer than 65535 bytes, but `dgopkgpathOff` calls `dimportpath`,
which calls `dnameData` with the path as the name, and that call is fatal. -/
theorem dnameData_layout_fails :
    (bytes "x").length ≤ 65535 ∧ ([] : List Nat).length ≤ 65535 ∧
    dnameData (bytes "main") 0 (bytes "x") [] (some longPathPkg) false
      = .error "name too long" := by
  refine ⟨by decide, by decide, ?_⟩
  have hl : ¬ (longPathPkg.isLocalPkg = true ∧ bytes "main" = []) := by decide
  rw [(dnameData_cases (bytes "main") 0 (bytes "x") [] (some longPathPkg) false (by decide)
    (by decide)).2.2 longPathPkg rfl hl]
  have hd : dimportpath (bytes "main") longPathPkg = .error "name too long" := by
    unfold dimportpath
    rw [if_neg (by decide), if_neg (by decide)]
    have hlen : (if longPathPkg.isLocalPkg = true then bytes "main" else longPathPkg.Path).length
        = 65536 := by
      rw [if_neg (by decide)]
      exact List.length_replicate _ _
    simp only [dnameDataWith_nil, hlen]
    rfl
  rw [hd]

/-- Binary search finds the boundary of a predicate that is false below `c` and
true from `c` on. -/
theorem sortSearchLoop_spec (f : Nat → Bool) (n c : Nat) (hlo : ∀ k, k < c → f k = false)
    (hhi : ∀ k, c ≤ k → k < n → f k = true) :
    ∀ (fuel i j : Nat), i ≤ c → c ≤ j → j ≤ n → j - i ≤ fuel →
      sortSearchLoop f fuel i j = c := by
  intro fuel
  induction fuel with
  | zero =>
    intro i j hi hj _ hf
    rw [sortSearchLoop]
    omega
  | succ fuel ih =>
    intro i j hi hj hn hf
    rw [sortSearchLoop]
    by_cases hij : i < j
    · rw [if_pos hij]
      dsimp only
      have h1 : i ≤ (i + j) / 2 := by omega
      have h2 : (i + j) / 2 < j := by omega
      cases hfh : f ((i + j) / 2) with
      | false =>
        have hc : (i + j) / 2 < c := by
          by_contra hc
          have := hhi _ (not_lt.1 hc) (by omega)
          rw [hfh] at this
          cases this
        simp only [Bool.not_false, if_true]
        exact ih _ _ (by omega) hj hn (by omega)
      | true =>
        have hc : c ≤ (i + j) / 2 := by
          by_contra hc
          have := hlo _ (not_le.1 hc)
          rw [hfh] at this
          cases this
        simp only [Bool.not_true, Bool.false_eq_true, if_false]
        exact ih _ _ hi hc (by omega) (by omega)
    · rw [if_neg hij]
      omega

theorem sortSearch_spec (f : Nat → Bool) (n c : Nat) (hc : c ≤ n)
    (hlo : ∀ k, k < c → f k = false) (hhi : ∀ k, c ≤ k → k < n → f k = true) :
    sortSearch n f = c :=
  sortSearchLoop_spec f n c hlo hhi n 0 n (Nat.zero_le _) hc (le_refl _) (by omega)

/-- In a list whose elements that satisfy `p` come before the others, the
elements that satisfy `p` are those at the indices below their count. -/
theorem countP_boundary {α : Type} (p : α → Bool) : ∀ (m : List α),
    m.Pairwise (fun a b => p b = true → p a = true) →
    ∀ (k : Nat) (a : α), m.get? k = some a → (p a = true ↔ k < m.countP p) := by
  intro m
  induction m with
  | nil => intro _ k a h; simp at h
  | cons x rest ih =>
    intro hp k a h
    rw [List.pairwise_cons] at hp
    obtain ⟨hx, hrest⟩ := hp
    cases hpx : p x with
    | true =>
      rw [List.countP_cons_of_pos _ _ hpx]
      cases k with
      | zero =>
        simp only [List.get?_cons_zero, Option.some.injEq] at h
        subst h
        simp [hpx]
      | succ k =>
        simp only [List.get?_cons_succ] at h
        rw [ih hrest k a h]
        omega
    | false =>
      have hnone : ∀ b ∈ rest, p b = false := by
        intro b hb
        cases hpb : p b with
        | false => rfl
        | true =>
          have := hx b hb hpb
          rw [hpx] at this
          cases this
      have hz : rest.countP p = 0 := by
        rw [List.countP_eq_zero]
        intro b hb
        rw [hnone b hb]
        simp
      rw [List.countP_cons_of_neg _ _ (by rw [hpx]; simp), hz]
      cases k with
      | zero =>
        simp only [List.get?_cons_zero, Option.some.injEq] at h
        subst h
        simp [hpx]
      | succ k =>
        simp only [List.get?_cons_succ] at h
        have := hnone a (List.get?_mem h)
        simp [this]

theorem xcount_eq (IsExported : String → Bool) (m : List Sig)
    (hp : m.Pairwise (fun a b => IsExported b.name.Name = true → IsExported a.name.Name = true)) :
    sortSearch m.length (unexportedAt IsExported m)
      = m.countP (fun a => IsExported a.name.Name) := by
  have hb := countP_boundary (fun a : Sig => IsExported a.name.Name) m hp
  apply sortSearch_spec _ _ _ (List.countP_le_length _)
  · intro k hk
    have hkl : k < m.length := lt_of_lt_of_le hk (List.countP_le_length _)
    obtain ⟨a, ha⟩ : ∃ a, m.get? k = some a := ⟨m.get ⟨k, hkl⟩, List.get?_eq_get hkl⟩
    simp only [unexportedAt, ha]
    have he : IsExported a.name.Name = true := (hb k a ha).2 hk
    rw [he]
    rfl
  · intro k hk hkl
    obtain ⟨a, ha⟩ : ∃ a, m.get? k = some a := ⟨m.get ⟨k, hkl⟩, List.get?_eq_get hkl⟩
    simp only [unexportedAt, ha]
    cases hpa : IsExported a.name.Name with
    | false => rfl
    | true =>
      have hlt : k < m.countP (fun a => IsExported a.name.Name) := (hb k a ha).1 hpa
      omega

theorem dextratypeFields_ok (IsExported : String → Bool) (U : Universe) (ot : Nat)
    (ti : TypeInfo) (dataAdd : Nat)
    (hsorted : ti.methods.Pairwise
      (fun a b => IsExported b.name.Name = true → IsExported a.name.Name = true))
    (hsym : ti.hasSym = true ∨ ti.methods ≠ []) (hal : Rnd ot U.PtrSize = some ot)
    (hm : ti.methods.length ≤ 65535) (hd : dataAdd + uncommonSize ti < 2 ^ 32) :
    dextratypeFields IsExported U ot ti dataAdd
      = .ok (some (ti.methods.length, ti.methods.countP (fun a => IsExported a.name.Name),
          dataAdd + uncommonSize ti)) := by
  have h1 : ¬ ((!ti.hasSym && decide (ti.methods.length = 0)) = true) := by
    rcases hsym with h | h
    · simp [h]
    · simp [h]
  have hx : ti.methods.countP (fun a => IsExported a.name.Name) ≤ ti.methods.length :=
    List.countP_le_length _
  unfold dextratypeFields
  simp only
  rw [if_neg h1, if_neg (by simp [hal]), if_neg (by omega), if_neg (by omega),
    xcount_eq IsExported ti.methods hsorted, Nat.mod_eq_of_lt (by omega : ti.methods.length < 2 ^ 16),
    Nat.mod_eq_of_lt (by omega : ti.methods.countP (fun a => IsExported a.name.Name) < 2 ^ 16),
    Nat.mod_eq_of_lt hd]

theorem dextratypeFields_some (IsExported : String → Bool) (U : Universe) (ot : Nat)
    (ti : TypeInfo) (dataAdd : Nat) (r : Nat × Nat × Nat)
    (h : dextratypeFields IsExported U ot ti dataAdd = .ok (some r)) :
    (ti.hasSym = true ∨ ti.methods ≠ []) ∧ Rnd ot U.PtrSize = some ot ∧
    ti.methods.length ≤ 65535 ∧ dataAdd + uncommonSize ti < 2 ^ 32 := by
  unfold dextratypeFields at h
  simp only at h
  by_cases h1 : (!ti.hasSym && decide (ti.methods.length = 0)) = true
  · rw [if_pos h1] at h
    cases h
  · rw [if_neg h1] at h
    by_cases h2 : Rnd ot U.PtrSize ≠ some ot
    · rw [if_pos h2] at h
      cases h
    · rw [if_neg h2] at h
      by_cases h3 : ti.methods.length ≠ ti.methods.length % 2 ^ 16
      · rw [if_pos h3] at h
        cases h
      · rw [if_neg h3] at h
        by_cases h4 : dataAdd + uncommonSize ti ≠ (dataAdd + uncommonSize ti) % 2 ^ 32
        · rw [if_pos h4] at h
          cases h
        · refine ⟨?_, not_not.1 h2, by omega, by omega⟩
          by_contra hn
          rw [not_or] at hn
          apply h1
          have hs : ti.hasSym = false := by simpa using hn.1
          have hm : ti.methods = [] := not_not.1 hn.2
          simp [hs, hm]

/-- C21: a type with more than 65535 methods is a fatal error of `dextratype`.
For a type whose exported methods all come before its unexported ones, the
`xcount` that `dextratype` computes is the number of methods with an exported
name and the `mcount` is the number of methods, whenever they are written, and
they are written unless the function returns early or is fatal. -/
theorem dextratype_counts (IsExported : String → Bool) (U : Universe) (ot : Nat)
    (ti : TypeInfo) (dataAdd : Nat) :
    (ti.methods.length > 65535 →
      (∃ e, dextratypeFields IsExported U ot ti dataAdd = .error e) ∧
      Action.fatal "too many methods" ∈ (dextratype U ot ti dataAdd).1) ∧
    (ti.methods.Pairwise
        (fun a b => IsExported b.name.Name = true → IsExported a.name.Name = true) →
      (∀ r, dextratypeFields IsExported U ot ti dataAdd = .ok (some r) →
        r.1 = ti.methods.length ∧
        r.2.1 = ti.methods.countP (fun a => IsExported a.name.Name)) ∧
      ((ti.hasSym = true ∨ ti.methods ≠ []) → Rnd ot U.PtrSize = some ot →
        ti.methods.length ≤ 65535 → dataAdd + uncommonSize ti < 2 ^ 32 →
        dextratypeFields IsExported U ot ti dataAdd
          = .ok (some (ti.methods.length,
              ti.methods.countP (fun a => IsExported a.name.Name),
              dataAdd + uncommonSize ti)))) := by
  refine ⟨fun h => ⟨?_, ?_⟩, fun hs => ⟨fun r hr => ?_, dextratypeFields_ok IsExported U ot ti
    dataAdd hs⟩⟩
  · have h1 : ¬ ((!ti.hasSym && decide (ti.methods.length = 0)) = true) := by
      have : ti.methods.length ≠ 0 := by omega
      simp [this]
    unfold dextratypeFields
    simp only
    rw [if_neg h1]
    by_cases h2 : Rnd ot U.PtrSize ≠ some ot
    · exact ⟨_, by rw [if_pos h2]⟩
    · exact ⟨_, by rw [if_neg h2, if_pos (by omega)]⟩
  · have h0 : ti.methods.length ≠ 0 := by omega
    have h16 : ti.methods.length ≥ 2 ^ 16 := by
      have : (2 : Nat) ^ 16 = 65536 := by norm_num
      omega
    unfold dextratype
    simp only [andThen, h0, decide_False, Bool.and_false, Bool.false_eq_true, if_false, h16,
      if_true, List.mem_append, List.mem_cons, List.mem_singleton, true_or, or_true]
  · obtain ⟨a1, a2, a3, a4⟩ := dextratypeFields_some IsExported U ot ti dataAdd r hr
    rw [dextratypeFields_ok IsExported U ot ti dataAdd hs a1 a2 a3 a4] at hr
    simp only [Except.ok.injEq, Option.some.injEq] at hr
    subst hr
    exact ⟨rfl, rfl⟩

theorem dextratype_counts_witness :
    fileTypeInfo.methods.Pairwise
        (fun a b => asciiExported b.name.Name = true → asciiExported a.name.Name = true) ∧
    (fileTypeInfo.hasSym = true ∨ fileTypeInfo.methods ≠ []) ∧
    Rnd 48 exampleUniverse.PtrSize = some 48 ∧ fileTypeInfo.methods.length ≤ 65535 ∧
    0 + uncommonSize fileTypeInfo < 2 ^ 32 ∧
    dextratypeFields asciiExported exampleUniverse 48 fileTypeInfo 0
      = .ok (some (fileTypeInfo.methods.length,
          fileTypeInfo.methods.countP (fun a => asciiExported a.name.Name),
          0 + uncommonSize fileTypeInfo)) ∧
    fileTypeInfo.methods.countP (fun a => asciiExported a.name.Name) = 2 :=
  ⟨by decide, by decide, by decide, by decide, by decide,
    ((dextratype_counts asciiExported exampleUniverse 48 fileTypeInfo 0).2 (by decide)).2
      (by decide) (by decide) (by decide) (by decide),
    by decide⟩

theorem fiat_Square_pow {M : Type} [Monoid M] (x : M) (k : Nat) :
    fiat.Square (x ^ k) = x ^ (2 * k) := by
  rw [fiat.Square, ← pow_add, two_mul]

theorem fiat_Mul_pow {M : Type} [Monoid M] (x : M) (a b : Nat) :
    fiat.Mul (x ^ a) (x ^ b) = x ^ (a + b) := by
  rw [fiat.Mul, ← pow_add]

theorem fiat_Mul_self_pow {M : Type} [Monoid M] (x : M) (b : Nat) :
    fiat.Mul x (x ^ b) = x ^ (1 + b) := by
  rw [fiat.Mul, pow_add, pow_one]

theorem fiat_squareRounds_pow {M : Type} [Monoid M] (x : M) : ∀ (n k : Nat),
    fiat.squareRounds n (x ^ k) = x ^ (2 ^ n * k) := by
  intro n
  induction n with
  | zero => intro k; simp [fiat.squareRounds]
  | succ n ih =>
    intro k
    rw [fiat.squareRounds, fiat_Square_pow, ih, pow_succ]
    congr 1
    ring

theorem fiat_squareLoop_pow {M : Type} [Monoid M] (x : M) (a b k : Nat) :
    fiat.squareLoop a b (x ^ k) = x ^ (2 ^ (b - a) * k) :=
  fiat_squareRounds_pow x (b - a) k

theorem Invert_pow {M : Type} [Monoid M] (e x : Nat) (s : Nat → M) :
    fiat.P224Element.Invert e x s = Function.update s e (s x ^ (2 ^ 224 - 2 ^ 96 - 1)) := by
  unfold fiat.P224Element.Invert
  have h1 : fiat.Square (s x) = s x ^ 2 := by rw [fiat.Square, pow_two]
  simp only [h1, fiat_Mul_self_pow, fiat_Square_pow, fiat_Mul_pow, fiat_squareLoop_pow]
  norm_num

theorem powModAux_spec (p : Nat) : ∀ (fuel b e acc : Nat), e < 2 ^ fuel →
    powModAux p fuel b e acc = acc * b ^ e % p := by
  intro fuel
  induction fuel with
  | zero =>
    intro b e acc he
    have : e = 0 := by simpa using he
    subst this
    simp [powModAux]
  | succ fuel ih =>
    intro b e acc he
    rw [powModAux, ih _ _ _ (by rw [pow_succ] at he; omega)]
    have hb : (b * b % p) ^ (e / 2) % p = (b * b) ^ (e / 2) % p := Nat.pow_mod _ _ _ ▸ rfl
    have hsq : (b * b) ^ (e / 2) = b ^ (2 * (e / 2)) := by rw [pow_mul, pow_two]
    conv_rhs => rw [← Nat.div_add_mod e 2, pow_add, ← hsq]
    rcases Nat.mod_two_eq_zero_or_one e with h | h
    · rw [h, if_neg (by omega), pow_zero, Nat.mul_one, Nat.mul_mod, hb, ← Nat.mul_mod]
    · rw [h, if_pos rfl, pow_one, Nat.mul_mod, Nat.mod_mod, hb, ← Nat.mul_mod]
      congr 1
      ring

theorem powMod_spec (p b e : Nat) (he : e < 2 ^ 256) : powMod p b e = b ^ e % p := by
  rw [powMod, powModAux_spec p 256 b e 1 he, Nat.one_mul]

theorem zmod_pow_eq_one (p b e : Nat) (hp : 1 < p) (he : e < 2 ^ 256)
    (h : powMod p b e = 1) : (b : ZMod p) ^ e = 1 := by
  rw [powMod_spec p b e he] at h
  have : ((b ^ e : Nat) : ZMod p) = ((1 : Nat) : ZMod p) := by
    rw [ZMod.natCast_eq_natCast_iff']
    rw [h, Nat.mod_eq_of_lt hp]
  simpa using this

theorem zmod_pow_ne_one (p b e : Nat) (hp : 1 < p) (he : e < 2 ^ 256)
    (h : powMod p b e ≠ 1) : (b : ZMod p) ^ e ≠ 1 := by
  rw [powMod_spec p b e he] at h
  intro hc
  apply h
  have : ((b ^ e : Nat) : ZMod p) = ((1 : Nat) : ZMod p) := by simpa using hc
  rw [ZMod.natCast_eq_natCast_iff'] at this
  rw [this, Nat.mod_eq_of_lt hp]

theorem prime_factor_mem (r : Nat) (hr : r.Prime) : ∀ (fs : List (Nat × Nat)),
    (∀ f ∈ fs, f.1.Prime) → r ∣ (fs.map fun f => f.1 ^ f.2).prod → r ∈ fs.map Prod.fst := by
  intro fs
  induction fs with
  | nil =>
    intro _ h
    simp only [List.map_nil, List.prod_nil, Nat.dvd_one] at h
    exact absurd h hr.one_lt.ne.symm
  | cons f fs ih =>
    intro hpr h
    rw [List.map_cons, List.prod_cons, hr.dvd_mul] at h
    rw [List.map_cons, List.mem_cons]
    rcases h with h | h
    · left
      exact (Nat.prime_dvd_prime_iff_eq hr (hpr f (List.mem_cons_self _ _))).1
        (hr.dvd_of_dvd_pow h)
    · right
      exact ih (fun g hg => hpr g (List.mem_cons_of_mem _ hg)) h

/-- The Lucas test with the witness `a`, given the prime factors of `p - 1`. -/
theorem lucas_cert (p a : Nat) (fs : List (Nat × Nat)) (hp1 : 1 < p) (hp2 : p < 2 ^ 256)
    (hprod : (fs.map fun f => f.1 ^ f.2).prod = p - 1) (hpr : ∀ f ∈ fs, f.1.Prime)
    (h1 : powMod p a (p - 1) = 1) (h2 : ∀ f ∈ fs, powMod p a ((p - 1) / f.1) ≠ 1) :
    p.Prime := by
  apply lucas_primality p (a : ZMod p) (zmod_pow_eq_one p a _ hp1 (by omega) h1)
  intro q hq hd
  rw [← hprod] at hd
  have hm := prime_factor_mem q hq fs hpr hd
  rw [List.mem_map] at hm
  obtain ⟨f, hf, rfl⟩ := hm
  exact zmod_pow_ne_one p a _ hp1
    (lt_of_le_of_lt (Nat.div_le_self _ _) (by omega)) (h2 f hf)

theorem prime_67280421310721 : Nat.Prime 67280421310721 := by
  apply lucas_cert 67280421310721 3 [(2, 8), (5, 1), (47, 1), (373, 1), (2998279, 1)]
    (by norm_num) (by norm_num) (by norm_num)
  · simp only [List.forall_mem_cons, List.not_mem_nil, false_imp_iff, implies_true, and_true]
    norm_num
  · set_option maxRecDepth 100000 in decide
  · set_option maxRecDepth 100000 in decide

theorem p224_val :
    fiat.p224 = 26959946667150639794667015087019630673557916260026308143510066298881 := by
  norm_num [fiat.p224]

/-- The number `2^224 - 2^96 + 1` is prime. -/
theorem prime_p224 : Nat.Prime fiat.p224 := by
  rw [p224_val]
  apply lucas_cert _ 22 [(2, 96), (3, 1), (5, 1), (17, 1), (257, 1), (65537, 1), (641, 1),
      (6700417, 1), (274177, 1), (67280421310721, 1)]
    (by norm_num) (by norm_num) (by norm_num)
  · simp only [List.forall_mem_cons, List.not_mem_nil, false_imp_iff, implies_true, and_true]
    refine ⟨by norm_num, by norm_num, by norm_num, by norm_num, by norm_num, by norm_num,
      by norm_num, by norm_num, by norm_num, prime_67280421310721⟩
  · set_option maxRecDepth 100000 in decide
  · set_option maxRecDepth 100000 in decide

theorem two_ne_zero_p224 : (2 : ZMod fiat.p224) ≠ 0 := by
  intro h
  have h2 : ((2 : Nat) : ZMod fiat.p224) = 0 := by exact_mod_cast h
  rw [ZMod.natCast_zmod_eq_zero_iff_dvd, p224_val] at h2
  have := Nat.le_of_dvd (by norm_num) h2
  norm_num at this

/-- C31: with `Mul` and `Square` the product and the square of a commutative
monoid, `Invert` stores in `e` the power `x ^ (2^224 - 2^96 - 1)` of the argument
and leaves every other element as it was, also when `e` and `x` are the same
element. The exponent is `p - 2` for `p = 2^224 - 2^96 + 1`, which is prime, so in
the integers modulo `p` the result is `1/x` for `x` other than zero and zero for
`x = 0`. -/
theorem Invert_is_pow {M : Type} [CommMonoid M] (e x : Nat) (s : Nat → M) :
    fiat.P224Element.Invert e x s e = s x ^ (2 ^ 224 - 2 ^ 96 - 1) ∧
    (∀ a, a ≠ e → fiat.P224Element.Invert e x s a = s a) ∧
    fiat.P224Element.Invert x x s x = s x ^ (2 ^ 224 - 2 ^ 96 - 1) ∧
    2 ^ 224 - 2 ^ 96 - 1 = fiat.p224 - 2 ∧ fiat.p224.Prime ∧
    ∀ (e x : Nat) (s : Nat → ZMod fiat.p224),
      (s x ≠ 0 → s x * fiat.P224Element.Invert e x s e = 1) ∧
      (s x = 0 → fiat.P224Element.Invert e x s e = 0) ∧
      fiat.P224Element.Invert e x s e = (s x)⁻¹ := by
  have hexp : 2 ^ 224 - 2 ^ 96 - 1 = fiat.p224 - 2 := by norm_num [fiat.p224]
  refine ⟨?_, fun a ha => ?_, ?_, hexp, prime_p224, fun e x s => ?_⟩
  · rw [Invert_pow, Function.update_same]
  · rw [Invert_pow, Function.update_noteq ha]
  · rw [Invert_pow, Function.update_same]
  · haveI : Fact fiat.p224.Prime := ⟨prime_p224⟩
    rw [Invert_pow, Function.update_same, hexp]
    have hp2 : 2 ≤ fiat.p224 := prime_p224.two_le
    have hne : ∀ y : ZMod fiat.p224, y ≠ 0 → y * y ^ (fiat.p224 - 2) = 1 := by
      intro y hy
      rw [← pow_succ', show fiat.p224 - 2 + 1 = fiat.p224 - 1 by omega]
      exact ZMod.pow_card_sub_one_eq_one hy
    refine ⟨hne (s x), fun h0 => ?_, ?_⟩
    · rw [h0, zero_pow]
      rw [p224_val]
      norm_num
    · by_cases h0 : s x = 0
      · rw [h0, zero_pow, inv_zero]
        rw [p224_val]
        norm_num
      · exact eq_inv_of_mul_eq_one_right (hne (s x) h0)

theorem Invert_is_pow_witness :
    (1 : Nat) ≠ 0 ∧ (2 : ZMod fiat.p224) ≠ 0 ∧
    fiat.P224Element.Invert 0 0 (fun _ => (2 : ZMod fiat.p224)) 1 = 2 ∧
    (2 : ZMod fiat.p224) * fiat.P224Element.Invert 0 0 (fun _ => (2 : ZMod fiat.p224)) 0 = 1 :=
  ⟨by decide, two_ne_zero_p224,
    (Invert_is_pow 0 0 (fun _ => (2 : ZMod fiat.p224))).2.1 1 (by decide),
    ((Invert_is_pow 0 0 (fun _ => (2 : ZMod fiat.p224))).2.2.2.2.2 0 0
      (fun _ => (2 : ZMod fiat.p224))).1 two_ne_zero_p224⟩

theorem mpintFatalf_none_iff (signed : Bool) (mb : Nat) (x : Int) :
    mpintFatalf signed mb x = none ↔ ∃ bs, mpintBytes signed mb x = some bs := by
  unfold mpintFatalf mpintBytes
  simp only
  split_ifs <;> simp

theorem smallVal_big_iff (x : Int) : 256 ≤ smallVal true x ↔ (x < -128 ∨ 127 < x) := by
  unfold smallVal
  simp only [if_true]
  split_ifs <;> omega

theorem mpintBytes_some_iff (signed : Bool) (mb : Nat) (h64 : mb ≤ 64) (x : Int) :
    (∃ bs, mpintBytes signed mb x = some bs) ↔
      ¬ (signed = false ∧ x < 0) ∧ (constantBytes x).length ≤ mb ∧
      ¬ (signed = true ∧ mb = 1 ∧ 256 ≤ smallVal true x) := by
  constructor
  · rintro ⟨bs, h⟩
    obtain ⟨h1, h2, h3⟩ := mpintBytes_shape signed mb h64 x bs h
    refine ⟨fun hc => ?_, h2, fun hc => ?_⟩
    · have := h1 hc.1
      omega
    · obtain ⟨hs, hm, hv⟩ := hc
      subst hs hm
      have hms : maxSmall true 1 = 256 := rfl
      rw [hms] at h3
      rcases h3 with ⟨-, hlt, -⟩ | ⟨-, -, hle, hlt, -⟩
      · omega
      · omega
  · rintro ⟨h1, h2, h3⟩
    have hx : x.natAbs < 256 ^ mb := by
      have hb := (leBytes_length_bounds x.natAbs).1
      have : 256 ^ (leBytes x.natAbs).length ≤ 256 ^ mb :=
        Nat.pow_le_pow_right (by norm_num) h2
      omega
    have := (mpintBytes_total signed mb h64 x (fun hs => by
      by_contra hc
      exact h1 ⟨hs, by omega⟩) hx (fun hs hm => by
      by_contra hc
      exact h3 ⟨hs, hm, by omega⟩)).1
    exact ⟨_, this⟩

theorem constantBytes_length_gt (mb : Nat) (x : Int) :
    (constantBytes x).length > mb ↔ 256 ^ mb ≤ x.natAbs := by
  unfold constantBytes
  constructor
  · intro h
    by_contra hc
    have := leBytes_length_le _ _ (not_le.1 hc)
    omega
  · intro h
    by_contra hc
    have hb := (leBytes_length_bounds x.natAbs).1
    have : 256 ^ (leBytes x.natAbs).length ≤ 256 ^ mb :=
      Nat.pow_le_pow_right (by norm_num) (not_lt.1 hc)
    omega

theorem mpintFatalf_cases (signed : Bool) (mb : Nat) (x : Int) :
    ((signed = false ∧ x < 0) → mpintFatalf signed mb x = some "negative unsigned integer") ∧
    (¬ (signed = false ∧ x < 0) → (constantBytes x).length > mb →
      mpintFatalf signed mb x = some "bad mpint length") ∧
    (¬ (signed = false ∧ x < 0) → ¬ (constantBytes x).length > mb →
      mpintFatalf signed mb x = none ∨ mpintFatalf signed mb x = some "encoding mistake") := by
  have hlz : ¬ (0 < (constantBytes x).reverse.length ∧ (constantBytes x).reverse.head? = some 0) :=
    fun h => leBytes_last_ne_zero _ h.2
  have hc1 : ((!signed && decide (x < 0)) = true) ↔ (signed = false ∧ x < 0) := by
    cases signed <;> simp
  unfold mpintFatalf
  simp only
  refine ⟨fun h => ?_, fun h hl => ?_, fun h hl => ?_⟩
  · rw [if_pos (hc1.2 h)]
  · rw [if_neg (fun hc => h (hc1.1 hc)), if_neg hlz, if_pos (by simpa using hl)]
  · rw [if_neg (fun hc => h (hc1.1 hc)), if_neg hlz, if_neg (by simpa using hl)]
    split_ifs <;> simp

/-- C32 (amended): for a type whose `intSize` is at most 64 bytes, `mpint` aborts
exactly when the type is unsigned and the value is negative, or the magnitude of
the value needs more bytes than the type has, or the type is signed with one byte
and the value is outside `-128..127`; in every other case it returns normally.
The first two cases end in their own calls of `base.Fatalf`, the third in the
`encoding mistake` check, which fires in no other case; the `leading zeros` check
never fires. -/
theorem mpint_aborts_iff (w : exportWriter) (typ : NumType) (signed : Bool) (mb : Nat)
    (x : Int) (ht : intSize typ = (signed, mb)) (h64 : mb ≤ 64) :
    (w.mpint x typ = none ↔
      (signed = false ∧ x < 0) ∨ (constantBytes x).length > mb ∨
        (signed = true ∧ mb = 1 ∧ (x < -128 ∨ 127 < x))) ∧
    ((constantBytes x).length > mb ↔ 256 ^ mb ≤ x.natAbs) ∧
    (w.mpint x typ = none ↔ mpintFatalf signed mb x ≠ none) ∧
    (mpintFatalf signed mb x = some "negative unsigned integer" ↔ signed = false ∧ x < 0) ∧
    (mpintFatalf signed mb x = some "bad mpint length" ↔
      ¬ (signed = false ∧ x < 0) ∧ (constantBytes x).length > mb) ∧
    mpintFatalf signed mb x ≠ some "leading zeros" ∧
    (mpintFatalf signed mb x = some "encoding mistake" ↔
      signed = true ∧ mb = 1 ∧ (constantBytes x).length ≤ 1 ∧ (x < -128 ∨ 127 < x)) := by
  obtain ⟨c1, c2, c3⟩ := mpintFatalf_cases signed mb x
  have hsome := mpintBytes_some_iff signed mb h64 x
  have hnone := mpintFatalf_none_iff signed mb x
  have hm : w.mpint x typ = none ↔ ¬ ∃ bs, mpintBytes signed mb x = some bs := by
    unfold exportWriter.mpint
    rw [ht]
    dsimp only
    cases mpintBytes signed mb x <;> simp
  have hf : mpintFatalf signed mb x ≠ none ↔
      (signed = false ∧ x < 0) ∨ (constantBytes x).length > mb ∨
        (signed = true ∧ mb = 1 ∧ (x < -128 ∨ 127 < x)) := by
    rw [Ne, hnone, hsome, smallVal_big_iff]
    constructor
    · intro h
      by_contra hc
      simp only [not_or] at hc
      exact h ⟨hc.1, by omega, hc.2.2⟩
    · rintro (h | h | h) hc
      · exact hc.1 h
      · omega
      · exact hc.2.2 h
  by_cases hneg : signed = false ∧ x < 0
  · have e := c1 hneg
    refine ⟨by rw [hm, ← hnone, ← hf], constantBytes_length_gt mb x, by rw [hm, ← hnone], ?_, ?_,
      ?_, ?_⟩
    · rw [e]; simp [hneg]
    · rw [e]; simp [hneg]
    · rw [e]; simp
    · rw [e]
      simp only [Option.some.injEq, String.reduceEq, false_iff, not_and]
      intro hs
      rw [hneg.1] at hs
      cases hs
  · by_cases hlen : (constantBytes x).length > mb
    · have e := c2 hneg hlen
      refine ⟨by rw [hm, ← hnone, ← hf], constantBytes_length_gt mb x, by rw [hm, ← hnone], ?_,
        ?_, ?_, ?_⟩
      · rw [e]; simp [hneg]
      · rw [e]; simp [hneg, hlen]
      · rw [e]; simp
      · rw [e]
        simp only [Option.some.injEq, String.reduceEq, false_iff, not_and]
        intro _ hm1 hl1
        omega
    · have e := c3 hneg hlen
      have hiff : mpintFatalf signed mb x = some "encoding mistake" ↔
          signed = true ∧ mb = 1 ∧ (constantBytes x).length ≤ 1 ∧ (x < -128 ∨ 127 < x) := by
        constructor
        · intro h
          have hne : mpintFatalf signed mb x ≠ none := by rw [h]; simp
          rcases hf.1 hne with h1 | h1 | h1
          · exact absurd h1 hneg
          · exact absurd h1 hlen
          · exact ⟨h1.1, h1.2.1, by omega, h1.2.2⟩
        · rintro ⟨h1, h2, -, h4⟩
          have hne : mpintFatalf signed mb x ≠ none := hf.2 (Or.inr (Or.inr ⟨h1, h2, h4⟩))
          rcases e with e | e
          · exact absurd e hne
          · exact e
      refine ⟨by rw [hm, ← hnone, ← hf], constantBytes_length_gt mb x, by rw [hm, ← hnone], ?_,
        ?_, ?_, hiff⟩
      · rcases e with e | e <;> rw [e] <;> simp [hneg]
      · rcases e with e | e <;> rw [e] <;> simp [hneg, hlen]
      · rcases e with e | e <;> rw [e] <;> simp

theorem mpint_aborts_iff_witness :
    intSize ⟨false, EType.TINT, true, 8⟩ = (true, 8) ∧ 8 ≤ 64 ∧
    (iexporter.init.newWriter.mpint (-300) ⟨false, EType.TINT, true, 8⟩ = none ↔
      (true = false ∧ (-300 : Int) < 0) ∨ (constantBytes (-300)).length > 8 ∨
        (true = true ∧ 8 = 1 ∧ ((-300 : Int) < -128 ∨ 127 < (-300 : Int)))) :=
  ⟨by decide, by decide,
    (mpint_aborts_iff iexporter.init.newWriter ⟨false, EType.TINT, true, 8⟩ true 8 (-300)
      (by decide) (by decide)).1⟩

/-- C32, as stated, fails for a signed type of one byte and the value 128: the
type is signed, the magnitude of the value needs one byte, which is the maximum
byte count of the type, and yet `mpint` aborts, in the `encoding mistake`
check. -/
theorem mpint_aborts_iff_fails :
    intSize ⟨false, EType.other, true, 1⟩ = (true, 1) ∧
    ¬ (true = false ∧ (128 : Int) < 0) ∧ ¬ (constantBytes 128).length > 1 ∧
    iexporter.init.newWriter.mpint 128 ⟨false, EType.other, true, 1⟩ = none ∧
    mpintFatalf true 1 128 = some "encoding mistake" := by
  have hb : constantBytes 128 = [128] := by
    simp [constantBytes, leBytes]
  refine ⟨by decide, by decide, by rw [hb]; decide, ?_, ?_⟩
  · simp [exportWriter.mpint, mpintBytes, intSize, hb, mpintUx, mpintMaxSmall, mpintN, usub]
  · simp [mpintFatalf, hb, mpintUx, mpintMaxSmall, mpintN, usub]

theorem andThen_fst (a : List Action × Nat) (f : Nat → List Action × Nat) :
    (andThen a f).1 = a.1 ++ (f a.2).1 := rfl

theorem andThen_snd (a : List Action × Nat) (f : Nat → List Action × Nat) :
    (andThen a f).2 = (f a.2).2 := rfl

theorem ite_snd {α β : Type} (c : Prop) [Decidable c] (a b : α × β) :
    (if c then a else b).2 = if c then a.2 else b.2 := by
  split_ifs <;> rfl

theorem ite_fst {α β : Type} (c : Prop) [Decidable c] (a b : α × β) :
    (if c then a else b).1 = if c then a.1 else b.1 := by
  split_ifs <;> rfl

theorem objwUintN_snd (off wid : Nat) (what : String) (h : off % wid = 0) :
    (objwUintN off wid what).2 = off + wid := by
  unfold objwUintN
  rw [if_neg (by simpa using h)]

theorem objwUintN_fst (off wid : Nat) (what : String) (h : off % wid = 0) :
    (objwUintN off wid what).1 = [.write off wid what] := by
  unfold objwUintN
  rw [if_neg (by simpa using h)]

theorem objwSymPtr_snd (P off : Nat) (what : String) (hP : P = 4 ∨ P = 8) (h : off % P = 0) :
    (objwSymPtr P off what).2 = off + P := by
  unfold objwSymPtr
  have hr : Rnd off P = some off := by
    unfold Rnd
    rw [if_pos (by omega)]
    congr 1
    rcases hP with rfl | rfl <;> omega
  rw [hr]

theorem objwSymPtr_fst (P off : Nat) (what : String) (hP : P = 4 ∨ P = 8) (h : off % P = 0) :
    (objwSymPtr P off what).1 = [.write off P what] := by
  unfold objwSymPtr
  have hr : Rnd off P = some off := by
    unfold Rnd
    rw [if_pos (by omega)]
    congr 1
    rcases hP with rfl | rfl <;> omega
  rw [hr]

theorem objwSymPtrOff_snd (off : Nat) (what : String) :
    (objwSymPtrOff off what).2 = off + 4 := rfl

theorem dcommontype_end (U : Universe) (ti : TypeInfo) (hP : U.PtrSize = 4 ∨ U.PtrSize = 8) :
    (dcommontype U ti).2 = commonSize U.PtrSize := by
  unfold dcommontype commonSize
  rcases hP with h | h
  · simp only [h]
    simp [andThen_snd, ite_snd, objwUintN_snd, objwSymPtr_snd, objwSymPtrOff_snd]
  · simp only [h]
    simp [andThen_snd, ite_snd, objwUintN_snd, objwSymPtr_snd, objwSymPtrOff_snd]

theorem dcommontype_spans (U : Universe) (ti : TypeInfo) (hP : U.PtrSize = 4 ∨ U.PtrSize = 8) :
    (dcommontype U ti).1.filterMap Action.span
      = [(0, U.PtrSize), (U.PtrSize, U.PtrSize), (2 * U.PtrSize, 4), (2 * U.PtrSize + 4, 1),
         (2 * U.PtrSize + 5, 1), (2 * U.PtrSize + 6, 1), (2 * U.PtrSize + 7, 1),
         (2 * U.PtrSize + 8, U.PtrSize), (3 * U.PtrSize + 8, U.PtrSize),
         (4 * U.PtrSize + 8, 4), (4 * U.PtrSize + 12, 4)] := by
  unfold dcommontype
  rcases hP with h | h
  · simp only [h]
    simp only [andThen_fst, andThen_snd, ite_snd, ite_fst]
    simp [objwUintN_snd, objwSymPtr_snd, objwSymPtrOff_snd, objwUintN_fst, objwSymPtr_fst,
      objwSymPtrOff, Action.span]
    split_ifs <;> simp [Action.span]
  · simp only [h]
    simp only [andThen_fst, andThen_snd, ite_snd, ite_fst]
    simp [objwUintN_snd, objwSymPtr_snd, objwSymPtrOff_snd, objwUintN_fst, objwSymPtr_fst,
      objwSymPtrOff, Action.span]
    split_ifs <;> simp [Action.span]

theorem dgopkgpathOff_snd (ot : Nat) (pkgNil : Bool) (h : ot % 4 = 0) :
    (dgopkgpathOff ot pkgNil).2 = ot + 4 := by
  unfold dgopkgpathOff
  cases pkgNil
  · rfl
  · simp [objwUintN_snd _ _ _ h]

theorem dgopkgpathOff_spans (ot : Nat) (pkgNil : Bool) (h : ot % 4 = 0) :
    (dgopkgpathOff ot pkgNil).1.filterMap Action.span = [(ot, 4)] := by
  unfold dgopkgpathOff
  cases pkgNil
  · rfl
  · simp [objwUintN_fst _ _ _ h, Action.span]

theorem dextratype_layout (U : Universe) (ot : Nat) (ti : TypeInfo) (dataAdd : Nat)
    (h : ot % 4 = 0) :
    (dextratype U ot ti dataAdd).2 = ot + uncommonSize ti ∧
    (dextratype U ot ti dataAdd).1.filterMap Action.span
      = if uncommonSize ti = 0 then []
        else [(ot, 4), (ot + 4, 2), (ot + 6, 2), (ot + 8, 4), (ot + 12, 4)] := by
  have e1 := dgopkgpathOff_snd ot ti.typePkgNil h
  have f1 := dgopkgpathOff_spans ot ti.typePkgNil h
  have e2 : (objwUintN (ot + 4) 2 "mcount").2 = ot + 6 := objwUintN_snd _ _ _ (by omega)
  have f2 := objwUintN_fst (ot + 4) 2 "mcount" (by omega)
  have e3 : (objwUintN (ot + 6) 2 "xcount").2 = ot + 8 := objwUintN_snd _ _ _ (by omega)
  have f3 := objwUintN_fst (ot + 6) 2 "xcount" (by omega)
  have e4 : (objwUintN (ot + 8) 4 "moff").2 = ot + 12 := objwUintN_snd _ _ _ (by omega)
  have f4 := objwUintN_fst (ot + 8) 4 "moff" (by omega)
  have e5 : (objwUintN (ot + 12) 4 "unused").2 = ot + 16 := objwUintN_snd _ _ _ (by omega)
  have f5 := objwUintN_fst (ot + 12) 4 "unused" (by omega)
  have hreq : ∀ l : List Sig,
      (l.map fun a => Action.request a.type_).filterMap Action.span = [] := by
    intro l
    induction l with
    | nil => rfl
    | cons a l ih => simp [Action.span]
  by_cases hc : (!ti.hasSym && decide (ti.methods.length = 0)) = true
  · have hU : uncommonSize ti = 0 := by unfold uncommonSize; rw [if_pos hc]
    rw [hU]
    unfold dextratype
    simp only [andThen_snd, andThen_fst, if_pos hc]
    simp [Action.span]
  · have hU : uncommonSize ti = 16 := by unfold uncommonSize; rw [if_neg hc]
    rw [hU, if_neg (by norm_num)]
    unfold dextratype
    simp only [andThen_snd, andThen_fst, if_neg hc, ite_snd, ite_fst, ite_self, e1, e2, e3, e4,
      e5, f2, f3, f4, f5, List.filterMap_append, f1, hreq]
    refine ⟨trivial, ?_⟩
    split_ifs <;> simp [Action.span]

theorem dcommontype_no_record (U : Universe) (ti : TypeInfo)
    (hP : U.PtrSize = 4 ∨ U.PtrSize = 8) (what : String) (hw : what = "name" ∨ what = "ityp") :
    (dcommontype U ti).1.filterMap (Action.offsetOf what) = [] := by
  unfold dcommontype
  rcases hP with h | h <;> rcases hw with rfl | rfl
  all_goals
    simp only [h]
    simp only [andThen_fst, andThen_snd, ite_snd, ite_fst]
    simp [objwUintN_snd, objwSymPtr_snd, objwSymPtrOff_snd, objwUintN_fst, objwSymPtr_fst,
      objwSymPtrOff, Action.offsetOf]
    rintro a - (⟨-, rfl⟩ | rfl) <;> rfl

theorem dextratype_no_record (U : Universe) (ot : Nat) (ti : TypeInfo) (dataAdd : Nat)
    (h : ot % 4 = 0) (what : String) (hw : what = "name" ∨ what = "ityp") :
    (dextratype U ot ti dataAdd).1.filterMap (Action.offsetOf what) = [] := by
  have e1 := dgopkgpathOff_snd ot ti.typePkgNil h
  have f1 : (dgopkgpathOff ot ti.typePkgNil).1.filterMap (Action.offsetOf what) = [] := by
    unfold dgopkgpathOff
    cases ti.typePkgNil <;> rcases hw with rfl | rfl <;>
      simp [objwUintN_fst _ _ _ h, andThen, objwSymPtrOff, Action.offsetOf]
  have e2 : (objwUintN (ot + 4) 2 "mcount").2 = ot + 6 := objwUintN_snd _ _ _ (by omega)
  have f2 := objwUintN_fst (ot + 4) 2 "mcount" (by omega)
  have e3 : (objwUintN (ot + 6) 2 "xcount").2 = ot + 8 := objwUintN_snd _ _ _ (by omega)
  have f3 := objwUintN_fst (ot + 6) 2 "xcount" (by omega)
  have e4 : (objwUintN (ot + 8) 4 "moff").2 = ot + 12 := objwUintN_snd _ _ _ (by omega)
  have f4 := objwUintN_fst (ot + 8) 4 "moff" (by omega)
  have f5 := objwUintN_fst (ot + 12) 4 "unused" (by omega)
  have hreq : ∀ l : List Sig,
      (l.map fun a => Action.request a.type_).filterMap (Action.offsetOf what) = [] := by
    intro l
    induction l with
    | nil => rfl
    | cons a l ih => simp [Action.offsetOf]
  unfold dextratype
  by_cases hc : (!ti.hasSym && decide (ti.methods.length = 0)) = true
  · simp only [andThen_snd, andThen_fst, if_pos hc]
    simp [Action.offsetOf]
  · simp only [andThen_snd, andThen_fst, if_neg hc, ite_snd, ite_fst, ite_self, e1, e2, e3, e4,
      f2, f3, f4, f5, List.filterMap_append, f1, hreq]
    rcases hw with rfl | rfl <;> split_ifs <;> simp [Action.offsetOf]

/-- The loop of the `TINTER` case of `dtypesym` over the methods: every round
writes one record of 8 bytes, the name at the running offset and the type 4 bytes
after it. -/
theorem imethodLoop_spec : ∀ (ms : List Sig) (acc : List Action × Nat),
    (ms.foldl (fun acc a =>
        andThen acc fun ot =>
        andThen ([.aux "dname"], ot) fun ot =>
        andThen (objwSymPtrOff ot "name") fun ot =>
        andThen ([.request a.type_], ot) fun ot =>
        objwSymPtrOff ot "ityp") acc).1.filterMap (Action.offsetOf "name")
      = acc.1.filterMap (Action.offsetOf "name")
        ++ (List.range ms.length).map (fun i => acc.2 + 8 * i) ∧
    (ms.foldl (fun acc a =>
        andThen acc fun ot =>
        andThen ([.aux "dname"], ot) fun ot =>
        andThen (objwSymPtrOff ot "name") fun ot =>
        andThen ([.request a.type_], ot) fun ot =>
        objwSymPtrOff ot "ityp") acc).1.filterMap (Action.offsetOf "ityp")
      = acc.1.filterMap (Action.offsetOf "ityp")
        ++ (List.range ms.length).map (fun i => acc.2 + 8 * i + 4) := by
  intro ms
  induction ms with
  | nil => intro acc; simp
  | cons a ms ih =>
    intro acc
    rw [List.foldl_cons]
    obtain ⟨i1, i2⟩ := ih (andThen acc fun ot =>
        andThen ([.aux "dname"], ot) fun ot =>
        andThen (objwSymPtrOff ot "name") fun ot =>
        andThen ([.request a.type_], ot) fun ot =>
        objwSymPtrOff ot "ityp")
    rw [i1, i2]
    simp only [andThen_fst, andThen_snd, objwSymPtrOff, List.filterMap_append,
      List.length_cons, List.range_succ_eq_map, List.map_cons, List.map_map]
    constructor
    · simp [Action.offsetOf, Function.comp_def]
      intro i _
      omega
    · simp [Action.offsetOf, Function.comp_def]
      intro i _
      omega

theorem dgopkgpath_snd (P ot : Nat) (pkgNil : Bool) (hP : P = 4 ∨ P = 8) (h : ot % P = 0) :
    (dgopkgpath P ot pkgNil).2 = ot + P := by
  unfold dgopkgpath
  cases pkgNil
  · simp [andThen_snd, objwSymPtr_snd _ _ _ hP h]
  · simp [objwUintN_snd _ _ _ h]

theorem dgopkgpath_no_record (P ot : Nat) (pkgNil : Bool) (hP : P = 4 ∨ P = 8)
    (h : ot % P = 0) (what : String) (hw : what = "name" ∨ what = "ityp") :
    (dgopkgpath P ot pkgNil).1.filterMap (Action.offsetOf what) = [] := by
  unfold dgopkgpath
  cases pkgNil <;> rcases hw with rfl | rfl <;>
    simp [andThen_fst, objwSymPtr_fst _ _ _ hP h, objwUintN_fst _ _ _ h, Action.offsetOf]

theorem inter_records (U : Universe) (ti : TypeInfo) (hP : U.PtrSize = 4 ∨ U.PtrSize = 8)
    (hk : ti.Kind = .TINTER) :
    (dtypesymSwitch U ti).1.filterMap (Action.offsetOf "name")
      = (List.range ti.imethods.length).map
          (fun i => commonSize U.PtrSize + 4 * U.PtrSize + uncommonSize ti + 8 * i) ∧
    (dtypesymSwitch U ti).1.filterMap (Action.offsetOf "ityp")
      = (List.range ti.imethods.length).map
          (fun i => commonSize U.PtrSize + 4 * U.PtrSize + uncommonSize ti + 8 * i + 4) := by
  have hC : commonSize U.PtrSize % U.PtrSize = 0 := by
    unfold commonSize
    rcases hP with h | h <;> rw [h]
  have hP4 : U.PtrSize % 4 = 0 := by omega
  have hC4 : commonSize U.PtrSize % 4 = 0 := by unfold commonSize; omega
  have hPP : ∀ k, (k + U.PtrSize) % U.PtrSize = k % U.PtrSize := fun k => Nat.add_mod_right _ _
  have e0 := dcommontype_end U ti hP
  have e1 := dgopkgpath_snd U.PtrSize (commonSize U.PtrSize) (!(ti.hasSym && !ti.isUniverse)) hP hC
  have e2 := objwSymPtr_snd U.PtrSize (commonSize U.PtrSize + U.PtrSize) "methods" hP
    (by rw [hPP]; exact hC)
  have f2 := objwSymPtr_fst U.PtrSize (commonSize U.PtrSize + U.PtrSize) "methods" hP
    (by rw [hPP]; exact hC)
  have e3 := objwUintN_snd (commonSize U.PtrSize + U.PtrSize + U.PtrSize) U.PtrSize "len"
    (by rw [hPP, hPP]; exact hC)
  have f3 := objwUintN_fst (commonSize U.PtrSize + U.PtrSize + U.PtrSize) U.PtrSize "len"
    (by rw [hPP, hPP]; exact hC)
  have e4 := objwUintN_snd (commonSize U.PtrSize + U.PtrSize + U.PtrSize + U.PtrSize)
    U.PtrSize "cap" (by rw [hPP, hPP, hPP]; exact hC)
  have f4 := objwUintN_fst (commonSize U.PtrSize + U.PtrSize + U.PtrSize + U.PtrSize)
    U.PtrSize "cap" (by rw [hPP, hPP, hPP]; exact hC)
  have hot : (commonSize U.PtrSize + U.PtrSize + U.PtrSize + U.PtrSize + U.PtrSize) % 4 = 0 := by
    omega
  have e5 := (dextratype_layout U _ ti ((4 + 4) * ti.imethods.length) hot).1
  have hreq : ∀ (what : String) (l : List Sig),
      (l.map fun a => Action.request a.type_).filterMap (Action.offsetOf what) = [] := by
    intro what l
    induction l with
    | nil => rfl
    | cons a l ih => simp [Action.offsetOf]
  unfold dtypesymSwitch
  simp only [hk]
  simp only [andThen_fst, andThen_snd, e0, e1, e2, e3, e4, e5, f2, f3, f4,
    List.filterMap_append]
  obtain ⟨l1, l2⟩ := imethodLoop_spec ti.imethods
    ([], commonSize U.PtrSize + U.PtrSize + U.PtrSize + U.PtrSize + U.PtrSize + uncommonSize ti)
  rw [l1, l2, dcommontype_no_record U ti hP "name" (Or.inl rfl),
    dcommontype_no_record U ti hP "ityp" (Or.inr rfl),
    dgopkgpath_no_record _ _ _ hP hC "name" (Or.inl rfl),
    dgopkgpath_no_record _ _ _ hP hC "ityp" (Or.inr rfl),
    dextratype_no_record U _ ti _ hot "name" (Or.inl rfl),
    dextratype_no_record U _ ti _ hot "ityp" (Or.inr rfl)]
  simp [Action.offsetOf, hreq]
  intro i _
  omega

/-- C33: for pointer sizes 4 and 8, `dcommontype` writes the `commonSize() =
4*PtrSize + 16` bytes from offset 0 on and returns `commonSize()`, and
`dextratype`, at an offset that is a multiple of 4, writes the `uncommonSize(t)`
bytes that follow it. So for an interface type with `n` methods `dtypesym` writes
the name of the `i`-th method at `ifaceMethodOffset(ityp, i)` and its type 4
bytes later, for every `i < n`, and the offset it stores as the pointer to the
array of methods is `ifaceMethodOffset(ityp, 0)`. -/
theorem iface_layout (U : Universe) (ti : TypeInfo) (hP : U.PtrSize = 4 ∨ U.PtrSize = 8)
    (hk : ti.Kind = .TINTER) :
    commonSize U.PtrSize = 4 * U.PtrSize + 16 ∧
    (dcommontype U ti).2 = commonSize U.PtrSize ∧
    (dcommontype U ti).1.filterMap Action.span
      = [(0, U.PtrSize), (U.PtrSize, U.PtrSize), (2 * U.PtrSize, 4), (2 * U.PtrSize + 4, 1),
         (2 * U.PtrSize + 5, 1), (2 * U.PtrSize + 6, 1), (2 * U.PtrSize + 7, 1),
         (2 * U.PtrSize + 8, U.PtrSize), (3 * U.PtrSize + 8, U.PtrSize),
         (4 * U.PtrSize + 8, 4), (4 * U.PtrSize + 12, 4)] ∧
    (∀ ot dataAdd : Nat, ot % 4 = 0 →
      (dextratype U ot ti dataAdd).2 = ot + uncommonSize ti ∧
      (dextratype U ot ti dataAdd).1.filterMap Action.span
        = if uncommonSize ti = 0 then []
          else [(ot, 4), (ot + 4, 2), (ot + 6, 2), (ot + 8, 4), (ot + 12, 4)]) ∧
    ((dtypesymSwitch U ti).1.filterMap (Action.offsetOf "name")).map Int.ofNat
      = (List.range ti.imethods.length).map (fun (i : Nat) => ifaceMethodOffset U ti (i : Int)) ∧
    ((dtypesymSwitch U ti).1.filterMap (Action.offsetOf "ityp")).map Int.ofNat
      = (List.range ti.imethods.length).map (fun (i : Nat) => ifaceMethodOffset U ti (i : Int) + 4) ∧
    ((interMethodsOff U ti : Nat) : Int) = ifaceMethodOffset U ti 0 := by
  obtain ⟨r1, r2⟩ := inter_records U ti hP hk
  refine ⟨by unfold commonSize; omega, dcommontype_end U ti hP, dcommontype_spans U ti hP,
    fun ot dataAdd h => dextratype_layout U ot ti dataAdd h, ?_, ?_, ?_⟩
  · rw [r1, List.map_map]
    apply List.map_congr_left
    intro i _
    simp only [Function.comp_apply, ifaceMethodOffset, Int.ofNat_eq_coe]
    push_cast
    ring
  · rw [r2, List.map_map]
    apply List.map_congr_left
    intro i _
    simp only [Function.comp_apply, ifaceMethodOffset, Int.ofNat_eq_coe]
    push_cast
    ring
  · have hC : commonSize U.PtrSize % U.PtrSize = 0 := by
      unfold commonSize
      rcases hP with h | h <;> rw [h]
    unfold interMethodsOff ifaceMethodOffset
    simp only
    rw [dcommontype_end U ti hP, dgopkgpath_snd _ _ _ hP hC]
    push_cast
    ring

theorem iface_layout_witness :
    (exampleUniverse.PtrSize = 4 ∨ exampleUniverse.PtrSize = 8) ∧
    writeCloserInfo.Kind = .TINTER ∧
    ((dtypesymSwitch exampleUniverse writeCloserInfo).1.filterMap
        (Action.offsetOf "name")).map Int.ofNat
      = (List.range writeCloserInfo.imethods.length).map
          (fun (i : Nat) => ifaceMethodOffset exampleUniverse writeCloserInfo (i : Int)) ∧
    (List.range writeCloserInfo.imethods.length).map
        (fun (i : Nat) => ifaceMethodOffset exampleUniverse writeCloserInfo (i : Int)) = [96, 104] :=
  ⟨by decide, by decide,
    (iface_layout exampleUniverse writeCloserInfo (by decide) (by decide)).2.2.2.2.1,
    by decide⟩

theorem objwOff_symPtr (P off : Nat) (what : String) (hP : P = 4 ∨ P = 8) (h : off % P = 0) :
    objwOff (objwSymPtr P off what) = .ok (off + P) := by
  have hr : Rnd off P = some off := by
    unfold Rnd
    rw [if_pos (by omega)]
    congr 1
    rcases hP with rfl | rfl <;> omega
  unfold objwOff objwSymPtr
  rw [hr]
  rfl

theorem objwOff_uintN (off wid : Nat) (what : String) (h : off % wid = 0) :
    objwOff (objwUintN off wid what) = .ok (off + wid) := by
  unfold objwOff objwUintN
  rw [if_neg (by simpa using h)]
  rfl

theorem dumptabsLoop_spec (P : Nat) (hP : P = 4 ∨ P = 8) : ∀ (fns : List LSym) (o : Nat),
    o % P = 0 →
    dumptabsLoop P fns o
      = .ok ((List.range fns.length).zipWith (fun i fn => (o + i * P, fn)) fns,
          o + fns.length * P) := by
  intro fns
  induction fns with
  | nil => intro o _; simp [dumptabsLoop]
  | cons fn rest ih =>
    intro o ho
    rw [dumptabsLoop, objwOff_symPtr P o _ hP ho]
    simp only
    rw [ih (o + P) (by rw [Nat.add_mod_right]; exact ho)]
    simp only [List.length_cons, List.range_succ_eq_map, List.zipWith_cons_cons,
      List.zipWith_map_left, Nat.add_sub_cancel, Nat.zero_mul, Nat.add_zero]
    congr 2
    · congr 1
      apply List.zipWith_congr
      rw [List.forall₂_iff_get]
      exact ⟨by simp, fun i _ _ => by simp; ring⟩
    · ring

theorem dumptabsItab_spec (P : Nat) (hP : P = 4 ∨ P = 8) (e : itabEntry) (fns : List LSym)
    (hg : genfun e.t e.itype = .ok fns) :
    dumptabsItab P e
      = .ok ((List.range fns.length).zipWith (fun i fn => (2 * P + 8 + i * P, fn)) fns,
          2 * P + 8 + fns.length * P) := by
  unfold dumptabsItab
  rw [objwOff_symPtr P 0 _ hP (by simp)]
  simp only
  rw [objwOff_symPtr P (0 + P) _ hP (by simp)]
  simp only
  rw [objwOff_uintN (0 + P + P) 4 _ (by omega)]
  simp only
  rw [hg]
  simp only
  rw [dumptabsLoop_spec P hP fns _ (by rcases hP with rfl | rfl <;> rfl)]
  have e1 : 0 + P + P + 4 + 4 = 2 * P + 8 := by omega
  rw [e1]

theorem peekitabs_spec : ∀ (itabs0 itabs : List itabEntry), peekitabs itabs0 = .ok itabs →
    (∀ e ∈ itabs0, e.entries = []) →
    itabs.map itabEntry.lsym = itabs0.map itabEntry.lsym ∧
    ∀ e ∈ itabs, ∃ fns, genfun e.t e.itype = .ok fns ∧ e.entries = fns := by
  intro itabs0
  induction itabs0 with
  | nil =>
    intro itabs h _
    simp only [peekitabs, Except.ok.injEq] at h
    subst h
    simp
  | cons tab rest ih =>
    intro itabs h h0
    rw [peekitabs] at h
    cases hg : genfun tab.t tab.itype with
    | error e => rw [hg] at h; cases h
    | ok methods =>
      rw [hg] at h
      simp only at h
      cases hr : peekitabs rest with
      | error e => rw [hr] at h; cases h
      | ok rest1 =>
        rw [hr] at h
        simp only [Except.ok.injEq] at h
        subst h
        obtain ⟨i1, i2⟩ := ih rest1 hr (fun e he => h0 e (List.mem_cons_of_mem _ he))
        constructor
        · rw [List.map_cons, List.map_cons, i1]
          congr 1
          split_ifs <;> rfl
        · intro e he
          rw [List.mem_cons] at he
          rcases he with rfl | he
          · by_cases hm : methods.length = 0
            · rw [if_pos hm]
              refine ⟨methods, hg, ?_⟩
              rw [h0 tab (List.mem_cons_self _ _)]
              exact (List.length_eq_zero.1 hm).symm
            · rw [if_neg hm]
              exact ⟨methods, hg, rfl⟩
          · exact i2 e he

theorem itabsymFind_mem : ∀ (itabs : List itabEntry) (e : itabEntry), e ∈ itabs →
    (itabs.map itabEntry.lsym).Nodup → itabsymFind e.lsym itabs = e.entries := by
  intro itabs
  induction itabs with
  | nil => intro e h; cases h
  | cons x rest ih =>
    intro e he hn
    rw [List.map_cons, List.nodup_cons] at hn
    rw [itabsymFind]
    rw [List.mem_cons] at he
    rcases he with rfl | he
    · rw [if_pos rfl]
    · have hne : x.lsym ≠ e.lsym := by
        intro hc
        apply hn.1
        rw [hc]
        exact List.mem_map_of_mem _ he
      rw [if_neg hne]
      exact ih e he hn.2

theorem itabsymFind_not_mem : ∀ (itabs : List itabEntry) (it : LSym),
    it ∉ itabs.map itabEntry.lsym → itabsymFind it itabs = [] := by
  intro itabs
  induction itabs with
  | nil => intro it _; rfl
  | cons x rest ih =>
    intro it h
    rw [List.map_cons, List.mem_cons, not_or] at h
    rw [itabsymFind, if_neg (fun hc => h.1 hc.symm)]
    exact ih it h.2

/-- C34: let `itabs` be the list after `peekitabs`, the itabs recorded with
distinct symbols and no entries before. For pointer sizes 4 and 8 and an itab
whose entries were filled, `dumptabs` writes the `i`-th result of `genfun` at
offset `2*PtrSize + 8 + i*PtrSize` of the itab, and `itabsym` at that offset
returns the same symbol, for every `i` below the number of entries. For a nil
symbol, for a symbol that is not the one of a recorded itab, and for an offset at
or after the end of the last method slot, `itabsym` returns nil. -/
theorem itabsym_matches (P : Nat) (hP : P = 4 ∨ P = 8) (itabs0 itabs : List itabEntry)
    (hpeek : peekitabs itabs0 = .ok itabs) (h0 : ∀ e ∈ itabs0, e.entries = [])
    (hnodup : (itabs0.map itabEntry.lsym).Nodup) :
    (∀ e ∈ itabs, e.entries ≠ [] →
      genfun e.t e.itype = .ok e.entries ∧
      ∃ writes size, dumptabsItab P e = .ok (writes, size) ∧
        writes.length = e.entries.length ∧
        ∀ i, i < e.entries.length → ∃ sym, e.entries.get? i = some sym ∧
          writes.get? i = some (2 * P + 8 + i * P, sym) ∧
          itabsym P itabs (some e.lsym) (((2 * P + 8 + i * P : Nat) : Int)) = .ok (some sym)) ∧
    (∀ offset, itabsym P itabs none offset = .ok none) ∧
    (∀ it offset, it ∉ itabs.map itabEntry.lsym → itabsym P itabs (some it) offset = .ok none) ∧
    (∀ e ∈ itabs, ∀ offset : Int,
      offset ≥ ((2 * P + 8 + e.entries.length * P : Nat) : Int) →
      itabsym P itabs (some e.lsym) offset = .ok none) := by
  obtain ⟨hl, hg⟩ := peekitabs_spec itabs0 itabs hpeek h0
  have hn : (itabs.map itabEntry.lsym).Nodup := by rw [hl]; exact hnodup
  have hP0 : P ≠ 0 := by omega
  have hPi : (0 : Int) < (P : Int) := by omega
  refine ⟨fun e he hne => ?_, fun offset => rfl, fun it offset hit => ?_, fun e he offset ho => ?_⟩
  · obtain ⟨fns, g1, g2⟩ := hg e he
    rw [g2]
    refine ⟨g1, _, _, dumptabsItab_spec P hP e fns g1, by simp, fun i hi => ?_⟩
    rw [g2] at hne
    refine ⟨fns.get ⟨i, hi⟩, List.get?_eq_get hi, ?_, ?_⟩
    · rw [List.get?_eq_getElem?, List.getElem?_zipWith, List.getElem?_range hi]
      simp [List.getElem?_eq_getElem hi]
    · unfold itabsym
      simp only
      rw [itabsymFind_mem itabs e he hn, g2, if_neg hne, if_neg hP0]
      have hm : (((2 * P + 8 + i * P : Nat) : Int) - 2 * (P : Int) - 8).tdiv (P : Int)
          = (i : Int) := by
        have : ((2 * P + 8 + i * P : Nat) : Int) - 2 * (P : Int) - 8 = (i : Int) * (P : Int) := by
          push_cast
          ring
        rw [this, Int.mul_tdiv_cancel _ (by omega)]
      rw [hm, if_neg (by omega), if_neg (by omega), Int.toNat_ofNat, List.get?_eq_get hi]
  · unfold itabsym
    simp only
    rw [itabsymFind_not_mem itabs it hit, if_pos rfl]
  · unfold itabsym
    simp only
    rw [itabsymFind_mem itabs e he hn]
    by_cases hne : e.entries = []
    · rw [if_pos hne]
    · rw [if_neg hne, if_neg hP0, if_pos]
      have hnn : (0 : Int) ≤ offset - 2 * (P : Int) - 8 := by
        push_cast at ho
        have : (0 : Int) ≤ (e.entries.length : Int) * (P : Int) := by positivity
        omega
      rw [Int.tdiv_eq_ediv hnn (by omega)]
      apply Int.le_ediv_of_mul_le hPi
      push_cast at ho
      omega

theorem itabsym_matches_witness :
    peekitabs exampleItabs = .ok [exampleItab] ∧
    (∀ e ∈ exampleItabs, e.entries = []) ∧ (exampleItabs.map itabEntry.lsym).Nodup ∧
    exampleItab.entries ≠ [] ∧
    genfun exampleItab.t exampleItab.itype = .ok exampleItab.entries ∧
    ∃ writes size, dumptabsItab 8 exampleItab = .ok (writes, size) ∧
      writes.length = exampleItab.entries.length ∧
      ∀ i, i < exampleItab.entries.length → ∃ sym, exampleItab.entries.get? i = some sym ∧
        writes.get? i = some (2 * 8 + 8 + i * 8, sym) ∧
        itabsym 8 [exampleItab] (some exampleItab.lsym) (((2 * 8 + 8 + i * 8 : Nat) : Int))
          = .ok (some sym) :=
  ⟨rfl, by decide, by decide, by decide,
    (itabsym_matches 8 (Or.inr rfl) exampleItabs [exampleItab] rfl (by decide) (by decide)).1
      exampleItab (List.mem_singleton.2 rfl) (by decide)⟩

theorem bmapCheck_sizes (PtrSize : Nat) (t : MapType) (bucket : Typ)
    (h : bmapCheck PtrSize t bucket = .ok ()) :
    (bmapKeytype PtrSize t).Width ≤ MAXKEYSIZE ∧ (bmapElemtype PtrSize t).Width ≤ MAXELEMSIZE := by
  unfold bmapCheck at h
  rw [firstFatal_ok] at h
  have h1 := h (decide ((bmapKeytype PtrSize t).Width > MAXKEYSIZE), "key size to large")
    (by simp)
  have h2 := h (decide ((bmapElemtype PtrSize t).Width > MAXELEMSIZE), "elem size to large")
    (by simp)
  simp only [decide_eq_false_iff_not, not_lt, gt_iff_lt] at h1 h2
  exact ⟨h1, h2⟩

theorem bmap_built (PtrSize : Nat) (t : MapType) (hcache : t.Bucket = none) (bucket : Typ)
    (t1 : MapType) (h : bmap PtrSize t = .ok (bucket, t1)) :
    NewStruct (bmapFields PtrSize t) = some bucket ∧ bmapCheck PtrSize t bucket = .ok () := by
  unfold bmap at h
  rw [hcache] at h
  simp only at h
  cases hs : NewStruct (bmapFields PtrSize t) with
  | none => rw [hs] at h; cases h
  | some b =>
    rw [hs] at h
    simp only at h
    cases hc : bmapCheck PtrSize t b with
    | error e => rw [hc] at h; cases h
    | ok u =>
      rw [hc] at h
      simp only [Except.ok.injEq, Prod.mk.injEq] at h
      obtain ⟨rfl, -⟩ := h
      exact ⟨rfl, hc⟩

theorem mapFlags_bits (k e : Prop) [Decidable k] [Decidable e] (r n h : Bool) :
    ((if h then (if n then (if r then (if e then (if k then 0 ||| 1 else 0) ||| 2
          else (if k then 0 ||| 1 else 0)) ||| 4
        else (if e then (if k then 0 ||| 1 else 0) ||| 2 else (if k then 0 ||| 1 else 0))) ||| 8
      else (if r then (if e then (if k then 0 ||| 1 else 0) ||| 2
          else (if k then 0 ||| 1 else 0)) ||| 4
        else (if e then (if k then 0 ||| 1 else 0) ||| 2 else (if k then 0 ||| 1 else 0)))) ||| 16
      else (if n then (if r then (if e then (if k then 0 ||| 1 else 0) ||| 2
          else (if k then 0 ||| 1 else 0)) ||| 4
        else (if e then (if k then 0 ||| 1 else 0) ||| 2 else (if k then 0 ||| 1 else 0))) ||| 8
      else (if r then (if e then (if k then 0 ||| 1 else 0) ||| 2
          else (if k then 0 ||| 1 else 0)) ||| 4
        else (if e then (if k then 0 ||| 1 else 0) ||| 2 else (if k then 0 ||| 1 else 0)))))
        % 2 ^ 32 : Nat) = (if k then 1 else 0) + (if e then 2 else 0) + (if r then 4 else 0)
          + (if n then 8 else 0) + (if h then 16 else 0) := by
  by_cases hk : k <;> by_cases he : e <;> cases r <;> cases n <;> cases h <;>
    simp only [hk, he, if_true, if_false, Bool.false_eq_true] <;> decide

theorem mapFlags_testBit (k e : Prop) [Decidable k] [Decidable e] (r n h : Bool) :
    ((if k then 1 else 0) + (if e then 2 else 0) + (if r then 4 else 0)
        + (if n then 8 else 0) + (if h then 16 else 0) : Nat).testBit 0 = decide k ∧
    ((if k then 1 else 0) + (if e then 2 else 0) + (if r then 4 else 0)
        + (if n then 8 else 0) + (if h then 16 else 0) : Nat).testBit 1 = decide e := by
  by_cases hk : k <;> by_cases he : e <;> cases r <;> cases n <;> cases h <;>
    simp only [hk, he, if_true, if_false, Bool.false_eq_true, decide_True, decide_False] <;>
    decide

/-- C35: for a map type whose bucket `bmap` builds, the `TMAP` case of `dtypesym`
sets bit 0 of the flags exactly when the key is wider than `MAXKEYSIZE = 128`,
which is when `bmap` stores the keys through a pointer, and the key size it
writes is the width of the element type of the `keys` array of the bucket; in the
same way bit 1 of the flags and the element size agree with the `elems` array. -/
theorem maptype_agrees (PtrSize : Nat) (t : MapType)
    (IsReflexive needkeyupdate hashMightPanic : Bool) (hcache : t.Bucket = none)
    (bucket : Typ) (t1 : MapType) (hb : bmap PtrSize t = .ok (bucket, t1)) :
    MAXKEYSIZE = 128 ∧ MAXELEMSIZE = 128 ∧
    ∃ keysize elemsize bucketsize flags,
      dtypesymMapFields PtrSize t IsReflexive needkeyupdate hashMightPanic
        = .ok (keysize, elemsize, bucketsize, flags) ∧
      (∃ keys kt, bucket.FieldType 1 = some keys ∧ keys.Elem? = some kt ∧
        kt = (if t.Key.Width > MAXKEYSIZE then NewPtr PtrSize t.keyNotInHeap else t.Key) ∧
        (flags.testBit 0 = true ↔ t.Key.Width > MAXKEYSIZE) ∧ keysize = kt.Width) ∧
      (∃ elems et, bucket.FieldType 2 = some elems ∧ elems.Elem? = some et ∧
        et = (if t.Elem.Width > MAXELEMSIZE then NewPtr PtrSize t.elemNotInHeap else t.Elem) ∧
        (flags.testBit 1 = true ↔ t.Elem.Width > MAXELEMSIZE) ∧ elemsize = et.Width) := by
  obtain ⟨hs, hc⟩ := bmap_built PtrSize t hcache bucket t1 hb
  have ht1 := bmap_result PtrSize t bucket t1 hb
  obtain ⟨sk, se⟩ := bmapCheck_sizes PtrSize t bucket hc
  have g1 := (NewStruct_get? _ bucket hs 1).1
  have g2 := (NewStruct_get? _ bucket hs 2).1
  have hK : MAXKEYSIZE = 128 := rfl
  have hE : MAXELEMSIZE = 128 := rfl
  have hcached : bmap PtrSize t1 = .ok (bucket, t1) :=
    bmap_cached PtrSize t1 bucket (by rw [ht1])
  have hkey : t1.Key = t.Key := by rw [ht1]
  have helem : t1.Elem = t.Elem := by rw [ht1]
  have hbits := mapFlags_testBit (t.Key.Width > MAXKEYSIZE) (t.Elem.Width > MAXELEMSIZE)
    IsReflexive needkeyupdate hashMightPanic
  refine ⟨hK, hE,
    (if t.Key.Width > MAXKEYSIZE then PtrSize % 2 ^ 8 else t.Key.Width % 2 ^ 8),
    (if t.Elem.Width > MAXELEMSIZE then PtrSize % 2 ^ 8 else t.Elem.Width % 2 ^ 8),
    bucket.Width % 2 ^ 16,
    ((if t.Key.Width > MAXKEYSIZE then 1 else 0) + (if t.Elem.Width > MAXELEMSIZE then 2 else 0)
      + (if IsReflexive then 4 else 0) + (if needkeyupdate then 8 else 0)
      + (if hashMightPanic then 16 else 0)),
    ?_, ⟨_, bmapKeytype PtrSize t, g1, rfl, rfl, ?_, ?_⟩,
    ⟨_, bmapElemtype PtrSize t, g2, rfl, rfl, ?_, ?_⟩⟩
  · unfold dtypesymMapFields
    rw [hb]
    simp only
    rw [hcached]
    simp only [hkey, helem]
    rw [mapFlags_bits]
  · rw [hbits.1]
    simp
  · unfold bmapKeytype at sk ⊢
    by_cases hk : t.Key.Width > MAXKEYSIZE
    · rw [if_pos hk] at sk ⊢
      rw [if_pos hk]
      have : (NewPtr PtrSize t.keyNotInHeap).Width = PtrSize := rfl
      rw [this] at sk ⊢
      exact Nat.mod_eq_of_lt (by omega)
    · rw [if_neg hk] at sk ⊢
      rw [if_neg hk]
      exact Nat.mod_eq_of_lt (by omega)
  · rw [hbits.2]
    simp
  · unfold bmapElemtype at se ⊢
    by_cases hk : t.Elem.Width > MAXELEMSIZE
    · rw [if_pos hk] at se ⊢
      rw [if_pos hk]
      have : (NewPtr PtrSize t.elemNotInHeap).Width = PtrSize := rfl
      rw [this] at se ⊢
      exact Nat.mod_eq_of_lt (by omega)
    · rw [if_neg hk] at se ⊢
      rw [if_neg hk]
      exact Nat.mod_eq_of_lt (by omega)

theorem maptype_agrees_witness :
    mapStringInt64.Bucket = none ∧
    bmap 8 mapStringInt64
      = .ok (mapStringInt64Bucket, { mapStringInt64 with Bucket := some mapStringInt64Bucket }) ∧
    ∃ keysize elemsize bucketsize flags,
      dtypesymMapFields 8 mapStringInt64 true false false
        = .ok (keysize, elemsize, bucketsize, flags) ∧
      (∃ keys kt, mapStringInt64Bucket.FieldType 1 = some keys ∧ keys.Elem? = some kt ∧
        kt = (if mapStringInt64.Key.Width > MAXKEYSIZE then NewPtr 8 mapStringInt64.keyNotInHeap
          else mapStringInt64.Key) ∧
        (flags.testBit 0 = true ↔ mapStringInt64.Key.Width > MAXKEYSIZE) ∧
        keysize = kt.Width) ∧
      (∃ elems et, mapStringInt64Bucket.FieldType 2 = some elems ∧ elems.Elem? = some et ∧
        et = (if mapStringInt64.Elem.Width > MAXELEMSIZE
          then NewPtr 8 mapStringInt64.elemNotInHeap else mapStringInt64.Elem) ∧
        (flags.testBit 1 = true ↔ mapStringInt64.Elem.Width > MAXELEMSIZE) ∧
        elemsize = et.Width) :=
  ⟨rfl, rfl,
    (maptype_agrees 8 mapStringInt64 true false false rfl mapStringInt64Bucket _ rfl).2.2⟩

end gc
